import Mathlib

/-!
A shallow embedding of the document/graph mapping engine of
`provdbconnector/provapi.py` (class `ProvApi`).  The engine's collaborators
(the external `prov` document model, the serializer helpers and the storage
adapter) are not part of `src/`; they are modelled from the repository
specification at their documented interfaces, and every such definition is
marked `Modelled from the spec`.  Everything is executable so that concrete
documents can be pushed through the full materialize/reconstruct pipeline.
-/

namespace ProvDb

/-! ### Strings

All string reasoning happens on the underlying character lists, which the
kernel evaluates directly. -/

/-- Python `s[n:]` on character positions. -/
def strDropN (n : Nat) (s : String) : String := String.mk (s.data.drop n)

/-! ### Qualified names and namespace tables -/

/-- A resolved qualified name (`prov.identifier.QualifiedName`): namespace
prefix, namespace URI and local part. -/
structure QualifiedName where
  pfx : String
  uri : String
  localPart : String
deriving DecidableEq, Repr

/-- Python `str()` of a qualified name: `prefix:localpart`. -/
def qnString (q : QualifiedName) : String := q.pfx ++ ":" ++ q.localPart

/-- A namespace table: prefix/URI pairs in declaration order. -/
abbrev NsTable := List (String × String)

/-- First binding of a prefix in a namespace table. -/
def lookupNs (tbl : NsTable) (p : String) : Option String :=
  (tbl.find? (fun e => decide (e.1 = p))).map (fun e => e.2)

def provUri : String := "http://www.w3.org/ns/prov#"

def xsdUri : String := "http://www.w3.org/2001/XMLSchema#"

/-- The namespaces the external `prov` library registers by default in every
document; they are resolved before any user-declared namespace. -/
def defaultNs : NsTable := [("prov", provUri), ("xsd", xsdUri)]

/-- Shorthand for a name in the default `prov` namespace. -/
def provQn (l : String) : QualifiedName := ⟨"prov", provUri, l⟩

/-- Bare-URI resolution: the first namespace whose URI starts the string
yields a qualified name with the remainder as local part. -/
def uriMatch (t : NsTable) (s : String) : Option QualifiedName :=
  match t.find? (fun e => List.isPrefixOf e.2.data s.data) with
  | some e => some ⟨e.1, e.2, String.mk (s.data.drop e.2.data.length)⟩
  | none => none

/-- Modelled from the spec: `valid_qualified_name` of the external `prov`
document model (spec §4.1, Qualified-Name Resolver), which is not part of
`src/`.  A string of the form `prefix:local` (split at the first colon)
resolves against the prefix-keyed namespace table — default namespaces first,
as the library registers them at construction time; otherwise the string
resolves as a bare URI, or fails. -/
def validQualifiedName (tbl : NsTable) (s : String) : Option QualifiedName :=
  let t : NsTable := defaultNs ++ tbl
  match s.data.dropWhile (fun c => decide (c ≠ ':')) with
  | ':' :: localPart =>
    let p := String.mk (s.data.takeWhile (fun c => decide (c ≠ ':')))
    match lookupNs t p with
    | some u => some ⟨p, u, String.mk localPart⟩
    | none => uriMatch t s
  | _ => uriMatch t s

/-! ### The document model -/

/-- Attribute values of the prov document model as the engine distinguishes
them: plain strings, qualified names, datetimes (carried as their ISO
serialization) and literals with an explicit datatype tag (spec §4.2). -/
inductive AttrValue where
  | str (s : String)
  | qn (q : QualifiedName)
  | dateTime (s : String)
  | literal (v : String) (datatype : String)
deriving DecidableEq, Repr

/-- Attribute keys: qualified names, or raw non-qualified values, which the
metadata extractor rejects (provapi.py line 391). -/
inductive AttrKey where
  | qnKey (q : QualifiedName)
  | rawKey (s : String)
deriving DecidableEq, Repr

abbrev Attrs := List (AttrKey × AttrValue)

/-- A record identifier as held by the document model: either already a
`QualifiedName` instance or a raw value that still needs resolution
(provapi.py line 364). -/
inductive IdentVal where
  | qn (q : QualifiedName)
  | raw (s : String)
deriving DecidableEq, Repr

inductive ElemKind where
  | entity
  | activity
  | agent
deriving DecidableEq, Repr

inductive RelKind where
  | association
  | usage
  | generation
  | communication
  | mention
deriving DecidableEq, Repr

/-- `get_type()` of a `ProvElement` subclass. -/
def ElemKind.typeQn : ElemKind → QualifiedName
  | .entity => provQn "Entity"
  | .activity => provQn "Activity"
  | .agent => provQn "Agent"

/-- `get_type()` of a `ProvRelation` subclass (`PROV_ASSOCIATION`,
`PROV_USAGE`, ..., `PROV_MENTION`). -/
def RelKind.typeQn : RelKind → QualifiedName
  | .association => provQn "Association"
  | .usage => provQn "Usage"
  | .generation => provQn "Generation"
  | .communication => provQn "Communication"
  | .mention => provQn "Mention"

/-- Formal attribute name of a relation's "from" endpoint. -/
def RelKind.fromKey : RelKind → QualifiedName
  | .association => provQn "activity"
  | .usage => provQn "activity"
  | .generation => provQn "entity"
  | .communication => provQn "informed"
  | .mention => provQn "specificEntity"

/-- Formal attribute name of a relation's "to" endpoint. -/
def RelKind.toKey : RelKind → QualifiedName
  | .association => provQn "agent"
  | .usage => provQn "entity"
  | .generation => provQn "activity"
  | .communication => provQn "informant"
  | .mention => provQn "generalEntity"

/-- Formal attribute name of a mention link's target bundle
(`mention.formal_attributes[2]`). -/
def mentionBundleKey : QualifiedName := provQn "bundle"

/-- The reserved positional/structural relation attributes
(`prov.constants.PROV_ATTRIBUTES`), excluded from the stored type map
(provapi.py line 411). -/
def PROV_ATTRIBUTES : List QualifiedName :=
  [provQn "activity", provQn "agent", provQn "entity", provQn "informed",
   provQn "informant", provQn "specificEntity", provQn "generalEntity",
   provQn "bundle"]

def PROV_LABEL : QualifiedName := provQn "label"

def provBundleNameKey : QualifiedName := provQn "bundle_name"

def provUnknownQn : QualifiedName := provQn "Unknown"

/-- A prov record as the mapping engine sees it: an element (`ProvElement`),
a relation (`ProvRelation`, with its formal from/to endpoints and, for mention
links, the target-bundle reference), a plain base `ProvRecord` (whose
`get_type()` is `None`; used for the synthesized Unknown nodes), or a
`ProvBundleRecord` (whose `get_type()` is `PROV_BUNDLE`, provapi.py line 29). -/
inductive ProvRecordM where
  | element (kind : ElemKind) (identifier : Option IdentVal) (attrs : Attrs)
  | relation (kind : RelKind) (identifier : Option IdentVal)
      (fromQn toQn : Option QualifiedName) (mentionBundle : Option QualifiedName)
      (attrs : Attrs)
  | plain (identifier : Option IdentVal) (attrs : Attrs)
  | bundleRec (identifier : Option IdentVal) (attrs : Attrs)
deriving DecidableEq, Repr

/-- `ProvRecord.get_type()`. -/
def ProvRecordM.getType : ProvRecordM → Option QualifiedName
  | .element k _ _ => some k.typeQn
  | .relation k _ _ _ _ _ => some k.typeQn
  | .plain _ _ => none
  | .bundleRec _ _ => some (provQn "Bundle")

/-- `ProvRecord.identifier`. -/
def ProvRecordM.identifier : ProvRecordM → Option IdentVal
  | .element _ i _ => i
  | .relation _ i _ _ _ _ => i
  | .plain i _ => i
  | .bundleRec i _ => i

/-- Formal (positional) attribute pairs a relation exposes through
`ProvRecord.attributes`; an absent endpoint contributes no pair. -/
def formalPairs (k : RelKind) (f t mb : Option QualifiedName) : Attrs :=
  (match f with
   | some q => [(AttrKey.qnKey k.fromKey, AttrValue.qn q)]
   | none => []) ++
  (match t with
   | some q => [(AttrKey.qnKey k.toKey, AttrValue.qn q)]
   | none => []) ++
  (match k, mb with
   | .mention, some q => [(AttrKey.qnKey mentionBundleKey, AttrValue.qn q)]
   | _, _ => [])

/-- `prov_record.attributes`: for a relation, the formal attributes followed by
the record's own attributes; for every other record, its own attributes. -/
def ProvRecordM.attributes : ProvRecordM → Attrs
  | .element _ _ a => a
  | .relation k _ f t mb a => formalPairs k f t mb ++ a
  | .plain _ a => a
  | .bundleRec _ a => a

def ProvRecordM.isElement : ProvRecordM → Bool
  | .element _ _ _ => true
  | _ => false

def ProvRecordM.isRelation : ProvRecordM → Bool
  | .relation _ _ _ _ _ _ => true
  | _ => false

def ProvRecordM.isMention : ProvRecordM → Bool
  | .relation .mention _ _ _ _ _ => true
  | _ => false

/-- A named bundle of a document. -/
structure DocBundleM where
  identifier : QualifiedName
  records : List ProvRecordM
deriving DecidableEq, Repr

/-- A prov document: user-declared namespaces, top-level records and named
bundles. -/
structure ProvDocumentM where
  namespaces : NsTable
  records : List ProvRecordM
  bundles : List DocBundleM
deriving DecidableEq, Repr

/-! ### Python dictionaries

`dict(pairs)` and `d.update({k: v})` keep the first-insertion position of a
key and let a later binding overwrite the value. -/

/-- `d.update({k: v})` on an association list. -/
def upsert {α β : Type} [DecidableEq α] : List (α × β) → α → β → List (α × β)
  | [], k, v => [(k, v)]
  | (k0, v0) :: rest, k, v =>
    if k0 = k then (k0, v) :: rest else (k0, v0) :: upsert rest k v

/-- Python `dict(pairs)`. -/
def pyDict {α β : Type} [DecidableEq α] (l : List (α × β)) : List (α × β) :=
  l.foldl (fun acc kv => upsert acc kv.1 kv.2) []

/-- Lookup in an association list (Python `d.get(k)` / `d[k]`). -/
def alookup {α β : Type} [DecidableEq α] (l : List (α × β)) (k : α) : Option β :=
  (l.find? (fun e => decide (e.1 = k))).map (fun e => e.2)

/-! ### Errors and metadata -/

/-- The error taxonomy visible at the engine boundary (spec §7).  `keyError`
models a raw Python `KeyError` escaping from a dictionary lookup. -/
inductive ProvError where
  | invalidArgumentType
  | invalidProvRecord
  | parseFailure
  | databaseFailure
  | keyError
deriving DecidableEq, Repr

/-- The metadata bundle computed by `_get_metadata_and_attributes_for_record`,
before adapter-side serialization. -/
structure Metadata where
  provType : QualifiedName
  identifier : QualifiedName
  namespaces : NsTable
  typeMap : List (String × String)
deriving DecidableEq, Repr

def QUALIFIED_NAME_TAG : String := "prov:QUALIFIED_NAME"

def DATETIME_TAG : String := "xsd:dateTime"

/-- Modelled from the spec: `encode_json_representation` of
`provdbconnector.utils.serializer` (spec §4.2, Type Codec `encode`), which is
not part of `src/`: the type tag of a value, `none` for a plain string. -/
def encodeJsonRepresentation : AttrValue → Option String
  | .str _ => none
  | .qn _ => some QUALIFIED_NAME_TAG
  | .dateTime _ => some DATETIME_TAG
  | .literal _ d => some d

/-- Input to the metadata extractor: either an actual prov record, or a value
of some other type, which the `isinstance` check rejects (provapi.py line
346). -/
inductive MetaInput where
  | record (r : ProvRecordM)
  | notARecord
deriving DecidableEq, Repr

/-- Namespace collection over one attribute (the first loop of
`_get_metadata_and_attributes_for_record`, provapi.py lines 384-406):
non-qualified keys are rejected; a string value that resolves to a qualified
name only records the namespace — the attribute itself is deliberately not
upgraded. -/
def nsStep (tbl : NsTable) (acc : NsTable) (kv : AttrKey × AttrValue) :
    Except ProvError NsTable :=
  match kv.1 with
  | .rawKey _ => throw .invalidProvRecord
  | .qnKey kq =>
    let acc1 := upsert acc kq.pfx kq.uri
    match kv.2 with
    | .qn vq => pure (upsert acc1 vq.pfx vq.uri)
    | .str s =>
      match validQualifiedName tbl s with
      | some vq => pure (upsert acc1 vq.pfx vq.uri)
      | none => pure acc1
    | .dateTime _ => pure acc1
    | .literal _ _ => pure acc1

/-- Type-map collection over one attribute (the second loop, provapi.py lines
410-414). -/
def typeStep (acc : List (String × String)) (kv : AttrKey × AttrValue) :
    List (String × String) :=
  match kv.1 with
  | .qnKey kq =>
    if kq ∈ PROV_ATTRIBUTES then acc
    else
      match encodeJsonRepresentation kv.2 with
      | some tag => upsert acc (qnString kq) tag
      | none => acc
  | .rawKey _ => acc

/-- `ProvApi._get_metadata_and_attributes_for_record` (provapi.py lines
336-424).  `tbl` is the namespace table of `prov_record.bundle`. -/
def getMetadataAndAttributesForRecord (tbl : NsTable) (inp : MetaInput) :
    Except ProvError (Metadata × Attrs) := do
  match inp with
  | .notARecord => throw .invalidArgumentType
  | .record r =>
    -- prov_type = prov_record.get_type(); None defaults to prov:Unknown.
    -- The resolver cannot fail on "prov:Unknown" because the default prov
    -- namespace is always registered; the fallback arm is unreachable.
    let provType : QualifiedName :=
      match r.getType with
      | some t => t
      | none => (validQualifiedName tbl "prov:Unknown").getD provUnknownQn
    -- if relation without identifier -> use prov_type as identifier
    let provIdentifier1 : IdentVal :=
      match r.identifier with
      | some i => i
      | none => .qn provType
    -- be sure that the prov_identifier is a QualifiedName instance
    let provIdentifier : QualifiedName ←
      match provIdentifier1 with
      | .qn q => pure q
      | .raw s =>
        match validQualifiedName tbl s with
        | some q => pure q
        | none => throw .invalidProvRecord
    -- namespaces of prov_type and prov_identifier
    let ns1 : NsTable :=
      upsert (upsert [] provType.pfx provType.uri) provIdentifier.pfx provIdentifier.uri
    -- attributes = dict(prov_record.attributes.copy())
    let attributes : Attrs := pyDict r.attributes
    let ns2 : NsTable ← attributes.foldlM (nsStep tbl) ns1
    let typesDict : List (String × String) := attributes.foldl typeStep []
    pure ({ provType := provType, identifier := provIdentifier,
            namespaces := ns2, typeMap := typesDict }, attributes)

/-! ### Fresh identifiers

`uuid4()` produces a fresh unique value; it is modelled by the adapter
state's allocation counter, rendered as a decimal string. -/

/-- Decimal digits of `n`; the fuel argument makes the recursion structural so
that the kernel can evaluate it. -/
def natDigs : Nat → Nat → List Char
  | 0, _ => []
  | f + 1, n =>
    if n < 10 then [Nat.digitChar n]
    else natDigs f (n / 10) ++ [Nat.digitChar (n % 10)]

/-- Decimal string of a natural number. -/
def natStr (n : Nat) : String := String.mk (natDigs (n + 1) n)

/-! ### The storage adapter (spec §6 contract) -/

/-- Modelled from the spec (§6): metadata as the adapter stores it — type and
identifier serialized with `str()`, the namespace and type maps as
string-keyed mappings. -/
structure DbMeta where
  provType : String
  identifier : String
  namespaces : NsTable
  typeMap : List (String × String)
deriving DecidableEq, Repr

/-- Modelled from the spec (§4.2, §6): the storable serialization of an
attribute value; the type tag recorded in the type map recovers its kind. -/
def serializeValue : AttrValue → String
  | .str s => s
  | .qn q => qnString q
  | .dateTime s => s
  | .literal v _ => v

/-- Serialization of an attribute key (`str()` of the qualified name). -/
def serializeKey : AttrKey → String
  | .qnKey q => qnString q
  | .rawKey s => s

/-- Modelled from the spec (§6): the string-keyed attribute mapping the
adapter stores; a Python dict, so duplicate serialized keys collapse with the
last value winning. -/
def serializeAttrs (a : Attrs) : List (String × String) :=
  pyDict (a.map (fun kv => (serializeKey kv.1, serializeValue kv.2)))

def serializeMeta (m : Metadata) : DbMeta :=
  { provType := qnString m.provType, identifier := qnString m.identifier,
    namespaces := m.namespaces, typeMap := m.typeMap }

/-- A stored node. -/
structure DbRecord where
  containerId : Nat
  attributes : List (String × String)
  metadata : DbMeta
deriving DecidableEq, Repr

/-- A stored edge. -/
structure DbRelation where
  fromContainer : Nat
  fromIdent : String
  toContainer : Nat
  toIdent : String
  attributes : List (String × String)
  metadata : DbMeta
deriving DecidableEq, Repr

/-- A stored bundle: its container and its own bundle record. -/
structure SavedBundle where
  containerId : Nat
  record : DbRecord
deriving DecidableEq, Repr

/-- The trace of adapter calls, in issue order. -/
inductive Op where
  | saveDocument (id : Nat)
  | saveBundle (docId : Nat) (id : Nat) (identifier : String) (mtype : String)
  | saveRecord (containerId : Nat) (identifier : String) (mtype : String)
  | saveRelation (fromContainer : Nat) (fromIdent : String) (toContainer : Nat)
      (toIdent : String) (mtype : String)
deriving DecidableEq, Repr

/-- Modelled from the spec (§6): the in-memory storage adapter's state.  The
counter allocates container ids and the fresh values of `uuid4()`. -/
structure AdapterState where
  ctr : Nat
  records : List DbRecord
  relations : List DbRelation
  bundles : List SavedBundle
  trace : List Op
deriving DecidableEq, Repr

def initialState : AdapterState := ⟨0, [], [], [], []⟩

/-- Modelled from the spec (§6): `save_document()` allocates a fresh
container. -/
def adapterSaveDocument (s : AdapterState) : AdapterState × Nat :=
  ({ s with ctr := s.ctr + 1, trace := s.trace ++ [Op.saveDocument s.ctr] }, s.ctr)

/-- Modelled from the spec (§6): `save_bundle` allocates a fresh container and
stores the bundle's own record. -/
def adapterSaveBundle (s : AdapterState) (docId : Nat) (attrs : Attrs)
    (meta : Metadata) : AdapterState × Nat :=
  let m := serializeMeta meta
  ({ s with
      ctr := s.ctr + 1,
      bundles := s.bundles ++ [⟨s.ctr, ⟨s.ctr, serializeAttrs attrs, m⟩⟩],
      trace := s.trace ++ [Op.saveBundle docId s.ctr m.identifier m.provType] }, s.ctr)

/-- Modelled from the spec (§6): `save_record`. -/
def adapterSaveRecord (s : AdapterState) (c : Nat) (attrs : Attrs)
    (meta : Metadata) : AdapterState :=
  let m := serializeMeta meta
  { s with
    records := s.records ++ [⟨c, serializeAttrs attrs, m⟩],
    trace := s.trace ++ [Op.saveRecord c m.identifier m.provType] }

/-- Modelled from the spec (§6): `save_relation`. -/
def adapterSaveRelation (s : AdapterState) (fromC : Nat) (fromQ : QualifiedName)
    (toC : Nat) (toQ : QualifiedName) (attrs : Attrs) (meta : Metadata) :
    AdapterState :=
  let m := serializeMeta meta
  { s with
    relations := s.relations ++
      [⟨fromC, qnString fromQ, toC, qnString toQ, serializeAttrs attrs, m⟩],
    trace := s.trace ++
      [Op.saveRelation fromC (qnString fromQ) toC (qnString toQ) m.provType] }

/-! ### The materializer (`ProvApi.create_document` and helpers) -/

/-- The synthetic bundle identifier prefix; the source constant is this string
followed by a format placeholder into which `str(bundle.identifier)` is
interpolated. -/
def PROV_API_BUNDLE_IDENTIFIER_PREFIX : String := "prov:bundle:"

/-- `ProvApi._create_unknown_node` (provapi.py lines 302-315).  The node's
identifier is resolved in a fresh `ProvDocument()`, whose table holds only the
default namespaces, so the resolution cannot fail and the fallback arm is
unreachable; likewise the metadata extraction of the plain record always
succeeds. -/
def createUnknownNode (s : AdapterState) (bundleId : Nat) :
    AdapterState × QualifiedName :=
  let uid := s.ctr
  let s1 := { s with ctr := s.ctr + 1 }
  let identifier :=
    (validQualifiedName [] ("prov:Unknown-" ++ natStr uid)).getD provUnknownQn
  let record : ProvRecordM := .plain (some (.qn identifier)) []
  match getMetadataAndAttributesForRecord [] (.record record) with
  | .ok (meta, attrs) => (adapterSaveRecord s1 bundleId attrs meta, identifier)
  | .error _ => (s1, identifier)

/-- `ProvApi._create_relation` (provapi.py lines 255-279): synthesize Unknown
nodes for absent endpoints, then extract metadata and save the edge.  Only
relation records reach this helper. -/
def createRelation (tbl : NsTable) (s : AdapterState) (fromBundleId toBundleId : Nat)
    (r : ProvRecordM) : AdapterState × Except ProvError Unit :=
  match r with
  | .relation _ _ f t _ _ =>
    let st1 :=
      match f with
      | some q => (s, q)
      | none => createUnknownNode s fromBundleId
    let st2 :=
      match t with
      | some q => (st1.1, q)
      | none => createUnknownNode st1.1 toBundleId
    match getMetadataAndAttributesForRecord tbl (.record r) with
    | .ok (meta, attrs) =>
      (adapterSaveRelation st2.1 fromBundleId st1.2 toBundleId st2.2 attrs meta, .ok ())
    | .error e => (st2.1, .error e)
  | _ => (s, .error .invalidArgumentType)

/-- Node phase of `ProvApi._create_bundle`: save every element record. -/
def saveElementList (tbl : NsTable) (bundleId : Nat) :
    AdapterState → List ProvRecordM → AdapterState × Except ProvError Unit
  | s, [] => (s, .ok ())
  | s, r :: rest =>
    match getMetadataAndAttributesForRecord tbl (.record r) with
    | .ok (meta, attrs) =>
      saveElementList tbl bundleId (adapterSaveRecord s bundleId attrs meta) rest
    | .error e => (s, .error e)

/-- Edge phase of `ProvApi._create_bundle`: save every relation except the
mention links (provapi.py lines 248-253). -/
def saveRelationList (tbl : NsTable) (bundleId : Nat) :
    AdapterState → List ProvRecordM → AdapterState × Except ProvError Unit
  | s, [] => (s, .ok ())
  | s, r :: rest =>
    if r.isMention then saveRelationList tbl bundleId s rest
    else
      match createRelation tbl s bundleId bundleId r with
      | (s1, .ok _) => saveRelationList tbl bundleId s1 rest
      | (s1, .error e) => (s1, .error e)

/-- `ProvApi._create_bundle` (provapi.py lines 232-253): all element nodes
first, then the non-mention relations. -/
def createBundle (tbl : NsTable) (s : AdapterState) (bundleId : Nat)
    (records : List ProvRecordM) : AdapterState × Except ProvError Unit :=
  match saveElementList tbl bundleId s (records.filter ProvRecordM.isElement) with
  | (s1, .ok _) =>
    saveRelationList tbl bundleId s1 (records.filter ProvRecordM.isRelation)
  | (s1, .error e) => (s1, .error e)

/-- Loop body of `ProvApi._create_bundle_association`: one membership edge per
element record, from the element to the bundle's entity identifier in the
document's container. -/
def saveAssocList (tbl : NsTable) (documentId bundleId : Nat)
    (bundleIdentifier : QualifiedName) (belongMeta : Metadata) (belongAttrs : Attrs) :
    AdapterState → List ProvRecordM → AdapterState × Except ProvError Unit
  | s, [] => (s, .ok ())
  | s, r :: rest =>
    match getMetadataAndAttributesForRecord tbl (.record r) with
    | .ok (meta, _) =>
      saveAssocList tbl documentId bundleId bundleIdentifier belongMeta belongAttrs
        (adapterSaveRelation s bundleId meta.identifier documentId bundleIdentifier
          belongAttrs belongMeta) rest
    | .error e => (s, .error e)

/-- `ProvApi._create_bundle_association` (provapi.py lines 281-300). -/
def createBundleAssociation (tbl : NsTable) (s : AdapterState)
    (documentId bundleId : Nat) (bundleIdentifier : QualifiedName)
    (records : List ProvRecordM) : AdapterState × Except ProvError Unit :=
  match getMetadataAndAttributesForRecord tbl
      (.record (.relation .association none none none none
        [(AttrKey.qnKey PROV_LABEL, AttrValue.str "belongsToBundle")])) with
  | .error e => (s, .error e)
  | .ok (belongMeta, belongAttrs) =>
    saveAssocList tbl documentId bundleId bundleIdentifier belongMeta belongAttrs
      s (records.filter ProvRecordM.isElement)

/-- Mention loop of `ProvApi._create_bundle_links`: non-mention relations are
skipped; the target bundle is looked up in the pass-1 identifier map, where a
missing key (including an absent third formal attribute) escapes as a raw
`KeyError`. -/
def saveMentionList (tbl : NsTable) (fromBundleId : Nat)
    (bundleIdMap : List (QualifiedName × Nat)) :
    AdapterState → List ProvRecordM → AdapterState × Except ProvError Unit
  | s, [] => (s, .ok ())
  | s, r :: rest =>
    if r.isMention then
      match r with
      | .relation k id f t mb a =>
        match mb with
        | none => (s, .error .keyError)
        | some toBundle =>
          match alookup bundleIdMap toBundle with
          | none => (s, .error .keyError)
          | some toBundleId =>
            match createRelation tbl s fromBundleId toBundleId
                (.relation k id f t mb a) with
            | (s1, .ok _) => saveMentionList tbl fromBundleId bundleIdMap s1 rest
            | (s1, .error e) => (s1, .error e)
      | .element ek i a => (s, .error .keyError)
      | .plain i a => (s, .error .keyError)
      | .bundleRec i a => (s, .error .keyError)
    else saveMentionList tbl fromBundleId bundleIdMap s rest

/-- `ProvApi._create_bundle_links` (provapi.py lines 317-334). -/
def createBundleLinks (tbl : NsTable) (s : AdapterState)
    (bundleIdMap : List (QualifiedName × Nat)) (b : DocBundleM) :
    AdapterState × Except ProvError Unit :=
  match alookup bundleIdMap b.identifier with
  | none => (s, .error .keyError)
  | some fromBundleId => saveMentionList tbl fromBundleId bundleIdMap s b.records

/-- Pass 1 of `ProvApi.create_document` (provapi.py lines 146-157): per
bundle, save the bundle record, the bundle's content and the membership
edges, building the identifier-to-container map.  The synthetic prefixed
identifier always resolves through the default prov namespace, so its
fallback arm is unreachable. -/
def bundlePass1 (tbl : NsTable) (docId : Nat) :
    AdapterState → List DocBundleM → List (QualifiedName × Nat) →
    AdapterState × List (QualifiedName × Nat) × Except ProvError Unit
  | s, [], m => (s, m, .ok ())
  | s, b :: rest, m =>
    let customIdentifier :=
      (validQualifiedName tbl
        (PROV_API_BUNDLE_IDENTIFIER_PREFIX ++ qnString b.identifier)).getD provUnknownQn
    let bundleRecord : ProvRecordM :=
      .bundleRec (some (.qn customIdentifier))
        [(AttrKey.qnKey provBundleNameKey, AttrValue.qn b.identifier)]
    match getMetadataAndAttributesForRecord tbl (.record bundleRecord) with
    | .error e => (s, m, .error e)
    | .ok (meta, attrs) =>
      let sb := adapterSaveBundle s docId attrs meta
      let m1 := upsert m b.identifier sb.2
      match createBundle tbl sb.1 sb.2 b.records with
      | (s2, .error e) => (s2, m1, .error e)
      | (s2, .ok _) =>
        match createBundleAssociation tbl s2 docId sb.2 customIdentifier b.records with
        | (s3, .error e) => (s3, m1, .error e)
        | (s3, .ok _) => bundlePass1 tbl docId s3 rest m1

/-- Pass 2 of `ProvApi.create_document` (provapi.py lines 159-160). -/
def bundlePass2 (tbl : NsTable) :
    AdapterState → List (QualifiedName × Nat) → List DocBundleM →
    AdapterState × Except ProvError Unit
  | s, _, [] => (s, .ok ())
  | s, m, b :: rest =>
    match createBundleLinks tbl s m b with
    | (s1, .ok _) => bundlePass2 tbl s1 m rest
    | (s1, .error e) => (s1, .error e)

/-- `ProvApi.create_document` (provapi.py lines 126-162), starting from a
document-model instance (`form_string` passes a `ProvDocument` instance
through unchanged). -/
def createDocument (d : ProvDocumentM) : AdapterState × Except ProvError Nat :=
  match createBundle d.namespaces (adapterSaveDocument initialState).1
      (adapterSaveDocument initialState).2 d.records with
  | (s2, .error e) => (s2, .error e)
  | (s2, .ok _) =>
    match bundlePass1 d.namespaces (adapterSaveDocument initialState).2 s2
        d.bundles [] with
    | (s3, _, .error e) => (s3, .error e)
    | (s3, bundleIdMap, .ok _) =>
      match bundlePass2 d.namespaces s3 bundleIdMap d.bundles with
      | (s4, .error e) => (s4, .error e)
      | (s4, .ok _) => (s4, .ok (adapterSaveDocument initialState).2)

/-! ### The reconstructor (`ProvApi.get_document_as_prov` and helpers) -/

/-- A raw record or relation as the adapter returns it. -/
structure RawRecord where
  metadata : DbMeta
  attributes : List (String × String)
deriving DecidableEq, Repr

/-- A raw bundle: its own record and its contents. -/
structure RawBundle where
  bundleRecord : RawRecord
  records : List RawRecord
deriving DecidableEq, Repr

structure RawDocument where
  documentRecords : List RawRecord
  bundles : List RawBundle
deriving DecidableEq, Repr

def DbRecord.toRaw (r : DbRecord) : RawRecord := ⟨r.metadata, r.attributes⟩

def DbRelation.toRaw (r : DbRelation) : RawRecord := ⟨r.metadata, r.attributes⟩

/-- Records and relations stored in one container, nodes first, in save
order. -/
def containerRaws (s : AdapterState) (c : Nat) : List RawRecord :=
  ((s.records.filter (fun r => r.containerId == c)).map DbRecord.toRaw) ++
  ((s.relations.filter (fun r => r.fromContainer == c)).map DbRelation.toRaw)

/-- Modelled from the spec (§6): `get_document` returns the document's own
records and, per bundle, the bundle record plus the bundle's records; an edge
is listed in the container it starts from. -/
def adapterGetDocument (s : AdapterState) (docId : Nat) : RawDocument :=
  { documentRecords := containerRaws s docId,
    bundles := s.bundles.map (fun b => ⟨b.record.toRaw, containerRaws s b.containerId⟩) }

/-- Modelled from the spec: `add_namespaces_to_bundle` of
`provdbconnector.utils.serializer` (spec §4.5: re-register all namespaces
from the stored metadata before resolving any identifier). -/
def addNamespacesToBundle (reg : NsTable) (ns : NsTable) : NsTable :=
  ns.foldl (fun acc e => upsert acc e.1 e.2) reg

/-- Modelled from the spec (§4.2, Type Codec `decode`): rebuild an attribute
value from its stored string and the recorded type tag; an absent tag means
plain string, and a qualified-name tag whose value no longer resolves falls
back to the string itself. -/
def decodeValue (tbl : NsTable) (typeMap : List (String × String)) (key : String)
    (v : String) : AttrValue :=
  match alookup typeMap key with
  | none => .str v
  | some tag =>
    if tag = QUALIFIED_NAME_TAG then
      match validQualifiedName tbl v with
      | some q => .qn q
      | none => .str v
    else if tag = DATETIME_TAG then .dateTime v
    else .literal v tag

/-- Modelled from the spec (§4.5): which record constructor a stored type
denotes. -/
def recordCtorOfType (t : QualifiedName) : Option (Sum ElemKind RelKind) :=
  if t = ElemKind.entity.typeQn then some (.inl .entity)
  else if t = ElemKind.activity.typeQn then some (.inl .activity)
  else if t = ElemKind.agent.typeQn then some (.inl .agent)
  else if t = RelKind.association.typeQn then some (.inr .association)
  else if t = RelKind.usage.typeQn then some (.inr .usage)
  else if t = RelKind.generation.typeQn then some (.inr .generation)
  else if t = RelKind.communication.typeQn then some (.inr .communication)
  else if t = RelKind.mention.typeQn then some (.inr .mention)
  else none

/-- The serialized reserved keys a relation kind consumes as formal
attributes. -/
def formalKeyStrs (k : RelKind) : List String :=
  match k with
  | .mention => [qnString k.fromKey, qnString k.toKey, qnString mentionBundleKey]
  | _ => [qnString k.fromKey, qnString k.toKey]

/-- Decode one stored attribute: the key must resolve to a qualified name,
the value is rebuilt through the type codec. -/
def decodeAttr (tbl : NsTable) (typeMap : List (String × String))
    (kv : String × String) : Except ProvError (AttrKey × AttrValue) :=
  match validQualifiedName tbl kv.1 with
  | some kq => pure (AttrKey.qnKey kq, decodeValue tbl typeMap kv.1 kv.2)
  | none => throw ProvError.invalidArgumentType

def decodeAttrs (tbl : NsTable) (typeMap : List (String × String)) :
    List (String × String) → Except ProvError Attrs
  | [] => .ok []
  | kv :: rest =>
    match decodeAttr tbl typeMap kv with
    | .error e => .error e
    | .ok d =>
      match decodeAttrs tbl typeMap rest with
      | .error e => .error e
      | .ok ds => .ok (d :: ds)

/-- Modelled from the spec: `create_prov_record` of
`provdbconnector.utils.serializer` (spec §4.5): rebuild a record from the
resolved type, the optional stored identifier, the stored attributes and the
stored type map.  Formal relation endpoints are recovered by their reserved
keys; every other attribute key is resolved to a qualified name and its value
decoded through the type codec. -/
def createProvRecord (tbl : NsTable) (t : QualifiedName) (ident : Option String)
    (attrs : List (String × String)) (typeMap : List (String × String)) :
    Except ProvError ProvRecordM :=
  match (match ident with
         | none => Except.ok none
         | some s =>
           match validQualifiedName tbl s with
           | some q => Except.ok (some (IdentVal.qn q))
           | none => Except.error ProvError.invalidArgumentType) with
  | .error e => .error e
  | .ok identVal =>
    match recordCtorOfType t with
    | none => .error .invalidArgumentType
    | some (.inl ek) =>
      match decodeAttrs tbl typeMap attrs with
      | .error e => .error e
      | .ok decoded => .ok (.element ek identVal decoded)
    | some (.inr rk) =>
      match decodeAttrs tbl typeMap
          (attrs.filter (fun kv => decide (kv.1 ∉ formalKeyStrs rk))) with
      | .error e => .error e
      | .ok decoded =>
        .ok (.relation rk identVal
          ((alookup attrs (qnString rk.fromKey)).bind (validQualifiedName tbl))
          ((alookup attrs (qnString rk.toKey)).bind (validQualifiedName tbl))
          (match rk with
           | .mention =>
             (alookup attrs (qnString mentionBundleKey)).bind (validQualifiedName tbl)
           | _ => none)
          decoded)

/-- The namespaces registered into a bundle under reconstruction, and the
records created so far. -/
structure ParseCtx where
  reg : NsTable
  recs : List ProvRecordM
deriving DecidableEq, Repr

/-- `ProvApi._parse_record` (provapi.py lines 190-230).  `base` holds the
namespaces the target bundle chains to (the document's registered namespaces,
when parsing into a bundle); `ctx.reg` the namespaces registered into the
target bundle itself so far.  An unresolvable stored type is a reconstruction
failure of the modelled `create_prov_record` collaborator (spec §4.5:
`fails(InvalidArgumentType)`). -/
def parseRecord (base : NsTable) (ctx : ParseCtx) (raw : RawRecord) :
    Except ProvError ParseCtx :=
  match validQualifiedName (base ++ ctx.reg) raw.metadata.provType with
  | none => .error .invalidArgumentType
  | some provType =>
    -- skip record if prov:type is "prov:Unknown"
    if provType = (validQualifiedName (base ++ ctx.reg) "prov:Unknown").getD provUnknownQn
    then .ok ctx
    -- skip the synthetic connections between bundle entities and their records
    else if alookup raw.attributes (qnString PROV_LABEL) = some "belongsToBundle"
    then .ok ctx
    else
      -- the identifier is kept only if it is not a prov type; the type map is
      -- already a mapping in this embedding, so the json-string branch of the
      -- source is not taken; the metadata namespaces are registered before the
      -- record is created
      match createProvRecord
          (base ++ addNamespacesToBundle ctx.reg raw.metadata.namespaces) provType
          (if validQualifiedName (base ++ ctx.reg) raw.metadata.identifier =
              some provType
           then none else some raw.metadata.identifier)
          raw.attributes raw.metadata.typeMap with
      | .error e => .error e
      | .ok record =>
        .ok ⟨addNamespacesToBundle ctx.reg raw.metadata.namespaces,
             ctx.recs ++ [record]⟩

/-- Record loop of the reconstructor: parse a container's raw records in
order into one parse context. -/
def parseRecords (base : NsTable) : ParseCtx → List RawRecord → Except ProvError ParseCtx
  | ctx, [] => .ok ctx
  | ctx, r :: rest =>
    match parseRecord base ctx r with
    | .ok ctx1 => parseRecords base ctx1 rest
    | .error e => .error e

/-- Bundle loop of the reconstructor: each bundle is created under its stored
identifier with the synthetic prefix stripped (the source strips
`len(PROV_API_BUNDLE_IDENTIFIER_PREFIX) - 2` characters, the constant carrying
a two-character format placeholder, so exactly the `"prov:bundle:"` front
goes), resolved against the namespaces registered into the document; then the
bundle's records are parsed into it. -/
def parseBundles (docReg : NsTable) :
    List DocBundleM → List RawBundle → Except ProvError (List DocBundleM)
  | acc, [] => .ok acc
  | acc, b :: rest =>
    match validQualifiedName docReg
        (strDropN PROV_API_BUNDLE_IDENTIFIER_PREFIX.data.length
          b.bundleRecord.metadata.identifier) with
    | none => .error .invalidArgumentType
    | some identifier =>
      match parseRecords docReg ⟨[], []⟩ b.records with
      | .error e => .error e
      | .ok bctx => parseBundles docReg (acc ++ [⟨identifier, bctx.recs⟩]) rest

/-- `ProvApi.get_document_as_prov` (provapi.py lines 164-188): parse the
document's records, then rebuild each bundle. -/
def getDocumentAsProv (s : AdapterState) (docId : Nat) :
    Except ProvError ProvDocumentM :=
  match parseRecords [] ⟨[], []⟩ (adapterGetDocument s docId).documentRecords with
  | .error e => .error e
  | .ok docCtx =>
    match parseBundles docCtx.reg [] (adapterGetDocument s docId).bundles with
    | .error e => .error e
    | .ok bundles => .ok ⟨docCtx.reg, docCtx.recs, bundles⟩

/-- The full pipeline: materialize a document, then reconstruct it from the
adapter state. -/
def roundTrip (d : ProvDocumentM) : Except ProvError ProvDocumentM :=
  match createDocument d with
  | (s, .ok docId) => getDocumentAsProv s docId
  | (_, .error e) => .error e

/-! ### Injectivity of the decimal counter rendering -/

/-- Numeric value of a decimal digit character. -/
def charVal (c : Char) : Nat := c.toNat - 48

/-- Decimal decoding with an accumulator, the inverse of `natDigs`. -/
def decodeDigs : List Char → Nat → Nat
  | [], a => a
  | c :: l, a => decodeDigs l (a * 10 + charVal c)

theorem charVal_digitChar {n : Nat} (h : n < 10) : charVal (Nat.digitChar n) = n := by
  interval_cases n <;> rfl

theorem decodeDigs_append (l1 l2 : List Char) (a : Nat) :
    decodeDigs (l1 ++ l2) a = decodeDigs l2 (decodeDigs l1 a) := by
  induction l1 generalizing a with
  | nil => rfl
  | cons c l ih => simp [decodeDigs, ih]

theorem decode_natDigs : ∀ f n, n ≤ f → decodeDigs (natDigs (f + 1) n) 0 = n := by
  intro f
  induction f with
  | zero =>
    intro n hn
    have h0 : n = 0 := by omega
    subst h0; rfl
  | succ f ih =>
    intro n hn
    by_cases h : n < 10
    · simp [natDigs, h, decodeDigs, charVal_digitChar h]
    · have hd : n / 10 ≤ f := by
        have h1 : n / 10 < n := Nat.div_lt_self (by omega) (by omega)
        omega
      have hu : natDigs (f + 1 + 1) n = natDigs (f + 1) (n / 10) ++ [Nat.digitChar (n % 10)] := by
        simp [natDigs, h]
      rw [hu, decodeDigs_append, ih _ hd]
      have hm : n % 10 < 10 := Nat.mod_lt n (by omega)
      simp [decodeDigs, charVal_digitChar hm]
      omega

theorem natStr_injective {m n : Nat} (h : natStr m = natStr n) : m = n := by
  have hd : natDigs (m + 1) m = natDigs (n + 1) n := congrArg String.data h
  have hm := decode_natDigs m m le_rfl
  have hn := decode_natDigs n n le_rfl
  rw [hd, hn] at hm
  exact hm.symm

/-! ### Resolver lemmas

Resolution of `str()`-rendered qualified names is faithful whenever every
namespace binding in sight is coherent: the prefix is bound to the same URI
wherever it is looked up, prefixes are nonempty, colon-free and distinct from
`http`, and URIs are http URIs (so a `prefix:local` rendering can never match
one as a bare URI). -/

def httpList : List Char := ['h', 't', 't', 'p', ':', '/', '/']

/-- A namespace binding that resolves faithfully relative to the ambient
table `Tg`. -/
def GoodEntry (Tg : NsTable) (e : String × String) : Prop :=
  lookupNs Tg e.1 = some e.2 ∧ List.isPrefixOf httpList e.2.data = true

def GoodTable (Tg t : NsTable) : Prop := ∀ e ∈ t, GoodEntry Tg e

/-- A qualified name that renders and resolves faithfully relative to the
ambient table `Tg`. -/
def CohQN (Tg : NsTable) (q : QualifiedName) : Prop :=
  lookupNs Tg q.pfx = some q.uri ∧ q.pfx.data ≠ [] ∧ ':' ∉ q.pfx.data ∧
    q.pfx ≠ "http" ∧ List.isPrefixOf httpList q.uri.data = true

theorem qnString_data (q : QualifiedName) :
    (qnString q).data = q.pfx.data ++ ':' :: q.localPart.data := by
  simp [qnString]

theorem takeWhile_colon (l r : List Char) (h : ':' ∉ l) :
    (l ++ ':' :: r).takeWhile (fun c => decide (c ≠ ':')) = l := by
  induction l with
  | nil => simp [List.takeWhile]
  | cons a l ih =>
    have ha : a ≠ ':' := by intro hc; exact h (hc ▸ List.mem_cons_self a l)
    have hl : ':' ∉ l := fun hc => h (List.mem_cons_of_mem a hc)
    have hd : decide (a ≠ ':') = true := by simp [ha]
    rw [List.cons_append, List.takeWhile_cons, hd, if_pos rfl]
    exact congrArg (fun x => a :: x) (ih hl)

theorem dropWhile_colon (l r : List Char) (h : ':' ∉ l) :
    (l ++ ':' :: r).dropWhile (fun c => decide (c ≠ ':')) = ':' :: r := by
  induction l with
  | nil => simp [List.dropWhile]
  | cons a l ih =>
    have ha : a ≠ ':' := by intro hc; exact h (hc ▸ List.mem_cons_self a l)
    have hl : ':' ∉ l := fun hc => h (List.mem_cons_of_mem a hc)
    have hd : decide (a ≠ ':') = true := by simp [ha]
    rw [List.cons_append, List.dropWhile_cons, hd, if_pos rfl]
    exact ih hl

theorem http_not_prefix (l r : List Char) (hcolon : ':' ∉ l)
    (hne : l ≠ ['h', 't', 't', 'p']) : ¬ (httpList <+: l ++ ':' :: r) := by
  intro hpre
  obtain ⟨tl, htl⟩ := hpre
  match l, hcolon, hne, htl with
  | [], _, _, htl => simp [httpList] at htl
  | [a], hc, _, htl => simp [httpList] at htl
  | [a, b], hc, _, htl => simp [httpList] at htl
  | [a, b, c], hc, _, htl => simp [httpList] at htl
  | [a, b, c, d], hc, hne, htl =>
    simp [httpList] at htl
    obtain ⟨h1, h2, h3, h4, -⟩ := htl
    subst h1; subst h2; subst h3; subst h4
    exact hne rfl
  | a :: b :: c :: d :: e :: l5, hc, _, htl =>
    simp [httpList] at htl
    obtain ⟨-, -, -, -, h5, -⟩ := htl
    subst h5
    exact hc (by simp)

theorem uriMatch_qnString_none (t : NsTable) (q : QualifiedName)
    (ht : ∀ e ∈ t, List.isPrefixOf httpList e.2.data = true)
    (hcolon : ':' ∉ q.pfx.data) (hhttp : q.pfx ≠ "http") :
    uriMatch t (qnString q) = none := by
  unfold uriMatch
  have hfind : t.find? (fun e => List.isPrefixOf e.2.data (qnString q).data) = none := by
    rw [List.find?_eq_none]
    intro e he hpre
    have h1 : httpList <+: e.2.data := List.isPrefixOf_iff_prefix.mp (ht e he)
    have h2 : e.2.data <+: (qnString q).data := List.isPrefixOf_iff_prefix.mp hpre
    have h3 : httpList <+: (qnString q).data := h1.trans h2
    rw [qnString_data] at h3
    have hne : q.pfx.data ≠ ['h', 't', 't', 'p'] := by
      intro hd
      exact hhttp (String.ext hd)
    exact http_not_prefix _ _ hcolon hne h3
  rw [hfind]

theorem lookupNs_of_good {Tg t : NsTable} {p u : String}
    (hg : GoodTable Tg t) (h : lookupNs t p = some u) : lookupNs Tg p = some u := by
  unfold lookupNs at h
  match hf : t.find? (fun e => decide (e.1 = p)) with
  | none => rw [hf] at h; simp at h
  | some e =>
    rw [hf] at h
    simp at h
    have he : e ∈ t := List.mem_of_find?_eq_some hf
    have hp : e.1 = p := by have := List.find?_some hf; simpa using this
    have := (hg e he).1
    rw [hp] at this
    rw [this, h]

theorem lookupNs_isSome_of_mem {t : NsTable} {p u : String} (h : (p, u) ∈ t) :
    ∃ v, lookupNs t p = some v := by
  unfold lookupNs
  match hf : t.find? (fun e => decide (e.1 = p)) with
  | some e => exact ⟨e.2, by rw [hf]; rfl⟩
  | none =>
    rw [List.find?_eq_none] at hf
    exact absurd (by simp : decide ((p, u).1 = p) = true) (by simpa using hf (p, u) h)

/-- Computation of the resolver on a rendered qualified name with a colon-free
prefix: split recovers the prefix and the local part. -/
theorem vqn_eq (tbl : NsTable) (q : QualifiedName) (hcolon : ':' ∉ q.pfx.data) :
    validQualifiedName tbl (qnString q) =
      (match lookupNs (defaultNs ++ tbl) q.pfx with
       | some u => some ⟨q.pfx, u, q.localPart⟩
       | none => uriMatch (defaultNs ++ tbl) (qnString q)) := by
  unfold validQualifiedName
  rw [qnString_data, dropWhile_colon _ _ hcolon, takeWhile_colon _ _ hcolon]
  rfl

/-- Resolution of a rendered coherent qualified name: it either fails (the
prefix is not bound) or recovers exactly the original name. -/
theorem vqn_resolve {Tg : NsTable} (tbl : NsTable) {q : QualifiedName}
    (hg : GoodTable Tg (defaultNs ++ tbl)) (hq : CohQN Tg q) :
    validQualifiedName tbl (qnString q) = none ∨
      validQualifiedName tbl (qnString q) = some q := by
  obtain ⟨hlook, hne, hcolon, hhttp, huri⟩ := hq
  rw [vqn_eq tbl q hcolon]
  match hl : lookupNs (defaultNs ++ tbl) q.pfx with
  | some u =>
    right
    have h2 := lookupNs_of_good hg hl
    rw [hlook] at h2
    have hu : u = q.uri := by injection h2 with h3; exact h3.symm
    subst hu
    rfl
  | none =>
    left
    exact uriMatch_qnString_none (defaultNs ++ tbl) q (fun e he => (hg e he).2) hcolon hhttp

/-- Resolution succeeds as soon as the prefix is bound somewhere in the
combined table. -/
theorem vqn_resolve_mem {Tg : NsTable} (tbl : NsTable) {q : QualifiedName}
    (hg : GoodTable Tg (defaultNs ++ tbl)) (hq : CohQN Tg q)
    {u0 : String} (hmem : (q.pfx, u0) ∈ defaultNs ++ tbl) :
    validQualifiedName tbl (qnString q) = some q := by
  rcases vqn_resolve tbl hg hq with h | h
  · exfalso
    rw [vqn_eq tbl q hq.2.2.1] at h
    obtain ⟨v, hv⟩ := lookupNs_isSome_of_mem hmem
    rw [hv] at h
    simp at h
  · exact h

/-! ### Resolutions through the always-present default prov namespace -/

theorem vqn_provPrefixed (tbl : NsTable) (rest : String) :
    validQualifiedName tbl ("prov:" ++ rest) = some ⟨"prov", provUri, rest⟩ := by
  have hq : qnString ⟨"prov", provUri, rest⟩ = "prov:" ++ rest := by
    apply String.ext
    simp [qnString]
  rw [← hq, vqn_eq tbl ⟨"prov", provUri, rest⟩
    (by show ':' ∉ ("prov" : String).data; decide)]
  rfl

theorem vqn_prov_unknown (tbl : NsTable) :
    validQualifiedName tbl "prov:Unknown" = some provUnknownQn := by
  have h : "prov:Unknown" = "prov:" ++ "Unknown" := rfl
  rw [h, vqn_provPrefixed]
  rfl

/-! ### Association-list and Python-dictionary lemmas -/

def keys {α β : Type} (l : List (α × β)) : List α := l.map Prod.fst

theorem mem_upsert {α β : Type} [DecidableEq α] :
    ∀ {l : List (α × β)} {k : α} {v : β} {e : α × β},
      e ∈ upsert l k v → e ∈ l ∨ e = (k, v)
  | [], k, v, e, h => by
    simp [upsert] at h
    right
    simp [h]
  | (k0, v0) :: rest, k, v, e, h => by
    rw [upsert] at h
    by_cases hk : k0 = k
    · rw [if_pos hk] at h
      rcases List.mem_cons.mp h with h1 | h1
      · right; rw [h1, hk]
      · left; exact List.mem_cons_of_mem _ h1
    · rw [if_neg hk] at h
      rcases List.mem_cons.mp h with h1 | h1
      · left; rw [h1]; exact List.mem_cons_self _ _
      · rcases mem_upsert h1 with h2 | h2
        · left; exact List.mem_cons_of_mem _ h2
        · right; exact h2

theorem keys_upsert_self {α β : Type} [DecidableEq α] :
    ∀ (l : List (α × β)) (k : α) (v : β), k ∈ keys (upsert l k v)
  | [], k, v => by simp [upsert, keys]
  | (k0, v0) :: rest, k, v => by
    rw [upsert]
    by_cases hk : k0 = k
    · rw [if_pos hk]; simp [keys, hk]
    · rw [if_neg hk]
      simp only [keys, List.map_cons, List.mem_cons]
      right
      exact keys_upsert_self rest k v

theorem keys_upsert_sup {α β : Type} [DecidableEq α] :
    ∀ (l : List (α × β)) (k : α) (v : β) (p : α), p ∈ keys l → p ∈ keys (upsert l k v)
  | [], _, _, _, hp => by simp [keys] at hp
  | (k0, v0) :: rest, k, v, p, hp => by
    rw [upsert]
    rcases (by simpa [keys] using hp : p = k0 ∨ p ∈ keys rest) with h | h
    · by_cases hk : k0 = k
      · rw [if_pos hk]; simp [keys, h]
      · rw [if_neg hk]; simp [keys, h]
    · by_cases hk : k0 = k
      · rw [if_pos hk]
        simp only [keys, List.map_cons, List.mem_cons]
        right
        simpa [keys] using h
      · rw [if_neg hk]
        simp only [keys, List.map_cons, List.mem_cons]
        right
        exact keys_upsert_sup rest k v p h

theorem mem_of_keys_good {Tg : NsTable} {t : NsTable} (hg : GoodTable Tg t)
    {p u : String} (hk : p ∈ keys t) (hl : lookupNs Tg p = some u) : (p, u) ∈ t := by
  obtain ⟨e, he, hep⟩ := List.mem_map.mp hk
  have h1 := (hg e he).1
  rw [hep] at h1
  rw [hl] at h1
  have h2 : e.2 = u := by injection h1 with h3; exact h3.symm
  have : e = (p, u) := by
    cases e
    simp at hep h2
    rw [hep, h2]
  rw [← this]
  exact he

theorem goodTable_upsert {Tg : NsTable} {t : NsTable} {k v : String}
    (hg : GoodTable Tg t) (hkv : GoodEntry Tg (k, v)) :
    GoodTable Tg (upsert t k v) := by
  intro e he
  rcases mem_upsert he with h | h
  · exact hg e h
  · rw [h]; exact hkv

theorem upsert_of_not_mem {α β : Type} [DecidableEq α] :
    ∀ {l : List (α × β)} {k : α} (v : β), k ∉ keys l → upsert l k v = l ++ [(k, v)]
  | [], k, v, _ => rfl
  | (k0, v0) :: rest, k, v, h => by
    have hk : k0 ≠ k := by
      intro he
      exact h (by simp [keys, he])
    have hrest : k ∉ keys rest := by
      intro hm
      exact h (by simp [keys] at hm ⊢; right; exact hm)
    rw [upsert, if_neg hk, upsert_of_not_mem v hrest]
    simp

theorem foldl_upsert_nodup {α β : Type} [DecidableEq α] :
    ∀ (l acc : List (α × β)), (keys acc ++ keys l).Nodup →
      l.foldl (fun a kv => upsert a kv.1 kv.2) acc = acc ++ l
  | [], acc, _ => by simp
  | (k, v) :: rest, acc, h => by
    simp only [List.foldl]
    have hsplit : (keys acc ++ keys ((k, v) :: rest)) = keys acc ++ k :: keys rest := by
      simp [keys]
    rw [hsplit] at h
    have hk : k ∉ keys acc := by
      intro hm
      have := List.disjoint_of_nodup_append h
      exact this hm (List.mem_cons_self _ _)
    rw [upsert_of_not_mem v hk]
    have h2 : (keys (acc ++ [(k, v)]) ++ keys rest).Nodup := by
      have : keys (acc ++ [(k, v)]) ++ keys rest = keys acc ++ k :: keys rest := by
        simp [keys]
      rw [this]
      exact h
    rw [foldl_upsert_nodup rest (acc ++ [(k, v)]) h2]
    simp

theorem pyDict_eq_self {α β : Type} [DecidableEq α] (l : List (α × β))
    (h : (keys l).Nodup) : pyDict l = l := by
  have := foldl_upsert_nodup l [] (by simpa [keys])
  simpa [pyDict] using this

/-! ### Extraction lemmas -/

def AttrKey.isRaw : AttrKey → Bool
  | .rawKey _ => true
  | .qnKey _ => false

/-- The prov type the extractor assigns (its `prov:Unknown` default always
resolves through the default namespace). -/
def extProvTypeT (tbl : NsTable) (r : ProvRecordM) : QualifiedName :=
  match r.getType with
  | some t => t
  | none => (validQualifiedName tbl "prov:Unknown").getD provUnknownQn

theorem extProvTypeT_eq (tbl : NsTable) (r : ProvRecordM) :
    extProvTypeT tbl r = r.getType.getD provUnknownQn := by
  unfold extProvTypeT
  cases r.getType with
  | some t => rfl
  | none => rw [vqn_prov_unknown]; rfl

/-- The identifier the extractor assigns, or the error it raises. -/
def extIdentE (tbl : NsTable) (r : ProvRecordM) : Except ProvError QualifiedName :=
  match r.identifier with
  | some (.qn q) => .ok q
  | some (.raw s) =>
    match validQualifiedName tbl s with
    | some q => .ok q
    | none => .error .invalidProvRecord
  | none => .ok (extProvTypeT tbl r)

/-- The namespace loop never fails when every key is a qualified name. -/
def nsStepPure (tbl : NsTable) (acc : NsTable) (kv : AttrKey × AttrValue) : NsTable :=
  match kv.1 with
  | .rawKey _ => acc
  | .qnKey kq =>
    let acc1 := upsert acc kq.pfx kq.uri
    match kv.2 with
    | .qn vq => upsert acc1 vq.pfx vq.uri
    | .str s =>
      match validQualifiedName tbl s with
      | some vq => upsert acc1 vq.pfx vq.uri
      | none => acc1
    | .dateTime _ => acc1
    | .literal _ _ => acc1

theorem nsFold_ok (tbl : NsTable) :
    ∀ (l : Attrs) (acc : NsTable), (∀ kv ∈ l, kv.1.isRaw = false) →
      l.foldlM (nsStep tbl) acc = Except.ok (l.foldl (nsStepPure tbl) acc)
  | [], acc, _ => rfl
  | kv :: rest, acc, h => by
    have hkv : kv.1.isRaw = false := h kv (List.mem_cons_self _ _)
    have hrest : ∀ e ∈ rest, e.1.isRaw = false := fun e he => h e (List.mem_cons_of_mem _ he)
    have hstep : nsStep tbl acc kv = Except.ok (nsStepPure tbl acc kv) := by
      obtain ⟨k, v⟩ := kv
      cases k with
      | rawKey s => simp [AttrKey.isRaw] at hkv
      | qnKey kq =>
        cases v with
        | qn vq => rfl
        | dateTime s => rfl
        | literal a b => rfl
        | str s =>
          have hgen : ∀ (o : Option QualifiedName),
              (match o with
               | some vq =>
                 (pure (upsert (upsert acc kq.pfx kq.uri) vq.pfx vq.uri) :
                   Except ProvError NsTable)
               | none => pure (upsert acc kq.pfx kq.uri)) =
              Except.ok (match o with
               | some vq => upsert (upsert acc kq.pfx kq.uri) vq.pfx vq.uri
               | none => upsert acc kq.pfx kq.uri) := by
            intro o; cases o <;> rfl
          exact hgen (validQualifiedName tbl s)
    simp only [List.foldlM, List.foldl, hstep]
    have := nsFold_ok tbl rest (nsStepPure tbl acc kv) hrest
    simpa using this

theorem nsFold_err (tbl : NsTable) :
    ∀ (l : Attrs) (acc : NsTable), (∃ kv ∈ l, kv.1.isRaw = true) →
      l.foldlM (nsStep tbl) acc = Except.error .invalidProvRecord
  | [], _, h => by simp at h
  | kv :: rest, acc, h => by
    by_cases hk : kv.1.isRaw = true
    · have hstep : nsStep tbl acc kv = Except.error .invalidProvRecord := by
        obtain ⟨k, v⟩ := kv
        cases k with
        | rawKey s => rfl
        | qnKey kq => simp [AttrKey.isRaw] at hk
      simp only [List.foldlM, hstep]
      rfl
    · have hrest : ∃ e ∈ rest, e.1.isRaw = true := by
        rcases h with ⟨e, he, hraw⟩
        rcases List.mem_cons.mp he with h1 | h1
        · rw [h1] at hraw; exact absurd hraw hk
        · exact ⟨e, h1, hraw⟩
      have hstep : ∃ acc1, nsStep tbl acc kv = Except.ok acc1 := by
        obtain ⟨k, v⟩ := kv
        cases k with
        | rawKey s => simp [AttrKey.isRaw] at hk
        | qnKey kq =>
          cases v with
          | qn vq => exact ⟨_, rfl⟩
          | dateTime s => exact ⟨_, rfl⟩
          | literal a b => exact ⟨_, rfl⟩
          | str s =>
            rcases hv : validQualifiedName tbl s with - | vq
            · exact ⟨upsert acc kq.pfx kq.uri, by simp [nsStep, hv]; rfl⟩
            · exact ⟨upsert (upsert acc kq.pfx kq.uri) vq.pfx vq.uri,
                by simp [nsStep, hv]; rfl⟩
      obtain ⟨acc1, hstep⟩ := hstep
      simp only [List.foldlM, hstep]
      have := nsFold_err tbl rest acc1 hrest
      simpa using this

/-- The extractor on a record input is the bind of its identifier step and its
namespace fold. -/
theorem getMeta_eq_bind (tbl : NsTable) (r : ProvRecordM) :
    getMetadataAndAttributesForRecord tbl (.record r) =
      Except.bind (extIdentE tbl r) (fun pid =>
        Except.bind ((pyDict r.attributes).foldlM (nsStep tbl)
            (upsert (upsert [] (extProvTypeT tbl r).pfx (extProvTypeT tbl r).uri)
              pid.pfx pid.uri))
          (fun ns2 =>
            Except.ok ({ provType := extProvTypeT tbl r, identifier := pid,
                         namespaces := ns2,
                         typeMap := (pyDict r.attributes).foldl typeStep [] },
                       pyDict r.attributes))) := by
  cases hrid : r.identifier with
  | none =>
    simp only [getMetadataAndAttributesForRecord, extIdentE, extProvTypeT, hrid]
    rfl
  | some i =>
    cases i with
    | qn q =>
      simp only [getMetadataAndAttributesForRecord, extIdentE, extProvTypeT, hrid]
      rfl
    | raw s =>
      simp only [getMetadataAndAttributesForRecord, extIdentE, extProvTypeT, hrid]
      cases validQualifiedName tbl s <;> rfl

/-- Successful extraction, written out. -/
theorem getMeta_ok_eq (tbl : NsTable) (r : ProvRecordM) {pid : QualifiedName}
    (hid : extIdentE tbl r = .ok pid)
    (hk : ∀ kv ∈ pyDict r.attributes, kv.1.isRaw = false) :
    getMetadataAndAttributesForRecord tbl (.record r) =
      .ok ({ provType := extProvTypeT tbl r, identifier := pid,
             namespaces := (pyDict r.attributes).foldl (nsStepPure tbl)
               (upsert (upsert [] (extProvTypeT tbl r).pfx (extProvTypeT tbl r).uri)
                 pid.pfx pid.uri),
             typeMap := (pyDict r.attributes).foldl typeStep [] },
           pyDict r.attributes) := by
  rw [getMeta_eq_bind, hid]
  simp only [Except.bind]
  rw [nsFold_ok tbl _ _ hk]

theorem extIdentE_cases (tbl : NsTable) (r : ProvRecordM) :
    (∃ q, extIdentE tbl r = .ok q) ∨ extIdentE tbl r = .error .invalidProvRecord := by
  cases hrid : r.identifier with
  | none => exact .inl ⟨extProvTypeT tbl r, by simp [extIdentE, hrid]⟩
  | some i =>
    cases i with
    | qn q => exact .inl ⟨q, by simp [extIdentE, hrid]⟩
    | raw s =>
      rcases hv : validQualifiedName tbl s with - | q
      · exact .inr (by simp [extIdentE, hrid, hv])
      · exact .inl ⟨q, by simp [extIdentE, hrid, hv]⟩

theorem nsFold_cases (tbl : NsTable) (l : Attrs) (acc : NsTable) :
    (∃ ns, l.foldlM (nsStep tbl) acc = Except.ok ns) ∨
      l.foldlM (nsStep tbl) acc = Except.error .invalidProvRecord := by
  by_cases h : ∀ kv ∈ l, kv.1.isRaw = false
  · exact .inl ⟨_, nsFold_ok tbl l acc h⟩
  · right
    apply nsFold_err
    push_neg at h
    obtain ⟨kv, hm, hr⟩ := h
    exact ⟨kv, hm, by simpa using hr⟩

theorem throwEq {α : Type} (e : ProvError) :
    (throw e : Except ProvError α) = Except.error e := rfl

/-- The extractor fails with `InvalidArgumentTypeException` exactly on
non-record inputs. -/
theorem getMeta_iat_iff (tbl : NsTable) (inp : MetaInput) :
    getMetadataAndAttributesForRecord tbl inp = .error .invalidArgumentType ↔
      inp = .notARecord := by
  constructor
  · intro h
    cases inp with
    | notARecord => rfl
    | record r =>
      exfalso
      rw [getMeta_eq_bind] at h
      rcases extIdentE_cases tbl r with ⟨q, hq⟩ | hq
      · rw [hq] at h
        simp only [Except.bind] at h
        rcases nsFold_cases tbl (pyDict r.attributes)
          (upsert (upsert [] (extProvTypeT tbl r).pfx (extProvTypeT tbl r).uri)
            q.pfx q.uri) with ⟨ns, hns⟩ | hns
        · rw [hns] at h
          simp at h
        · rw [hns] at h
          simp at h
      · rw [hq] at h
        simp only [Except.bind] at h
        simp at h
  · intro h
    rw [h]
    rfl

/-- The extractor fails with `InvalidProvRecordException` exactly when the
identifier cannot be qualified or some attribute key is not a qualified
name. -/
theorem getMeta_ipr_iff (tbl : NsTable) (inp : MetaInput) :
    getMetadataAndAttributesForRecord tbl inp = .error .invalidProvRecord ↔
      (∃ r, inp = .record r ∧
        (extIdentE tbl r = .error .invalidProvRecord ∨
          ∃ kv ∈ pyDict r.attributes, kv.1.isRaw = true)) := by
  constructor
  · intro h
    cases inp with
    | notARecord =>
      rw [show getMetadataAndAttributesForRecord tbl .notARecord =
        Except.error .invalidArgumentType from rfl] at h
      simp at h
    | record r =>
      refine ⟨r, rfl, ?_⟩
      rw [getMeta_eq_bind] at h
      rcases extIdentE_cases tbl r with ⟨q, hq⟩ | hq
      · right
        rw [hq] at h
        simp only [Except.bind] at h
        by_cases hk : ∀ kv ∈ pyDict r.attributes, kv.1.isRaw = false
        · rw [nsFold_ok tbl _ _ hk] at h
          simp at h
        · push_neg at hk
          obtain ⟨kv, hm, hr⟩ := hk
          exact ⟨kv, hm, by simpa using hr⟩
      · left
        exact hq
  · rintro ⟨r, rfl, h | h⟩
    · rw [getMeta_eq_bind, h]
      rfl
    · rw [getMeta_eq_bind]
      rcases extIdentE_cases tbl r with ⟨q, hq⟩ | hq
      · rw [hq]
        simp only [Except.bind]
        rw [nsFold_err tbl _ _ h]
      · rw [hq]
        rfl

theorem mem_foldl_upsert {α β : Type} [DecidableEq α] :
    ∀ (l acc : List (α × β)) (e : α × β),
      e ∈ l.foldl (fun a kv => upsert a kv.1 kv.2) acc → e ∈ acc ∨ e ∈ l
  | [], acc, e, h => Or.inl h
  | kv :: rest, acc, e, h => by
    simp only [List.foldl] at h
    rcases mem_foldl_upsert rest (upsert acc kv.1 kv.2) e h with h1 | h1
    · rcases mem_upsert h1 with h2 | h2
      · exact .inl h2
      · right
        rw [h2]
        exact List.mem_cons_self _ _
    · right
      exact List.mem_cons_of_mem _ h1

theorem keys_foldl_upsert_sup {α β : Type} [DecidableEq α] :
    ∀ (l acc : List (α × β)) (p : α),
      p ∈ keys acc → p ∈ keys (l.foldl (fun a kv => upsert a kv.1 kv.2) acc)
  | [], _, _, h => h
  | kv :: rest, acc, p, h => by
    simp only [List.foldl]
    exact keys_foldl_upsert_sup rest _ p (keys_upsert_sup _ _ _ _ h)

theorem keys_foldl_upsert_of_mem {α β : Type} [DecidableEq α] :
    ∀ (l acc : List (α × β)) (p : α),
      p ∈ keys l → p ∈ keys (l.foldl (fun a kv => upsert a kv.1 kv.2) acc)
  | [], _, _, h => by simp [keys] at h
  | kv :: rest, acc, p, h => by
    simp only [List.foldl]
    rcases (by simpa [keys] using h : p = kv.1 ∨ p ∈ keys rest) with h1 | h1
    · rw [h1]
      exact keys_foldl_upsert_sup rest _ _ (keys_upsert_self _ _ _)
    · exact keys_foldl_upsert_of_mem rest _ p h1

theorem mem_pyDict {α β : Type} [DecidableEq α] {l : List (α × β)} {e : α × β}
    (h : e ∈ pyDict l) : e ∈ l := by
  rcases mem_foldl_upsert l [] e h with h1 | h1
  · simp at h1
  · exact h1

theorem keys_pyDict_iff {α β : Type} [DecidableEq α] (l : List (α × β)) (p : α) :
    p ∈ keys (pyDict l) ↔ p ∈ keys l := by
  constructor
  · intro h
    obtain ⟨e, he, hep⟩ := List.mem_map.mp h
    exact hep ▸ List.mem_map.mpr ⟨e, mem_pyDict he, rfl⟩
  · intro h
    exact keys_foldl_upsert_of_mem l [] p h

theorem pyDict_rawKey_iff (l : Attrs) :
    (∃ kv ∈ pyDict l, kv.1.isRaw = true) ↔ (∃ kv ∈ l, kv.1.isRaw = true) := by
  constructor
  · rintro ⟨kv, hm, hr⟩
    exact ⟨kv, mem_pyDict hm, hr⟩
  · rintro ⟨kv, hm, hr⟩
    have hk : kv.1 ∈ keys (pyDict l) :=
      (keys_pyDict_iff l kv.1).mpr (List.mem_map.mpr ⟨kv, hm, rfl⟩)
    obtain ⟨e, he, hep⟩ := List.mem_map.mp hk
    exact ⟨e, he, by rw [hep]; exact hr⟩

theorem extIdentE_err_iff (tbl : NsTable) (r : ProvRecordM) :
    extIdentE tbl r = .error .invalidProvRecord ↔
      ∃ s, r.identifier = some (.raw s) ∧ validQualifiedName tbl s = none := by
  constructor
  · intro h
    cases hrid : r.identifier with
    | none => rw [extIdentE, hrid] at h; simp at h
    | some i =>
      cases i with
      | qn q => rw [extIdentE, hrid] at h; simp at h
      | raw s =>
        refine ⟨s, rfl, ?_⟩
        have hext : extIdentE tbl r =
            (match validQualifiedName tbl s with
             | some q => Except.ok q
             | none => Except.error .invalidProvRecord) := by
          rw [extIdentE, hrid]
        rw [hext] at h
        rcases hv : validQualifiedName tbl s with - | q
        · rfl
        · rw [hv] at h; simp at h
  · rintro ⟨s, hrid, hv⟩
    have hext : extIdentE tbl r =
        (match validQualifiedName tbl s with
         | some q => Except.ok q
         | none => Except.error .invalidProvRecord) := by
      rw [extIdentE, hrid]
    rw [hext, hv]

/-! ### Claim C6 -/

/-- C6: metadata extraction fails with `InvalidArgumentType` exactly when the
input is not a prov record, and fails with `InvalidProvRecord` exactly when
the record's identifier cannot be resolved to a qualified name or some
attribute key is not a qualified name; in particular the identifier
`"not:a:resolvable:value"` with no matching namespace raises
`InvalidProvRecord`. -/
theorem claim6_extraction_error_taxonomy (tbl : NsTable) (inp : MetaInput) :
    (getMetadataAndAttributesForRecord tbl inp = .error .invalidArgumentType ↔
      inp = .notARecord) ∧
    (getMetadataAndAttributesForRecord tbl inp = .error .invalidProvRecord ↔
      ∃ r, inp = .record r ∧
        ((∃ s, r.identifier = some (.raw s) ∧ validQualifiedName tbl s = none) ∨
          ∃ kv ∈ r.attributes, kv.1.isRaw = true)) ∧
    getMetadataAndAttributesForRecord []
        (.record (.element .entity (some (.raw "not:a:resolvable:value")) [])) =
      .error .invalidProvRecord := by
  refine ⟨getMeta_iat_iff tbl inp, ?_, by rfl⟩
  rw [getMeta_ipr_iff tbl inp]
  constructor
  · rintro ⟨r, rfl, h | h⟩
    · exact ⟨r, rfl, .inl ((extIdentE_err_iff tbl r).mp h)⟩
    · exact ⟨r, rfl, .inr ((pyDict_rawKey_iff r.attributes).mp h)⟩
  · rintro ⟨r, rfl, h | h⟩
    · exact ⟨r, rfl, .inl ((extIdentE_err_iff tbl r).mpr h)⟩
    · exact ⟨r, rfl, .inr ((pyDict_rawKey_iff r.attributes).mpr h)⟩

/-! ### Unknown-node lemmas -/

theorem extProvTypeT_plain (tbl : NsTable) (i : Option IdentVal) (a : Attrs) :
    extProvTypeT tbl (.plain i a) = provUnknownQn := by
  rw [extProvTypeT_eq]
  rfl

/-- Extraction of a bare `ProvRecord` carrying only an identifier. -/
theorem getMeta_plain (tbl : NsTable) (q : QualifiedName) :
    getMetadataAndAttributesForRecord tbl (.record (.plain (some (.qn q)) [])) =
      .ok ({ provType := provUnknownQn, identifier := q,
             namespaces := upsert [("prov", provUri)] q.pfx q.uri,
             typeMap := [] }, []) := by
  have h := @getMeta_ok_eq tbl (ProvRecordM.plain (some (IdentVal.qn q)) []) q rfl
    (by simp [pyDict, ProvRecordM.attributes])
  rw [h]
  rw [extProvTypeT_plain]
  rfl

theorem unknownIdentStr (n : Nat) :
    "prov:Unknown-" ++ natStr n = "prov:" ++ ("Unknown-" ++ natStr n) := by
  apply String.ext
  simp

/-- The qualified name of the `n`-th synthesized Unknown node. -/
def unknownQnOf (n : Nat) : QualifiedName := ⟨"prov", provUri, "Unknown-" ++ natStr n⟩

/-- The stored node the `n`-th `_create_unknown_node` call produces. -/
def unknownDbRecord (bundleId n : Nat) : DbRecord :=
  ⟨bundleId, [],
   ⟨qnString provUnknownQn, qnString (unknownQnOf n), [("prov", provUri)], []⟩⟩

theorem createUnknownNode_eq (s : AdapterState) (bundleId : Nat) :
    createUnknownNode s bundleId =
      ({ s with
          ctr := s.ctr + 1,
          records := s.records ++ [unknownDbRecord bundleId s.ctr],
          trace := s.trace ++
            [Op.saveRecord bundleId (qnString (unknownQnOf s.ctr))
              (qnString provUnknownQn)] },
       unknownQnOf s.ctr) := by
  simp only [createUnknownNode]
  rw [unknownIdentStr, vqn_provPrefixed]
  simp only [Option.getD]
  rw [getMeta_plain]
  rfl

theorem qnString_provUnknown : qnString provUnknownQn = "prov:Unknown" := rfl

/-- Distinct Unknown counters give distinct stored identifiers. -/
theorem unknownQnOf_injective {m n : Nat} (h : unknownQnOf m = unknownQnOf n) :
    m = n := by
  have h1 : "Unknown-" ++ natStr m = "Unknown-" ++ natStr n := by
    have := congrArg QualifiedName.localPart h
    simpa [unknownQnOf] using this
  have h2 : natStr m = natStr n := by
    apply String.ext
    have := congrArg String.data h1
    simpa using this
  exact natStr_injective h2

/-! ### Targeted inversions of extraction and reconstruction -/

/-- Inversion of successful extraction. -/
theorem getMeta_ok_inv {tbl : NsTable} {r : ProvRecordM} {md : Metadata} {ats : Attrs}
    (h : getMetadataAndAttributesForRecord tbl (.record r) = .ok (md, ats)) :
    md.provType = extProvTypeT tbl r ∧ extIdentE tbl r = .ok md.identifier ∧
      ats = pyDict r.attributes ∧
      md.typeMap = (pyDict r.attributes).foldl typeStep [] ∧
      md.namespaces = (pyDict r.attributes).foldl (nsStepPure tbl)
        (upsert (upsert [] (extProvTypeT tbl r).pfx (extProvTypeT tbl r).uri)
          md.identifier.pfx md.identifier.uri) := by
  rw [getMeta_eq_bind] at h
  rcases extIdentE_cases tbl r with ⟨q, hq⟩ | hq
  · rw [hq] at h
    simp only [Except.bind] at h
    by_cases hk : ∀ kv ∈ pyDict r.attributes, kv.1.isRaw = false
    · rw [nsFold_ok tbl _ _ hk] at h
      have h2 := h
      injection h2 with h3
      injection h3 with h4 h5
      constructor
      · rw [← h4]
      constructor
      · rw [hq, ← h4]
      constructor
      · rw [← h5]
      constructor
      · rw [← h4]
      · rw [← h4]
    · push_neg at hk
      obtain ⟨kv, hm, hr⟩ := hk
      rw [nsFold_err tbl _ _ ⟨kv, hm, by simpa using hr⟩] at h
      simp at h
  · rw [hq] at h
    simp only [Except.bind] at h
    simp at h

theorem recordCtorOfType_elim {t : QualifiedName} {c : Sum ElemKind RelKind}
    (h : recordCtorOfType t = some c) :
    (∃ ek, c = .inl ek ∧ ek.typeQn = t) ∨ (∃ rk, c = .inr rk ∧ rk.typeQn = t) := by
  unfold recordCtorOfType at h
  split_ifs at h with h1 h2 h3 h4 h5 h6 h7 h8 <;> simp at h
  · exact .inl ⟨_, h.symm, h1.symm⟩
  · exact .inl ⟨_, h.symm, h2.symm⟩
  · exact .inl ⟨_, h.symm, h3.symm⟩
  · exact .inr ⟨_, h.symm, h4.symm⟩
  · exact .inr ⟨_, h.symm, h5.symm⟩
  · exact .inr ⟨_, h.symm, h6.symm⟩
  · exact .inr ⟨_, h.symm, h7.symm⟩
  · exact .inr ⟨_, h.symm, h8.symm⟩

/-- The reconstructor skips any stored record whose type is `prov:Unknown`,
touching neither the namespace registry nor the record list. -/
theorem parseRecord_skip_unknown (base : NsTable) (ctx : ParseCtx) (raw : RawRecord)
    (h : raw.metadata.provType = "prov:Unknown") :
    parseRecord base ctx raw = .ok ctx := by
  unfold parseRecord
  rw [h, vqn_prov_unknown]
  simp

/-- Inversion of reconstruction with no stored identifier. -/
theorem createProvRecord_none_inv {tbl : NsTable} {t : QualifiedName}
    {attrs tm : List (String × String)} {rec : ProvRecordM}
    (h : createProvRecord tbl t none attrs tm = .ok rec) :
    rec.identifier = none ∧ rec.getType = some t := by
  unfold createProvRecord at h
  rcases hc : recordCtorOfType t with - | c
  · rw [hc] at h
    simp at h
  · rw [hc] at h
    rcases recordCtorOfType_elim hc with ⟨ek, rfl, htq⟩ | ⟨rk, rfl, htq⟩
    · simp only [] at h
      rcases hd : decodeAttrs tbl tm attrs with e | decoded
      · rw [hd] at h
        simp at h
      · rw [hd] at h
        simp only [] at h
        rw [Except.ok.injEq] at h
        rw [← h]
        exact ⟨rfl, by simp [ProvRecordM.getType, htq]⟩
    · simp only [] at h
      rcases hd : decodeAttrs tbl tm
          (attrs.filter (fun kv => decide (kv.1 ∉ formalKeyStrs rk))) with e | decoded
      · rw [hd] at h
        simp at h
      · rw [hd] at h
        simp only [] at h
        rw [Except.ok.injEq] at h
        rw [← h]
        exact ⟨rfl, by simp [ProvRecordM.getType, htq]⟩

/-! ### Claim C3 -/

/-- C3: for a relation whose "to" endpoint qualified name is absent (and whose
"from" endpoint is present), materialization saves exactly one placeholder
node, stored with type `prov:Unknown`; and the reconstructor drops every
stored record of that type, so the placeholder never appears in the
reconstructed document. -/
theorem claim3_unknown_endpoint_synthesis :
    (∀ (tbl : NsTable) (s : AdapterState) (fC tC : Nat) (k : RelKind)
        (id : Option IdentVal) (fq : QualifiedName) (mb : Option QualifiedName)
        (a : Attrs),
      (createRelation tbl s fC tC (.relation k id (some fq) none mb a)).1.records =
        s.records ++ [unknownDbRecord tC s.ctr] ∧
      (unknownDbRecord tC s.ctr).metadata.provType = "prov:Unknown") ∧
    (∀ (base : NsTable) (ctx : ParseCtx) (raw : RawRecord),
      raw.metadata.provType = "prov:Unknown" → parseRecord base ctx raw = .ok ctx) := by
  constructor
  · intro tbl s fC tC k id fq mb a
    refine ⟨?_, rfl⟩
    simp only [createRelation]
    rw [createUnknownNode_eq]
    match hm : getMetadataAndAttributesForRecord tbl
        (.record (.relation k id (some fq) none mb a)) with
    | .ok ma => simp [adapterSaveRelation]
    | .error e => simp
  · exact parseRecord_skip_unknown

/-! ### Claim C10 -/

/-- C10: a relation with both endpoints absent produces two placeholder nodes
with distinct fresh identifiers (each `_create_unknown_node` call produces
exactly one new record named by a fresh counter value). -/
theorem claim10_distinct_placeholders (tbl : NsTable) (s : AdapterState)
    (fC tC : Nat) (k : RelKind) (id : Option IdentVal) (mb : Option QualifiedName)
    (a : Attrs) :
    (createRelation tbl s fC tC (.relation k id none none mb a)).1.records =
      s.records ++ [unknownDbRecord fC s.ctr, unknownDbRecord tC (s.ctr + 1)] ∧
    (unknownDbRecord fC s.ctr).metadata.identifier ≠
      (unknownDbRecord tC (s.ctr + 1)).metadata.identifier ∧
    (unknownDbRecord fC s.ctr).metadata.provType = "prov:Unknown" ∧
    (unknownDbRecord tC (s.ctr + 1)).metadata.provType = "prov:Unknown" := by
  refine ⟨?_, ?_, rfl, rfl⟩
  · simp only [createRelation]
    rw [createUnknownNode_eq]
    rw [createUnknownNode_eq]
    match hm : getMetadataAndAttributesForRecord tbl
        (.record (.relation k id none none mb a)) with
    | .ok ma => simp [adapterSaveRelation]
    | .error e => simp
  · intro h
    have h1 : qnString (unknownQnOf s.ctr) = qnString (unknownQnOf (s.ctr + 1)) := h
    have h2 : unknownQnOf s.ctr = unknownQnOf (s.ctr + 1) := by
      have hd := congrArg String.data h1
      rw [qnString_data, qnString_data] at hd
      simp only [unknownQnOf] at hd ⊢
      have hl := List.append_cancel_left hd
      have hl2 : ("Unknown-" ++ natStr s.ctr : String).data =
          ("Unknown-" ++ natStr (s.ctr + 1) : String).data := by
        injection hl
      rw [String.ext hl2]
    have := unknownQnOf_injective h2
    omega

/-! ### Claim C5 -/

/-- C5: a relation with no explicit identifier is stored under its type as
identifier, and reconstruction restores `identifier = None` (with the type
preserved) whenever the stored identifier equals the stored type. -/
theorem claim5_anonymous_relation_convention :
    (∀ (tbl : NsTable) (k : RelKind) (f t mb : Option QualifiedName) (a : Attrs)
        (md : Metadata) (ats : Attrs),
      getMetadataAndAttributesForRecord tbl (.record (.relation k none f t mb a)) =
        .ok (md, ats) → md.identifier = md.provType) ∧
    (∀ (base : NsTable) (ctx : ParseCtx) (raw : RawRecord) (ctx' : ParseCtx),
      raw.metadata.identifier = raw.metadata.provType →
      parseRecord base ctx raw = .ok ctx' →
      ctx'.recs = ctx.recs ∨ ∃ rec tq,
        validQualifiedName (base ++ ctx.reg) raw.metadata.provType = some tq ∧
        ctx'.recs = ctx.recs ++ [rec] ∧ rec.identifier = none ∧
        rec.getType = some tq) := by
  constructor
  · intro tbl k f t mb a md ats h
    obtain ⟨hpt, hid, -, -, -⟩ := getMeta_ok_inv h
    have : extIdentE tbl (.relation k none f t mb a) =
        .ok (extProvTypeT tbl (.relation k none f t mb a)) := rfl
    rw [this] at hid
    injection hid with h1
    rw [← h1, hpt]
  · intro base ctx raw ctx' hidty h
    unfold parseRecord at h
    rcases ht : validQualifiedName (base ++ ctx.reg) raw.metadata.provType with - | tq
    · rw [ht] at h
      simp at h
    · rw [ht] at h
      simp only [] at h
      by_cases hu : tq = (validQualifiedName (base ++ ctx.reg) "prov:Unknown").getD provUnknownQn
      · rw [if_pos hu] at h
        left
        injection h with h1
        rw [← h1]
      · rw [if_neg hu] at h
        by_cases hb : alookup raw.attributes (qnString PROV_LABEL) = some "belongsToBundle"
        · rw [if_pos hb] at h
          left
          injection h with h1
          rw [← h1]
        · rw [if_neg hb] at h
          right
          rw [hidty, ht] at h
          rw [if_pos rfl] at h
          rcases hcr : createProvRecord
              (base ++ addNamespacesToBundle ctx.reg raw.metadata.namespaces) tq none
              raw.attributes raw.metadata.typeMap with e | rec
          · rw [hcr] at h
            simp at h
          · rw [hcr] at h
            obtain ⟨hidn, hty⟩ := createProvRecord_none_inv hcr
            refine ⟨rec, tq, rfl, ?_, hidn, hty⟩
            injection h with h1
            rw [← h1]

/-! ### Concrete documents used to exercise the pipeline -/

def exUri : String := "http://example.org/"

def exQn (l : String) : QualifiedName := ⟨"ex", exUri, l⟩

/-- A document whose only top-level record is a mention link into its two
bundles. -/
def exDocTopMention : ProvDocumentM :=
  { namespaces := [("ex", exUri)],
    records := [.relation .mention none (some (exQn "e1")) (some (exQn "e2"))
      (some (exQn "b2")) []],
    bundles := [⟨exQn "b1", [.element .entity (some (.qn (exQn "e1"))) []]⟩,
                ⟨exQn "b2", [.element .entity (some (.qn (exQn "e2"))) []]⟩] }

/-- The same scenario with the mention link placed inside bundle `b1`. -/
def exDocBundleMention : ProvDocumentM :=
  { namespaces := [("ex", exUri)],
    records := [],
    bundles := [⟨exQn "b1",
                  [.element .entity (some (.qn (exQn "e1"))) [],
                   .relation .mention none (some (exQn "e1")) (some (exQn "e2"))
                     (some (exQn "b2")) []]⟩,
                ⟨exQn "b2", [.element .entity (some (.qn (exQn "e2"))) []]⟩] }

/-- A bundle whose mention link names a bundle absent from the document. -/
def exDocDanglingMention : ProvDocumentM :=
  { namespaces := [("ex", exUri)],
    records := [],
    bundles := [⟨exQn "b1",
      [.relation .mention none (some (exQn "e1")) (some (exQn "e2"))
        (some (exQn "nope")) []]⟩] }

/-! ### Claim C2 -/

/-- C2 counterexample: the document with the `mentionOf(e1, e2, b2)` relation
at top level materializes successfully but produces no mention edge at all —
top-level mention links are skipped in pass 1 and never revisited, because
pass 2 only walks the bundles. -/
theorem claim2_counterexample :
    (createDocument exDocTopMention).2 = .ok 0 ∧
    (createDocument exDocTopMention).1.relations.filter
      (fun r => r.metadata.provType == "prov:Mention") = [] ∧
    (createDocument exDocTopMention).1.trace =
      [Op.saveDocument 0,
       Op.saveBundle 0 1 "prov:bundle:ex:b1" "prov:Bundle",
       Op.saveRecord 1 "ex:e1" "prov:Entity",
       Op.saveRelation 1 "ex:e1" 0 "prov:bundle:ex:b1" "prov:Association",
       Op.saveBundle 0 2 "prov:bundle:ex:b2" "prov:Bundle",
       Op.saveRecord 2 "ex:e2" "prov:Entity",
       Op.saveRelation 2 "ex:e2" 0 "prov:bundle:ex:b2" "prov:Association"] :=
  ⟨rfl, rfl, rfl⟩

/-- C2 amended: with the `mentionOf(e1, e2, b2)` relation contained in bundle
`b1`, materialization produces exactly one cross-bundle mention edge, joining
the two bundle containers issued in pass 1 (ids 1 and 2), and saves it only
after both `save_bundle` calls and all pass-1 content. -/
theorem claim2_amended_bundle_mention :
    (createDocument exDocBundleMention).2 = .ok 0 ∧
    ((createDocument exDocBundleMention).1.relations.filter
      (fun r => r.metadata.provType == "prov:Mention")).map
        (fun r => (r.fromContainer, r.toContainer)) = [(1, 2)] ∧
    (createDocument exDocBundleMention).1.trace =
      [Op.saveDocument 0,
       Op.saveBundle 0 1 "prov:bundle:ex:b1" "prov:Bundle",
       Op.saveRecord 1 "ex:e1" "prov:Entity",
       Op.saveRelation 1 "ex:e1" 0 "prov:bundle:ex:b1" "prov:Association",
       Op.saveBundle 0 2 "prov:bundle:ex:b2" "prov:Bundle",
       Op.saveRecord 2 "ex:e2" "prov:Entity",
       Op.saveRelation 2 "ex:e2" 0 "prov:bundle:ex:b2" "prov:Association",
       Op.saveRelation 1 "ex:e1" 2 "ex:e2" "prov:Mention"] :=
  ⟨rfl, rfl, rfl⟩

/-! ### Witnesses for the claims with hypotheses -/

def exCtx0 : ParseCtx := ⟨[], []⟩

theorem claim3_witness :
    (createRelation [] initialState 0 0
        (.relation .usage none (some (provQn "x")) none none [])).1.records =
      initialState.records ++ [unknownDbRecord 0 0] ∧
    (unknownDbRecord 0 0).metadata.provType = "prov:Unknown" ∧
    parseRecord [] exCtx0 (unknownDbRecord 0 0).toRaw = .ok exCtx0 :=
  ⟨(claim3_unknown_endpoint_synthesis.1 [] initialState 0 0 .usage none
      (provQn "x") none []).1,
   (claim3_unknown_endpoint_synthesis.1 [] initialState 0 0 .usage none
      (provQn "x") none []).2,
   claim3_unknown_endpoint_synthesis.2 [] exCtx0 (unknownDbRecord 0 0).toRaw rfl⟩

def exMdUsage : Metadata :=
  { provType := provQn "Usage", identifier := provQn "Usage",
    namespaces := [("prov", provUri)], typeMap := [] }

def exRawAnonUsage : RawRecord :=
  ⟨⟨"prov:Usage", "prov:Usage", [("prov", provUri)], []⟩, []⟩

def exCtxUsage : ParseCtx :=
  ⟨[("prov", provUri)], [.relation .usage none none none none []]⟩

theorem claim5_witness :
    exMdUsage.identifier = exMdUsage.provType ∧
    (exCtxUsage.recs = exCtx0.recs ∨ ∃ rec tq,
      validQualifiedName ([] ++ exCtx0.reg) exRawAnonUsage.metadata.provType = some tq ∧
      exCtxUsage.recs = exCtx0.recs ++ [rec] ∧ rec.identifier = none ∧
      rec.getType = some tq) :=
  ⟨claim5_anonymous_relation_convention.1 [] .usage none none none []
      exMdUsage [] rfl,
   claim5_anonymous_relation_convention.2 [] exCtx0 exRawAnonUsage exCtxUsage rfl rfl⟩

/-! ### Error taxonomy of the two public entry points (claim C7)

Every error any phase can produce is walked through the pipeline. -/

theorem getMeta_err_mem {tbl : NsTable} {inp : MetaInput} {e : ProvError}
    (h : getMetadataAndAttributesForRecord tbl inp = .error e) :
    e = .invalidArgumentType ∨ e = .invalidProvRecord := by
  cases inp with
  | notARecord =>
    left
    rw [show getMetadataAndAttributesForRecord tbl .notARecord =
      Except.error .invalidArgumentType from rfl] at h
    injection h with h1
    exact h1.symm
  | record r =>
    rw [getMeta_eq_bind] at h
    rcases extIdentE_cases tbl r with ⟨q, hq⟩ | hq
    · rw [hq] at h
      simp only [Except.bind] at h
      rcases nsFold_cases tbl (pyDict r.attributes)
        (upsert (upsert [] (extProvTypeT tbl r).pfx (extProvTypeT tbl r).uri)
          q.pfx q.uri) with ⟨ns, hns⟩ | hns
      · rw [hns] at h
        simp at h
      · rw [hns] at h
        right
        injection h with h1
        exact h1.symm
    · rw [hq] at h
      simp only [Except.bind] at h
      right
      injection h with h1
      exact h1.symm

theorem createRelation_err {tbl : NsTable} {s : AdapterState} {fC tC : Nat}
    {r : ProvRecordM} {s' : AdapterState} {e : ProvError}
    (h : createRelation tbl s fC tC r = (s', .error e)) :
    e = .invalidArgumentType ∨ e = .invalidProvRecord := by
  cases r with
  | relation k id f t mb a =>
    simp only [createRelation] at h
    rcases hm : getMetadataAndAttributesForRecord tbl
        (.record (.relation k id f t mb a)) with e' | ma
    · rw [hm] at h
      have h2 := congrArg Prod.snd h
      simp at h2
      rw [← h2]
      exact getMeta_err_mem hm
    · rw [hm] at h
      have h2 := congrArg Prod.snd h
      simp at h2
  | element k i a =>
    simp only [createRelation] at h
    have h2 := congrArg Prod.snd h
    simp at h2
    left
    exact h2.symm
  | plain i a =>
    simp only [createRelation] at h
    have h2 := congrArg Prod.snd h
    simp at h2
    left
    exact h2.symm
  | bundleRec i a =>
    simp only [createRelation] at h
    have h2 := congrArg Prod.snd h
    simp at h2
    left
    exact h2.symm

theorem saveElementList_err {tbl : NsTable} {c : Nat} :
    ∀ {l : List ProvRecordM} {s s' : AdapterState} {e : ProvError},
      saveElementList tbl c s l = (s', .error e) →
      e = .invalidArgumentType ∨ e = .invalidProvRecord
  | [], s, s', e, h => by
    rw [saveElementList] at h
    have h2 := congrArg Prod.snd h
    simp at h2
  | r :: rest, s, s', e, h => by
    rw [saveElementList] at h
    rcases hm : getMetadataAndAttributesForRecord tbl (.record r) with e' | ma
    · rw [hm] at h
      have h2 := congrArg Prod.snd h
      simp at h2
      rw [← h2]
      exact getMeta_err_mem hm
    · rw [hm] at h
      exact saveElementList_err h

theorem saveRelationList_err {tbl : NsTable} {c : Nat} :
    ∀ {l : List ProvRecordM} {s s' : AdapterState} {e : ProvError},
      saveRelationList tbl c s l = (s', .error e) →
      e = .invalidArgumentType ∨ e = .invalidProvRecord
  | [], s, s', e, h => by
    rw [saveRelationList] at h
    have h2 := congrArg Prod.snd h
    simp at h2
  | r :: rest, s, s', e, h => by
    rw [saveRelationList] at h
    by_cases hmn : r.isMention
    · rw [if_pos hmn] at h
      exact saveRelationList_err h
    · rw [if_neg hmn] at h
      rcases hc : createRelation tbl s c c r with ⟨s1, res⟩
      rw [hc] at h
      cases res with
      | ok u => exact saveRelationList_err h
      | error e' =>
        have h2 := congrArg Prod.snd h
        simp at h2
        rw [← h2]
        exact createRelation_err hc

theorem createBundle_err {tbl : NsTable} {s : AdapterState} {c : Nat}
    {l : List ProvRecordM} {s' : AdapterState} {e : ProvError}
    (h : createBundle tbl s c l = (s', .error e)) :
    e = .invalidArgumentType ∨ e = .invalidProvRecord := by
  unfold createBundle at h
  rcases he : saveElementList tbl c s (l.filter ProvRecordM.isElement) with ⟨s1, res⟩
  rw [he] at h
  cases res with
  | ok u => exact saveRelationList_err h
  | error e' =>
    have h2 := congrArg Prod.snd h
    simp at h2
    rw [← h2]
    exact saveElementList_err he

theorem saveAssocList_err {tbl : NsTable} {docId bundleId : Nat}
    {bq : QualifiedName} {bm : Metadata} {ba : Attrs} :
    ∀ {l : List ProvRecordM} {s s' : AdapterState} {e : ProvError},
      saveAssocList tbl docId bundleId bq bm ba s l = (s', .error e) →
      e = .invalidArgumentType ∨ e = .invalidProvRecord
  | [], s, s', e, h => by
    rw [saveAssocList] at h
    have h2 := congrArg Prod.snd h
    simp at h2
  | r :: rest, s, s', e, h => by
    rw [saveAssocList] at h
    rcases hm : getMetadataAndAttributesForRecord tbl (.record r) with e' | ma
    · rw [hm] at h
      have h2 := congrArg Prod.snd h
      simp at h2
      rw [← h2]
      exact getMeta_err_mem hm
    · rw [hm] at h
      exact saveAssocList_err h

theorem createBundleAssociation_err {tbl : NsTable} {s : AdapterState}
    {docId bundleId : Nat} {bq : QualifiedName} {l : List ProvRecordM}
    {s' : AdapterState} {e : ProvError}
    (h : createBundleAssociation tbl s docId bundleId bq l = (s', .error e)) :
    e = .invalidArgumentType ∨ e = .invalidProvRecord := by
  unfold createBundleAssociation at h
  rcases hm : getMetadataAndAttributesForRecord tbl
      (.record (.relation .association none none none none
        [(AttrKey.qnKey PROV_LABEL, AttrValue.str "belongsToBundle")])) with e' | ma
  · rw [hm] at h
    have h2 := congrArg Prod.snd h
    simp at h2
    rw [← h2]
    exact getMeta_err_mem hm
  · rw [hm] at h
    exact saveAssocList_err h

theorem saveMentionList_err {tbl : NsTable} {fromId : Nat}
    {m : List (QualifiedName × Nat)} :
    ∀ {l : List ProvRecordM} {s s' : AdapterState} {e : ProvError},
      saveMentionList tbl fromId m s l = (s', .error e) →
      e = .invalidArgumentType ∨ e = .invalidProvRecord ∨ e = .keyError
  | [], s, s', e, h => by
    rw [saveMentionList] at h
    have h2 := congrArg Prod.snd h
    simp at h2
  | r :: rest, s, s', e, h => by
    cases r with
    | relation k id f t mb a =>
      cases mb with
      | none =>
        rw [saveMentionList] at h
        by_cases hmn : (ProvRecordM.relation k id f t none a).isMention
        · rw [if_pos hmn] at h
          have h2 := congrArg Prod.snd h
          simp at h2
          right; right
          exact h2.symm
        · rw [if_neg hmn] at h
          exact saveMentionList_err h
      | some toB =>
        rw [saveMentionList] at h
        by_cases hmn : (ProvRecordM.relation k id f t (some toB) a).isMention
        · rw [if_pos hmn] at h
          rcases hl : alookup m toB with - | toId
          · rw [hl] at h
            have h2 := congrArg Prod.snd h
            simp at h2
            right; right
            exact h2.symm
          · rw [hl] at h
            simp only [] at h
            rcases hc : createRelation tbl s fromId toId
                (.relation k id f t (some toB) a) with ⟨s1, res⟩
            rw [hc] at h
            cases res with
            | ok u =>
              simp only [] at h
              exact saveMentionList_err h
            | error e' =>
              simp only [] at h
              have h2 := congrArg Prod.snd h
              simp at h2
              rw [← h2]
              rcases createRelation_err hc with h3 | h3
              · exact .inl h3
              · exact .inr (.inl h3)
        · rw [if_neg hmn] at h
          exact saveMentionList_err h
    | element k i a =>
      rw [saveMentionList] at h
      rw [if_neg (by simp [ProvRecordM.isMention])] at h
      exact saveMentionList_err h
    | plain i a =>
      rw [saveMentionList] at h
      rw [if_neg (by simp [ProvRecordM.isMention])] at h
      exact saveMentionList_err h
    | bundleRec i a =>
      rw [saveMentionList] at h
      rw [if_neg (by simp [ProvRecordM.isMention])] at h
      exact saveMentionList_err h

theorem createBundleLinks_err {tbl : NsTable} {s : AdapterState}
    {m : List (QualifiedName × Nat)} {b : DocBundleM} {s' : AdapterState}
    {e : ProvError}
    (h : createBundleLinks tbl s m b = (s', .error e)) :
    e = .invalidArgumentType ∨ e = .invalidProvRecord ∨ e = .keyError := by
  unfold createBundleLinks at h
  rcases hl : alookup m b.identifier with - | fromId
  · rw [hl] at h
    have h2 := congrArg Prod.snd h
    simp at h2
    right; right
    exact h2.symm
  · rw [hl] at h
    exact saveMentionList_err h

theorem bundlePass1_err {tbl : NsTable} {docId : Nat} :
    ∀ {bs : List DocBundleM} {s s' : AdapterState}
      {m m' : List (QualifiedName × Nat)} {e : ProvError},
      bundlePass1 tbl docId s bs m = (s', m', .error e) →
      e = .invalidArgumentType ∨ e = .invalidProvRecord
  | [], s, s', m, m', e, h => by
    rw [bundlePass1] at h
    have h2 := congrArg (fun x => x.2.2) h
    simp at h2
  | b :: rest, s, s', m, m', e, h => by
    rw [bundlePass1] at h
    rcases hm : getMetadataAndAttributesForRecord tbl
        (.record (.bundleRec (some (.qn ((validQualifiedName tbl
          (PROV_API_BUNDLE_IDENTIFIER_PREFIX ++ qnString b.identifier)).getD
            provUnknownQn)))
          [(AttrKey.qnKey provBundleNameKey, AttrValue.qn b.identifier)])) with e' | ma
    · rw [hm] at h
      have h2 := congrArg (fun x => x.2.2) h
      simp at h2
      rw [← h2]
      exact getMeta_err_mem hm
    · rw [hm] at h
      simp only [] at h
      rcases hb : createBundle tbl
          (adapterSaveBundle s docId ma.2 ma.1).1
          (adapterSaveBundle s docId ma.2 ma.1).2 b.records with ⟨s2, res2⟩
      rw [hb] at h
      cases res2 with
      | error e2 =>
        simp only [] at h
        have h2 := congrArg (fun x => x.2.2) h
        simp at h2
        rw [← h2]
        exact createBundle_err hb
      | ok u =>
        simp only [] at h
        rcases ha : createBundleAssociation tbl s2 docId
            (adapterSaveBundle s docId ma.2 ma.1).2
            ((validQualifiedName tbl
              (PROV_API_BUNDLE_IDENTIFIER_PREFIX ++ qnString b.identifier)).getD
                provUnknownQn) b.records with ⟨s3, res3⟩
        rw [ha] at h
        cases res3 with
        | error e3 =>
          simp only [] at h
          have h2 := congrArg (fun x => x.2.2) h
          simp at h2
          rw [← h2]
          exact createBundleAssociation_err ha
        | ok u2 =>
          simp only [] at h
          exact bundlePass1_err h

theorem bundlePass2_err {tbl : NsTable} :
    ∀ {bs : List DocBundleM} {s s' : AdapterState}
      {m : List (QualifiedName × Nat)} {e : ProvError},
      bundlePass2 tbl s m bs = (s', .error e) →
      e = .invalidArgumentType ∨ e = .invalidProvRecord ∨ e = .keyError
  | [], s, s', m, e, h => by
    rw [bundlePass2] at h
    have h2 := congrArg Prod.snd h
    simp at h2
  | b :: rest, s, s', m, e, h => by
    rw [bundlePass2] at h
    rcases hl : createBundleLinks tbl s m b with ⟨s1, res⟩
    rw [hl] at h
    cases res with
    | ok u => exact bundlePass2_err h
    | error e' =>
      have h2 := congrArg Prod.snd h
      simp at h2
      rw [← h2]
      exact createBundleLinks_err hl

theorem createDocument_err {d : ProvDocumentM} {e : ProvError}
    (h : (createDocument d).2 = .error e) :
    e = .invalidArgumentType ∨ e = .invalidProvRecord ∨ e = .keyError := by
  unfold createDocument at h
  rcases hb : createBundle d.namespaces (adapterSaveDocument initialState).1
      (adapterSaveDocument initialState).2 d.records with ⟨s2, res⟩
  rw [hb] at h
  cases res with
  | error e1 =>
    simp at h
    rw [← h]
    rcases createBundle_err hb with h3 | h3
    · exact .inl h3
    · exact .inr (.inl h3)
  | ok u =>
    simp only [] at h
    rcases hp1 : bundlePass1 d.namespaces (adapterSaveDocument initialState).2
        s2 d.bundles [] with ⟨s3, m1, res1⟩
    rw [hp1] at h
    cases res1 with
    | error e1 =>
      simp at h
      rw [← h]
      rcases bundlePass1_err hp1 with h3 | h3
      · exact .inl h3
      · exact .inr (.inl h3)
    | ok u1 =>
      simp only [] at h
      rcases hp2 : bundlePass2 d.namespaces s3 m1 d.bundles with ⟨s4, res2⟩
      rw [hp2] at h
      cases res2 with
      | error e2 =>
        simp at h
        rw [← h]
        exact bundlePass2_err hp2
      | ok u2 => simp at h

theorem decodeAttr_err {tbl : NsTable} {typeMap : List (String × String)}
    {kv : String × String} {e : ProvError}
    (h : decodeAttr tbl typeMap kv = .error e) : e = .invalidArgumentType := by
  unfold decodeAttr at h
  rcases hv : validQualifiedName tbl kv.1 with - | kq
  · rw [hv] at h
    rw [throwEq] at h
    injection h with h1
    exact h1.symm
  · rw [hv] at h
    exact absurd h (by simp [pure, Except.pure])

theorem decodeAttrs_err {tbl : NsTable} {typeMap : List (String × String)} :
    ∀ {l : List (String × String)} {e : ProvError},
      decodeAttrs tbl typeMap l = .error e → e = .invalidArgumentType
  | [], e, h => by
    rw [decodeAttrs] at h
    exact Except.noConfusion h
  | kv :: rest, e, h => by
    rw [decodeAttrs] at h
    rcases hd : decodeAttr tbl typeMap kv with e' | d
    · rw [hd] at h
      injection h with h1
      rw [← h1]
      exact decodeAttr_err hd
    · rw [hd] at h
      rcases hds : decodeAttrs tbl typeMap rest with e' | ds
      · rw [hds] at h
        injection h with h1
        rw [← h1]
        exact decodeAttrs_err hds
      · rw [hds] at h
        exact Except.noConfusion h

theorem createProvRecord_err {tbl : NsTable} {t : QualifiedName}
    {ident : Option String} {attrs typeMap : List (String × String)}
    {e : ProvError}
    (h : createProvRecord tbl t ident attrs typeMap = .error e) :
    e = .invalidArgumentType := by
  unfold createProvRecord at h
  have hcore : ∀ iv : Option IdentVal,
      (match recordCtorOfType t with
       | none => Except.error ProvError.invalidArgumentType
       | some (.inl ek) =>
         match decodeAttrs tbl typeMap attrs with
         | .error e => .error e
         | .ok decoded => .ok (ProvRecordM.element ek iv decoded)
       | some (.inr rk) =>
         match decodeAttrs tbl typeMap
             (attrs.filter (fun kv => decide (kv.1 ∉ formalKeyStrs rk))) with
         | .error e => .error e
         | .ok decoded =>
           .ok (ProvRecordM.relation rk iv
             ((alookup attrs (qnString rk.fromKey)).bind (validQualifiedName tbl))
             ((alookup attrs (qnString rk.toKey)).bind (validQualifiedName tbl))
             (match rk with
              | .mention =>
                (alookup attrs (qnString mentionBundleKey)).bind
                  (validQualifiedName tbl)
              | _ => none)
             decoded)) = Except.error e →
      e = ProvError.invalidArgumentType := by
    intro iv hm
    rcases hc : recordCtorOfType t with - | ctor
    · rw [hc] at hm
      injection hm with h1
      exact h1.symm
    · rcases ctor with ek | rk
      · rw [hc] at hm
        simp only [] at hm
        rcases hd : decodeAttrs tbl typeMap attrs with e' | ds
        · rw [hd] at hm
          injection hm with h1
          rw [← h1]
          exact decodeAttrs_err hd
        · rw [hd] at hm
          exact Except.noConfusion hm
      · rw [hc] at hm
        simp only [] at hm
        rcases hd : decodeAttrs tbl typeMap
            (attrs.filter (fun kv => decide (kv.1 ∉ formalKeyStrs rk))) with e' | ds
        · rw [hd] at hm
          injection hm with h1
          rw [← h1]
          exact decodeAttrs_err hd
        · rw [hd] at hm
          exact Except.noConfusion hm
  cases ident with
  | none =>
    simp only [] at h
    exact hcore none h
  | some istr =>
    simp only [] at h
    rcases hv : validQualifiedName tbl istr with - | q
    · rw [hv] at h
      simp only [] at h
      injection h with h1
      exact h1.symm
    · rw [hv] at h
      simp only [] at h
      exact hcore (some (IdentVal.qn q)) h

theorem parseRecord_err {base : NsTable} {ctx : ParseCtx} {raw : RawRecord}
    {e : ProvError} (h : parseRecord base ctx raw = .error e) :
    e = .invalidArgumentType := by
  unfold parseRecord at h
  rcases hv : validQualifiedName (base ++ ctx.reg) raw.metadata.provType with - | pt
  · rw [hv] at h
    injection h with h1
    exact h1.symm
  · rw [hv] at h
    simp only [] at h
    by_cases h1 : pt =
        (validQualifiedName (base ++ ctx.reg) "prov:Unknown").getD provUnknownQn
    · rw [if_pos h1] at h
      exact Except.noConfusion h
    · rw [if_neg h1] at h
      by_cases h2 : alookup raw.attributes (qnString PROV_LABEL) =
          some "belongsToBundle"
      · rw [if_pos h2] at h
        exact Except.noConfusion h
      · rw [if_neg h2] at h
        rcases hc : createProvRecord
            (base ++ addNamespacesToBundle ctx.reg raw.metadata.namespaces) pt
            (if validQualifiedName (base ++ ctx.reg) raw.metadata.identifier =
                some pt
             then none else some raw.metadata.identifier)
            raw.attributes raw.metadata.typeMap with e' | rec
        · rw [hc] at h
          injection h with h1
          rw [← h1]
          exact createProvRecord_err hc
        · rw [hc] at h
          exact Except.noConfusion h

theorem parseRecords_err {base : NsTable} :
    ∀ {l : List RawRecord} {ctx : ParseCtx} {e : ProvError},
      parseRecords base ctx l = .error e → e = .invalidArgumentType
  | [], ctx, e, h => by
    rw [parseRecords] at h
    exact Except.noConfusion h
  | r :: rest, ctx, e, h => by
    rw [parseRecords] at h
    rcases hp : parseRecord base ctx r with e' | ctx1
    · rw [hp] at h
      injection h with h1
      rw [← h1]
      exact parseRecord_err hp
    · rw [hp] at h
      exact parseRecords_err h

theorem parseBundles_err {docReg : NsTable} :
    ∀ {l : List RawBundle} {acc : List DocBundleM} {e : ProvError},
      parseBundles docReg acc l = .error e → e = .invalidArgumentType
  | [], acc, e, h => by
    rw [parseBundles] at h
    exact Except.noConfusion h
  | b :: rest, acc, e, h => by
    rw [parseBundles] at h
    rcases hv : validQualifiedName docReg
        (strDropN PROV_API_BUNDLE_IDENTIFIER_PREFIX.data.length
          b.bundleRecord.metadata.identifier) with - | ident
    · rw [hv] at h
      injection h with h1
      exact h1.symm
    · rw [hv] at h
      simp only [] at h
      rcases hp : parseRecords docReg ⟨[], []⟩ b.records with e' | bctx
      · rw [hp] at h
        injection h with h1
        rw [← h1]
        exact parseRecords_err hp
      · rw [hp] at h
        exact parseBundles_err h

theorem getDocumentAsProv_err {s : AdapterState} {docId : Nat} {e : ProvError}
    (h : getDocumentAsProv s docId = .error e) : e = .invalidArgumentType := by
  unfold getDocumentAsProv at h
  rcases hp : parseRecords [] ⟨[], []⟩
      (adapterGetDocument s docId).documentRecords with e' | docCtx
  · rw [hp] at h
    injection h with h1
    rw [← h1]
    exact parseRecords_err hp
  · rw [hp] at h
    simp only [] at h
    rcases hb : parseBundles docCtx.reg [] (adapterGetDocument s docId).bundles
        with e' | bundles
    · rw [hb] at h
      injection h with h1
      rw [← h1]
      exact parseBundles_err hb
    · rw [hb] at h
      exact Except.noConfusion h

/-! ### Claim C7 -/

/-- C7 counterexample: for the document whose in-bundle mention link names a
bundle absent from the document, `create_document` fails with the untyped
`KeyError` that the raw dictionary lookup `self._bundle_id_map[to_bundle]` in
`_create_bundle_links` raises — an error outside the claimed typed taxonomy,
so a failure kind not in the taxonomy does escape the public entry point. -/
theorem claim7_counterexample :
    (createDocument exDocDanglingMention).2 = .error .keyError := rfl

/-- A fault profile for the storage adapter: `F n = true` means the adapter
raises an error of the `DatabaseError` family (spec §7: connection,
authentication, create-node, create-edge failures) on the `n`-th adapter call
of the entry-point invocation.  `provapi.py` never catches these exceptions,
so a fault aborts the call and propagates unchanged out of the public entry
point.  The call index is the length of the trace, since every adapter save
operation appends exactly one trace entry and each materialization starts
from the empty trace. -/
abbrev FaultProfile := Nat → Bool

/-- `save_document()` under a fault profile. -/
def adapterSaveDocumentF (F : FaultProfile) (s : AdapterState) :
    AdapterState × Except ProvError Nat :=
  match F s.trace.length with
  | true => (s, .error .databaseFailure)
  | false => ((adapterSaveDocument s).1, .ok (adapterSaveDocument s).2)

/-- `save_bundle` under a fault profile. -/
def adapterSaveBundleF (F : FaultProfile) (s : AdapterState) (docId : Nat)
    (attrs : Attrs) (meta : Metadata) : AdapterState × Except ProvError Nat :=
  match F s.trace.length with
  | true => (s, .error .databaseFailure)
  | false => ((adapterSaveBundle s docId attrs meta).1,
      .ok (adapterSaveBundle s docId attrs meta).2)

/-- `save_record` under a fault profile. -/
def adapterSaveRecordF (F : FaultProfile) (s : AdapterState) (c : Nat)
    (attrs : Attrs) (meta : Metadata) : AdapterState × Except ProvError Unit :=
  match F s.trace.length with
  | true => (s, .error .databaseFailure)
  | false => (adapterSaveRecord s c attrs meta, .ok ())

/-- `save_relation` under a fault profile. -/
def adapterSaveRelationF (F : FaultProfile) (s : AdapterState) (fromC : Nat)
    (fromQ : QualifiedName) (toC : Nat) (toQ : QualifiedName) (attrs : Attrs)
    (meta : Metadata) : AdapterState × Except ProvError Unit :=
  match F s.trace.length with
  | true => (s, .error .databaseFailure)
  | false => (adapterSaveRelation s fromC fromQ toC toQ attrs meta, .ok ())

/-- `ProvApi._create_unknown_node` (provapi.py lines 302-315) under a fault
profile. -/
def createUnknownNodeF (F : FaultProfile) (s : AdapterState) (bundleId : Nat) :
    AdapterState × Except ProvError QualifiedName :=
  let uid := s.ctr
  let s1 := { s with ctr := s.ctr + 1 }
  let identifier :=
    (validQualifiedName [] ("prov:Unknown-" ++ natStr uid)).getD provUnknownQn
  let record : ProvRecordM := .plain (some (.qn identifier)) []
  match getMetadataAndAttributesForRecord [] (.record record) with
  | .ok (meta, attrs) =>
    match adapterSaveRecordF F s1 bundleId attrs meta with
    | (s2, .ok _) => (s2, .ok identifier)
    | (s2, .error e) => (s2, .error e)
  | .error _ => (s1, .ok identifier)

/-- `ProvApi._create_relation` (provapi.py lines 255-279) under a fault
profile. -/
def createRelationF (F : FaultProfile) (tbl : NsTable) (s : AdapterState)
    (fromBundleId toBundleId : Nat) (r : ProvRecordM) :
    AdapterState × Except ProvError Unit :=
  match r with
  | .relation _ _ f t _ _ =>
    match (match f with
           | some q => ((s, .ok q) : AdapterState × Except ProvError QualifiedName)
           | none => createUnknownNodeF F s fromBundleId) with
    | (s1, .error e) => (s1, .error e)
    | (s1, .ok fq) =>
      match (match t with
             | some q => ((s1, .ok q) : AdapterState × Except ProvError QualifiedName)
             | none => createUnknownNodeF F s1 toBundleId) with
      | (s2, .error e) => (s2, .error e)
      | (s2, .ok tq) =>
        match getMetadataAndAttributesForRecord tbl (.record r) with
        | .ok (meta, attrs) =>
          adapterSaveRelationF F s2 fromBundleId fq toBundleId tq attrs meta
        | .error e => (s2, .error e)
  | _ => (s, .error .invalidArgumentType)

/-- Node phase of `ProvApi._create_bundle` under a fault profile. -/
def saveElementListF (F : FaultProfile) (tbl : NsTable) (bundleId : Nat) :
    AdapterState → List ProvRecordM → AdapterState × Except ProvError Unit
  | s, [] => (s, .ok ())
  | s, r :: rest =>
    match getMetadataAndAttributesForRecord tbl (.record r) with
    | .ok (meta, attrs) =>
      match adapterSaveRecordF F s bundleId attrs meta with
      | (s1, .ok _) => saveElementListF F tbl bundleId s1 rest
      | (s1, .error e) => (s1, .error e)
    | .error e => (s, .error e)

/-- Edge phase of `ProvApi._create_bundle` under a fault profile. -/
def saveRelationListF (F : FaultProfile) (tbl : NsTable) (bundleId : Nat) :
    AdapterState → List ProvRecordM → AdapterState × Except ProvError Unit
  | s, [] => (s, .ok ())
  | s, r :: rest =>
    if r.isMention then saveRelationListF F tbl bundleId s rest
    else
      match createRelationF F tbl s bundleId bundleId r with
      | (s1, .ok _) => saveRelationListF F tbl bundleId s1 rest
      | (s1, .error e) => (s1, .error e)

/-- `ProvApi._create_bundle` (provapi.py lines 232-253) under a fault
profile. -/
def createBundleF (F : FaultProfile) (tbl : NsTable) (s : AdapterState)
    (bundleId : Nat) (records : List ProvRecordM) :
    AdapterState × Except ProvError Unit :=
  match saveElementListF F tbl bundleId s (records.filter ProvRecordM.isElement) with
  | (s1, .ok _) =>
    saveRelationListF F tbl bundleId s1 (records.filter ProvRecordM.isRelation)
  | (s1, .error e) => (s1, .error e)

/-- Loop body of `ProvApi._create_bundle_association` under a fault
profile. -/
def saveAssocListF (F : FaultProfile) (tbl : NsTable) (documentId bundleId : Nat)
    (bundleIdentifier : QualifiedName) (belongMeta : Metadata)
    (belongAttrs : Attrs) :
    AdapterState → List ProvRecordM → AdapterState × Except ProvError Unit
  | s, [] => (s, .ok ())
  | s, r :: rest =>
    match getMetadataAndAttributesForRecord tbl (.record r) with
    | .ok (meta, _) =>
      match adapterSaveRelationF F s bundleId meta.identifier documentId
          bundleIdentifier belongAttrs belongMeta with
      | (s1, .ok _) =>
        saveAssocListF F tbl documentId bundleId bundleIdentifier belongMeta
          belongAttrs s1 rest
      | (s1, .error e) => (s1, .error e)
    | .error e => (s, .error e)

/-- `ProvApi._create_bundle_association` (provapi.py lines 281-300) under a
fault profile. -/
def createBundleAssociationF (F : FaultProfile) (tbl : NsTable)
    (s : AdapterState) (documentId bundleId : Nat)
    (bundleIdentifier : QualifiedName) (records : List ProvRecordM) :
    AdapterState × Except ProvError Unit :=
  match getMetadataAndAttributesForRecord tbl
      (.record (.relation .association none none none none
        [(AttrKey.qnKey PROV_LABEL, AttrValue.str "belongsToBundle")])) with
  | .error e => (s, .error e)
  | .ok (belongMeta, belongAttrs) =>
    saveAssocListF F tbl documentId bundleId bundleIdentifier belongMeta
      belongAttrs s (records.filter ProvRecordM.isElement)

/-- Mention loop of `ProvApi._create_bundle_links` under a fault profile. -/
def saveMentionListF (F : FaultProfile) (tbl : NsTable) (fromBundleId : Nat)
    (bundleIdMap : List (QualifiedName × Nat)) :
    AdapterState → List ProvRecordM → AdapterState × Except ProvError Unit
  | s, [] => (s, .ok ())
  | s, r :: rest =>
    if r.isMention then
      match r with
      | .relation k id f t mb a =>
        match mb with
        | none => (s, .error .keyError)
        | some toBundle =>
          match alookup bundleIdMap toBundle with
          | none => (s, .error .keyError)
          | some toBundleId =>
            match createRelationF F tbl s fromBundleId toBundleId
                (.relation k id f t mb a) with
            | (s1, .ok _) => saveMentionListF F tbl fromBundleId bundleIdMap s1 rest
            | (s1, .error e) => (s1, .error e)
      | .element ek i a => (s, .error .keyError)
      | .plain i a => (s, .error .keyError)
      | .bundleRec i a => (s, .error .keyError)
    else saveMentionListF F tbl fromBundleId bundleIdMap s rest

/-- `ProvApi._create_bundle_links` (provapi.py lines 317-334) under a fault
profile. -/
def createBundleLinksF (F : FaultProfile) (tbl : NsTable) (s : AdapterState)
    (bundleIdMap : List (QualifiedName × Nat)) (b : DocBundleM) :
    AdapterState × Except ProvError Unit :=
  match alookup bundleIdMap b.identifier with
  | none => (s, .error .keyError)
  | some fromBundleId => saveMentionListF F tbl fromBundleId bundleIdMap s b.records

/-- Pass 1 of `ProvApi.create_document` (provapi.py lines 146-157) under a
fault profile; a failing `save_bundle` call leaves the identifier map
unchanged. -/
def bundlePass1F (F : FaultProfile) (tbl : NsTable) (docId : Nat) :
    AdapterState → List DocBundleM → List (QualifiedName × Nat) →
    AdapterState × List (QualifiedName × Nat) × Except ProvError Unit
  | s, [], m => (s, m, .ok ())
  | s, b :: rest, m =>
    let customIdentifier :=
      (validQualifiedName tbl
        (PROV_API_BUNDLE_IDENTIFIER_PREFIX ++ qnString b.identifier)).getD provUnknownQn
    let bundleRecord : ProvRecordM :=
      .bundleRec (some (.qn customIdentifier))
        [(AttrKey.qnKey provBundleNameKey, AttrValue.qn b.identifier)]
    match getMetadataAndAttributesForRecord tbl (.record bundleRecord) with
    | .error e => (s, m, .error e)
    | .ok (meta, attrs) =>
      match adapterSaveBundleF F s docId attrs meta with
      | (s0, .error e) => (s0, m, .error e)
      | (s0, .ok bundleId) =>
        let m1 := upsert m b.identifier bundleId
        match createBundleF F tbl s0 bundleId b.records with
        | (s2, .error e) => (s2, m1, .error e)
        | (s2, .ok _) =>
          match createBundleAssociationF F tbl s2 docId bundleId customIdentifier
              b.records with
          | (s3, .error e) => (s3, m1, .error e)
          | (s3, .ok _) => bundlePass1F F tbl docId s3 rest m1

/-- Pass 2 of `ProvApi.create_document` (provapi.py lines 159-160) under a
fault profile. -/
def bundlePass2F (F : FaultProfile) (tbl : NsTable) :
    AdapterState → List (QualifiedName × Nat) → List DocBundleM →
    AdapterState × Except ProvError Unit
  | s, _, [] => (s, .ok ())
  | s, m, b :: rest =>
    match createBundleLinksF F tbl s m b with
    | (s1, .ok _) => bundlePass2F F tbl s1 m rest
    | (s1, .error e) => (s1, .error e)

/-- The materialization pipeline of `ProvApi.create_document` (provapi.py
lines 141-162) under a fault profile, starting from a document-model
instance. -/
def createDocumentCore (F : FaultProfile) (d : ProvDocumentM) :
    AdapterState × Except ProvError Nat :=
  match adapterSaveDocumentF F initialState with
  | (s0, .error e) => (s0, .error e)
  | (s0, .ok docId) =>
    match createBundleF F d.namespaces s0 docId d.records with
    | (s2, .error e) => (s2, .error e)
    | (s2, .ok _) =>
      match bundlePass1F F d.namespaces docId s2 d.bundles [] with
      | (s3, _, .error e) => (s3, .error e)
      | (s3, bundleIdMap, .ok _) =>
        match bundlePass2F F d.namespaces s3 bundleIdMap d.bundles with
        | (s4, .error e) => (s4, .error e)
        | (s4, .ok _) => (s4, .ok docId)

/-- Modelled from the spec (§5, §7): the input of a creation entry point, as
seen through the text-format collaborator contract `parse(text) -> Document |
fails(ParseError)`: a document-model instance, a text that parses to a
document, or a text that does not parse. -/
inductive ApiContent where
  | doc (d : ProvDocumentM)
  | goodText (d : ProvDocumentM)
  | badText
deriving DecidableEq, Repr

/-- Modelled from the spec (§5): `form_string` of
`provdbconnector.utils.converter`, which is not part of `src/`: a document
instance passes through unchanged, a text is parsed to a document or fails
with a `ParseError`. -/
def formString : ApiContent → Except ProvError ProvDocumentM
  | .doc d => .ok d
  | .goodText d => .ok d
  | .badText => .error .parseFailure

/-- `ProvApi.create_document` (provapi.py lines 126-162) as the public entry
point: a `ParseError` from `form_string` is translated to
`InvalidArgumentTypeException` at this boundary (lines 133-137), everything
else runs the materialization pipeline under the adapter fault profile. -/
def createDocumentEntry (F : FaultProfile) (c : ApiContent) :
    AdapterState × Except ProvError Nat :=
  match formString c with
  | .error _ => (initialState, .error .invalidArgumentType)
  | .ok d => createDocumentCore F d

/-- `ProvApi.create_document_from_json` (provapi.py lines 61-68):
`form_string` is called outside any handler, so its `ParseError` propagates
raw; the parsed document then goes through `create_document`. -/
def createDocumentFromJson (F : FaultProfile) (c : ApiContent) :
    AdapterState × Except ProvError Nat :=
  match formString c with
  | .error e => (initialState, .error e)
  | .ok d => createDocumentEntry F (.doc d)

/-- `ProvApi.create_document_from_xml` (provapi.py lines 79-86). -/
def createDocumentFromXml (F : FaultProfile) (c : ApiContent) :
    AdapterState × Except ProvError Nat :=
  match formString c with
  | .error e => (initialState, .error e)
  | .ok d => createDocumentEntry F (.doc d)

/-- `ProvApi.create_document_from_provn` (provapi.py lines 97-104). -/
def createDocumentFromProvn (F : FaultProfile) (c : ApiContent) :
    AdapterState × Except ProvError Nat :=
  match formString c with
  | .error e => (initialState, .error e)
  | .ok d => createDocumentEntry F (.doc d)

/-- `ProvApi.create_document_from_prov` (provapi.py lines 115-124): anything
that is not a document-model instance — a text, parseable or not — fails the
`isinstance` check with `InvalidArgumentTypeException`. -/
def createDocumentFromProv (F : FaultProfile) (c : ApiContent) :
    AdapterState × Except ProvError Nat :=
  match c with
  | .doc d => createDocumentEntry F (.doc d)
  | .goodText _ => (initialState, .error .invalidArgumentType)
  | .badText => (initialState, .error .invalidArgumentType)

/-- Modelled from the spec (§7): the argument of a read entry point — a
string document id or a value of the wrong type. -/
inductive DocIdArg where
  | strId (docId : Nat)
  | nonStr
deriving DecidableEq, Repr

/-- Modelled from the spec (§6): `get_document` under a fault profile; the
read entry point makes this single adapter call, so its index is 0. -/
def adapterGetDocumentF (F : FaultProfile) (s : AdapterState) (docId : Nat) :
    Except ProvError RawDocument :=
  match F 0 with
  | true => .error .databaseFailure
  | false => .ok (adapterGetDocument s docId)

/-- `ProvApi.get_document_as_prov` (provapi.py lines 164-188) as the public
entry point: the id type check raises `InvalidArgumentTypeException` (lines
170-171), the single adapter read may fail, and the rest is the parse
pipeline of `getDocumentAsProv`. -/
def getDocumentAsProvEntry (F : FaultProfile) (s : AdapterState) (a : DocIdArg) :
    Except ProvError ProvDocumentM :=
  match a with
  | .nonStr => .error .invalidArgumentType
  | .strId docId =>
    match adapterGetDocumentF F s docId with
    | .error e => .error e
    | .ok raw =>
      match parseRecords [] ⟨[], []⟩ raw.documentRecords with
      | .error e => .error e
      | .ok docCtx =>
        match parseBundles docCtx.reg [] raw.bundles with
        | .error e => .error e
        | .ok bundles => .ok ⟨docCtx.reg, docCtx.recs, bundles⟩

/-- Modelled from the spec (§5): the text a serializer emits, kept abstract
as the pair of the format and the document it renders
(`serialize(Document, format) -> text`). -/
inductive TextFormat where
  | json
  | xml
  | provn
deriving DecidableEq, Repr

structure SerializedText where
  format : TextFormat
  doc : ProvDocumentM
deriving DecidableEq, Repr

/-- Modelled from the spec (§5): `to_json` of the serializer black box. -/
def toJson (d : ProvDocumentM) : SerializedText := ⟨.json, d⟩

/-- Modelled from the spec (§5): `to_xml` of the serializer black box. -/
def toXml (d : ProvDocumentM) : SerializedText := ⟨.xml, d⟩

/-- Modelled from the spec (§5): `to_provn` of the serializer black box. -/
def toProvn (d : ProvDocumentM) : SerializedText := ⟨.provn, d⟩

/-- `ProvApi.get_document_as_json` (provapi.py lines 70-77). -/
def getDocumentAsJson (F : FaultProfile) (s : AdapterState) (a : DocIdArg) :
    Except ProvError SerializedText :=
  match getDocumentAsProvEntry F s a with
  | .error e => .error e
  | .ok d => .ok (toJson d)

/-- `ProvApi.get_document_as_xml` (provapi.py lines 88-95). -/
def getDocumentAsXml (F : FaultProfile) (s : AdapterState) (a : DocIdArg) :
    Except ProvError SerializedText :=
  match getDocumentAsProvEntry F s a with
  | .error e => .error e
  | .ok d => .ok (toXml d)

/-- `ProvApi.get_document_as_provn` (provapi.py lines 106-113). -/
def getDocumentAsProvn (F : FaultProfile) (s : AdapterState) (a : DocIdArg) :
    Except ProvError SerializedText :=
  match getDocumentAsProvEntry F s a with
  | .error e => .error e
  | .ok d => .ok (toProvn d)

/-! With the all-clear fault profile the fallible pipeline coincides with the
materializer used for the round-trip development. -/

theorem createUnknownNodeF_nofault (s : AdapterState) (b : Nat) :
    createUnknownNodeF (fun _ => false) s b =
      ((createUnknownNode s b).1, .ok (createUnknownNode s b).2) := by
  simp only [createUnknownNodeF, createUnknownNode]
  rcases hm : getMetadataAndAttributesForRecord []
      (.record (.plain (some (.qn ((validQualifiedName []
        ("prov:Unknown-" ++ natStr s.ctr)).getD provUnknownQn))) []))
    with e' | ⟨meta, attrs⟩
  · rfl
  · rfl

theorem createRelationF_nofault (tbl : NsTable) (s : AdapterState)
    (fC tC : Nat) (r : ProvRecordM) :
    createRelationF (fun _ => false) tbl s fC tC r =
      createRelation tbl s fC tC r := by
  cases r with
  | relation k id f t mb a =>
    cases f with
    | some fq =>
      cases t with
      | some tq =>
        simp only [createRelationF, createRelation, createUnknownNodeF_nofault]
        rcases hm : getMetadataAndAttributesForRecord tbl
            (.record (.relation k id (some fq) (some tq) mb a))
          with e' | ⟨meta, attrs⟩
        · rfl
        · rfl
      | none =>
        simp only [createRelationF, createRelation, createUnknownNodeF_nofault]
        rcases hm : getMetadataAndAttributesForRecord tbl
            (.record (.relation k id (some fq) none mb a))
          with e' | ⟨meta, attrs⟩
        · rfl
        · rfl
    | none =>
      cases t with
      | some tq =>
        simp only [createRelationF, createRelation, createUnknownNodeF_nofault]
        rcases hm : getMetadataAndAttributesForRecord tbl
            (.record (.relation k id none (some tq) mb a))
          with e' | ⟨meta, attrs⟩
        · rfl
        · rfl
      | none =>
        simp only [createRelationF, createRelation, createUnknownNodeF_nofault]
        rcases hm : getMetadataAndAttributesForRecord tbl
            (.record (.relation k id none none mb a))
          with e' | ⟨meta, attrs⟩
        · rfl
        · rfl
  | element ek i a => rfl
  | plain i a => rfl
  | bundleRec i a => rfl

theorem saveElementListF_nofault (tbl : NsTable) (c : Nat) :
    ∀ (l : List ProvRecordM) (s : AdapterState),
      saveElementListF (fun _ => false) tbl c s l = saveElementList tbl c s l
  | [], s => rfl
  | r :: rest, s => by
    rw [saveElementListF, saveElementList]
    rcases hm : getMetadataAndAttributesForRecord tbl (.record r)
      with e' | ⟨meta, attrs⟩
    · rfl
    · exact saveElementListF_nofault tbl c rest _

theorem saveRelationListF_nofault (tbl : NsTable) (c : Nat) :
    ∀ (l : List ProvRecordM) (s : AdapterState),
      saveRelationListF (fun _ => false) tbl c s l = saveRelationList tbl c s l
  | [], s => rfl
  | r :: rest, s => by
    rw [saveRelationListF, saveRelationList]
    by_cases hmn : r.isMention
    · rw [if_pos hmn, if_pos hmn]
      exact saveRelationListF_nofault tbl c rest s
    · rw [if_neg hmn, if_neg hmn]
      rw [createRelationF_nofault]
      rcases hc : createRelation tbl s c c r with ⟨s1, res⟩
      cases res with
      | ok u => exact saveRelationListF_nofault tbl c rest s1
      | error e => rfl

theorem createBundleF_nofault (tbl : NsTable) (s : AdapterState) (c : Nat)
    (l : List ProvRecordM) :
    createBundleF (fun _ => false) tbl s c l = createBundle tbl s c l := by
  unfold createBundleF createBundle
  rw [saveElementListF_nofault]
  rcases he : saveElementList tbl c s (l.filter ProvRecordM.isElement)
    with ⟨s1, res⟩
  cases res with
  | ok u => exact saveRelationListF_nofault tbl c _ s1
  | error e => rfl

theorem saveAssocListF_nofault (tbl : NsTable) (docId bundleId : Nat)
    (bq : QualifiedName) (bm : Metadata) (ba : Attrs) :
    ∀ (l : List ProvRecordM) (s : AdapterState),
      saveAssocListF (fun _ => false) tbl docId bundleId bq bm ba s l =
        saveAssocList tbl docId bundleId bq bm ba s l
  | [], s => rfl
  | r :: rest, s => by
    rw [saveAssocListF, saveAssocList]
    rcases hm : getMetadataAndAttributesForRecord tbl (.record r)
      with e' | ⟨meta, attrs⟩
    · rfl
    · exact saveAssocListF_nofault tbl docId bundleId bq bm ba rest _

theorem createBundleAssociationF_nofault (tbl : NsTable) (s : AdapterState)
    (docId bundleId : Nat) (bq : QualifiedName) (l : List ProvRecordM) :
    createBundleAssociationF (fun _ => false) tbl s docId bundleId bq l =
      createBundleAssociation tbl s docId bundleId bq l := by
  unfold createBundleAssociationF createBundleAssociation
  rcases hm : getMetadataAndAttributesForRecord tbl
      (.record (.relation .association none none none none
        [(AttrKey.qnKey PROV_LABEL, AttrValue.str "belongsToBundle")]))
    with e' | ⟨bm, ba⟩
  · rfl
  · exact saveAssocListF_nofault tbl docId bundleId bq bm ba _ s

theorem saveMentionListF_nofault (tbl : NsTable) (fromId : Nat)
    (m : List (QualifiedName × Nat)) :
    ∀ (l : List ProvRecordM) (s : AdapterState),
      saveMentionListF (fun _ => false) tbl fromId m s l =
        saveMentionList tbl fromId m s l
  | [], s => rfl
  | r :: rest, s => by
    rw [saveMentionListF.eq_def, saveMentionList.eq_def]
    try simp only []
    by_cases hmn : r.isMention
    · rw [if_pos hmn, if_pos hmn]
      cases r with
      | relation k id f t mb a =>
        cases mb with
        | none => rfl
        | some toB =>
          try simp only []
          rcases hl : alookup m toB with - | toId
          · rfl
          · try simp only []
            rw [createRelationF_nofault]
            rcases hc : createRelation tbl s fromId toId
                (.relation k id f t (some toB) a) with ⟨s1, res⟩
            cases res with
            | ok u => exact saveMentionListF_nofault tbl fromId m rest s1
            | error e => rfl
      | element ek i a => rfl
      | plain i a => rfl
      | bundleRec i a => rfl
    · rw [if_neg hmn, if_neg hmn]
      exact saveMentionListF_nofault tbl fromId m rest s

theorem createBundleLinksF_nofault (tbl : NsTable) (s : AdapterState)
    (m : List (QualifiedName × Nat)) (b : DocBundleM) :
    createBundleLinksF (fun _ => false) tbl s m b =
      createBundleLinks tbl s m b := by
  unfold createBundleLinksF createBundleLinks
  rcases hl : alookup m b.identifier with - | fromId
  · rfl
  · exact saveMentionListF_nofault tbl fromId m b.records s

theorem bundlePass1F_nofault (tbl : NsTable) (docId : Nat) :
    ∀ (bs : List DocBundleM) (s : AdapterState) (m : List (QualifiedName × Nat)),
      bundlePass1F (fun _ => false) tbl docId s bs m = bundlePass1 tbl docId s bs m
  | [], s, m => rfl
  | b :: rest, s, m => by
    rw [bundlePass1F, bundlePass1]
    rcases hm : getMetadataAndAttributesForRecord tbl
        (.record (.bundleRec (some (.qn ((validQualifiedName tbl
          (PROV_API_BUNDLE_IDENTIFIER_PREFIX ++ qnString b.identifier)).getD
            provUnknownQn)))
          [(AttrKey.qnKey provBundleNameKey, AttrValue.qn b.identifier)]))
      with e' | ⟨meta, attrs⟩
    · rfl
    · try simp only []
      simp only [adapterSaveBundleF]
      rw [createBundleF_nofault]
      rcases hb : createBundle tbl (adapterSaveBundle s docId attrs meta).1
          (adapterSaveBundle s docId attrs meta).2 b.records with ⟨s2, res2⟩
      cases res2 with
      | error e2 => rfl
      | ok u =>
        try simp only []
        rw [createBundleAssociationF_nofault]
        rcases ha : createBundleAssociation tbl s2 docId
            (adapterSaveBundle s docId attrs meta).2
            ((validQualifiedName tbl
              (PROV_API_BUNDLE_IDENTIFIER_PREFIX ++ qnString b.identifier)).getD
                provUnknownQn) b.records with ⟨s3, res3⟩
        cases res3 with
        | error e3 => rfl
        | ok u2 => exact bundlePass1F_nofault tbl docId rest s3 _

theorem bundlePass2F_nofault (tbl : NsTable) :
    ∀ (bs : List DocBundleM) (s : AdapterState) (m : List (QualifiedName × Nat)),
      bundlePass2F (fun _ => false) tbl s m bs = bundlePass2 tbl s m bs
  | [], s, m => rfl
  | b :: rest, s, m => by
    rw [bundlePass2F, bundlePass2]
    rw [createBundleLinksF_nofault]
    rcases hl : createBundleLinks tbl s m b with ⟨s1, res⟩
    cases res with
    | ok u => exact bundlePass2F_nofault tbl rest s1 m
    | error e => rfl

theorem createDocumentCore_nofault (d : ProvDocumentM) :
    createDocumentCore (fun _ => false) d = createDocument d := by
  unfold createDocumentCore createDocument
  simp only [adapterSaveDocumentF]
  rw [createBundleF_nofault]
  rcases hb : createBundle d.namespaces (adapterSaveDocument initialState).1
      (adapterSaveDocument initialState).2 d.records with ⟨s2, res⟩
  cases res with
  | error e => rfl
  | ok u =>
    try simp only []
    rw [bundlePass1F_nofault]
    rcases hp1 : bundlePass1 d.namespaces (adapterSaveDocument initialState).2
        s2 d.bundles [] with ⟨s3, m1, res1⟩
    cases res1 with
    | error e1 => rfl
    | ok u1 =>
      try simp only []
      rw [bundlePass2F_nofault]

/-! Error taxonomy of the fallible pipeline: an adapter fault is the only new
failure kind, and it surfaces as the `DatabaseError` family unchanged. -/

theorem adapterSaveDocumentF_err {F : FaultProfile} {s s' : AdapterState}
    {e : ProvError} (h : adapterSaveDocumentF F s = (s', .error e)) :
    e = .databaseFailure := by
  unfold adapterSaveDocumentF at h
  rcases hf : F s.trace.length
  · rw [hf] at h
    have h2 := congrArg Prod.snd h
    simp at h2
  · rw [hf] at h
    have h2 := congrArg Prod.snd h
    simp at h2
    exact h2.symm

theorem adapterSaveBundleF_err {F : FaultProfile} {s : AdapterState}
    {docId : Nat} {attrs : Attrs} {meta : Metadata} {s' : AdapterState}
    {e : ProvError} (h : adapterSaveBundleF F s docId attrs meta = (s', .error e)) :
    e = .databaseFailure := by
  unfold adapterSaveBundleF at h
  rcases hf : F s.trace.length
  · rw [hf] at h
    have h2 := congrArg Prod.snd h
    simp at h2
  · rw [hf] at h
    have h2 := congrArg Prod.snd h
    simp at h2
    exact h2.symm

theorem adapterSaveRecordF_err {F : FaultProfile} {s : AdapterState} {c : Nat}
    {attrs : Attrs} {meta : Metadata} {s' : AdapterState} {e : ProvError}
    (h : adapterSaveRecordF F s c attrs meta = (s', .error e)) :
    e = .databaseFailure := by
  unfold adapterSaveRecordF at h
  rcases hf : F s.trace.length
  · rw [hf] at h
    have h2 := congrArg Prod.snd h
    simp at h2
  · rw [hf] at h
    have h2 := congrArg Prod.snd h
    simp at h2
    exact h2.symm

theorem adapterSaveRelationF_err {F : FaultProfile} {s : AdapterState}
    {fromC : Nat} {fromQ : QualifiedName} {toC : Nat} {toQ : QualifiedName}
    {attrs : Attrs} {meta : Metadata} {s' : AdapterState} {e : ProvError}
    (h : adapterSaveRelationF F s fromC fromQ toC toQ attrs meta =
      (s', .error e)) :
    e = .databaseFailure := by
  unfold adapterSaveRelationF at h
  rcases hf : F s.trace.length
  · rw [hf] at h
    have h2 := congrArg Prod.snd h
    simp at h2
  · rw [hf] at h
    have h2 := congrArg Prod.snd h
    simp at h2
    exact h2.symm

theorem createUnknownNodeF_err {F : FaultProfile} {s : AdapterState} {b : Nat}
    {s' : AdapterState} {e : ProvError}
    (h : createUnknownNodeF F s b = (s', .error e)) : e = .databaseFailure := by
  simp only [createUnknownNodeF] at h
  rcases hm : getMetadataAndAttributesForRecord []
      (.record (.plain (some (.qn ((validQualifiedName []
        ("prov:Unknown-" ++ natStr s.ctr)).getD provUnknownQn))) []))
    with e' | ⟨meta, attrs⟩
  · rw [hm] at h
    simp only [] at h
    have h2 := congrArg Prod.snd h
    simp at h2
  · rw [hm] at h
    simp only [] at h
    rcases hw : adapterSaveRecordF F { s with ctr := s.ctr + 1 } b attrs meta
      with ⟨s2, res⟩
    rw [hw] at h
    cases res with
    | ok u =>
      have h2 := congrArg Prod.snd h
      simp at h2
    | error e2 =>
      have h2 := congrArg Prod.snd h
      simp at h2
      rw [← h2]
      exact adapterSaveRecordF_err hw

theorem createRelationF_err {F : FaultProfile} {tbl : NsTable}
    {s : AdapterState} {fC tC : Nat} {r : ProvRecordM} {s' : AdapterState}
    {e : ProvError} (h : createRelationF F tbl s fC tC r = (s', .error e)) :
    e = .invalidArgumentType ∨ e = .invalidProvRecord ∨ e = .databaseFailure := by
  cases r with
  | relation k id f t mb a =>
    simp only [createRelationF] at h
    rcases h1 : (match f with
        | some q => ((s, .ok q) : AdapterState × Except ProvError QualifiedName)
        | none => createUnknownNodeF F s fC) with ⟨s1, res1⟩
    rw [h1] at h
    cases res1 with
    | error e1 =>
      simp only [] at h
      have h2 := congrArg Prod.snd h
      simp at h2
      rw [← h2]
      right; right
      cases f with
      | some q =>
        simp only [] at h1
        have h3 := congrArg Prod.snd h1
        simp at h3
      | none => exact createUnknownNodeF_err h1
    | ok fq =>
      simp only [] at h
      rcases h2 : (match t with
          | some q => ((s1, .ok q) : AdapterState × Except ProvError QualifiedName)
          | none => createUnknownNodeF F s1 tC) with ⟨s2, res2⟩
      rw [h2] at h
      cases res2 with
      | error e2 =>
        simp only [] at h
        have h3 := congrArg Prod.snd h
        simp at h3
        rw [← h3]
        right; right
        cases t with
        | some q =>
          simp only [] at h2
          have h4 := congrArg Prod.snd h2
          simp at h4
        | none => exact createUnknownNodeF_err h2
      | ok tq =>
        simp only [] at h
        rcases hm : getMetadataAndAttributesForRecord tbl
            (.record (.relation k id f t mb a)) with e' | ⟨meta, attrs⟩
        · rw [hm] at h
          simp only [] at h
          have h3 := congrArg Prod.snd h
          simp at h3
          rw [← h3]
          rcases getMeta_err_mem hm with h4 | h4
          · exact .inl h4
          · exact .inr (.inl h4)
        · rw [hm] at h
          simp only [] at h
          right; right
          exact adapterSaveRelationF_err h
  | element ek i a =>
    simp only [createRelationF] at h
    have h2 := congrArg Prod.snd h
    simp at h2
    left
    exact h2.symm
  | plain i a =>
    simp only [createRelationF] at h
    have h2 := congrArg Prod.snd h
    simp at h2
    left
    exact h2.symm
  | bundleRec i a =>
    simp only [createRelationF] at h
    have h2 := congrArg Prod.snd h
    simp at h2
    left
    exact h2.symm

theorem saveElementListF_err {F : FaultProfile} {tbl : NsTable} {c : Nat} :
    ∀ {l : List ProvRecordM} {s s' : AdapterState} {e : ProvError},
      saveElementListF F tbl c s l = (s', .error e) →
      e = .invalidArgumentType ∨ e = .invalidProvRecord ∨ e = .databaseFailure
  | [], s, s', e, h => by
    rw [saveElementListF] at h
    have h2 := congrArg Prod.snd h
    simp at h2
  | r :: rest, s, s', e, h => by
    rw [saveElementListF] at h
    rcases hm : getMetadataAndAttributesForRecord tbl (.record r)
      with e' | ⟨meta, attrs⟩
    · rw [hm] at h
      have h2 := congrArg Prod.snd h
      simp at h2
      rw [← h2]
      rcases getMeta_err_mem hm with h3 | h3
      · exact .inl h3
      · exact .inr (.inl h3)
    · rw [hm] at h
      simp only [] at h
      rcases hw : adapterSaveRecordF F s c attrs meta with ⟨s1, res⟩
      rw [hw] at h
      cases res with
      | ok u => exact saveElementListF_err h
      | error e2 =>
        have h2 := congrArg Prod.snd h
        simp at h2
        rw [← h2]
        right; right
        exact adapterSaveRecordF_err hw

theorem saveRelationListF_err {F : FaultProfile} {tbl : NsTable} {c : Nat} :
    ∀ {l : List ProvRecordM} {s s' : AdapterState} {e : ProvError},
      saveRelationListF F tbl c s l = (s', .error e) →
      e = .invalidArgumentType ∨ e = .invalidProvRecord ∨ e = .databaseFailure
  | [], s, s', e, h => by
    rw [saveRelationListF] at h
    have h2 := congrArg Prod.snd h
    simp at h2
  | r :: rest, s, s', e, h => by
    rw [saveRelationListF] at h
    by_cases hmn : r.isMention
    · rw [if_pos hmn] at h
      exact saveRelationListF_err h
    · rw [if_neg hmn] at h
      rcases hc : createRelationF F tbl s c c r with ⟨s1, res⟩
      rw [hc] at h
      cases res with
      | ok u => exact saveRelationListF_err h
      | error e' =>
        have h2 := congrArg Prod.snd h
        simp at h2
        rw [← h2]
        exact createRelationF_err hc

theorem createBundleF_err {F : FaultProfile} {tbl : NsTable} {s : AdapterState}
    {c : Nat} {l : List ProvRecordM} {s' : AdapterState} {e : ProvError}
    (h : createBundleF F tbl s c l = (s', .error e)) :
    e = .invalidArgumentType ∨ e = .invalidProvRecord ∨ e = .databaseFailure := by
  unfold createBundleF at h
  rcases he : saveElementListF F tbl c s (l.filter ProvRecordM.isElement)
    with ⟨s1, res⟩
  rw [he] at h
  cases res with
  | ok u => exact saveRelationListF_err h
  | error e' =>
    have h2 := congrArg Prod.snd h
    simp at h2
    rw [← h2]
    exact saveElementListF_err he

theorem saveAssocListF_err {F : FaultProfile} {tbl : NsTable}
    {docId bundleId : Nat} {bq : QualifiedName} {bm : Metadata} {ba : Attrs} :
    ∀ {l : List ProvRecordM} {s s' : AdapterState} {e : ProvError},
      saveAssocListF F tbl docId bundleId bq bm ba s l = (s', .error e) →
      e = .invalidArgumentType ∨ e = .invalidProvRecord ∨ e = .databaseFailure
  | [], s, s', e, h => by
    rw [saveAssocListF] at h
    have h2 := congrArg Prod.snd h
    simp at h2
  | r :: rest, s, s', e, h => by
    rw [saveAssocListF] at h
    rcases hm : getMetadataAndAttributesForRecord tbl (.record r)
      with e' | ⟨meta, attrs⟩
    · rw [hm] at h
      have h2 := congrArg Prod.snd h
      simp at h2
      rw [← h2]
      rcases getMeta_err_mem hm with h3 | h3
      · exact .inl h3
      · exact .inr (.inl h3)
    · rw [hm] at h
      simp only [] at h
      rcases hw : adapterSaveRelationF F s bundleId meta.identifier docId bq ba bm
        with ⟨s1, res⟩
      rw [hw] at h
      cases res with
      | ok u => exact saveAssocListF_err h
      | error e2 =>
        have h2 := congrArg Prod.snd h
        simp at h2
        rw [← h2]
        right; right
        exact adapterSaveRelationF_err hw

theorem createBundleAssociationF_err {F : FaultProfile} {tbl : NsTable}
    {s : AdapterState} {docId bundleId : Nat} {bq : QualifiedName}
    {l : List ProvRecordM} {s' : AdapterState} {e : ProvError}
    (h : createBundleAssociationF F tbl s docId bundleId bq l = (s', .error e)) :
    e = .invalidArgumentType ∨ e = .invalidProvRecord ∨ e = .databaseFailure := by
  unfold createBundleAssociationF at h
  rcases hm : getMetadataAndAttributesForRecord tbl
      (.record (.relation .association none none none none
        [(AttrKey.qnKey PROV_LABEL, AttrValue.str "belongsToBundle")]))
    with e' | ⟨bm, ba⟩
  · rw [hm] at h
    have h2 := congrArg Prod.snd h
    simp at h2
    rw [← h2]
    rcases getMeta_err_mem hm with h3 | h3
    · exact .inl h3
    · exact .inr (.inl h3)
  · rw [hm] at h
    exact saveAssocListF_err h

theorem saveMentionListF_err {F : FaultProfile} {tbl : NsTable} {fromId : Nat}
    {m : List (QualifiedName × Nat)} :
    ∀ {l : List ProvRecordM} {s s' : AdapterState} {e : ProvError},
      saveMentionListF F tbl fromId m s l = (s', .error e) →
      e = .invalidArgumentType ∨ e = .invalidProvRecord ∨ e = .keyError ∨
        e = .databaseFailure
  | [], s, s', e, h => by
    rw [saveMentionListF] at h
    have h2 := congrArg Prod.snd h
    simp at h2
  | r :: rest, s, s', e, h => by
    cases r with
    | relation k id f t mb a =>
      cases mb with
      | none =>
        rw [saveMentionListF] at h
        by_cases hmn : (ProvRecordM.relation k id f t none a).isMention
        · rw [if_pos hmn] at h
          have h2 := congrArg Prod.snd h
          simp at h2
          right; right; left
          exact h2.symm
        · rw [if_neg hmn] at h
          exact saveMentionListF_err h
      | some toB =>
        rw [saveMentionListF] at h
        by_cases hmn : (ProvRecordM.relation k id f t (some toB) a).isMention
        · rw [if_pos hmn] at h
          rcases hl : alookup m toB with - | toId
          · rw [hl] at h
            have h2 := congrArg Prod.snd h
            simp at h2
            right; right; left
            exact h2.symm
          · rw [hl] at h
            simp only [] at h
            rcases hc : createRelationF F tbl s fromId toId
                (.relation k id f t (some toB) a) with ⟨s1, res⟩
            rw [hc] at h
            cases res with
            | ok u =>
              simp only [] at h
              exact saveMentionListF_err h
            | error e' =>
              simp only [] at h
              have h2 := congrArg Prod.snd h
              simp at h2
              rw [← h2]
              rcases createRelationF_err hc with h3 | h3 | h3
              · exact .inl h3
              · exact .inr (.inl h3)
              · exact .inr (.inr (.inr h3))
        · rw [if_neg hmn] at h
          exact saveMentionListF_err h
    | element ek i a =>
      rw [saveMentionListF] at h
      rw [if_neg (by simp [ProvRecordM.isMention])] at h
      exact saveMentionListF_err h
    | plain i a =>
      rw [saveMentionListF] at h
      rw [if_neg (by simp [ProvRecordM.isMention])] at h
      exact saveMentionListF_err h
    | bundleRec i a =>
      rw [saveMentionListF] at h
      rw [if_neg (by simp [ProvRecordM.isMention])] at h
      exact saveMentionListF_err h

theorem createBundleLinksF_err {F : FaultProfile} {tbl : NsTable}
    {s : AdapterState} {m : List (QualifiedName × Nat)} {b : DocBundleM}
    {s' : AdapterState} {e : ProvError}
    (h : createBundleLinksF F tbl s m b = (s', .error e)) :
    e = .invalidArgumentType ∨ e = .invalidProvRecord ∨ e = .keyError ∨
      e = .databaseFailure := by
  unfold createBundleLinksF at h
  rcases hl : alookup m b.identifier with - | fromId
  · rw [hl] at h
    have h2 := congrArg Prod.snd h
    simp at h2
    right; right; left
    exact h2.symm
  · rw [hl] at h
    exact saveMentionListF_err h

theorem bundlePass1F_err {F : FaultProfile} {tbl : NsTable} {docId : Nat} :
    ∀ {bs : List DocBundleM} {s s' : AdapterState}
      {m m' : List (QualifiedName × Nat)} {e : ProvError},
      bundlePass1F F tbl docId s bs m = (s', m', .error e) →
      e = .invalidArgumentType ∨ e = .invalidProvRecord ∨ e = .databaseFailure
  | [], s, s', m, m', e, h => by
    rw [bundlePass1F] at h
    have h2 := congrArg (fun x => x.2.2) h
    simp at h2
  | b :: rest, s, s', m, m', e, h => by
    rw [bundlePass1F] at h
    rcases hm : getMetadataAndAttributesForRecord tbl
        (.record (.bundleRec (some (.qn ((validQualifiedName tbl
          (PROV_API_BUNDLE_IDENTIFIER_PREFIX ++ qnString b.identifier)).getD
            provUnknownQn)))
          [(AttrKey.qnKey provBundleNameKey, AttrValue.qn b.identifier)]))
      with e' | ⟨meta, attrs⟩
    · rw [hm] at h
      have h2 := congrArg (fun x => x.2.2) h
      simp at h2
      rw [← h2]
      rcases getMeta_err_mem hm with h3 | h3
      · exact .inl h3
      · exact .inr (.inl h3)
    · rw [hm] at h
      simp only [] at h
      rcases hw : adapterSaveBundleF F s docId attrs meta with ⟨s0, res0⟩
      rw [hw] at h
      cases res0 with
      | error e0 =>
        simp only [] at h
        have h2 := congrArg (fun x => x.2.2) h
        simp at h2
        rw [← h2]
        right; right
        exact adapterSaveBundleF_err hw
      | ok bundleId =>
        simp only [] at h
        rcases hb : createBundleF F tbl s0 bundleId b.records with ⟨s2, res2⟩
        rw [hb] at h
        cases res2 with
        | error e2 =>
          simp only [] at h
          have h2 := congrArg (fun x => x.2.2) h
          simp at h2
          rw [← h2]
          exact createBundleF_err hb
        | ok u =>
          simp only [] at h
          rcases ha : createBundleAssociationF F tbl s2 docId bundleId
              ((validQualifiedName tbl
                (PROV_API_BUNDLE_IDENTIFIER_PREFIX ++ qnString b.identifier)).getD
                  provUnknownQn) b.records with ⟨s3, res3⟩
          rw [ha] at h
          cases res3 with
          | error e3 =>
            simp only [] at h
            have h2 := congrArg (fun x => x.2.2) h
            simp at h2
            rw [← h2]
            exact createBundleAssociationF_err ha
          | ok u2 =>
            simp only [] at h
            exact bundlePass1F_err h

theorem bundlePass2F_err {F : FaultProfile} {tbl : NsTable} :
    ∀ {bs : List DocBundleM} {s s' : AdapterState}
      {m : List (QualifiedName × Nat)} {e : ProvError},
      bundlePass2F F tbl s m bs = (s', .error e) →
      e = .invalidArgumentType ∨ e = .invalidProvRecord ∨ e = .keyError ∨
        e = .databaseFailure
  | [], s, s', m, e, h => by
    rw [bundlePass2F] at h
    have h2 := congrArg Prod.snd h
    simp at h2
  | b :: rest, s, s', m, e, h => by
    rw [bundlePass2F] at h
    rcases hl : createBundleLinksF F tbl s m b with ⟨s1, res⟩
    rw [hl] at h
    cases res with
    | ok u => exact bundlePass2F_err h
    | error e' =>
      have h2 := congrArg Prod.snd h
      simp at h2
      rw [← h2]
      exact createBundleLinksF_err hl

theorem createDocumentCore_err {F : FaultProfile} {d : ProvDocumentM}
    {e : ProvError} (h : (createDocumentCore F d).2 = .error e) :
    e = .invalidArgumentType ∨ e = .invalidProvRecord ∨ e = .keyError ∨
      e = .databaseFailure := by
  unfold createDocumentCore at h
  rcases h0 : adapterSaveDocumentF F initialState with ⟨s0, res0⟩
  rw [h0] at h
  cases res0 with
  | error e0 =>
    simp at h
    rw [← h]
    right; right; right
    exact adapterSaveDocumentF_err h0
  | ok docId =>
    simp only [] at h
    rcases hb : createBundleF F d.namespaces s0 docId d.records with ⟨s2, res⟩
    rw [hb] at h
    cases res with
    | error e1 =>
      simp at h
      rw [← h]
      rcases createBundleF_err hb with h3 | h3 | h3
      · exact .inl h3
      · exact .inr (.inl h3)
      · exact .inr (.inr (.inr h3))
    | ok u =>
      simp only [] at h
      rcases hp1 : bundlePass1F F d.namespaces docId s2 d.bundles []
        with ⟨s3, m1, res1⟩
      rw [hp1] at h
      cases res1 with
      | error e1 =>
        simp at h
        rw [← h]
        rcases bundlePass1F_err hp1 with h3 | h3 | h3
        · exact .inl h3
        · exact .inr (.inl h3)
        · exact .inr (.inr (.inr h3))
      | ok u1 =>
        simp only [] at h
        rcases hp2 : bundlePass2F F d.namespaces s3 m1 d.bundles with ⟨s4, res2⟩
        rw [hp2] at h
        cases res2 with
        | error e2 =>
          simp at h
          rw [← h]
          exact bundlePass2F_err hp2
        | ok u2 => simp at h

theorem createDocumentEntry_err {F : FaultProfile} {c : ApiContent}
    {e : ProvError} (h : (createDocumentEntry F c).2 = .error e) :
    e = .invalidArgumentType ∨ e = .invalidProvRecord ∨ e = .keyError ∨
      e = .databaseFailure := by
  cases c with
  | doc d => exact createDocumentCore_err h
  | goodText d => exact createDocumentCore_err h
  | badText =>
    left
    have h2 : Except.error (ε := ProvError) (α := Nat)
        ProvError.invalidArgumentType = .error e := h
    injection h2 with h3
    exact h3.symm

theorem createDocumentFromJson_err {F : FaultProfile} {c : ApiContent}
    {e : ProvError} (h : (createDocumentFromJson F c).2 = .error e) :
    e = .invalidArgumentType ∨ e = .invalidProvRecord ∨ e = .parseFailure ∨
      e = .keyError ∨ e = .databaseFailure := by
  cases c with
  | doc d =>
    rcases createDocumentEntry_err h with h3 | h3 | h3 | h3
    · exact .inl h3
    · exact .inr (.inl h3)
    · exact .inr (.inr (.inr (.inl h3)))
    · exact .inr (.inr (.inr (.inr h3)))
  | goodText d =>
    rcases createDocumentEntry_err h with h3 | h3 | h3 | h3
    · exact .inl h3
    · exact .inr (.inl h3)
    · exact .inr (.inr (.inr (.inl h3)))
    · exact .inr (.inr (.inr (.inr h3)))
  | badText =>
    right; right; left
    have h2 : Except.error (ε := ProvError) (α := Nat)
        ProvError.parseFailure = .error e := h
    injection h2 with h3
    exact h3.symm

theorem createDocumentFromXml_err {F : FaultProfile} {c : ApiContent}
    {e : ProvError} (h : (createDocumentFromXml F c).2 = .error e) :
    e = .invalidArgumentType ∨ e = .invalidProvRecord ∨ e = .parseFailure ∨
      e = .keyError ∨ e = .databaseFailure := by
  cases c with
  | doc d =>
    rcases createDocumentEntry_err h with h3 | h3 | h3 | h3
    · exact .inl h3
    · exact .inr (.inl h3)
    · exact .inr (.inr (.inr (.inl h3)))
    · exact .inr (.inr (.inr (.inr h3)))
  | goodText d =>
    rcases createDocumentEntry_err h with h3 | h3 | h3 | h3
    · exact .inl h3
    · exact .inr (.inl h3)
    · exact .inr (.inr (.inr (.inl h3)))
    · exact .inr (.inr (.inr (.inr h3)))
  | badText =>
    right; right; left
    have h2 : Except.error (ε := ProvError) (α := Nat)
        ProvError.parseFailure = .error e := h
    injection h2 with h3
    exact h3.symm

theorem createDocumentFromProvn_err {F : FaultProfile} {c : ApiContent}
    {e : ProvError} (h : (createDocumentFromProvn F c).2 = .error e) :
    e = .invalidArgumentType ∨ e = .invalidProvRecord ∨ e = .parseFailure ∨
      e = .keyError ∨ e = .databaseFailure := by
  cases c with
  | doc d =>
    rcases createDocumentEntry_err h with h3 | h3 | h3 | h3
    · exact .inl h3
    · exact .inr (.inl h3)
    · exact .inr (.inr (.inr (.inl h3)))
    · exact .inr (.inr (.inr (.inr h3)))
  | goodText d =>
    rcases createDocumentEntry_err h with h3 | h3 | h3 | h3
    · exact .inl h3
    · exact .inr (.inl h3)
    · exact .inr (.inr (.inr (.inl h3)))
    · exact .inr (.inr (.inr (.inr h3)))
  | badText =>
    right; right; left
    have h2 : Except.error (ε := ProvError) (α := Nat)
        ProvError.parseFailure = .error e := h
    injection h2 with h3
    exact h3.symm

theorem createDocumentFromProv_err {F : FaultProfile} {c : ApiContent}
    {e : ProvError} (h : (createDocumentFromProv F c).2 = .error e) :
    e = .invalidArgumentType ∨ e = .invalidProvRecord ∨ e = .keyError ∨
      e = .databaseFailure := by
  cases c with
  | doc d => exact createDocumentEntry_err h
  | goodText d =>
    left
    have h2 : Except.error (ε := ProvError) (α := Nat)
        ProvError.invalidArgumentType = .error e := h
    injection h2 with h3
    exact h3.symm
  | badText =>
    left
    have h2 : Except.error (ε := ProvError) (α := Nat)
        ProvError.invalidArgumentType = .error e := h
    injection h2 with h3
    exact h3.symm

theorem getDocumentAsProvEntry_err {F : FaultProfile} {s : AdapterState}
    {a : DocIdArg} {e : ProvError}
    (h : getDocumentAsProvEntry F s a = .error e) :
    e = .invalidArgumentType ∨ e = .databaseFailure := by
  cases a with
  | nonStr =>
    left
    have h2 : Except.error (ε := ProvError) (α := ProvDocumentM)
        ProvError.invalidArgumentType = .error e := h
    injection h2 with h3
    exact h3.symm
  | strId docId =>
    simp only [getDocumentAsProvEntry] at h
    rcases hg : adapterGetDocumentF F s docId with e1 | raw
    · rw [hg] at h
      injection h with h1
      rw [← h1]
      right
      unfold adapterGetDocumentF at hg
      rcases hf : F 0
      · rw [hf] at hg
        exact Except.noConfusion hg
      · rw [hf] at hg
        injection hg with h2
        exact h2.symm
    · rw [hg] at h
      simp only [] at h
      rcases hp : parseRecords [] ⟨[], []⟩ raw.documentRecords with e2 | docCtx
      · rw [hp] at h
        injection h with h1
        rw [← h1]
        exact .inl (parseRecords_err hp)
      · rw [hp] at h
        simp only [] at h
        rcases hb : parseBundles docCtx.reg [] raw.bundles with e3 | bundles
        · rw [hb] at h
          injection h with h1
          rw [← h1]
          exact .inl (parseBundles_err hb)
        · rw [hb] at h
          exact Except.noConfusion h

theorem getDocumentAsJson_err {F : FaultProfile} {s : AdapterState}
    {a : DocIdArg} {e : ProvError} (h : getDocumentAsJson F s a = .error e) :
    e = .invalidArgumentType ∨ e = .databaseFailure := by
  unfold getDocumentAsJson at h
  rcases hg : getDocumentAsProvEntry F s a with e1 | d
  · rw [hg] at h
    injection h with h1
    rw [← h1]
    exact getDocumentAsProvEntry_err hg
  · rw [hg] at h
    exact Except.noConfusion h

theorem getDocumentAsXml_err {F : FaultProfile} {s : AdapterState}
    {a : DocIdArg} {e : ProvError} (h : getDocumentAsXml F s a = .error e) :
    e = .invalidArgumentType ∨ e = .databaseFailure := by
  unfold getDocumentAsXml at h
  rcases hg : getDocumentAsProvEntry F s a with e1 | d
  · rw [hg] at h
    injection h with h1
    rw [← h1]
    exact getDocumentAsProvEntry_err hg
  · rw [hg] at h
    exact Except.noConfusion h

theorem getDocumentAsProvn_err {F : FaultProfile} {s : AdapterState}
    {a : DocIdArg} {e : ProvError} (h : getDocumentAsProvn F s a = .error e) :
    e = .invalidArgumentType ∨ e = .databaseFailure := by
  unfold getDocumentAsProvn at h
  rcases hg : getDocumentAsProvEntry F s a with e1 | d
  · rw [hg] at h
    injection h with h1
    rw [← h1]
    exact getDocumentAsProvEntry_err hg
  · rw [hg] at h
    exact Except.noConfusion h

/-- Membership in the §7 error taxonomy as amended: the typed errors
(`InvalidArgumentType`, `InvalidProvRecord`, `ParseError` — translated to
`InvalidArgumentType` at the document-creation boundary, raw out of the
text-format variants whose `form_string` call sits outside the handler — and
the `DatabaseError` family propagated unchanged from the adapter) together
with the raw `KeyError` of `_create_bundle_links`. -/
def TaxonomyErr (e : ProvError) : Prop :=
  e = .invalidArgumentType ∨ e = .invalidProvRecord ∨ e = .parseFailure ∨
  e = .databaseFailure ∨ e = .keyError

theorem except_ok_or_err {α : Type} (x : Except ProvError α) :
    (∃ a, x = .ok a) ∨ ∃ e, x = .error e := by
  cases x with
  | ok a => exact .inl ⟨a, rfl⟩
  | error e => exact .inr ⟨e, rfl⟩

/-- C7 amended: every public entry point — `create_document` and its format
variants, `get_document_as_prov` and its format variants — either returns a
fully materialized/reconstructed result or fails with one of the typed errors
of the taxonomy (`InvalidArgumentType`, `InvalidProvRecord`, `ParseError`
translated to `InvalidArgumentType` at the document-creation boundary,
`DatabaseError` family propagated unchanged from the adapter) or with the raw
`KeyError` raised by the plain dictionary lookup
`self._bundle_id_map[to_bundle]` in `_create_bundle_links` when a mention
link names a bundle that was never issued an id in pass 1; no other kind of
failure escapes and there is no partial result, under every adapter fault
profile. -/
theorem claim7_amended_entry_point_errors :
    (∀ (F : FaultProfile) (c : ApiContent),
      (∃ docId, (createDocumentEntry F c).2 = .ok docId) ∨
      ∃ e, (createDocumentEntry F c).2 = .error e ∧ TaxonomyErr e) ∧
    (∀ (F : FaultProfile) (c : ApiContent),
      (∃ docId, (createDocumentFromJson F c).2 = .ok docId) ∨
      ∃ e, (createDocumentFromJson F c).2 = .error e ∧ TaxonomyErr e) ∧
    (∀ (F : FaultProfile) (c : ApiContent),
      (∃ docId, (createDocumentFromXml F c).2 = .ok docId) ∨
      ∃ e, (createDocumentFromXml F c).2 = .error e ∧ TaxonomyErr e) ∧
    (∀ (F : FaultProfile) (c : ApiContent),
      (∃ docId, (createDocumentFromProvn F c).2 = .ok docId) ∨
      ∃ e, (createDocumentFromProvn F c).2 = .error e ∧ TaxonomyErr e) ∧
    (∀ (F : FaultProfile) (c : ApiContent),
      (∃ docId, (createDocumentFromProv F c).2 = .ok docId) ∨
      ∃ e, (createDocumentFromProv F c).2 = .error e ∧ TaxonomyErr e) ∧
    (∀ (F : FaultProfile) (s : AdapterState) (a : DocIdArg),
      (∃ d, getDocumentAsProvEntry F s a = .ok d) ∨
      ∃ e, getDocumentAsProvEntry F s a = .error e ∧ TaxonomyErr e) ∧
    (∀ (F : FaultProfile) (s : AdapterState) (a : DocIdArg),
      (∃ txt, getDocumentAsJson F s a = .ok txt) ∨
      ∃ e, getDocumentAsJson F s a = .error e ∧ TaxonomyErr e) ∧
    (∀ (F : FaultProfile) (s : AdapterState) (a : DocIdArg),
      (∃ txt, getDocumentAsXml F s a = .ok txt) ∨
      ∃ e, getDocumentAsXml F s a = .error e ∧ TaxonomyErr e) ∧
    (∀ (F : FaultProfile) (s : AdapterState) (a : DocIdArg),
      (∃ txt, getDocumentAsProvn F s a = .ok txt) ∨
      ∃ e, getDocumentAsProvn F s a = .error e ∧ TaxonomyErr e) := by
  refine ⟨?_, ?_, ?_, ?_, ?_, ?_, ?_, ?_, ?_⟩
  · intro F c
    rcases except_ok_or_err (createDocumentEntry F c).2 with ⟨a, ha⟩ | ⟨e, he⟩
    · exact .inl ⟨a, ha⟩
    · refine .inr ⟨e, he, ?_⟩
      rcases createDocumentEntry_err he with h | h | h | h
      · exact .inl h
      · exact .inr (.inl h)
      · exact .inr (.inr (.inr (.inr h)))
      · exact .inr (.inr (.inr (.inl h)))
  · intro F c
    rcases except_ok_or_err (createDocumentFromJson F c).2 with ⟨a, ha⟩ | ⟨e, he⟩
    · exact .inl ⟨a, ha⟩
    · refine .inr ⟨e, he, ?_⟩
      rcases createDocumentFromJson_err he with h | h | h | h | h
      · exact .inl h
      · exact .inr (.inl h)
      · exact .inr (.inr (.inl h))
      · exact .inr (.inr (.inr (.inr h)))
      · exact .inr (.inr (.inr (.inl h)))
  · intro F c
    rcases except_ok_or_err (createDocumentFromXml F c).2 with ⟨a, ha⟩ | ⟨e, he⟩
    · exact .inl ⟨a, ha⟩
    · refine .inr ⟨e, he, ?_⟩
      rcases createDocumentFromXml_err he with h | h | h | h | h
      · exact .inl h
      · exact .inr (.inl h)
      · exact .inr (.inr (.inl h))
      · exact .inr (.inr (.inr (.inr h)))
      · exact .inr (.inr (.inr (.inl h)))
  · intro F c
    rcases except_ok_or_err (createDocumentFromProvn F c).2 with ⟨a, ha⟩ | ⟨e, he⟩
    · exact .inl ⟨a, ha⟩
    · refine .inr ⟨e, he, ?_⟩
      rcases createDocumentFromProvn_err he with h | h | h | h | h
      · exact .inl h
      · exact .inr (.inl h)
      · exact .inr (.inr (.inl h))
      · exact .inr (.inr (.inr (.inr h)))
      · exact .inr (.inr (.inr (.inl h)))
  · intro F c
    rcases except_ok_or_err (createDocumentFromProv F c).2 with ⟨a, ha⟩ | ⟨e, he⟩
    · exact .inl ⟨a, ha⟩
    · refine .inr ⟨e, he, ?_⟩
      rcases createDocumentFromProv_err he with h | h | h | h
      · exact .inl h
      · exact .inr (.inl h)
      · exact .inr (.inr (.inr (.inr h)))
      · exact .inr (.inr (.inr (.inl h)))
  · intro F s a
    rcases except_ok_or_err (getDocumentAsProvEntry F s a) with ⟨d, hd⟩ | ⟨e, he⟩
    · exact .inl ⟨d, hd⟩
    · refine .inr ⟨e, he, ?_⟩
      rcases getDocumentAsProvEntry_err he with h | h
      · exact .inl h
      · exact .inr (.inr (.inr (.inl h)))
  · intro F s a
    rcases except_ok_or_err (getDocumentAsJson F s a) with ⟨d, hd⟩ | ⟨e, he⟩
    · exact .inl ⟨d, hd⟩
    · refine .inr ⟨e, he, ?_⟩
      rcases getDocumentAsJson_err he with h | h
      · exact .inl h
      · exact .inr (.inr (.inr (.inl h)))
  · intro F s a
    rcases except_ok_or_err (getDocumentAsXml F s a) with ⟨d, hd⟩ | ⟨e, he⟩
    · exact .inl ⟨d, hd⟩
    · refine .inr ⟨e, he, ?_⟩
      rcases getDocumentAsXml_err he with h | h
      · exact .inl h
      · exact .inr (.inr (.inr (.inl h)))
  · intro F s a
    rcases except_ok_or_err (getDocumentAsProvn F s a) with ⟨d, hd⟩ | ⟨e, he⟩
    · exact .inl ⟨d, hd⟩
    · refine .inr ⟨e, he, ?_⟩
      rcases getDocumentAsProvn_err he with h | h
      · exact .inl h
      · exact .inr (.inr (.inr (.inl h)))

/-- An adapter state holding one stored record whose type string does not
resolve against any namespace, so reconstruction fails. -/
def exBadState : AdapterState :=
  { ctr := 1,
    records := [⟨0, [], ⟨"bogus", "bogus", [], []⟩⟩],
    relations := [], bundles := [], trace := [] }

theorem claim7_witness :
    ((∃ docId, (createDocumentEntry (fun _ => true)
        (.doc exDocDanglingMention)).2 = .ok docId) ∨
      ∃ e, (createDocumentEntry (fun _ => true)
        (.doc exDocDanglingMention)).2 = .error e ∧ TaxonomyErr e) ∧
    (createDocumentEntry (fun _ => true) (.doc exDocDanglingMention)).2 =
      .error .databaseFailure ∧
    (createDocumentEntry (fun _ => false) (.doc exDocDanglingMention)).2 =
      .error .keyError ∧
    (createDocumentFromJson (fun _ => false) .badText).2 =
      .error .parseFailure ∧
    (createDocumentEntry (fun _ => false) .badText).2 =
      .error .invalidArgumentType ∧
    ((∃ d, getDocumentAsProvEntry (fun _ => false) exBadState (.strId 0) =
        .ok d) ∨
      ∃ e, getDocumentAsProvEntry (fun _ => false) exBadState (.strId 0) =
        .error e ∧ TaxonomyErr e) ∧
    getDocumentAsProvEntry (fun _ => false) exBadState (.strId 0) =
      .error .invalidArgumentType ∧
    getDocumentAsProvEntry (fun _ => true) exBadState (.strId 0) =
      .error .databaseFailure :=
  ⟨claim7_amended_entry_point_errors.1 (fun _ => true) (.doc exDocDanglingMention),
   rfl, rfl, rfl, rfl,
   claim7_amended_entry_point_errors.2.2.2.2.2.1 (fun _ => false) exBadState
     (.strId 0),
   rfl, rfl⟩

/-! ### Claim C9: the string-value namespace asymmetry -/

/-- A namespace-pair list is consistent when equal prefixes carry equal URIs,
so no later registration of the loop overrides an earlier one with a
different URI. -/
abbrev NsConsistent (P : NsTable) : Prop :=
  ∀ e1 ∈ P, ∀ e2 ∈ P, e1.1 = e2.1 → e1.2 = e2.2

theorem nsConsistent_mono {P Q : NsTable} (hs : ∀ e ∈ Q, e ∈ P)
    (h : NsConsistent P) : NsConsistent Q :=
  fun e1 h1 e2 h2 he => h e1 (hs e1 h1) e2 (hs e2 h2) he

/-- The namespace pairs one attribute registers during the namespace loop: the
key's namespace and, when the value is a qualified name or a string resolving
to one, that namespace too. -/
def nsPairsOf (tbl : NsTable) (kv : AttrKey × AttrValue) : NsTable :=
  match kv.1 with
  | .rawKey _ => []
  | .qnKey kq =>
    (kq.pfx, kq.uri) ::
      (match kv.2 with
       | .qn vq => [(vq.pfx, vq.uri)]
       | .str s =>
         match validQualifiedName tbl s with
         | some vq => [(vq.pfx, vq.uri)]
         | none => []
       | .dateTime _ => []
       | .literal _ _ => [])

/-- All namespace pairs an attribute list registers, in loop order. -/
def nsPairsAll (tbl : NsTable) : Attrs → NsTable
  | [] => []
  | kv :: rest => nsPairsOf tbl kv ++ nsPairsAll tbl rest

theorem mem_upsert_self {α β : Type} [DecidableEq α] :
    ∀ (l : List (α × β)) (k : α) (v : β), (k, v) ∈ upsert l k v
  | [], k, v => by simp [upsert]
  | (k0, v0) :: rest, k, v => by
    rw [upsert]
    by_cases hk : k0 = k
    · rw [if_pos hk]
      subst hk
      exact List.mem_cons_self _ _
    · rw [if_neg hk]
      exact List.mem_cons_of_mem _ (mem_upsert_self rest k v)

theorem upsert_mem_preserve {α β : Type} [DecidableEq α] :
    ∀ {l : List (α × β)} {pr : α × β} {k : α} {v : β},
      pr ∈ l → (pr.1 = k → pr.2 = v) → pr ∈ upsert l k v
  | [], pr, k, v, hm, _ => absurd hm (List.not_mem_nil pr)
  | (k0, v0) :: rest, pr, k, v, hm, hcons => by
    rw [upsert]
    by_cases hk : k0 = k
    · rw [if_pos hk]
      subst hk
      rcases List.mem_cons.mp hm with h1 | h1
      · have hp1 : pr.1 = k0 := by rw [h1]
        have hp2 : pr.2 = v := hcons hp1
        have hpr : pr = (k0, v) := by
          obtain ⟨a, b⟩ := pr
          simp at hp1 hp2
          rw [hp1, hp2]
        rw [hpr]
        exact List.mem_cons_self _ _
      · exact List.mem_cons_of_mem _ h1
    · rw [if_neg hk]
      rcases List.mem_cons.mp hm with h1 | h1
      · rw [h1]
        exact List.mem_cons_self _ _
      · exact List.mem_cons_of_mem _ (upsert_mem_preserve h1 hcons)

theorem foldl_upsert_subset {α β : Type} [DecidableEq α] :
    ∀ (ps acc : List (α × β)) (e : α × β),
      e ∈ ps.foldl (fun a q => upsert a q.1 q.2) acc → e ∈ acc ++ ps
  | [], acc, e, h => by simpa using h
  | q :: ps', acc, e, h => by
    simp only [List.foldl] at h
    have h1 := foldl_upsert_subset ps' (upsert acc q.1 q.2) e h
    rcases List.mem_append.mp h1 with h2 | h2
    · rcases mem_upsert h2 with h3 | h3
      · exact List.mem_append.mpr (.inl h3)
      · rw [h3]
        exact List.mem_append.mpr (.inr (List.mem_cons_self _ _))
    · exact List.mem_append.mpr (.inr (List.mem_cons_of_mem _ h2))

theorem foldl_upsert_mem_of_consistent {α β : Type} [DecidableEq α] :
    ∀ (ps acc : List (α × β)),
      (∀ e1 ∈ acc ++ ps, ∀ e2 ∈ acc ++ ps, e1.1 = e2.1 → e1.2 = e2.2) →
      ∀ pr ∈ acc ++ ps, pr ∈ ps.foldl (fun a q => upsert a q.1 q.2) acc
  | [], acc, _, pr, hm => by simpa using hm
  | q :: ps', acc, hcons, pr, hm => by
    simp only [List.foldl]
    have hsub : ∀ e ∈ upsert acc q.1 q.2 ++ ps', e ∈ acc ++ q :: ps' := by
      intro e he
      rcases List.mem_append.mp he with h1 | h1
      · rcases mem_upsert h1 with h2 | h2
        · exact List.mem_append.mpr (.inl h2)
        · rw [h2]
          exact List.mem_append.mpr (.inr (List.mem_cons_self _ _))
      · exact List.mem_append.mpr (.inr (List.mem_cons_of_mem _ h1))
    apply foldl_upsert_mem_of_consistent ps' (upsert acc q.1 q.2)
      (fun e1 h1 e2 h2 => hcons e1 (hsub e1 h1) e2 (hsub e2 h2))
    rcases List.mem_append.mp hm with h1 | h1
    · refine List.mem_append.mpr (.inl ?_)
      apply upsert_mem_preserve h1
      intro hpk
      exact hcons pr hm q
        (List.mem_append.mpr (.inr (List.mem_cons_self _ _))) hpk
    · rcases List.mem_cons.mp h1 with h2 | h2
      · rw [h2]
        exact List.mem_append.mpr (.inl (mem_upsert_self acc q.1 q.2))
      · exact List.mem_append.mpr (.inr h2)

/-- One pass of the namespace loop is the in-order upsert of the pairs it
registers. -/
theorem nsStepPure_eq_upserts (tbl acc : NsTable) (kv : AttrKey × AttrValue) :
    nsStepPure tbl acc kv =
      (nsPairsOf tbl kv).foldl (fun a q => upsert a q.1 q.2) acc := by
  obtain ⟨k, v⟩ := kv
  cases k with
  | rawKey s => rfl
  | qnKey kq =>
    cases v with
    | qn vq => rfl
    | dateTime s => rfl
    | literal a b => rfl
    | str s =>
      rcases hv : validQualifiedName tbl s with - | vq
      · simp [nsStepPure, nsPairsOf, hv]
      · simp [nsStepPure, nsPairsOf, hv]

theorem mem_nsPairsAll (tbl : NsTable) :
    ∀ {l : Attrs} {kv : AttrKey × AttrValue} {pr : String × String},
      kv ∈ l → pr ∈ nsPairsOf tbl kv → pr ∈ nsPairsAll tbl l
  | [], kv, pr, hm, _ => absurd hm (List.not_mem_nil kv)
  | kv0 :: rest, kv, pr, hm, hp => by
    rw [nsPairsAll]
    rcases List.mem_cons.mp hm with h1 | h1
    · exact List.mem_append.mpr (.inl (h1 ▸ hp))
    · exact List.mem_append.mpr (.inr (mem_nsPairsAll tbl h1 hp))

/-- Every pair a consistent namespace loop registers is in its result. -/
theorem nsFoldPure_mem (tbl : NsTable) :
    ∀ (l : Attrs) (acc : NsTable),
      NsConsistent (acc ++ nsPairsAll tbl l) →
      ∀ pr ∈ acc ++ nsPairsAll tbl l, pr ∈ l.foldl (nsStepPure tbl) acc
  | [], acc, _, pr, hm => by simpa [nsPairsAll] using hm
  | kv :: rest, acc, hcons, pr, hm => by
    simp only [List.foldl]
    rw [nsStepPure_eq_upserts]
    have hsubA : ∀ e ∈ acc ++ nsPairsOf tbl kv,
        e ∈ acc ++ nsPairsAll tbl (kv :: rest) := by
      intro e he
      rcases List.mem_append.mp he with h1 | h1
      · exact List.mem_append.mpr (.inl h1)
      · refine List.mem_append.mpr (.inr ?_)
        rw [nsPairsAll]
        exact List.mem_append.mpr (.inl h1)
    have hsub2 : ∀ e ∈ (nsPairsOf tbl kv).foldl (fun a q => upsert a q.1 q.2) acc
        ++ nsPairsAll tbl rest, e ∈ acc ++ nsPairsAll tbl (kv :: rest) := by
      intro e he
      rcases List.mem_append.mp he with h1 | h1
      · exact hsubA e (foldl_upsert_subset _ _ _ h1)
      · refine List.mem_append.mpr (.inr ?_)
        rw [nsPairsAll]
        exact List.mem_append.mpr (.inr h1)
    apply nsFoldPure_mem tbl rest _ (nsConsistent_mono hsub2 hcons)
    rcases List.mem_append.mp hm with h1 | h1
    · refine List.mem_append.mpr (.inl ?_)
      apply foldl_upsert_mem_of_consistent (nsPairsOf tbl kv) acc
        (fun e1 he1 e2 he2 => hcons e1 (hsubA e1 he1) e2 (hsubA e2 he2))
      exact List.mem_append.mpr (.inl h1)
    · rw [nsPairsAll] at h1
      rcases List.mem_append.mp h1 with h2 | h2
      · refine List.mem_append.mpr (.inl ?_)
        apply foldl_upsert_mem_of_consistent (nsPairsOf tbl kv) acc
          (fun e1 he1 e2 he2 => hcons e1 (hsubA e1 he1) e2 (hsubA e2 he2))
        exact List.mem_append.mpr (.inr h2)
      · exact List.mem_append.mpr (.inr h2)

/-- C9: when metadata extraction succeeds, the attribute list it returns is
exactly the dict of the record's original attributes — a string value that
resolves to a qualified name is stored as that original string, never upgraded
— and, provided the namespaces the loop registers are consistent (equal
prefixes carry equal URIs, so no later registration overrides one), the
namespace of every such resolved string value is in the metadata's
namespaces-used table. -/
theorem claim9_string_value_namespace_asymmetry
    (tbl : NsTable) (r : ProvRecordM) (md : Metadata) (ats : Attrs)
    (h : getMetadataAndAttributesForRecord tbl (.record r) = .ok (md, ats)) :
    ats = pyDict r.attributes ∧
    (NsConsistent ((md.provType.pfx, md.provType.uri) ::
        (md.identifier.pfx, md.identifier.uri) ::
        nsPairsAll tbl (pyDict r.attributes)) →
      ∀ (kq vq : QualifiedName) (s : String),
        (AttrKey.qnKey kq, AttrValue.str s) ∈ pyDict r.attributes →
        validQualifiedName tbl s = some vq →
        (vq.pfx, vq.uri) ∈ md.namespaces) := by
  obtain ⟨hT, hid, hats, htm, hns⟩ := getMeta_ok_inv h
  refine ⟨hats, ?_⟩
  intro hcons kq vq s hmem hvq
  rw [hns]
  have hacc0 : ∀ e ∈ upsert
      (upsert [] (extProvTypeT tbl r).pfx (extProvTypeT tbl r).uri)
      md.identifier.pfx md.identifier.uri,
      e ∈ [((extProvTypeT tbl r).pfx, (extProvTypeT tbl r).uri),
           (md.identifier.pfx, md.identifier.uri)] := by
    intro e he
    rcases mem_upsert he with h1 | h1
    · rcases mem_upsert h1 with h2 | h2
      · simp at h2
      · rw [h2]
        exact List.mem_cons_self _ _
    · rw [h1]
      exact List.mem_cons_of_mem _ (List.mem_cons_self _ _)
  have hsub : ∀ e ∈ upsert
      (upsert [] (extProvTypeT tbl r).pfx (extProvTypeT tbl r).uri)
      md.identifier.pfx md.identifier.uri ++ nsPairsAll tbl (pyDict r.attributes),
      e ∈ (md.provType.pfx, md.provType.uri) ::
        (md.identifier.pfx, md.identifier.uri) ::
        nsPairsAll tbl (pyDict r.attributes) := by
    intro e he
    rcases List.mem_append.mp he with h1 | h1
    · rcases List.mem_cons.mp (hacc0 e h1) with h2 | h2
      · rw [h2, ← hT]
        exact List.mem_cons_self _ _
      · rcases List.mem_cons.mp h2 with h3 | h3
        · rw [h3]
          exact List.mem_cons_of_mem _ (List.mem_cons_self _ _)
        · simp at h3
    · exact List.mem_cons_of_mem _ (List.mem_cons_of_mem _ h1)
  apply nsFoldPure_mem tbl (pyDict r.attributes) _ (nsConsistent_mono hsub hcons)
  refine List.mem_append.mpr (.inr ?_)
  apply mem_nsPairsAll tbl hmem
  simp [nsPairsOf, hvq]

/-- A record carrying one attribute whose value is the resolvable string
`"ex:v"`. -/
def exRecC9 : ProvRecordM :=
  .element .entity (some (.qn (exQn "e")))
    [(.qnKey (exQn "k"), .str "ex:v")]

/-- The metadata its extraction returns. -/
def exMdC9 : Metadata :=
  { provType := provQn "Entity", identifier := exQn "e",
    namespaces := [("prov", provUri), ("ex", exUri)],
    typeMap := [] }

theorem claim9_witness :
    [(AttrKey.qnKey (exQn "k"), AttrValue.str "ex:v")] =
      pyDict exRecC9.attributes ∧
    ("ex", exUri) ∈ exMdC9.namespaces :=
  have h := claim9_string_value_namespace_asymmetry [("ex", exUri)] exRecC9
    exMdC9 [(AttrKey.qnKey (exQn "k"), AttrValue.str "ex:v")] rfl
  ⟨h.1, h.2 (by decide) (exQn "k") (exQn "v") "ex:v" (by decide) rfl⟩

/-! ### Claim C4: the bundle-membership edges are invisible -/

theorem alookup_cons {α β : Type} [DecidableEq α] (k0 : α) (v0 : β)
    (rest : List (α × β)) (k : α) :
    alookup ((k0, v0) :: rest) k = if k0 = k then some v0 else alookup rest k := by
  unfold alookup
  by_cases h : k0 = k
  · rw [List.find?_cons_of_pos _ (by simp [h]), if_pos h]
    rfl
  · rw [List.find?_cons_of_neg _ (by simp [h]), if_neg h]

theorem alookup_of_mem_nodup {α β : Type} [DecidableEq α] :
    ∀ {l : List (α × β)} {k : α} {v : β},
      (k, v) ∈ l → (keys l).Nodup → alookup l k = some v
  | [], k, v, hm, _ => absurd hm (List.not_mem_nil _)
  | (k0, v0) :: rest, k, v, hm, hnod => by
    rw [alookup_cons]
    have hnod' : (k0 :: keys rest).Nodup := by simpa [keys] using hnod
    rcases List.mem_cons.mp hm with h1 | h1
    · have hk : k = k0 := congrArg Prod.fst h1
      have hv : v = v0 := congrArg Prod.snd h1
      rw [if_pos hk.symm, hv]
    · by_cases hk : k0 = k
      · exfalso
        have hkk : k ∈ keys rest := List.mem_map.mpr ⟨(k, v), h1, rfl⟩
        rw [← hk] at hkk
        exact (List.nodup_cons.mp hnod').1 hkk
      · rw [if_neg hk]
        exact alookup_of_mem_nodup h1 (List.nodup_cons.mp hnod').2

/-- The type codec only yields a plain string by passing the stored string
through. -/
theorem decodeValue_str_inv {tbl : NsTable} {tm : List (String × String)}
    {ks vs out : String} (h : decodeValue tbl tm ks vs = .str out) : vs = out := by
  unfold decodeValue at h
  rcases ht : alookup tm ks with - | tag
  · rw [ht] at h
    injection h with h1
  · rw [ht] at h
    simp only [] at h
    by_cases h1 : tag = QUALIFIED_NAME_TAG
    · rw [if_pos h1] at h
      rcases hv : validQualifiedName tbl vs with - | q
      · rw [hv] at h
        injection h with h2
      · rw [hv] at h
        exact AttrValue.noConfusion h
    · rw [if_neg h1] at h
      by_cases h2 : tag = DATETIME_TAG
      · rw [if_pos h2] at h
        exact AttrValue.noConfusion h
      · rw [if_neg h2] at h
        exact AttrValue.noConfusion h

theorem decodeAttr_ok_inv {tbl : NsTable} {tm : List (String × String)}
    {kv : String × String} {d : AttrKey × AttrValue}
    (h : decodeAttr tbl tm kv = .ok d) :
    ∃ kq, validQualifiedName tbl kv.1 = some kq ∧
      d = (AttrKey.qnKey kq, decodeValue tbl tm kv.1 kv.2) := by
  unfold decodeAttr at h
  rcases hv : validQualifiedName tbl kv.1 with - | kq
  · rw [hv, throwEq] at h
    exact Except.noConfusion h
  · rw [hv] at h
    injection h with h1
    exact ⟨kq, rfl, h1.symm⟩

/-- Every decoded attribute pair originates from a stored pair whose key
resolves to its qualified name and whose value runs through the codec. -/
theorem decodeAttrs_mem_inv {tbl : NsTable} {tm : List (String × String)} :
    ∀ {l : List (String × String)} {d : Attrs},
      decodeAttrs tbl tm l = .ok d →
      ∀ kq v, (AttrKey.qnKey kq, v) ∈ d →
        ∃ ks vs, (ks, vs) ∈ l ∧ validQualifiedName tbl ks = some kq ∧
          v = decodeValue tbl tm ks vs
  | [], d, h, kq, v, hm => by
    rw [decodeAttrs] at h
    injection h with h1
    rw [← h1] at hm
    exact absurd hm (List.not_mem_nil _)
  | kv :: rest, d, h, kq, v, hm => by
    rw [decodeAttrs] at h
    rcases hd : decodeAttr tbl tm kv with e' | d0
    · rw [hd] at h
      exact Except.noConfusion h
    · rw [hd] at h
      rcases hds : decodeAttrs tbl tm rest with e' | ds
      · rw [hds] at h
        exact Except.noConfusion h
      · rw [hds] at h
        injection h with h1
        rw [← h1] at hm
        rcases List.mem_cons.mp hm with h2 | h2
        · obtain ⟨kq0, hv0, hd0⟩ := decodeAttr_ok_inv hd
          rw [hd0] at h2
          have hkq : kq0 = kq := by
            have := congrArg Prod.fst h2.symm
            simp at this
            exact this
          have hval : v = decodeValue tbl tm kv.1 kv.2 := by
            have := congrArg Prod.snd h2
            simpa using this
          exact ⟨kv.1, kv.2, List.mem_cons_self _ _, by rw [← hkq]; exact hv0, hval⟩
        · obtain ⟨ks, vs, hmem, hks, hvv⟩ := decodeAttrs_mem_inv hds kq v h2
          exact ⟨ks, vs, List.mem_cons_of_mem _ hmem, hks, hvv⟩

/-- Formal relation attributes always carry qualified-name values. -/
theorem formalPairs_qn (k : RelKind) (f t mb : Option QualifiedName)
    (kq : AttrKey) (v : AttrValue) (h : (kq, v) ∈ formalPairs k f t mb) :
    ∃ q, v = AttrValue.qn q := by
  unfold formalPairs at h
  rcases List.mem_append.mp h with h1 | h1
  · rcases List.mem_append.mp h1 with h2 | h2
    · cases f with
      | none => simp at h2
      | some q =>
        simp at h2
        exact ⟨q, h2.2⟩
    · cases t with
      | none => simp at h2
      | some q =>
        simp at h2
        exact ⟨q, h2.2⟩
  · cases k <;> cases mb <;> simp at h1
    exact ⟨_, h1.2⟩

/-- Every qualified-name-keyed attribute of a reconstructed record is either a
recovered formal endpoint (a qualified-name value) or decodes a stored
pair. -/
theorem createProvRecord_attr_inv {tbl : NsTable} {t : QualifiedName}
    {ident : Option String} {attrs tm : List (String × String)} {rec : ProvRecordM}
    (h : createProvRecord tbl t ident attrs tm = .ok rec) :
    ∀ kq v, (AttrKey.qnKey kq, v) ∈ rec.attributes →
      (∃ q, v = AttrValue.qn q) ∨
      ∃ ks vs, (ks, vs) ∈ attrs ∧ validQualifiedName tbl ks = some kq ∧
        v = decodeValue tbl tm ks vs := by
  unfold createProvRecord at h
  have hcore : ∀ iv : Option IdentVal,
      (match recordCtorOfType t with
       | none => Except.error ProvError.invalidArgumentType
       | some (.inl ek) =>
         match decodeAttrs tbl tm attrs with
         | .error e => .error e
         | .ok decoded => .ok (ProvRecordM.element ek iv decoded)
       | some (.inr rk) =>
         match decodeAttrs tbl tm
             (attrs.filter (fun kv => decide (kv.1 ∉ formalKeyStrs rk))) with
         | .error e => .error e
         | .ok decoded =>
           .ok (ProvRecordM.relation rk iv
             ((alookup attrs (qnString rk.fromKey)).bind (validQualifiedName tbl))
             ((alookup attrs (qnString rk.toKey)).bind (validQualifiedName tbl))
             (match rk with
              | .mention =>
                (alookup attrs (qnString mentionBundleKey)).bind
                  (validQualifiedName tbl)
              | _ => none)
             decoded)) = Except.ok rec →
      ∀ kq v, (AttrKey.qnKey kq, v) ∈ rec.attributes →
        (∃ q, v = AttrValue.qn q) ∨
        ∃ ks vs, (ks, vs) ∈ attrs ∧ validQualifiedName tbl ks = some kq ∧
          v = decodeValue tbl tm ks vs := by
    intro iv hm kq v hv
    rcases hc : recordCtorOfType t with - | ctor
    · rw [hc] at hm
      exact Except.noConfusion hm
    · rcases ctor with ek | rk
      · rw [hc] at hm
        simp only [] at hm
        rcases hd : decodeAttrs tbl tm attrs with e' | ds
        · rw [hd] at hm
          exact Except.noConfusion hm
        · rw [hd] at hm
          injection hm with h1
          rw [← h1] at hv
          simp only [ProvRecordM.attributes] at hv
          exact .inr (decodeAttrs_mem_inv hd kq v hv)
      · rw [hc] at hm
        simp only [] at hm
        rcases hd : decodeAttrs tbl tm
            (attrs.filter (fun kv => decide (kv.1 ∉ formalKeyStrs rk))) with e' | ds
        · rw [hd] at hm
          exact Except.noConfusion hm
        · rw [hd] at hm
          injection hm with h1
          rw [← h1] at hv
          simp only [ProvRecordM.attributes] at hv
          rcases List.mem_append.mp hv with h2 | h2
          · exact .inl (formalPairs_qn _ _ _ _ _ _ h2)
          · obtain ⟨ks, vs, hmem, hks, hvv⟩ := decodeAttrs_mem_inv hd kq v h2
            exact .inr ⟨ks, vs, (List.mem_filter.mp hmem).1, hks, hvv⟩
  cases ident with
  | none =>
    simp only [] at h
    exact hcore none h
  | some istr =>
    simp only [] at h
    rcases hv : validQualifiedName tbl istr with - | q
    · rw [hv] at h
      simp only [] at h
      exact Except.noConfusion h
    · rw [hv] at h
      simp only [] at h
      exact hcore (some (IdentVal.qn q)) h

/-- Any raw record whose stored attributes answer the `prov:label` lookup with
`"belongsToBundle"` is skipped by the reconstructor whenever its stored type
resolves. -/
theorem parseRecord_skip_belongs (base : NsTable) (ctx : ParseCtx)
    (raw : RawRecord)
    (hlab : alookup raw.attributes (qnString PROV_LABEL) = some "belongsToBundle")
    (hres : (validQualifiedName (base ++ ctx.reg) raw.metadata.provType).isSome
      = true) :
    parseRecord base ctx raw = .ok ctx := by
  unfold parseRecord
  rcases hv : validQualifiedName (base ++ ctx.reg) raw.metadata.provType with - | pt
  · rw [hv] at hres
    simp at hres
  · simp only []
    by_cases h1 : pt =
        (validQualifiedName (base ++ ctx.reg) "prov:Unknown").getD provUnknownQn
    · rw [if_pos h1]
    · rw [if_neg h1, if_pos hlab]

/-- Under unique stored keys and canonically spelled label keys, a record the
reconstructor does create never carries the `belongsToBundle` label pair. -/
theorem parseRecord_no_belongs (base : NsTable) (ctx : ParseCtx)
    (raw : RawRecord) (ctx' : ParseCtx)
    (hnod : (keys raw.attributes).Nodup)
    (hcanon : ∀ ks ∈ keys raw.attributes,
      validQualifiedName
          (base ++ addNamespacesToBundle ctx.reg raw.metadata.namespaces) ks =
        some PROV_LABEL → ks = qnString PROV_LABEL)
    (h : parseRecord base ctx raw = .ok ctx') :
    ∀ rec ∈ ctx'.recs, rec ∈ ctx.recs ∨
      (AttrKey.qnKey PROV_LABEL, AttrValue.str "belongsToBundle") ∉
        rec.attributes := by
  intro rec hrec
  unfold parseRecord at h
  rcases hv : validQualifiedName (base ++ ctx.reg) raw.metadata.provType
      with - | pt
  · rw [hv] at h
    exact Except.noConfusion h
  · rw [hv] at h
    simp only [] at h
    by_cases h1 : pt =
        (validQualifiedName (base ++ ctx.reg) "prov:Unknown").getD provUnknownQn
    · rw [if_pos h1] at h
      injection h with h2
      rw [← h2] at hrec
      exact .inl hrec
    · rw [if_neg h1] at h
      by_cases h2 : alookup raw.attributes (qnString PROV_LABEL) =
          some "belongsToBundle"
      · rw [if_pos h2] at h
        injection h with h3
        rw [← h3] at hrec
        exact .inl hrec
      · rw [if_neg h2] at h
        rcases hc : createProvRecord
            (base ++ addNamespacesToBundle ctx.reg raw.metadata.namespaces) pt
            (if validQualifiedName (base ++ ctx.reg) raw.metadata.identifier =
                some pt
             then none else some raw.metadata.identifier)
            raw.attributes raw.metadata.typeMap with e' | rec0
        · rw [hc] at h
          exact Except.noConfusion h
        · rw [hc] at h
          injection h with h3
          rw [← h3] at hrec
          simp only [] at hrec
          rcases List.mem_append.mp hrec with h4 | h4
          · exact .inl h4
          · right
            have hr0 : rec = rec0 := by simpa using h4
            intro hpair
            rw [hr0] at hpair
            rcases createProvRecord_attr_inv hc PROV_LABEL
                (.str "belongsToBundle") hpair with ⟨q, hq⟩ | ⟨ks, vs, hmem, hks, hvv⟩
            · exact AttrValue.noConfusion hq
            · have hkss : ks = qnString PROV_LABEL :=
                hcanon ks (List.mem_map.mpr ⟨(ks, vs), hmem, rfl⟩) hks
              have hvs : vs = "belongsToBundle" := decodeValue_str_inv hvv.symm
              apply h2
              apply alookup_of_mem_nodup _ hnod
              rw [← hkss, ← hvs]
              exact hmem

/-- The edges `_create_bundle_association`'s loop appends: one per element,
all carrying the belong attributes and metadata it extracted once up
front. -/
theorem saveAssocList_rel_inv (tbl : NsTable) (docId bundleId : Nat)
    (bq : QualifiedName) (bm : Metadata) (ba : Attrs) :
    ∀ (l : List ProvRecordM) (s : AdapterState) (e : DbRelation),
      e ∈ (saveAssocList tbl docId bundleId bq bm ba s l).1.relations →
      e ∈ s.relations ∨
        (e.attributes = serializeAttrs ba ∧ e.metadata = serializeMeta bm)
  | [], s, e, h => by
    rw [saveAssocList] at h
    exact .inl h
  | r :: rest, s, e, h => by
    rw [saveAssocList] at h
    rcases hm : getMetadataAndAttributesForRecord tbl (.record r)
        with e' | ⟨meta, ats⟩
    · rw [hm] at h
      exact .inl h
    · rw [hm] at h
      simp only [] at h
      rcases saveAssocList_rel_inv tbl docId bundleId bq bm ba rest _ e h
          with h1 | h1
      · have h2 : e ∈ s.relations ∨
            e = ⟨bundleId, qnString meta.identifier, docId, qnString bq,
              serializeAttrs ba, serializeMeta bm⟩ := by
          simpa [adapterSaveRelation] using h1
        rcases h2 with h3 | h3
        · exact .inl h3
        · right
          rw [h3]
          exact ⟨rfl, rfl⟩
      · exact .inr h1

/-- Extraction of the synthetic belong relation always succeeds, returning its
label attribute unchanged and the `prov:Association` type. -/
theorem belongRel_extraction (tbl : NsTable) :
    ∃ md : Metadata,
      getMetadataAndAttributesForRecord tbl
          (.record (.relation .association none none none none
            [(AttrKey.qnKey PROV_LABEL, AttrValue.str "belongsToBundle")])) =
        .ok (md, [(AttrKey.qnKey PROV_LABEL, AttrValue.str "belongsToBundle")]) ∧
      md.provType = provQn "Association" := by
  have h := @getMeta_ok_eq tbl
    (ProvRecordM.relation .association none none none none
      [(AttrKey.qnKey PROV_LABEL, AttrValue.str "belongsToBundle")])
    (provQn "Association") rfl (by decide)
  exact ⟨_, h, rfl⟩

/-- Every edge `_create_bundle_association` stores beyond the incoming state
carries exactly the serialized `belongsToBundle` label attribute and the
`prov:Association` type. -/
theorem createBundleAssociation_rel_inv (tbl : NsTable) (s : AdapterState)
    (docId bundleId : Nat) (bq : QualifiedName) (recs : List ProvRecordM)
    (e : DbRelation)
    (h : e ∈ (createBundleAssociation tbl s docId bundleId bq recs).1.relations) :
    e ∈ s.relations ∨
      (e.attributes = [(qnString PROV_LABEL, "belongsToBundle")] ∧
       e.metadata.provType = "prov:Association") := by
  obtain ⟨md, hmd, hty⟩ := belongRel_extraction tbl
  unfold createBundleAssociation at h
  rw [hmd] at h
  simp only [] at h
  rcases saveAssocList_rel_inv tbl docId bundleId bq md
      [(AttrKey.qnKey PROV_LABEL, AttrValue.str "belongsToBundle")] _ _ e h
      with h1 | h1
  · exact .inl h1
  · right
    refine ⟨by rw [h1.1]; rfl, ?_⟩
    rw [h1.2]
    show qnString md.provType = "prov:Association"
    rw [hty]
    rfl

/-- C4: (i) every edge the bundle-association phase of materialization stores
carries exactly the stored pair `("prov:label", "belongsToBundle")` and the
type `prov:Association`; (ii) the reconstructor skips every raw record whose
stored attributes answer the `prov:label` lookup with `"belongsToBundle"`
(whenever its stored type resolves at all), contributing no record; (iii) under
unique stored attribute keys and canonically spelled label keys, no record the
reconstructor creates carries an attribute pair
`(prov:label, "belongsToBundle")` — so the synthetic membership edges are
invisible in the returned document. -/
theorem claim4_membership_edges_invisible :
    (∀ (tbl : NsTable) (s : AdapterState) (docId bundleId : Nat)
        (bq : QualifiedName) (recs : List ProvRecordM) (e : DbRelation),
        e ∈ (createBundleAssociation tbl s docId bundleId bq recs).1.relations →
        e ∈ s.relations ∨
          (e.attributes = [(qnString PROV_LABEL, "belongsToBundle")] ∧
           e.metadata.provType = "prov:Association")) ∧
    (∀ (base : NsTable) (ctx : ParseCtx) (raw : RawRecord),
        alookup raw.attributes (qnString PROV_LABEL) = some "belongsToBundle" →
        (validQualifiedName (base ++ ctx.reg) raw.metadata.provType).isSome
          = true →
        parseRecord base ctx raw = .ok ctx) ∧
    (∀ (base : NsTable) (ctx : ParseCtx) (raw : RawRecord) (ctx' : ParseCtx),
        (keys raw.attributes).Nodup →
        (∀ ks ∈ keys raw.attributes,
          validQualifiedName
              (base ++ addNamespacesToBundle ctx.reg raw.metadata.namespaces) ks =
            some PROV_LABEL → ks = qnString PROV_LABEL) →
        parseRecord base ctx raw = .ok ctx' →
        ∀ rec ∈ ctx'.recs, rec ∈ ctx.recs ∨
          (AttrKey.qnKey PROV_LABEL, AttrValue.str "belongsToBundle") ∉
            rec.attributes) :=
  ⟨fun tbl s docId bundleId bq recs e h =>
      createBundleAssociation_rel_inv tbl s docId bundleId bq recs e h,
   fun base ctx raw h1 h2 => parseRecord_skip_belongs base ctx raw h1 h2,
   fun base ctx raw ctx' hnod hcanon h =>
      parseRecord_no_belongs base ctx raw ctx' hnod hcanon h⟩

/-- The raw form of a stored membership edge. -/
def exRawBelong : RawRecord :=
  ⟨⟨"prov:Association", "prov:Association", [("prov", provUri)], []⟩,
   [("prov:label", "belongsToBundle")]⟩

/-- A benign raw element record. -/
def exRawElemC4 : RawRecord :=
  ⟨⟨"prov:Entity", "ex:e", [("ex", exUri)], []⟩, [("ex:k", "v")]⟩

/-- Its reconstruction. -/
def exRecParsedC4 : ProvRecordM :=
  .element .entity (some (.qn ⟨"ex", exUri, "e"⟩))
    [(.qnKey ⟨"ex", exUri, "k"⟩, .str "v")]

theorem claim4_witness :
    parseRecord [] (ParseCtx.mk [] []) exRawBelong = .ok (ParseCtx.mk [] []) ∧
    (exRecParsedC4 ∈ ([] : List ProvRecordM) ∨
      (AttrKey.qnKey PROV_LABEL, AttrValue.str "belongsToBundle") ∉
        exRecParsedC4.attributes) :=
  ⟨claim4_membership_edges_invisible.2.1 [] (ParseCtx.mk [] []) exRawBelong
      rfl rfl,
   claim4_membership_edges_invisible.2.2 [] (ParseCtx.mk [] []) exRawElemC4
      (ParseCtx.mk [("ex", exUri)] [exRecParsedC4]) (by decide) (by decide) rfl
      exRecParsedC4 (by decide)⟩

/-! ### Claim C8: the ordering invariants of materialization -/

/-- Whether a trace entry is a saved mention edge. -/
def Op.isMentionEdge : Op → Bool
  | .saveRelation _ _ _ _ mt => decide (mt = "prov:Mention")
  | _ => false

/-- Every adapter call `_create_relation` issues: possibly one Unknown
placeholder per absent endpoint, then the edge itself, typed with the
relation's extracted type. -/
theorem createRelation_trace (tbl : NsTable) (s : AdapterState) (fC tC : Nat)
    (r : ProvRecordM) :
    ∃ ops, (createRelation tbl s fC tC r).1.trace = s.trace ++ ops ∧
      ∀ op ∈ ops,
        (∃ fi ti, op = Op.saveRelation fC fi tC ti
          (qnString (extProvTypeT tbl r))) ∨
        (∃ c idn, (c = fC ∨ c = tC) ∧ op = Op.saveRecord c idn "prov:Unknown") := by
  cases r with
  | element k i a =>
    exact ⟨[], by simp [createRelation], fun op h => absurd h (List.not_mem_nil _)⟩
  | plain i a =>
    exact ⟨[], by simp [createRelation], fun op h => absurd h (List.not_mem_nil _)⟩
  | bundleRec i a =>
    exact ⟨[], by simp [createRelation], fun op h => absurd h (List.not_mem_nil _)⟩
  | relation k id f t mb a =>
    have hty : ∀ meta ats, getMetadataAndAttributesForRecord tbl
        (.record (.relation k id f t mb a)) = .ok (meta, ats) →
        qnString meta.provType =
          qnString (extProvTypeT tbl (.relation k id f t mb a)) :=
      fun meta ats hm => by rw [(getMeta_ok_inv hm).1]
    rcases hm : getMetadataAndAttributesForRecord tbl
        (.record (.relation k id f t mb a)) with e' | ⟨meta, ats⟩
    · cases f with
      | some fq =>
        cases t with
        | some tq =>
          exact ⟨[], by simp [createRelation, hm],
            fun op h => absurd h (List.not_mem_nil _)⟩
        | none =>
          refine ⟨[Op.saveRecord tC (qnString (unknownQnOf s.ctr))
            (qnString provUnknownQn)], ?_, ?_⟩
          · simp [createRelation, hm, createUnknownNode_eq]
          · intro op h
            simp at h
            exact .inr ⟨tC, _, .inr rfl, by rw [h]; rfl⟩
      | none =>
        cases t with
        | some tq =>
          refine ⟨[Op.saveRecord fC (qnString (unknownQnOf s.ctr))
            (qnString provUnknownQn)], ?_, ?_⟩
          · simp [createRelation, hm, createUnknownNode_eq]
          · intro op h
            simp at h
            exact .inr ⟨fC, _, .inl rfl, by rw [h]; rfl⟩
        | none =>
          refine ⟨[Op.saveRecord fC (qnString (unknownQnOf s.ctr))
              (qnString provUnknownQn),
            Op.saveRecord tC (qnString (unknownQnOf (s.ctr + 1)))
              (qnString provUnknownQn)], ?_, ?_⟩
          · simp [createRelation, hm, createUnknownNode_eq]
          · intro op h
            rcases (by simpa using h : op = _ ∨ op = _) with h1 | h1
            · exact .inr ⟨fC, _, .inl rfl, by rw [h1]; rfl⟩
            · exact .inr ⟨tC, _, .inr rfl, by rw [h1]; rfl⟩
    · cases f with
      | some fq =>
        cases t with
        | some tq =>
          refine ⟨[Op.saveRelation fC (qnString fq) tC (qnString tq)
            (qnString meta.provType)], ?_, ?_⟩
          · simp [createRelation, hm, adapterSaveRelation, serializeMeta]
          · intro op h
            simp at h
            exact .inl ⟨qnString fq, qnString tq, by rw [h, hty meta ats hm]⟩
        | none =>
          refine ⟨[Op.saveRecord tC (qnString (unknownQnOf s.ctr))
              (qnString provUnknownQn),
            Op.saveRelation fC (qnString fq) tC (qnString (unknownQnOf s.ctr))
              (qnString meta.provType)], ?_, ?_⟩
          · simp [createRelation, hm, createUnknownNode_eq, adapterSaveRelation,
              serializeMeta]
          · intro op h
            rcases (by simpa using h : op = _ ∨ op = _) with h1 | h1
            · exact .inr ⟨tC, _, .inr rfl, by rw [h1]; rfl⟩
            · exact .inl ⟨qnString fq, qnString (unknownQnOf s.ctr),
                by rw [h1, hty meta ats hm]⟩
      | none =>
        cases t with
        | some tq =>
          refine ⟨[Op.saveRecord fC (qnString (unknownQnOf s.ctr))
              (qnString provUnknownQn),
            Op.saveRelation fC (qnString (unknownQnOf s.ctr)) tC (qnString tq)
              (qnString meta.provType)], ?_, ?_⟩
          · simp [createRelation, hm, createUnknownNode_eq, adapterSaveRelation,
              serializeMeta]
          · intro op h
            rcases (by simpa using h : op = _ ∨ op = _) with h1 | h1
            · exact .inr ⟨fC, _, .inl rfl, by rw [h1]; rfl⟩
            · exact .inl ⟨qnString (unknownQnOf s.ctr), qnString tq,
                by rw [h1, hty meta ats hm]⟩
        | none =>
          refine ⟨[Op.saveRecord fC (qnString (unknownQnOf s.ctr))
              (qnString provUnknownQn),
            Op.saveRecord tC (qnString (unknownQnOf (s.ctr + 1)))
              (qnString provUnknownQn),
            Op.saveRelation fC (qnString (unknownQnOf s.ctr)) tC
              (qnString (unknownQnOf (s.ctr + 1))) (qnString meta.provType)],
            ?_, ?_⟩
          · simp [createRelation, hm, createUnknownNode_eq, adapterSaveRelation,
              serializeMeta]
          · intro op h
            rcases (by simpa using h : op = _ ∨ op = _ ∨ op = _) with h1 | h1 | h1
            · exact .inr ⟨fC, _, .inl rfl, by rw [h1]; rfl⟩
            · exact .inr ⟨tC, _, .inr rfl, by rw [h1]; rfl⟩
            · exact .inl ⟨qnString (unknownQnOf s.ctr),
                qnString (unknownQnOf (s.ctr + 1)), by rw [h1, hty meta ats hm]⟩

/-- The node phase only issues `save_record` calls for the container, all with
element types, never `prov:Unknown`. -/
theorem saveElementList_trace (tbl : NsTable) (c : Nat) :
    ∀ (l : List ProvRecordM) (s : AdapterState), (∀ r ∈ l, r.isElement = true) →
      ∃ ops, (saveElementList tbl c s l).1.trace = s.trace ++ ops ∧
        ∀ op ∈ ops, ∃ idn mt, op = Op.saveRecord c idn mt ∧ mt ≠ "prov:Unknown"
  | [], s, _ => ⟨[], by simp [saveElementList], fun op h => absurd h (List.not_mem_nil _)⟩
  | r :: rest, s, helem => by
    rcases hm : getMetadataAndAttributesForRecord tbl (.record r) with e' | ⟨meta, ats⟩
    · refine ⟨[], ?_, fun op h => absurd h (List.not_mem_nil _)⟩
      rw [saveElementList, hm]
      simp
    · obtain ⟨ops, hops, hcls⟩ := saveElementList_trace tbl c rest
        (adapterSaveRecord s c ats meta)
        (fun r' h' => helem r' (List.mem_cons_of_mem _ h'))
      refine ⟨Op.saveRecord c (qnString meta.identifier) (qnString meta.provType)
        :: ops, ?_, ?_⟩
      · rw [saveElementList, hm]
        simp only []
        rw [hops]
        simp [adapterSaveRecord, serializeMeta]
      · intro op h
        rcases List.mem_cons.mp h with h1 | h1
        · refine ⟨qnString meta.identifier, qnString meta.provType, h1, ?_⟩
          rw [(getMeta_ok_inv hm).1]
          have he : r.isElement = true := helem r (List.mem_cons_self _ _)
          cases r with
          | element k i a =>
            rw [extProvTypeT_eq]
            rw [show (ProvRecordM.element k i a).getType.getD provUnknownQn =
              k.typeQn from rfl]
            cases k <;> decide
          | relation k i f t mb a => simp [ProvRecordM.isElement] at he
          | plain i a => simp [ProvRecordM.isElement] at he
          | bundleRec i a => simp [ProvRecordM.isElement] at he
        · exact hcls op h1

/-- The edge phase only issues edges inside the container (never mention
edges) and `prov:Unknown` placeholders. -/
theorem saveRelationList_trace (tbl : NsTable) (c : Nat) :
    ∀ (l : List ProvRecordM) (s : AdapterState),
      ∃ ops, (saveRelationList tbl c s l).1.trace = s.trace ++ ops ∧
        ∀ op ∈ ops,
          (∃ fi ti mt, op = Op.saveRelation c fi c ti mt ∧ mt ≠ "prov:Mention") ∨
          (∃ idn, op = Op.saveRecord c idn "prov:Unknown")
  | [], s => ⟨[], by simp [saveRelationList], fun op h => absurd h (List.not_mem_nil _)⟩
  | r :: rest, s => by
    by_cases hmn : r.isMention
    · obtain ⟨ops, hops, hcls⟩ := saveRelationList_trace tbl c rest s
      refine ⟨ops, ?_, hcls⟩
      rw [saveRelationList, if_pos hmn]
      exact hops
    · obtain ⟨ops1, hops1, hcls1⟩ := createRelation_trace tbl s c c r
      rcases hc : createRelation tbl s c c r with ⟨s1, res⟩
      rw [hc] at hops1
      have hmt : qnString (extProvTypeT tbl r) ≠ "prov:Mention" := by
        cases r with
        | element k i a =>
          rw [extProvTypeT_eq]
          rw [show (ProvRecordM.element k i a).getType.getD provUnknownQn =
            k.typeQn from rfl]
          cases k <;> decide
        | plain i a =>
          rw [extProvTypeT_eq]
          rw [show (ProvRecordM.plain i a).getType.getD provUnknownQn =
            provUnknownQn from rfl]
          decide
        | bundleRec i a =>
          rw [extProvTypeT_eq]
          rw [show (ProvRecordM.bundleRec i a).getType.getD provUnknownQn =
            provQn "Bundle" from rfl]
          decide
        | relation k i f t mb a =>
          have hktype : extProvTypeT tbl (.relation k i f t mb a) = k.typeQn := by
            rw [extProvTypeT_eq]; rfl
          rw [hktype]
          cases k with
          | mention => simp [ProvRecordM.isMention] at hmn
          | association => decide
          | usage => decide
          | generation => decide
          | communication => decide
      have hcls1' : ∀ op ∈ ops1,
          (∃ fi ti mt, op = Op.saveRelation c fi c ti mt ∧ mt ≠ "prov:Mention") ∨
          (∃ idn, op = Op.saveRecord c idn "prov:Unknown") := by
        intro op h
        rcases hcls1 op h with ⟨fi, ti, h1⟩ | ⟨c0, idn, hc0, h1⟩
        · exact .inl ⟨fi, ti, _, h1, hmt⟩
        · refine .inr ⟨idn, ?_⟩
          rcases hc0 with h2 | h2 <;> rw [h2] at h1 <;> exact h1
      cases res with
      | ok u =>
        obtain ⟨ops2, hops2, hcls2⟩ := saveRelationList_trace tbl c rest s1
        refine ⟨ops1 ++ ops2, ?_, ?_⟩
        · rw [saveRelationList, if_neg hmn, hc]
          simp only []
          rw [hops2, hops1, List.append_assoc]
        · intro op h
          rcases List.mem_append.mp h with h1 | h1
          · exact hcls1' op h1
          · exact hcls2 op h1
      | error e =>
        refine ⟨ops1, ?_, hcls1'⟩
        rw [saveRelationList, if_neg hmn, hc]
        exact hops1

/-- C8 part (i) core: `_create_bundle` saves all of a container's element
nodes strictly before any of its edges. -/
theorem createBundle_trace (tbl : NsTable) (s : AdapterState) (c : Nat)
    (rs : List ProvRecordM) :
    ∃ nodes edges,
      (createBundle tbl s c rs).1.trace = s.trace ++ nodes ++ edges ∧
      (∀ op ∈ nodes, ∃ idn mt, op = Op.saveRecord c idn mt ∧ mt ≠ "prov:Unknown") ∧
      (∀ op ∈ edges,
        (∃ fi ti mt, op = Op.saveRelation c fi c ti mt ∧ mt ≠ "prov:Mention") ∨
        (∃ idn, op = Op.saveRecord c idn "prov:Unknown")) := by
  obtain ⟨nodes, hn, hncls⟩ := saveElementList_trace tbl c
    (rs.filter ProvRecordM.isElement) s
    (fun r h => by simpa using (List.mem_filter.mp h).2)
  rcases he : saveElementList tbl c s (rs.filter ProvRecordM.isElement)
      with ⟨s1, res⟩
  rw [he] at hn
  cases res with
  | ok u =>
    obtain ⟨edges, hed, hedcls⟩ := saveRelationList_trace tbl c
      (rs.filter ProvRecordM.isRelation) s1
    refine ⟨nodes, edges, ?_, hncls, hedcls⟩
    rw [createBundle, he]
    simp only []
    rw [hed, hn]
  | error e =>
    refine ⟨nodes, [], ?_, hncls, fun op h => absurd h (List.not_mem_nil _)⟩
    rw [createBundle, he]
    simp only []
    rw [List.append_nil]
    exact hn

/-- The membership loop issues only association edges from the bundle to the
document container. -/
theorem saveAssocList_trace (tbl : NsTable) (docId bundleId : Nat)
    (bq : QualifiedName) (bm : Metadata) (ba : Attrs) :
    ∀ (l : List ProvRecordM) (s : AdapterState),
      ∃ ops, (saveAssocList tbl docId bundleId bq bm ba s l).1.trace =
          s.trace ++ ops ∧
        ∀ op ∈ ops, ∃ fi, op = Op.saveRelation bundleId fi docId (qnString bq)
          (qnString bm.provType)
  | [], s => ⟨[], by simp [saveAssocList],
      fun op h => absurd h (List.not_mem_nil _)⟩
  | r :: rest, s => by
    rcases hm : getMetadataAndAttributesForRecord tbl (.record r)
        with e' | ⟨meta, ats⟩
    · refine ⟨[], ?_, fun op h => absurd h (List.not_mem_nil _)⟩
      rw [saveAssocList, hm]
      simp
    · obtain ⟨ops, hops, hcls⟩ := saveAssocList_trace tbl docId bundleId bq bm ba
        rest (adapterSaveRelation s bundleId meta.identifier docId bq ba bm)
      refine ⟨Op.saveRelation bundleId (qnString meta.identifier) docId
        (qnString bq) (qnString bm.provType) :: ops, ?_, ?_⟩
      · rw [saveAssocList, hm]
        simp only []
        rw [hops]
        simp [adapterSaveRelation, serializeMeta]
      · intro op h
        rcases List.mem_cons.mp h with h1 | h1
        · exact ⟨qnString meta.identifier, h1⟩
        · exact hcls op h1

/-- `_create_bundle_association` issues only `prov:Association` membership
edges. -/
theorem createBundleAssociation_trace (tbl : NsTable) (s : AdapterState)
    (docId bundleId : Nat) (bq : QualifiedName) (recs : List ProvRecordM) :
    ∃ ops, (createBundleAssociation tbl s docId bundleId bq recs).1.trace =
        s.trace ++ ops ∧
      ∀ op ∈ ops, ∃ fi, op = Op.saveRelation bundleId fi docId (qnString bq)
        "prov:Association" := by
  obtain ⟨md, hmd, hty⟩ := belongRel_extraction tbl
  obtain ⟨ops, hops, hcls⟩ := saveAssocList_trace tbl docId bundleId bq md
    [(AttrKey.qnKey PROV_LABEL, AttrValue.str "belongsToBundle")]
    (recs.filter ProvRecordM.isElement) s
  refine ⟨ops, ?_, ?_⟩
  · unfold createBundleAssociation
    rw [hmd]
    simp only []
    exact hops
  · intro op h
    obtain ⟨fi, hop⟩ := hcls op h
    refine ⟨fi, ?_⟩
    rw [hop, hty]
    rfl

/-- Pass 1 issues no mention edge at all. -/
theorem bundlePass1_trace (tbl : NsTable) (docId : Nat) :
    ∀ (bs : List DocBundleM) (s : AdapterState) (m : List (QualifiedName × Nat)),
      ∃ ops, (bundlePass1 tbl docId s bs m).1.trace = s.trace ++ ops ∧
        ∀ op ∈ ops, op.isMentionEdge = false
  | [], s, m => ⟨[], by simp [bundlePass1],
      fun op h => absurd h (List.not_mem_nil _)⟩
  | b :: rest, s, m => by
    rw [bundlePass1]
    rcases hm : getMetadataAndAttributesForRecord tbl
        (.record (.bundleRec (some (.qn ((validQualifiedName tbl
          (PROV_API_BUNDLE_IDENTIFIER_PREFIX ++ qnString b.identifier)).getD
            provUnknownQn)))
          [(AttrKey.qnKey provBundleNameKey, AttrValue.qn b.identifier)]))
        with e' | ⟨meta, attrs⟩
    · exact ⟨[], by simp, fun op h => absurd h (List.not_mem_nil _)⟩
    · simp only []
      obtain ⟨nodes, edges, hce, hn, hedge⟩ := createBundle_trace tbl
        (adapterSaveBundle s docId attrs meta).1
        (adapterSaveBundle s docId attrs meta).2 b.records
      rcases hb : createBundle tbl (adapterSaveBundle s docId attrs meta).1
          (adapterSaveBundle s docId attrs meta).2 b.records with ⟨s2, res2⟩
      rw [hb] at hce
      have hsb : (adapterSaveBundle s docId attrs meta).1.trace =
          s.trace ++ [Op.saveBundle docId s.ctr
            (qnString meta.identifier) (qnString meta.provType)] := by
        simp [adapterSaveBundle, serializeMeta]
      have hclsP : ∀ op ∈ [Op.saveBundle docId s.ctr
            (qnString meta.identifier) (qnString meta.provType)] ++ nodes ++ edges,
          op.isMentionEdge = false := by
        intro op h
        rcases List.mem_append.mp h with h1 | h1
        · rcases List.mem_append.mp h1 with h2 | h2
          · simp at h2
            rw [h2]
            rfl
          · obtain ⟨idn, mt, hop, hne⟩ := hn op h2
            rw [hop]
            rfl
        · rcases hedge op h1 with ⟨fi, ti, mt, hop, hne⟩ | ⟨idn, hop⟩
          · rw [hop]
            simp [Op.isMentionEdge, hne]
          · rw [hop]
            rfl
      have hs2 : s2.trace = s.trace ++ ([Op.saveBundle docId s.ctr
          (qnString meta.identifier) (qnString meta.provType)] ++ nodes ++ edges) := by
        rw [hce, hsb]
        simp [List.append_assoc]
      cases res2 with
      | error e2 =>
        simp only []
        exact ⟨_, hs2, hclsP⟩
      | ok u2 =>
        simp only []
        obtain ⟨ops3, hops3, hcls3⟩ := createBundleAssociation_trace tbl s2 docId
          (adapterSaveBundle s docId attrs meta).2
          ((validQualifiedName tbl
            (PROV_API_BUNDLE_IDENTIFIER_PREFIX ++ qnString b.identifier)).getD
              provUnknownQn) b.records
        rcases ha : createBundleAssociation tbl s2 docId
            (adapterSaveBundle s docId attrs meta).2
            ((validQualifiedName tbl
              (PROV_API_BUNDLE_IDENTIFIER_PREFIX ++ qnString b.identifier)).getD
                provUnknownQn) b.records with ⟨s3, res3⟩
        rw [ha] at hops3
        have hcls3' : ∀ op ∈ ops3, op.isMentionEdge = false := by
          intro op h
          obtain ⟨fi, hop⟩ := hcls3 op h
          rw [hop]
          simp [Op.isMentionEdge]
        have hs3 : s3.trace = s.trace ++ ([Op.saveBundle docId s.ctr
            (qnString meta.identifier) (qnString meta.provType)] ++ nodes ++ edges
            ++ ops3) := by
          rw [hops3, hs2]
          simp [List.append_assoc]
        cases res3 with
        | error e3 =>
          simp only []
          refine ⟨_, hs3, ?_⟩
          intro op h
          rcases List.mem_append.mp h with h1 | h1
          · exact hclsP op h1
          · exact hcls3' op h1
        | ok u3 =>
          simp only []
          obtain ⟨ops4, hops4, hcls4⟩ := bundlePass1_trace tbl docId rest s3 _
          refine ⟨[Op.saveBundle docId s.ctr
              (qnString meta.identifier) (qnString meta.provType)] ++ nodes ++
              edges ++ ops3 ++ ops4, ?_, ?_⟩
          · rw [hops4, hs3]
            simp [List.append_assoc]
          · intro op h
            rcases List.mem_append.mp h with h1 | h1
            · rcases List.mem_append.mp h1 with h2 | h2
              · exact hclsP op h2
              · exact hcls3' op h2
            · exact hcls4 op h1

/-- The pass-2 loop issues only mention edges and Unknown placeholders. -/
theorem saveMentionList_trace (tbl : NsTable) (fromId : Nat)
    (m : List (QualifiedName × Nat)) :
    ∀ (l : List ProvRecordM) (s : AdapterState),
      ∃ ops, (saveMentionList tbl fromId m s l).1.trace = s.trace ++ ops ∧
        ∀ op ∈ ops, op.isMentionEdge = true ∨
          ∃ c idn, op = Op.saveRecord c idn "prov:Unknown"
  | [], s => ⟨[], by simp [saveMentionList],
      fun op h => absurd h (List.not_mem_nil _)⟩
  | r :: rest, s => by
    cases r with
    | element k i a =>
      obtain ⟨ops, hops, hcls⟩ := saveMentionList_trace tbl fromId m rest s
      refine ⟨ops, ?_, hcls⟩
      rw [saveMentionList, if_neg (by simp [ProvRecordM.isMention])]
      exact hops
    | plain i a =>
      obtain ⟨ops, hops, hcls⟩ := saveMentionList_trace tbl fromId m rest s
      refine ⟨ops, ?_, hcls⟩
      rw [saveMentionList, if_neg (by simp [ProvRecordM.isMention])]
      exact hops
    | bundleRec i a =>
      obtain ⟨ops, hops, hcls⟩ := saveMentionList_trace tbl fromId m rest s
      refine ⟨ops, ?_, hcls⟩
      rw [saveMentionList, if_neg (by simp [ProvRecordM.isMention])]
      exact hops
    | relation k id f t mb a =>
      cases mb with
      | none =>
        by_cases hmn : (ProvRecordM.relation k id f t none a).isMention = true
        · refine ⟨[], ?_, fun op h => absurd h (List.not_mem_nil _)⟩
          rw [saveMentionList, if_pos hmn]
          simp
        · obtain ⟨ops, hops, hcls⟩ := saveMentionList_trace tbl fromId m rest s
          refine ⟨ops, ?_, hcls⟩
          rw [saveMentionList, if_neg hmn]
          exact hops
      | some toB =>
        by_cases hmn : (ProvRecordM.relation k id f t (some toB) a).isMention = true
        · have hk : k = RelKind.mention := by
            cases k with
            | mention => rfl
            | association => simp [ProvRecordM.isMention] at hmn
            | usage => simp [ProvRecordM.isMention] at hmn
            | generation => simp [ProvRecordM.isMention] at hmn
            | communication => simp [ProvRecordM.isMention] at hmn
          subst hk
          rw [saveMentionList, if_pos hmn]
          rcases hl : alookup m toB with - | toId
          · exact ⟨[], by simp, fun op h => absurd h (List.not_mem_nil _)⟩
          · simp only []
            obtain ⟨ops1, hops1, hcls1⟩ := createRelation_trace tbl s fromId toId
              (.relation .mention id f t (some toB) a)
            rcases hcr : createRelation tbl s fromId toId
                (.relation .mention id f t (some toB) a) with ⟨s1, res⟩
            rw [hcr] at hops1
            have hcls1' : ∀ op ∈ ops1, op.isMentionEdge = true ∨
                ∃ c idn, op = Op.saveRecord c idn "prov:Unknown" := by
              intro op h
              rcases hcls1 op h with ⟨fi, ti, hop⟩ | ⟨c, idn, _, hop⟩
              · left
                rw [hop]
                have hqt : qnString (extProvTypeT tbl
                    (.relation .mention id f t (some toB) a)) = "prov:Mention" := by
                  rw [extProvTypeT_eq]
                  rfl
                rw [hqt]
                rfl
              · exact .inr ⟨c, idn, hop⟩
            cases res with
            | ok u =>
              obtain ⟨ops2, hops2, hcls2⟩ := saveMentionList_trace tbl fromId m
                rest s1
              refine ⟨ops1 ++ ops2, ?_, ?_⟩
              · simp only []
                rw [hops2, hops1, List.append_assoc]
              · intro op h
                rcases List.mem_append.mp h with h1 | h1
                · exact hcls1' op h1
                · exact hcls2 op h1
            | error e =>
              simp only []
              exact ⟨ops1, hops1, hcls1'⟩
        · obtain ⟨ops, hops, hcls⟩ := saveMentionList_trace tbl fromId m rest s
          refine ⟨ops, ?_, hcls⟩
          rw [saveMentionList, if_neg hmn]
          exact hops

theorem createBundleLinks_trace (tbl : NsTable) (s : AdapterState)
    (m : List (QualifiedName × Nat)) (b : DocBundleM) :
    ∃ ops, (createBundleLinks tbl s m b).1.trace = s.trace ++ ops ∧
      ∀ op ∈ ops, op.isMentionEdge = true ∨
        ∃ c idn, op = Op.saveRecord c idn "prov:Unknown" := by
  unfold createBundleLinks
  rcases hl : alookup m b.identifier with - | fromId
  · exact ⟨[], by simp, fun op h => absurd h (List.not_mem_nil _)⟩
  · exact saveMentionList_trace tbl fromId m b.records s

theorem bundlePass2_trace (tbl : NsTable) :
    ∀ (bs : List DocBundleM) (s : AdapterState) (m : List (QualifiedName × Nat)),
      ∃ ops, (bundlePass2 tbl s m bs).1.trace = s.trace ++ ops ∧
        ∀ op ∈ ops, op.isMentionEdge = true ∨
          ∃ c idn, op = Op.saveRecord c idn "prov:Unknown"
  | [], s, m => ⟨[], by simp [bundlePass2],
      fun op h => absurd h (List.not_mem_nil _)⟩
  | b :: rest, s, m => by
    rw [bundlePass2]
    obtain ⟨ops1, hops1, hcls1⟩ := createBundleLinks_trace tbl s m b
    rcases hc : createBundleLinks tbl s m b with ⟨s1, res⟩
    rw [hc] at hops1
    cases res with
    | ok u =>
      obtain ⟨ops2, hops2, hcls2⟩ := bundlePass2_trace tbl rest s1 m
      refine ⟨ops1 ++ ops2, ?_, ?_⟩
      · simp only []
        rw [hops2, hops1, List.append_assoc]
      · intro op h
        rcases List.mem_append.mp h with h1 | h1
        · exact hcls1 op h1
        · exact hcls2 op h1
    | error e =>
      simp only []
      exact ⟨ops1, hops1, hcls1⟩

/-- C8: (i) within each container, `_create_bundle`'s trace is the incoming
trace followed by all element-node saves and only then the edge phase — every
element node of the container is saved before any edge (an edge-phase entry is
an in-container edge or an Unknown placeholder it synthesizes); (ii) a
successful `create_document` reaches a state `s3` by completing pass 1 on
every bundle — whose whole trace holds no mention edge — and everything after
`s3` is only mention edges and the Unknown placeholders they synthesize. -/
theorem claim8_ordering_invariants :
    (∀ (tbl : NsTable) (s : AdapterState) (c : Nat) (rs : List ProvRecordM),
      ∃ nodes edges,
        (createBundle tbl s c rs).1.trace = s.trace ++ nodes ++ edges ∧
        (∀ op ∈ nodes, ∃ idn mt, op = Op.saveRecord c idn mt ∧
          mt ≠ "prov:Unknown") ∧
        (∀ op ∈ edges,
          (∃ fi ti mt, op = Op.saveRelation c fi c ti mt ∧ mt ≠ "prov:Mention") ∨
          (∃ idn, op = Op.saveRecord c idn "prov:Unknown"))) ∧
    (∀ (d : ProvDocumentM) (s : AdapterState) (docId : Nat),
      createDocument d = (s, .ok docId) →
      ∃ (s2 s3 : AdapterState) (m : List (QualifiedName × Nat)) (rest : List Op),
        createBundle d.namespaces (adapterSaveDocument initialState).1
          (adapterSaveDocument initialState).2 d.records = (s2, .ok ()) ∧
        bundlePass1 d.namespaces (adapterSaveDocument initialState).2 s2
          d.bundles [] = (s3, m, .ok ()) ∧
        (∀ op ∈ s3.trace, op.isMentionEdge = false) ∧
        s.trace = s3.trace ++ rest ∧
        (∀ op ∈ rest, op.isMentionEdge = true ∨
          ∃ c idn, op = Op.saveRecord c idn "prov:Unknown")) := by
  refine ⟨fun tbl s c rs => createBundle_trace tbl s c rs, ?_⟩
  intro d s docId h
  unfold createDocument at h
  rcases hb : createBundle d.namespaces (adapterSaveDocument initialState).1
      (adapterSaveDocument initialState).2 d.records with ⟨s2, res⟩
  rw [hb] at h
  cases res with
  | error e => simp at h
  | ok u =>
    simp only [] at h
    rcases hp1 : bundlePass1 d.namespaces (adapterSaveDocument initialState).2 s2
        d.bundles [] with ⟨s3, m, res1⟩
    rw [hp1] at h
    cases res1 with
    | error e => simp at h
    | ok u1 =>
      simp only [] at h
      rcases hp2 : bundlePass2 d.namespaces s3 m d.bundles with ⟨s4, res2⟩
      rw [hp2] at h
      cases res2 with
      | error e => simp at h
      | ok u2 =>
        simp only [] at h
        have hs : s = s4 := by
          have h1 := congrArg Prod.fst h
          simpa using h1.symm
        obtain ⟨opsP1, hP1tr, hP1cls⟩ := bundlePass1_trace d.namespaces
          (adapterSaveDocument initialState).2 d.bundles s2 []
        rw [hp1] at hP1tr
        obtain ⟨nodes, edges, hcb, hn, hedge⟩ := createBundle_trace d.namespaces
          (adapterSaveDocument initialState).1
          (adapterSaveDocument initialState).2 d.records
        rw [hb] at hcb
        obtain ⟨tl, hP2tr, hP2cls⟩ := bundlePass2_trace d.namespaces d.bundles
          s3 m
        rw [hp2] at hP2tr
        cases u
        cases u1
        refine ⟨s2, s3, m, tl, rfl, hp1, ?_, ?_, hP2cls⟩
        · intro op hop
          rw [hP1tr] at hop
          rcases List.mem_append.mp hop with h1 | h1
          · rw [hcb] at h1
            rcases List.mem_append.mp h1 with h2 | h2
            · rcases List.mem_append.mp h2 with h3 | h3
              · have hsd : op = Op.saveDocument 0 := by
                  simpa [adapterSaveDocument, initialState] using h3
                rw [hsd]
                rfl
              · obtain ⟨idn, mt, hopeq, -⟩ := hn op h3
                rw [hopeq]
                rfl
            · rcases hedge op h2 with ⟨fi, ti, mt, hopeq, hne⟩ | ⟨idn, hopeq⟩
              · rw [hopeq]
                simp [Op.isMentionEdge, hne]
              · rw [hopeq]
                rfl
          · exact hP1cls op h1
        · rw [hs]
          exact hP2tr

theorem claim8_witness :
    (∃ nodes edges,
      (createBundle [] initialState 0 []).1.trace =
          initialState.trace ++ nodes ++ edges ∧
      (∀ op ∈ nodes, ∃ idn mt, op = Op.saveRecord 0 idn mt ∧
        mt ≠ "prov:Unknown") ∧
      (∀ op ∈ edges,
        (∃ fi ti mt, op = Op.saveRelation 0 fi 0 ti mt ∧ mt ≠ "prov:Mention") ∨
        (∃ idn, op = Op.saveRecord 0 idn "prov:Unknown"))) ∧
    (∃ (s2 s3 : AdapterState) (m : List (QualifiedName × Nat)) (rest : List Op),
      createBundle exDocBundleMention.namespaces
        (adapterSaveDocument initialState).1
        (adapterSaveDocument initialState).2 exDocBundleMention.records =
          (s2, .ok ()) ∧
      bundlePass1 exDocBundleMention.namespaces
        (adapterSaveDocument initialState).2 s2 exDocBundleMention.bundles [] =
          (s3, m, .ok ()) ∧
      (∀ op ∈ s3.trace, op.isMentionEdge = false) ∧
      (createDocument exDocBundleMention).1.trace = s3.trace ++ rest ∧
      (∀ op ∈ rest, op.isMentionEdge = true ∨
        ∃ c idn, op = Op.saveRecord c idn "prov:Unknown")) :=
  ⟨claim8_ordering_invariants.1 [] initialState 0 [],
   claim8_ordering_invariants.2 exDocBundleMention
     (createDocument exDocBundleMention).1 0 rfl⟩

/-! ### Claim C1: the round trip

Executable well-formedness of a document: every qualified name in it renders
and resolves faithfully against the ambient table, attribute keys are
qualified, off the reserved lists, and distinct once serialized, and the
bundle structure is addressable. -/

/-- Executable mirror of `CohQN`. -/
def cohQNb (Tg : NsTable) (q : QualifiedName) : Bool :=
  decide (lookupNs Tg q.pfx = some q.uri) && decide (q.pfx.data ≠ []) &&
  decide (':' ∉ q.pfx.data) && decide (q.pfx ≠ "http") &&
  List.isPrefixOf httpList q.uri.data

theorem cohQNb_coh {Tg : NsTable} {q : QualifiedName} (h : cohQNb Tg q = true) :
    CohQN Tg q := by
  simp [cohQNb] at h
  exact ⟨h.1.1.1.1, h.1.1.1.2, h.1.1.2, h.1.2,
    List.isPrefixOf_iff_prefix.mpr h.2⟩

/-- Executable mirror of `GoodTable`. -/
def goodTableB (Tg t : NsTable) : Bool :=
  t.all (fun e => decide (lookupNs Tg e.1 = some e.2) &&
    List.isPrefixOf httpList e.2.data)

theorem goodTableB_good {Tg t : NsTable} (h : goodTableB Tg t = true) :
    GoodTable Tg t := by
  intro e he
  have h1 := List.all_eq_true.mp h e he
  simp at h1
  exact ⟨h1.1, List.isPrefixOf_iff_prefix.mpr h1.2⟩

def wfValue (Tg : NsTable) : AttrValue → Bool
  | .str _ => true
  | .qn q => cohQNb Tg q
  | .dateTime _ => true
  | .literal _ dt => decide (dt ≠ QUALIFIED_NAME_TAG) && decide (dt ≠ DATETIME_TAG)

def wfAttr (Tg : NsTable) : AttrKey × AttrValue → Bool
  | (.rawKey _, _) => false
  | (.qnKey kq, v) =>
    cohQNb Tg kq && decide (qnString kq ∉ PROV_ATTRIBUTES.map qnString) &&
    decide (qnString kq ≠ qnString PROV_LABEL) && wfValue Tg v

def wfIdent (Tg : NsTable) (tq : QualifiedName) : Option IdentVal → Bool
  | none => true
  | some (.qn q) => cohQNb Tg q && decide (q ≠ tq)
  | some (.raw _) => false

def wfRecord (Tg : NsTable) : ProvRecordM → Bool
  | .element k i a =>
    wfIdent Tg k.typeQn i && a.all (wfAttr Tg) &&
    decide ((a.map (fun kv => serializeKey kv.1)).Nodup)
  | .relation k i f t mb a =>
    wfIdent Tg k.typeQn i && a.all (wfAttr Tg) &&
    decide (((formalPairs k f t mb ++ a).map
      (fun kv => serializeKey kv.1)).Nodup) &&
    (match f with | some q => cohQNb Tg q | none => true) &&
    (match t with | some q => cohQNb Tg q | none => true) &&
    (match k, mb with
     | .mention, some bq => cohQNb Tg bq
     | .mention, none => false
     | _, some _ => false
     | _, none => true)
  | .plain _ _ => false
  | .bundleRec _ _ => false

/-- The metadata a record extracts (meaningful when extraction succeeds). -/
def extMdOf (tbl : NsTable) (r : ProvRecordM) : Metadata :=
  match getMetadataAndAttributesForRecord tbl (.record r) with
  | .ok (md, _) => md
  | .error _ => ⟨provUnknownQn, provUnknownQn, [], []⟩

/-- The attribute dict a record extracts. -/
def extAtsOf (tbl : NsTable) (r : ProvRecordM) : Attrs :=
  match getMetadataAndAttributesForRecord tbl (.record r) with
  | .ok (_, ats) => ats
  | .error _ => []

def extOk (tbl : NsTable) (r : ProvRecordM) : Prop :=
  getMetadataAndAttributesForRecord tbl (.record r) =
    .ok (extMdOf tbl r, extAtsOf tbl r)

/-- The namespace registry of the reconstructed document: the stored-metadata
namespaces of the document's records, registered in parse order. -/
def docRegOf (d : ProvDocumentM) : NsTable :=
  (d.records.filter ProvRecordM.isElement ++
      d.records.filter ProvRecordM.isRelation).foldl
    (fun reg r => addNamespacesToBundle reg (extMdOf d.namespaces r).namespaces) []

/-- Executable well-formedness of a whole document. -/
def wfDoc (d : ProvDocumentM) : Bool :=
  goodTableB (defaultNs ++ d.namespaces) (defaultNs ++ d.namespaces) &&
  d.records.all (fun r => wfRecord (defaultNs ++ d.namespaces) r && !r.isMention) &&
  d.bundles.all (fun b =>
    cohQNb (defaultNs ++ d.namespaces) b.identifier &&
    b.records.all (wfRecord (defaultNs ++ d.namespaces)) &&
    (lookupNs (defaultNs ++ docRegOf d) b.identifier.pfx).isSome) &&
  decide ((d.bundles.map (fun b => b.identifier)).Nodup) &&
  d.bundles.all (fun b => b.records.all (fun r =>
    match r with
    | .relation .mention _ _ _ (some bq) _ =>
      decide (bq ∈ d.bundles.map (fun b2 => b2.identifier))
    | _ => true))

theorem lookupNs_mem {t : NsTable} {p u : String} (h : lookupNs t p = some u) :
    (p, u) ∈ t := by
  unfold lookupNs at h
  match hf : t.find? (fun e => decide (e.1 = p)) with
  | none => rw [hf] at h; simp at h
  | some e =>
    rw [hf] at h
    simp at h
    have he : e ∈ t := List.mem_of_find?_eq_some hf
    have hp : e.1 = p := by have := List.find?_some hf; simpa using this
    have hee : e = (p, u) := by
      obtain ⟨a, b⟩ := e
      simp at hp h
      rw [hp, h]
    rw [← hee]
    exact he

theorem alookup_none_of_not_mem {α β : Type} [DecidableEq α] :
    ∀ {l : List (α × β)} {k : α}, k ∉ keys l → alookup l k = none
  | [], k, _ => rfl
  | (k0, v0) :: rest, k, h => by
    rw [alookup_cons, if_neg (fun he => h (by simp [keys, he]))]
    exact alookup_none_of_not_mem
      (fun hm => h (by simp [keys] at hm ⊢; right; exact hm))

/-- Good entries agree on equal prefixes. -/
theorem good_consistent {Tg P : NsTable} (hg : ∀ e ∈ P, GoodEntry Tg e) :
    NsConsistent P := by
  intro e1 h1 e2 h2 he
  have g1 := (hg e1 h1).1
  have g2 := (hg e2 h2).1
  rw [he] at g1
  rw [g1] at g2
  injection g2 with h3

/-- Any resolution result draws its namespace from the combined table, so it
is a good entry. -/
theorem vqn_entry_good {Tg : NsTable} {tbl : NsTable} {s : String}
    {vq : QualifiedName} (hg : GoodTable Tg (defaultNs ++ tbl))
    (h : validQualifiedName tbl s = some vq) : GoodEntry Tg (vq.pfx, vq.uri) := by
  have huri : uriMatch (defaultNs ++ tbl) s = some vq →
      GoodEntry Tg (vq.pfx, vq.uri) := by
    intro hu
    unfold uriMatch at hu
    rcases hf : (defaultNs ++ tbl).find?
        (fun e => List.isPrefixOf e.2.data s.data) with - | e
    · rw [hf] at hu
      exact absurd hu (by simp)
    · rw [hf] at hu
      have he : e ∈ defaultNs ++ tbl := List.mem_of_find?_eq_some hf
      injection hu with h1
      rw [← h1]
      exact hg e he
  unfold validQualifiedName at h
  split at h
  · simp only [] at h
    rcases hl : lookupNs (defaultNs ++ tbl)
        (String.mk (s.data.takeWhile (fun c => decide (c ≠ ':')))) with - | u
    · rw [hl] at h
      exact huri h
    · rw [hl] at h
      injection h with h1
      rw [← h1]
      exact hg _ (lookupNs_mem hl)
  · exact huri h

def serPair (kv : AttrKey × AttrValue) : String × String :=
  (serializeKey kv.1, serializeValue kv.2)

theorem serializeAttrs_eq_map {a : Attrs}
    (hnod : (a.map (fun kv => serializeKey kv.1)).Nodup) :
    serializeAttrs a = a.map serPair := by
  unfold serializeAttrs
  have h1 : pyDict (a.map (fun kv => (serializeKey kv.1, serializeValue kv.2))) =
      a.map (fun kv => (serializeKey kv.1, serializeValue kv.2)) := by
    apply pyDict_eq_self
    have h2 : keys (a.map (fun kv => (serializeKey kv.1, serializeValue kv.2))) =
        a.map (fun kv => serializeKey kv.1) := by
      simp [keys, List.map_map]
    rw [h2]
    exact hnod
  rw [h1]
  rfl

theorem cohQN_entry {Tg : NsTable} {q : QualifiedName} (h : CohQN Tg q) :
    GoodEntry Tg (q.pfx, q.uri) := ⟨h.1, h.2.2.2.2⟩

/-- Under a good ambient chain, the `prov` prefix always renders coherently. -/
theorem cohQN_provQn {Tg tbl : NsTable} (hg : GoodTable Tg (defaultNs ++ tbl))
    (x : String) : CohQN Tg (provQn x) := by
  have hmem : ("prov", provUri) ∈ defaultNs ++ tbl := by simp [defaultNs]
  have hge := hg _ hmem
  exact ⟨hge.1, (by decide : ("prov" : String).data ≠ []),
    (by decide : ':' ∉ ("prov" : String).data),
    (by decide : ("prov" : String) ≠ "http"), hge.2⟩

/-- Every entry the pure namespace fold produces comes from the seed or the
attribute pairs. -/
theorem nsFoldPure_subset (tbl : NsTable) :
    ∀ (l : Attrs) (acc : NsTable) (e : String × String),
      e ∈ l.foldl (nsStepPure tbl) acc → e ∈ acc ++ nsPairsAll tbl l
  | [], acc, e, h => by simpa [nsPairsAll] using h
  | kv :: rest, acc, e, h => by
    simp only [List.foldl] at h
    rw [nsStepPure_eq_upserts] at h
    have h1 := nsFoldPure_subset tbl rest _ e h
    rcases List.mem_append.mp h1 with h2 | h2
    · have h3 := foldl_upsert_subset _ _ _ h2
      rcases List.mem_append.mp h3 with h4 | h4
      · exact List.mem_append.mpr (.inl h4)
      · refine List.mem_append.mpr (.inr ?_)
        rw [nsPairsAll]
        exact List.mem_append.mpr (.inl h4)
    · refine List.mem_append.mpr (.inr ?_)
      rw [nsPairsAll]
      exact List.mem_append.mpr (.inr h2)

/-- Well-formed attributes only register good namespace pairs. -/
theorem wf_nsPairs_good {Tg tbl : NsTable}
    (hg : GoodTable Tg (defaultNs ++ tbl)) :
    ∀ {l : Attrs}, (∀ kv ∈ l, wfAttr Tg kv = true ∨
        ∃ kq q, kv = (AttrKey.qnKey kq, AttrValue.qn q) ∧
          CohQN Tg kq ∧ CohQN Tg q) →
      ∀ pr ∈ nsPairsAll tbl l, GoodEntry Tg pr
  | [], _, pr, hpr => absurd hpr (by simp [nsPairsAll])
  | kv :: rest, hall, pr, hpr => by
    rw [nsPairsAll] at hpr
    rcases List.mem_append.mp hpr with h1 | h1
    · rcases hall kv (List.mem_cons_self _ _) with hwf | ⟨kq, q, hkv, hkq, hq⟩
      · obtain ⟨k, v⟩ := kv
        cases k with
        | rawKey s => simp [wfAttr] at hwf
        | qnKey kq =>
          simp [wfAttr] at hwf
          have hkq : CohQN Tg kq := cohQNb_coh hwf.1.1.1
          unfold nsPairsOf at h1
          rcases List.mem_cons.mp h1 with h2 | h2
          · rw [h2]
            exact cohQN_entry hkq
          · cases v with
            | str s =>
              simp only [] at h2
              rcases hv : validQualifiedName tbl s with - | vq
              · rw [hv] at h2
                simp at h2
              · rw [hv] at h2
                simp at h2
                rw [h2]
                exact vqn_entry_good hg hv
            | qn vq =>
              simp at h2
              rw [h2]
              have := hwf.2
              simp [wfValue] at this
              exact cohQN_entry (cohQNb_coh this)
            | dateTime s => simp at h2
            | literal v0 dt => simp at h2
      · rw [hkv] at h1
        unfold nsPairsOf at h1
        rcases List.mem_cons.mp h1 with h2 | h2
        · rw [h2]
          exact cohQN_entry hkq
        · simp at h2
          rw [h2]
          exact cohQN_entry hq
    · exact wf_nsPairs_good hg
        (fun kv' h' => hall kv' (List.mem_cons_of_mem _ h')) pr h1

/-- The stored type map, written as a filter of the attribute list. -/
def typeListOf (l : Attrs) : List (String × String) :=
  l.filterMap (fun kv =>
    match kv.1 with
    | .qnKey kq =>
      if kq ∈ PROV_ATTRIBUTES then none
      else (encodeJsonRepresentation kv.2).map (fun tag => (qnString kq, tag))
    | .rawKey _ => none)

theorem typeListOf_cons_raw (s : String) (v : AttrValue) (rest : Attrs) :
    typeListOf ((AttrKey.rawKey s, v) :: rest) = typeListOf rest := by
  unfold typeListOf
  rw [List.filterMap_cons]

theorem typeListOf_cons_pa {kq : QualifiedName} (hp : kq ∈ PROV_ATTRIBUTES)
    (v : AttrValue) (rest : Attrs) :
    typeListOf ((AttrKey.qnKey kq, v) :: rest) = typeListOf rest := by
  unfold typeListOf
  rw [List.filterMap_cons]
  simp [hp]

theorem typeListOf_cons_none {kq : QualifiedName} {v : AttrValue}
    (hp : kq ∉ PROV_ATTRIBUTES) (he : encodeJsonRepresentation v = none)
    (rest : Attrs) :
    typeListOf ((AttrKey.qnKey kq, v) :: rest) = typeListOf rest := by
  unfold typeListOf
  rw [List.filterMap_cons]
  simp [hp, he]

theorem typeListOf_cons_some {kq : QualifiedName} {v : AttrValue} {tag : String}
    (hp : kq ∉ PROV_ATTRIBUTES) (he : encodeJsonRepresentation v = some tag)
    (rest : Attrs) :
    typeListOf ((AttrKey.qnKey kq, v) :: rest) =
      (qnString kq, tag) :: typeListOf rest := by
  unfold typeListOf
  rw [List.filterMap_cons]
  simp [hp, he]

theorem keys_typeListOf_sub : ∀ (l : Attrs) (ks : String),
    ks ∈ keys (typeListOf l) → ks ∈ l.map (fun kv => serializeKey kv.1)
  | [], ks, h => by simp [typeListOf, keys] at h
  | kv :: rest, ks, h => by
    obtain ⟨k, v⟩ := kv
    cases k with
    | rawKey s =>
      rw [typeListOf_cons_raw] at h
      exact List.mem_cons_of_mem _ (keys_typeListOf_sub rest ks h)
    | qnKey kq =>
      by_cases hp : kq ∈ PROV_ATTRIBUTES
      · rw [typeListOf_cons_pa hp] at h
        exact List.mem_cons_of_mem _ (keys_typeListOf_sub rest ks h)
      · rcases he : encodeJsonRepresentation v with - | tag
        · rw [typeListOf_cons_none hp he] at h
          exact List.mem_cons_of_mem _ (keys_typeListOf_sub rest ks h)
        · rw [typeListOf_cons_some hp he] at h
          rcases (by simpa [keys] using h : ks = qnString kq ∨
              ks ∈ keys (typeListOf rest)) with h1 | h1
          · rw [h1]
            exact List.mem_cons_self _ _
          · exact List.mem_cons_of_mem _ (keys_typeListOf_sub rest ks h1)

/-- The second extraction loop, on distinct serialized keys, is the type
filter. -/
theorem typeStep_fold : ∀ (l : Attrs) (acc : List (String × String)),
    (∀ kv ∈ l, serializeKey kv.1 ∉ keys acc) →
    (l.map (fun kv => serializeKey kv.1)).Nodup →
    l.foldl typeStep acc = acc ++ typeListOf l
  | [], acc, _, _ => by simp [typeListOf]
  | kv :: rest, acc, hfresh, hnod => by
    obtain ⟨k, v⟩ := kv
    simp only [List.foldl]
    have hnodr : (rest.map (fun kv => serializeKey kv.1)).Nodup :=
      (List.nodup_cons.mp (by simpa using hnod)).2
    cases k with
    | rawKey s =>
      rw [show typeStep acc (AttrKey.rawKey s, v) = acc from rfl]
      rw [typeStep_fold rest acc
        (fun kv' h' => hfresh kv' (List.mem_cons_of_mem _ h')) hnodr]
      rw [typeListOf_cons_raw]
    | qnKey kq =>
      by_cases hp : kq ∈ PROV_ATTRIBUTES
      · rw [show typeStep acc (AttrKey.qnKey kq, v) = acc from by
          simp [typeStep, hp]]
        rw [typeStep_fold rest acc
          (fun kv' h' => hfresh kv' (List.mem_cons_of_mem _ h')) hnodr]
        rw [typeListOf_cons_pa hp]
      · rcases he : encodeJsonRepresentation v with - | tag
        · rw [show typeStep acc (AttrKey.qnKey kq, v) = acc from by
            simp [typeStep, hp, he]]
          rw [typeStep_fold rest acc
            (fun kv' h' => hfresh kv' (List.mem_cons_of_mem _ h')) hnodr]
          rw [typeListOf_cons_none hp he]
        · have hfr : ∀ kv' ∈ rest,
              serializeKey kv'.1 ∉ keys (acc ++ [(qnString kq, tag)]) := by
            intro kv' h' hmem
            rw [show keys (acc ++ [(qnString kq, tag)]) =
                keys acc ++ [qnString kq] from by simp [keys]] at hmem
            rcases List.mem_append.mp hmem with h2 | h2
            · exact hfresh kv' (List.mem_cons_of_mem _ h') h2
            · have h3 : serializeKey kv'.1 = qnString kq := by simpa using h2
              have h4 : serializeKey (AttrKey.qnKey kq) ∉
                  rest.map (fun kv => serializeKey kv.1) := by
                have h5 := hnod
                rw [List.map_cons] at h5
                exact (List.nodup_cons.mp h5).1
              apply h4
              rw [show serializeKey (AttrKey.qnKey kq) = qnString kq from rfl,
                ← h3]
              exact List.mem_map.mpr ⟨kv', h', rfl⟩
          have hf0 : qnString kq ∉ keys acc :=
            hfresh (AttrKey.qnKey kq, v) (List.mem_cons_self _ _)
          rw [show typeStep acc (AttrKey.qnKey kq, v) =
              upsert acc (qnString kq) tag from by simp [typeStep, hp, he]]
          rw [upsert_of_not_mem tag hf0]
          rw [typeStep_fold rest (acc ++ [(qnString kq, tag)]) hfr hnodr]
          rw [typeListOf_cons_some hp he]
          simp

theorem alookup_typeListOf_none {l : Attrs} {ks : String}
    (h : ks ∉ l.map (fun kv => serializeKey kv.1)) :
    alookup (typeListOf l) ks = none :=
  alookup_none_of_not_mem (fun hm => h (keys_typeListOf_sub l ks hm))

theorem alookup_typeListOf : ∀ (l : Attrs),
    (l.map (fun kv => serializeKey kv.1)).Nodup →
    ∀ (kq : QualifiedName) (v : AttrValue), (AttrKey.qnKey kq, v) ∈ l →
      kq ∉ PROV_ATTRIBUTES →
      alookup (typeListOf l) (qnString kq) = encodeJsonRepresentation v
  | [], _, kq, v, hm, _ => absurd hm (List.not_mem_nil _)
  | kv0 :: rest, hnod, kq, v, hm, hp => by
    have hnod' : (serializeKey kv0.1 :: rest.map (fun kv => serializeKey kv.1)).Nodup := by
      have h0 := hnod
      rw [List.map_cons] at h0
      exact h0
    have hhead := (List.nodup_cons.mp hnod').1
    have htail := (List.nodup_cons.mp hnod').2
    rcases List.mem_cons.mp hm with h1 | h1
    · rw [← h1] at hhead ⊢
      rcases he : encodeJsonRepresentation v with - | tag
      · rw [typeListOf_cons_none hp he]
        rw [alookup_typeListOf_none (by
          intro hmm
          exact hhead (by simpa using hmm))]
      · rw [typeListOf_cons_some hp he, alookup_cons, if_pos rfl]
    · obtain ⟨k0, v0⟩ := kv0
      cases k0 with
      | rawKey s =>
        rw [typeListOf_cons_raw]
        exact alookup_typeListOf rest htail kq v h1 hp
      | qnKey kq0 =>
        have hne : qnString kq0 ≠ qnString kq := by
          intro he
          apply hhead
          rw [show serializeKey (AttrKey.qnKey kq0, v0).1 = qnString kq0 from rfl,
            he]
          exact List.mem_map.mpr ⟨(AttrKey.qnKey kq, v), h1, rfl⟩
        by_cases hp0 : kq0 ∈ PROV_ATTRIBUTES
        · rw [typeListOf_cons_pa hp0]
          exact alookup_typeListOf rest htail kq v h1 hp
        · rcases he0 : encodeJsonRepresentation v0 with - | tag0
          · rw [typeListOf_cons_none hp0 he0]
            exact alookup_typeListOf rest htail kq v h1 hp
          · rw [typeListOf_cons_some hp0 he0, alookup_cons, if_neg hne]
            exact alookup_typeListOf rest htail kq v h1 hp

theorem keys_serMap (l : Attrs) :
    keys (l.map serPair) = l.map (fun kv => serializeKey kv.1) := by
  simp [keys, serPair, List.map_map]

theorem alookup_serMap {l : Attrs}
    (hnod : (l.map (fun kv => serializeKey kv.1)).Nodup)
    {kv : AttrKey × AttrValue} (hm : kv ∈ l) :
    alookup (l.map serPair) (serializeKey kv.1) = some (serializeValue kv.2) :=
  alookup_of_mem_nodup (List.mem_map.mpr ⟨kv, hm, rfl⟩)
    (by rw [keys_serMap]; exact hnod)

theorem alookup_serMap_none {l : Attrs} {ks : String}
    (h : ks ∉ l.map (fun kv => serializeKey kv.1)) :
    alookup (l.map serPair) ks = none :=
  alookup_none_of_not_mem (by rw [keys_serMap]; exact h)

/-- Decoding one serialized well-formed attribute recovers it exactly,
provided its prefixes are bound in the decode table. -/
theorem decodeAttr_ser {Tg tblP : NsTable} {kq : QualifiedName} {v : AttrValue}
    {tm : List (String × String)}
    (hgP : GoodTable Tg (defaultNs ++ tblP))
    (hkq : CohQN Tg kq) (hkmem : ∃ u, (kq.pfx, u) ∈ defaultNs ++ tblP)
    (hwfv : wfValue Tg v = true)
    (hvmem : ∀ q, v = AttrValue.qn q → ∃ u, (q.pfx, u) ∈ defaultNs ++ tblP)
    (htm : alookup tm (qnString kq) = encodeJsonRepresentation v) :
    decodeAttr tblP tm (qnString kq, serializeValue v) =
      .ok (AttrKey.qnKey kq, v) := by
  obtain ⟨u, hu⟩ := hkmem
  have hres : validQualifiedName tblP (qnString kq) = some kq :=
    vqn_resolve_mem tblP hgP hkq hu
  unfold decodeAttr
  simp only [] at hres ⊢
  rw [hres]
  unfold decodeValue
  rw [htm]
  cases v with
  | str s => rfl
  | qn q =>
    obtain ⟨uq, huq⟩ := hvmem q rfl
    have hq : CohQN Tg q := by
      simp [wfValue] at hwfv
      exact cohQNb_coh hwfv
    have hres2 : validQualifiedName tblP (qnString q) = some q :=
      vqn_resolve_mem tblP hgP hq huq
    simp only [encodeJsonRepresentation]
    simp [show serializeValue (AttrValue.qn q) = qnString q from rfl, hres2,
      pure, Except.pure]
  | dateTime s => rfl
  | literal v0 dt =>
    simp only [encodeJsonRepresentation]
    have hwf2 : dt ≠ QUALIFIED_NAME_TAG ∧ dt ≠ DATETIME_TAG := by
      simpa [wfValue] using hwfv
    rw [if_neg hwf2.1, if_neg hwf2.2]
    rfl

/-- Decoding a serialized list of well-formed attributes recovers the list. -/
theorem decodeAttrs_ser {Tg tblP : NsTable} {tm : List (String × String)}
    (hgP : GoodTable Tg (defaultNs ++ tblP)) :
    ∀ {a : Attrs},
      (∀ kv ∈ a, wfAttr Tg kv = true) →
      (∀ kq v, (AttrKey.qnKey kq, v) ∈ a →
        (∃ u, (kq.pfx, u) ∈ defaultNs ++ tblP) ∧
        (∀ q, v = AttrValue.qn q → ∃ u, (q.pfx, u) ∈ defaultNs ++ tblP) ∧
        alookup tm (qnString kq) = encodeJsonRepresentation v) →
      decodeAttrs tblP tm (a.map serPair) = .ok a
  | [], _, _ => rfl
  | (k, v) :: rest, hwf, henv => by
    cases k with
    | rawKey s =>
      have := hwf (AttrKey.rawKey s, v) (List.mem_cons_self _ _)
      simp [wfAttr] at this
    | qnKey kq =>
      have hw := hwf (AttrKey.qnKey kq, v) (List.mem_cons_self _ _)
      obtain ⟨hpm, hvm, htm⟩ := henv kq v (List.mem_cons_self _ _)
      have hkq : CohQN Tg kq := by
        simp [wfAttr] at hw
        exact cohQNb_coh hw.1.1.1
      have hwv : wfValue Tg v = true := by
        simp [wfAttr] at hw
        exact hw.2
      rw [List.map_cons, decodeAttrs,
        show serPair (AttrKey.qnKey kq, v) = (qnString kq, serializeValue v)
          from rfl,
        decodeAttr_ser hgP hkq hpm hwv hvm htm]
      simp only []
      rw [decodeAttrs_ser hgP
        (fun kv' h' => hwf kv' (List.mem_cons_of_mem _ h'))
        (fun kq' v' h' => henv kq' v' (List.mem_cons_of_mem _ h'))]

/-- Formal attribute keys are qualified prov names. -/
theorem formalPairs_shape (k : RelKind) (f t mb : Option QualifiedName)
    (kv : AttrKey × AttrValue) (h : kv ∈ formalPairs k f t mb) :
    ∃ x q, kv = (AttrKey.qnKey (provQn x), AttrValue.qn q) ∧
      ((f = some q) ∨ (t = some q) ∨ (mb = some q)) := by
  unfold formalPairs at h
  rcases List.mem_append.mp h with h1 | h1
  · rcases List.mem_append.mp h1 with h2 | h2
    · cases f with
      | none => simp at h2
      | some q =>
        simp at h2
        refine ⟨k.fromKey.localPart, q, ?_, .inl rfl⟩
        rw [h2]
        cases k <;> rfl
    · cases t with
      | none => simp at h2
      | some q =>
        simp at h2
        refine ⟨k.toKey.localPart, q, ?_, .inr (.inl rfl)⟩
        rw [h2]
        cases k <;> rfl
  · cases k <;> cases mb <;> simp at h1
    exact ⟨"bundle", _, by rw [h1]; rfl, .inr (.inr rfl)⟩

theorem wfRecord_element {Tg : NsTable} {k : ElemKind} {i : Option IdentVal}
    {a : Attrs} (h : wfRecord Tg (.element k i a) = true) :
    wfIdent Tg k.typeQn i = true ∧ (∀ kv ∈ a, wfAttr Tg kv = true) ∧
      (a.map (fun kv => serializeKey kv.1)).Nodup := by
  simp [wfRecord] at h
  exact ⟨h.1.1, fun kv hm => h.1.2 kv.1 kv.2 hm, h.2⟩

theorem wfRecord_relation {Tg : NsTable} {k : RelKind} {i : Option IdentVal}
    {f t mb : Option QualifiedName} {a : Attrs}
    (h : wfRecord Tg (.relation k i f t mb a) = true) :
    wfIdent Tg k.typeQn i = true ∧ (∀ kv ∈ a, wfAttr Tg kv = true) ∧
      ((formalPairs k f t mb ++ a).map (fun kv => serializeKey kv.1)).Nodup ∧
      (∀ q, f = some q → CohQN Tg q) ∧ (∀ q, t = some q → CohQN Tg q) ∧
      (∀ q, mb = some q → CohQN Tg q) ∧
      (k ≠ .mention → mb = none) ∧ (k = .mention → ∃ bq, mb = some bq) := by
  simp only [wfRecord, Bool.and_eq_true] at h
  obtain ⟨⟨⟨⟨⟨hident, hall⟩, hnod⟩, hf0⟩, ht0⟩, hmb0⟩ := h
  refine ⟨hident, fun kv hm => List.all_eq_true.mp hall kv hm,
    of_decide_eq_true hnod, ?_, ?_, ?_, ?_, ?_⟩
  · intro q hf
    rw [hf] at hf0
    exact cohQNb_coh hf0
  · intro q ht
    rw [ht] at ht0
    exact cohQNb_coh ht0
  · intro q hmb
    rw [hmb] at hmb0
    cases k with
    | mention => exact cohQNb_coh hmb0
    | association => simp at hmb0
    | usage => simp at hmb0
    | generation => simp at hmb0
    | communication => simp at hmb0
  · intro hk
    cases k with
    | mention => exact absurd rfl hk
    | association => cases mb with
      | none => rfl
      | some q => simp at hmb0
    | usage => cases mb with
      | none => rfl
      | some q => simp at hmb0
    | generation => cases mb with
      | none => rfl
      | some q => simp at hmb0
    | communication => cases mb with
      | none => rfl
      | some q => simp at hmb0
  · intro hk
    subst hk
    cases mb with
    | none => simp at hmb0
    | some bq => exact ⟨bq, rfl⟩

/-- All attributes of a well-formed record are well-formed user attributes or
formal endpoint pairs of coherent names. -/
theorem wf_attrs_shape {Tg tbl : NsTable}
    (hg : GoodTable Tg (defaultNs ++ tbl)) {r : ProvRecordM}
    (hwf : wfRecord Tg r = true) :
    ∀ kv ∈ r.attributes, wfAttr Tg kv = true ∨
      ∃ kq q, kv = (AttrKey.qnKey kq, AttrValue.qn q) ∧
        CohQN Tg kq ∧ CohQN Tg q := by
  intro kv hm
  cases r with
  | element k i a =>
    exact .inl ((wfRecord_element hwf).2.1 kv hm)
  | relation k i f t mb a =>
    obtain ⟨-, hattr, -, hf, ht, hmb, -, -⟩ := wfRecord_relation hwf
    simp only [ProvRecordM.attributes] at hm
    rcases List.mem_append.mp hm with h1 | h1
    · obtain ⟨x, q, hkv, hsrc⟩ := formalPairs_shape k f t mb kv h1
      refine .inr ⟨provQn x, q, hkv, cohQN_provQn hg x, ?_⟩
      rcases hsrc with h2 | h2 | h2
      · exact hf q h2
      · exact ht q h2
      · exact hmb q h2
    · exact .inl (hattr kv h1)
  | plain i a => simp [wfRecord] at hwf
  | bundleRec i a => simp [wfRecord] at hwf

/-- A well-formed record's serialized attribute keys are distinct. -/
theorem wf_keys_nodup {Tg : NsTable} {r : ProvRecordM}
    (hwf : wfRecord Tg r = true) :
    (r.attributes.map (fun kv => serializeKey kv.1)).Nodup := by
  cases r with
  | element k i a => exact (wfRecord_element hwf).2.2
  | relation k i f t mb a => exact (wfRecord_relation hwf).2.2.1
  | plain i a => simp [wfRecord] at hwf
  | bundleRec i a => simp [wfRecord] at hwf

theorem wf_pyDict_id {Tg : NsTable} {r : ProvRecordM}
    (hwf : wfRecord Tg r = true) : pyDict r.attributes = r.attributes := by
  apply pyDict_eq_self
  have h1 := wf_keys_nodup hwf
  have h2 : r.attributes.map (fun kv => serializeKey kv.1) =
      (keys r.attributes).map serializeKey := by
    simp [keys, List.map_map]
  rw [h2] at h1
  exact h1.of_map

/-- The extracted identifier of a record: its own qualified name, or its
type. -/
def extIdentOf (tbl : NsTable) (r : ProvRecordM) : QualifiedName :=
  match r.identifier with
  | some (IdentVal.qn q) => q
  | _ => extProvTypeT tbl r

theorem wf_extIdent {Tg tbl : NsTable} {r : ProvRecordM}
    (hwf : wfRecord Tg r = true) :
    extIdentE tbl r = .ok (extIdentOf tbl r) := by
  rcases hi : r.identifier with - | iv
  · unfold extIdentE extIdentOf
    rw [hi]
  · cases iv with
    | qn q =>
      unfold extIdentE extIdentOf
      rw [hi]
    | raw s =>
      exfalso
      cases r with
      | element k i a =>
        have h1 := (wfRecord_element hwf).1
        simp [ProvRecordM.identifier] at hi
        rw [hi] at h1
        simp [wfIdent] at h1
      | relation k i f t mb a =>
        have h1 := (wfRecord_relation hwf).1
        simp [ProvRecordM.identifier] at hi
        rw [hi] at h1
        simp [wfIdent] at h1
      | plain i a => simp [wfRecord] at hwf
      | bundleRec i a => simp [wfRecord] at hwf

theorem wf_raw_keys {Tg tbl : NsTable} (hg : GoodTable Tg (defaultNs ++ tbl))
    {r : ProvRecordM} (hwf : wfRecord Tg r = true) :
    ∀ kv ∈ pyDict r.attributes, kv.1.isRaw = false := by
  rw [wf_pyDict_id hwf]
  intro kv hm
  rcases wf_attrs_shape hg hwf kv hm with h1 | ⟨kq, q, hkv, -, -⟩
  · obtain ⟨k, v⟩ := kv
    cases k with
    | rawKey s => simp [wfAttr] at h1
    | qnKey kq => rfl
  · rw [hkv]
    rfl

theorem wf_extOk {Tg tbl : NsTable} (hg : GoodTable Tg (defaultNs ++ tbl))
    {r : ProvRecordM} (hwf : wfRecord Tg r = true) : extOk tbl r := by
  have h1 := getMeta_ok_eq tbl r (wf_extIdent hwf) (wf_raw_keys hg hwf)
  unfold extOk extMdOf extAtsOf
  rw [h1]

/-- The extracted metadata of a well-formed record, field by field. -/
theorem wf_md {Tg tbl : NsTable} (hg : GoodTable Tg (defaultNs ++ tbl))
    {r : ProvRecordM} (hwf : wfRecord Tg r = true) :
    (extMdOf tbl r).provType = extProvTypeT tbl r ∧
    (extMdOf tbl r).identifier = extIdentOf tbl r ∧
    extAtsOf tbl r = r.attributes ∧
    (extMdOf tbl r).typeMap = typeListOf r.attributes ∧
    (extMdOf tbl r).namespaces = r.attributes.foldl (nsStepPure tbl)
      (upsert (upsert [] (extProvTypeT tbl r).pfx (extProvTypeT tbl r).uri)
        (extIdentOf tbl r).pfx (extIdentOf tbl r).uri) := by
  obtain ⟨hT, hid, hats, htm, hns⟩ := getMeta_ok_inv (wf_extOk hg hwf)
  have hpid : (extMdOf tbl r).identifier = extIdentOf tbl r := by
    have h2 := @wf_extIdent Tg tbl r hwf
    rw [hid] at h2
    injection h2 with h3
  have htm2 : (extMdOf tbl r).typeMap = typeListOf r.attributes := by
    rw [htm, wf_pyDict_id hwf]
    exact typeStep_fold r.attributes []
      (fun kv _ => by simp [keys]) (wf_keys_nodup hwf)
  refine ⟨hT, hpid, by rw [hats, wf_pyDict_id hwf], htm2, ?_⟩
  rw [hns, wf_pyDict_id hwf, hpid]

/-- The extracted identifier of a well-formed record is coherent. -/
theorem wf_extIdent_coh {Tg tbl : NsTable}
    (hg : GoodTable Tg (defaultNs ++ tbl)) {r : ProvRecordM}
    (hwf : wfRecord Tg r = true) (hne : ¬ r.isMention = true ∨ True) :
    CohQN Tg (extIdentOf tbl r) := by
  unfold extIdentOf
  rcases hi : r.identifier with - | iv
  · -- defaults to the prov-prefixed type
    cases r with
    | element k i a =>
      rw [show extProvTypeT tbl (.element k i a) = k.typeQn from by
        rw [extProvTypeT_eq]; rfl]
      cases k <;> exact cohQN_provQn hg _
    | relation k i f t mb a =>
      rw [show extProvTypeT tbl (.relation k i f t mb a) = k.typeQn from by
        rw [extProvTypeT_eq]; rfl]
      cases k <;> exact cohQN_provQn hg _
    | plain i a => simp [wfRecord] at hwf
    | bundleRec i a => simp [wfRecord] at hwf
  · cases iv with
    | qn q =>
      simp only []
      cases r with
      | element k i a =>
        have h1 := (wfRecord_element hwf).1
        simp [ProvRecordM.identifier] at hi
        rw [hi] at h1
        simp [wfIdent, Bool.and_eq_true] at h1
        exact cohQNb_coh h1.1
      | relation k i f t mb a =>
        have h1 := (wfRecord_relation hwf).1
        simp [ProvRecordM.identifier] at hi
        rw [hi] at h1
        simp [wfIdent, Bool.and_eq_true] at h1
        exact cohQNb_coh h1.1
      | plain i a => simp [wfRecord] at hwf
      | bundleRec i a => simp [wfRecord] at hwf
    | raw s =>
      exfalso
      cases r with
      | element k i a =>
        have h1 := (wfRecord_element hwf).1
        simp [ProvRecordM.identifier] at hi
        rw [hi] at h1
        simp [wfIdent] at h1
      | relation k i f t mb a =>
        have h1 := (wfRecord_relation hwf).1
        simp [ProvRecordM.identifier] at hi
        rw [hi] at h1
        simp [wfIdent] at h1
      | plain i a => simp [wfRecord] at hwf
      | bundleRec i a => simp [wfRecord] at hwf

/-- The extracted type of a well-formed record is coherent. -/
theorem wf_extType_coh {Tg tbl : NsTable}
    (hg : GoodTable Tg (defaultNs ++ tbl)) {r : ProvRecordM}
    (hwf : wfRecord Tg r = true) : CohQN Tg (extProvTypeT tbl r) := by
  cases r with
  | element k i a =>
    rw [show extProvTypeT tbl (.element k i a) = k.typeQn from by
      rw [extProvTypeT_eq]; rfl]
    cases k <;> exact cohQN_provQn hg _
  | relation k i f t mb a =>
    rw [show extProvTypeT tbl (.relation k i f t mb a) = k.typeQn from by
      rw [extProvTypeT_eq]; rfl]
    cases k <;> exact cohQN_provQn hg _
  | plain i a => simp [wfRecord] at hwf
  | bundleRec i a => simp [wfRecord] at hwf

/-- Every namespace entry the extraction registers is good, and the entries
the reconstructor needs are all present. -/
theorem wf_md_ns {Tg tbl : NsTable} (hg : GoodTable Tg (defaultNs ++ tbl))
    {r : ProvRecordM} (hwf : wfRecord Tg r = true) :
    GoodTable Tg (extMdOf tbl r).namespaces ∧
    ((extIdentOf tbl r).pfx, (extIdentOf tbl r).uri) ∈
      (extMdOf tbl r).namespaces ∧
    (∀ pr ∈ nsPairsAll tbl r.attributes, pr ∈ (extMdOf tbl r).namespaces) := by
  obtain ⟨-, -, -, -, hns⟩ := wf_md hg hwf
  have hgood0 : ∀ e ∈ upsert
      (upsert [] (extProvTypeT tbl r).pfx (extProvTypeT tbl r).uri)
      (extIdentOf tbl r).pfx (extIdentOf tbl r).uri ++
      nsPairsAll tbl r.attributes, GoodEntry Tg e := by
    intro e he
    rcases List.mem_append.mp he with h1 | h1
    · rcases mem_upsert h1 with h2 | h2
      · rcases mem_upsert h2 with h3 | h3
        · simp at h3
        · rw [h3]
          exact cohQN_entry (wf_extType_coh hg hwf)
      · rw [h2]
        exact cohQN_entry (wf_extIdent_coh hg hwf (.inr trivial))
    · exact wf_nsPairs_good hg (wf_attrs_shape hg hwf) e h1
  have hcons : NsConsistent (upsert
      (upsert [] (extProvTypeT tbl r).pfx (extProvTypeT tbl r).uri)
      (extIdentOf tbl r).pfx (extIdentOf tbl r).uri ++
      nsPairsAll tbl r.attributes) := good_consistent hgood0
  refine ⟨?_, ?_, ?_⟩
  · intro e he
    rw [hns] at he
    exact hgood0 e (nsFoldPure_subset tbl _ _ e he)
  · rw [hns]
    apply nsFoldPure_mem tbl _ _ hcons
    exact List.mem_append.mpr (.inl (mem_upsert_self _ _ _))
  · intro pr hpr
    rw [hns]
    apply nsFoldPure_mem tbl _ _ hcons
    exact List.mem_append.mpr (.inr hpr)

theorem recordCtorOfType_elem (k : ElemKind) :
    recordCtorOfType k.typeQn = some (.inl k) := by cases k <;> rfl

theorem recordCtorOfType_rel (k : RelKind) :
    recordCtorOfType k.typeQn = some (.inr k) := by cases k <;> rfl

theorem formalPairs_key_mem (k : RelKind) (f t mb : Option QualifiedName)
    (kv : AttrKey × AttrValue) (h : kv ∈ formalPairs k f t mb) :
    serializeKey kv.1 ∈ formalKeyStrs k := by
  unfold formalPairs at h
  rcases List.mem_append.mp h with h1 | h1
  · rcases List.mem_append.mp h1 with h2 | h2
    · cases f with
      | none => simp at h2
      | some q =>
        simp at h2
        rw [h2]
        cases k <;> exact List.mem_cons_self _ _
    · cases t with
      | none => simp at h2
      | some q =>
        simp at h2
        rw [h2]
        cases k <;> exact List.mem_cons_of_mem _ (List.mem_cons_self _ _)
  · cases k <;> cases mb <;> simp at h1
    rw [h1]
    exact List.mem_cons_of_mem _ (List.mem_cons_of_mem _ (List.mem_cons_self _ _))

theorem formalKeyStrs_sub_pa (k : RelKind) :
    ∀ s ∈ formalKeyStrs k, s ∈ PROV_ATTRIBUTES.map qnString := by
  cases k <;> decide

theorem wf_user_not_formal {Tg : NsTable} {a : Attrs}
    (hall : ∀ kv ∈ a, wfAttr Tg kv = true) (k : RelKind) :
    ∀ kv ∈ a, serializeKey kv.1 ∉ formalKeyStrs k := by
  intro kv hm hmem
  have hw := hall kv hm
  obtain ⟨kk, v⟩ := kv
  cases kk with
  | rawKey s => simp [wfAttr] at hw
  | qnKey kq =>
    simp [wfAttr] at hw
    have h2 := hw.1.1.2
    have h3 := formalKeyStrs_sub_pa k _ hmem
    obtain ⟨x, hx, hxe⟩ := List.mem_map.mp h3
    exact h2 x hx hxe

/-- Serialized formal pairs are dropped by the reserved-key filter; user
attributes pass. -/
theorem filter_ser_formal {Tg : NsTable} {k : RelKind}
    {f t mb : Option QualifiedName} {a : Attrs}
    (hall : ∀ kv ∈ a, wfAttr Tg kv = true) :
    ((formalPairs k f t mb ++ a).map serPair).filter
      (fun kv => decide (kv.1 ∉ formalKeyStrs k)) = a.map serPair := by
  rw [List.map_append, List.filter_append]
  have h1 : ((formalPairs k f t mb).map serPair).filter
      (fun kv => decide (kv.1 ∉ formalKeyStrs k)) = [] := by
    rw [List.filter_eq_nil_iff]
    intro kv hm
    obtain ⟨kv0, hkv0, he⟩ := List.mem_map.mp hm
    have h2 := formalPairs_key_mem k f t mb kv0 hkv0
    rw [← he]
    simp [serPair]
    exact h2
  have h2 : (a.map serPair).filter
      (fun kv => decide (kv.1 ∉ formalKeyStrs k)) = a.map serPair := by
    rw [List.filter_eq_self]
    intro kv hm
    obtain ⟨kv0, hkv0, he⟩ := List.mem_map.mp hm
    rw [← he]
    simp [serPair]
    exact wf_user_not_formal hall k kv0 hkv0
  rw [h1, h2, List.nil_append]

theorem alookup_ser_fromKey {Tg : NsTable} {k : RelKind}
    {f t mb : Option QualifiedName} {a : Attrs}
    (hnod : ((formalPairs k f t mb ++ a).map (fun kv => serializeKey kv.1)).Nodup)
    (hall : ∀ kv ∈ a, wfAttr Tg kv = true)
    (hmbshape : k ≠ .mention → mb = none) :
    alookup ((formalPairs k f t mb ++ a).map serPair) (qnString k.fromKey) =
      f.map qnString := by
  cases f with
  | some fq =>
    have hm : (AttrKey.qnKey k.fromKey, AttrValue.qn fq) ∈
        formalPairs k (some fq) t mb ++ a := by
      apply List.mem_append.mpr (.inl _)
      unfold formalPairs
      exact List.mem_append.mpr (.inl (List.mem_append.mpr
        (.inl (List.mem_cons_self _ _))))
    exact alookup_serMap hnod hm
  | none =>
    apply alookup_serMap_none
    intro hmem
    obtain ⟨kv0, hkv0, he⟩ := List.mem_map.mp hmem
    rcases List.mem_append.mp hkv0 with h1 | h1
    · -- a formal pair other than the absent from-endpoint
      unfold formalPairs at h1
      rcases List.mem_append.mp h1 with h2 | h2
      · rcases List.mem_append.mp h2 with h3 | h3
        · simp at h3
        · cases t with
          | none => simp at h3
          | some tq =>
            simp at h3
            have he2 : qnString k.toKey = qnString k.fromKey := by
              rw [h3] at he
              exact he
            revert he2
            cases k <;> decide
      · cases k with
        | mention =>
          cases mb with
          | none => simp at h2
          | some bq =>
            simp at h2
            have he2 : qnString mentionBundleKey =
                qnString RelKind.mention.fromKey := by
              rw [h2] at he
              exact he
            revert he2
            decide
        | association =>
          rw [hmbshape (by intro hc; cases hc)] at h2
          simp at h2
        | usage =>
          rw [hmbshape (by intro hc; cases hc)] at h2
          simp at h2
        | generation =>
          rw [hmbshape (by intro hc; cases hc)] at h2
          simp at h2
        | communication =>
          rw [hmbshape (by intro hc; cases hc)] at h2
          simp at h2
    · have := wf_user_not_formal hall k kv0 h1
      apply this
      rw [he]
      cases k <;> exact List.mem_cons_self _ _

theorem alookup_ser_toKey {Tg : NsTable} {k : RelKind}
    {f t mb : Option QualifiedName} {a : Attrs}
    (hnod : ((formalPairs k f t mb ++ a).map (fun kv => serializeKey kv.1)).Nodup)
    (hall : ∀ kv ∈ a, wfAttr Tg kv = true)
    (hmbshape : k ≠ .mention → mb = none) :
    alookup ((formalPairs k f t mb ++ a).map serPair) (qnString k.toKey) =
      t.map qnString := by
  cases t with
  | some tq =>
    have hm : (AttrKey.qnKey k.toKey, AttrValue.qn tq) ∈
        formalPairs k f (some tq) mb ++ a := by
      apply List.mem_append.mpr (.inl _)
      unfold formalPairs
      exact List.mem_append.mpr (.inl (List.mem_append.mpr
        (.inr (List.mem_cons_self _ _))))
    exact alookup_serMap hnod hm
  | none =>
    apply alookup_serMap_none
    intro hmem
    obtain ⟨kv0, hkv0, he⟩ := List.mem_map.mp hmem
    rcases List.mem_append.mp hkv0 with h1 | h1
    · unfold formalPairs at h1
      rcases List.mem_append.mp h1 with h2 | h2
      · rcases List.mem_append.mp h2 with h3 | h3
        · cases f with
          | none => simp at h3
          | some fq =>
            simp at h3
            have he2 : qnString k.fromKey = qnString k.toKey := by
              rw [h3] at he
              exact he
            revert he2
            cases k <;> decide
        · simp at h3
      · cases k with
        | mention =>
          cases mb with
          | none => simp at h2
          | some bq =>
            simp at h2
            have he2 : qnString mentionBundleKey =
                qnString RelKind.mention.toKey := by
              rw [h2] at he
              exact he
            revert he2
            decide
        | association =>
          rw [hmbshape (by intro hc; cases hc)] at h2
          simp at h2
        | usage =>
          rw [hmbshape (by intro hc; cases hc)] at h2
          simp at h2
        | generation =>
          rw [hmbshape (by intro hc; cases hc)] at h2
          simp at h2
        | communication =>
          rw [hmbshape (by intro hc; cases hc)] at h2
          simp at h2
    · have := wf_user_not_formal hall k kv0 h1
      apply this
      rw [he]
      cases k <;>
        exact List.mem_cons_of_mem _ (List.mem_cons_self _ _)

theorem alookup_ser_bundleKey {Tg : NsTable}
    {f t mb : Option QualifiedName} {a : Attrs}
    (hnod : ((formalPairs .mention f t mb ++ a).map
      (fun kv => serializeKey kv.1)).Nodup)
    (hall : ∀ kv ∈ a, wfAttr Tg kv = true) :
    alookup ((formalPairs .mention f t mb ++ a).map serPair)
        (qnString mentionBundleKey) = mb.map qnString := by
  cases mb with
  | some bq =>
    have hm : (AttrKey.qnKey mentionBundleKey, AttrValue.qn bq) ∈
        formalPairs .mention f t (some bq) ++ a := by
      apply List.mem_append.mpr (.inl _)
      unfold formalPairs
      exact List.mem_append.mpr (.inr (List.mem_cons_self _ _))
    exact alookup_serMap hnod hm
  | none =>
    apply alookup_serMap_none
    intro hmem
    obtain ⟨kv0, hkv0, he⟩ := List.mem_map.mp hmem
    rcases List.mem_append.mp hkv0 with h1 | h1
    · unfold formalPairs at h1
      rcases List.mem_append.mp h1 with h2 | h2
      · rcases List.mem_append.mp h2 with h3 | h3
        · cases f with
          | none => simp at h3
          | some fq =>
            simp at h3
            have he2 : qnString RelKind.mention.fromKey =
                qnString mentionBundleKey := by
              rw [h3] at he
              exact he
            revert he2
            decide
        · cases t with
          | none => simp at h3
          | some tq =>
            simp at h3
            have he2 : qnString RelKind.mention.toKey =
                qnString mentionBundleKey := by
              rw [h3] at he
              exact he
            revert he2
            decide
      · simp at h2
    · have := wf_user_not_formal hall .mention kv0 h1
      apply this
      rw [he]
      exact List.mem_cons_of_mem _
        (List.mem_cons_of_mem _ (List.mem_cons_self _ _))

/-- Rebuilding a well-formed record from its own serialized metadata and
attributes recovers it exactly, in any decode table that binds every prefix
the extraction registered. -/
theorem createProvRecord_ser {Tg tbl tblP : NsTable} {r : ProvRecordM}
    (hg : GoodTable Tg (defaultNs ++ tbl)) (hwf : wfRecord Tg r = true)
    (hgP : GoodTable Tg (defaultNs ++ tblP))
    (hmem : ∀ pr ∈ (extMdOf tbl r).namespaces,
      ∃ u, (pr.1, u) ∈ defaultNs ++ tblP) :
    createProvRecord tblP (extProvTypeT tbl r)
      (match r.identifier with
       | some (IdentVal.qn q) => some (qnString q)
       | _ => none)
      (serializeAttrs (extAtsOf tbl r)) (extMdOf tbl r).typeMap = .ok r := by
  obtain ⟨hT, hpid, hats, htm, hns⟩ := wf_md hg hwf
  obtain ⟨hgns, hpidmem, hprmem⟩ := wf_md_ns hg hwf
  rw [hats, htm]
  have henv : ∀ kq v, (AttrKey.qnKey kq, v) ∈ r.attributes →
      wfAttr Tg (AttrKey.qnKey kq, v) = true →
      (∃ u, (kq.pfx, u) ∈ defaultNs ++ tblP) ∧
      (∀ q, v = AttrValue.qn q → ∃ u, (q.pfx, u) ∈ defaultNs ++ tblP) ∧
      alookup (typeListOf r.attributes) (qnString kq) =
        encodeJsonRepresentation v := by
    intro kq v hm hw
    have hknPA : kq ∉ PROV_ATTRIBUTES := by
      intro hin
      simp [wfAttr] at hw
      exact hw.1.1.2 kq hin rfl
    refine ⟨?_, ?_, ?_⟩
    · refine hmem (kq.pfx, kq.uri) (hprmem _ (mem_nsPairsAll tbl hm ?_))
      unfold nsPairsOf
      exact List.mem_cons_self _ _
    · intro q hq
      refine hmem (q.pfx, q.uri) (hprmem _ (mem_nsPairsAll tbl hm ?_))
      unfold nsPairsOf
      rw [hq]
      simp
    · exact alookup_typeListOf r.attributes
        (wf_keys_nodup hwf) kq v hm hknPA
  have hidres : ∀ q, r.identifier = some (IdentVal.qn q) →
      validQualifiedName tblP (qnString q) = some q := by
    intro q hq
    have hcoh : CohQN Tg q := by
      have h1 := wf_extIdent_coh hg hwf (.inr trivial)
      unfold extIdentOf at h1
      rw [hq] at h1
      exact h1
    have hqm : ((extIdentOf tbl r).pfx, (extIdentOf tbl r).uri) ∈
        (extMdOf tbl r).namespaces := hpidmem
    unfold extIdentOf at hqm
    rw [hq] at hqm
    obtain ⟨u, hu⟩ := hmem _ hqm
    exact vqn_resolve_mem tblP hgP hcoh hu
  cases r with
  | element k i a =>
    obtain ⟨hid, hall, hnod⟩ := wfRecord_element hwf
    have hTy : extProvTypeT tbl (.element k i a) = k.typeQn := by
      rw [extProvTypeT_eq]
      rfl
    rw [hTy]
    have hatr : (ProvRecordM.element k i a).attributes = a := rfl
    rw [show serializeAttrs ((ProvRecordM.element k i a).attributes) =
      a.map serPair from by rw [hatr]; exact serializeAttrs_eq_map hnod]
    have hdec : decodeAttrs tblP
        (typeListOf ((ProvRecordM.element k i a).attributes))
        (a.map serPair) = .ok a := by
      apply decodeAttrs_ser hgP hall
      intro kq v hm
      exact henv kq v (by rw [hatr]; exact hm) (hall _ hm)
    cases i with
    | none =>
      unfold createProvRecord
      simp only [ProvRecordM.identifier]
      rw [recordCtorOfType_elem]
      try simp only []
      rw [hdec]
      try rfl
    | some iv =>
      cases iv with
      | qn q =>
        unfold createProvRecord
        simp only [ProvRecordM.identifier]
        rw [hidres q rfl]
        try simp only []
        rw [recordCtorOfType_elem]
        try simp only []
        rw [hdec]
        try rfl
      | raw s =>
        have h1 := hid
        simp [wfIdent] at h1
  | relation k i f t mb a =>
    obtain ⟨hid, hall, hnod, hcohf, hcoht, hcohmb, hmbnone, hmbsome⟩ :=
      wfRecord_relation hwf
    have hTy : extProvTypeT tbl (.relation k i f t mb a) = k.typeQn := by
      rw [extProvTypeT_eq]
      rfl
    rw [hTy]
    have hatr : (ProvRecordM.relation k i f t mb a).attributes =
      formalPairs k f t mb ++ a := rfl
    rw [show serializeAttrs ((ProvRecordM.relation k i f t mb a).attributes) =
      (formalPairs k f t mb ++ a).map serPair from by
        rw [hatr]; exact serializeAttrs_eq_map hnod]
    have hdec : decodeAttrs tblP
        (typeListOf ((ProvRecordM.relation k i f t mb a).attributes))
        (((formalPairs k f t mb ++ a).map serPair).filter
          (fun kv => decide (kv.1 ∉ formalKeyStrs k))) = .ok a := by
      rw [filter_ser_formal hall]
      apply decodeAttrs_ser hgP hall
      intro kq v hm
      exact henv kq v (by rw [hatr]; exact List.mem_append.mpr (.inr hm))
        (hall _ hm)
    have hresolve : ∀ (kk : QualifiedName) (q : QualifiedName),
        (AttrKey.qnKey kk, AttrValue.qn q) ∈ formalPairs k f t mb →
        CohQN Tg q → validQualifiedName tblP (qnString q) = some q := by
      intro kk q hmf hcoh
      have hqm : (q.pfx, q.uri) ∈ (extMdOf tbl (.relation k i f t mb a)).namespaces := by
        apply hprmem
        apply mem_nsPairsAll tbl
          (by rw [hatr]; exact List.mem_append.mpr (.inl hmf))
        unfold nsPairsOf
        simp
      obtain ⟨u, hu⟩ := hmem _ hqm
      exact vqn_resolve_mem tblP hgP hcoh hu
    have hfe : (alookup ((formalPairs k f t mb ++ a).map serPair)
        (qnString k.fromKey)).bind (validQualifiedName tblP) = f := by
      rw [alookup_ser_fromKey hnod hall hmbnone]
      cases f with
      | none => rfl
      | some fq =>
        have hm : (AttrKey.qnKey k.fromKey, AttrValue.qn fq) ∈
            formalPairs k (some fq) t mb := by
          unfold formalPairs
          exact List.mem_append.mpr (.inl (List.mem_append.mpr
            (.inl (List.mem_cons_self _ _))))
        exact hresolve k.fromKey fq hm (hcohf fq rfl)
    have hte : (alookup ((formalPairs k f t mb ++ a).map serPair)
        (qnString k.toKey)).bind (validQualifiedName tblP) = t := by
      rw [alookup_ser_toKey hnod hall hmbnone]
      cases t with
      | none => rfl
      | some tq =>
        have hm : (AttrKey.qnKey k.toKey, AttrValue.qn tq) ∈
            formalPairs k f (some tq) mb := by
          unfold formalPairs
          exact List.mem_append.mpr (.inl (List.mem_append.mpr
            (.inr (List.mem_cons_self _ _))))
        exact hresolve k.toKey tq hm (hcoht tq rfl)
    cases i with
    | none =>
      unfold createProvRecord
      simp only [ProvRecordM.identifier]
      rw [recordCtorOfType_rel]
      try simp only []
      rw [hdec]
      try simp only []
      rw [hfe, hte]
      by_cases hk : k = RelKind.mention
      · subst hk
        obtain ⟨bq, hbq⟩ := hmbsome rfl
        subst hbq
        have hmbr : (alookup ((formalPairs RelKind.mention f t (some bq) ++
            a).map serPair) (qnString mentionBundleKey)).bind
            (validQualifiedName tblP) = some bq := by
          rw [alookup_ser_bundleKey hnod hall]
          exact hresolve mentionBundleKey bq
            (by
              unfold formalPairs
              exact List.mem_append.mpr (.inr (List.mem_cons_self _ _)))
            (hcohmb bq rfl)
        try simp only []
        rw [hmbr]
      · rw [hmbnone hk]
        cases k with
        | mention => exact absurd rfl hk
        | association => rfl
        | usage => rfl
        | generation => rfl
        | communication => rfl
    | some iv =>
      cases iv with
      | qn q =>
        unfold createProvRecord
        simp only [ProvRecordM.identifier]
        rw [hidres q rfl]
        try simp only []
        rw [recordCtorOfType_rel]
        try simp only []
        rw [hdec]
        try simp only []
        rw [hfe, hte]
        by_cases hk : k = RelKind.mention
        · subst hk
          obtain ⟨bq, hbq⟩ := hmbsome rfl
          subst hbq
          have hmbr : (alookup ((formalPairs RelKind.mention f t (some bq) ++
              a).map serPair) (qnString mentionBundleKey)).bind
              (validQualifiedName tblP) = some bq := by
            rw [alookup_ser_bundleKey hnod hall]
            exact hresolve mentionBundleKey bq
              (by
                unfold formalPairs
                exact List.mem_append.mpr (.inr (List.mem_cons_self _ _)))
              (hcohmb bq rfl)
          try simp only []
          rw [hmbr]
        · rw [hmbnone hk]
          cases k with
          | mention => exact absurd rfl hk
          | association => rfl
          | usage => rfl
          | generation => rfl
          | communication => rfl
      | raw s =>
        have h1 := hid
        simp [wfIdent] at h1
  | plain i a => simp [wfRecord] at hwf
  | bundleRec i a => simp [wfRecord] at hwf

/-! ### Serialized records and the record-level parse round trip -/

/-- The raw record the adapter returns for a stored record of `r`. -/
def rawOf (tbl : NsTable) (r : ProvRecordM) : RawRecord :=
  ⟨serializeMeta (extMdOf tbl r), serializeAttrs (extAtsOf tbl r)⟩

/-- The stored node an element record leaves in container `c`. -/
def elemDb (tbl : NsTable) (c : Nat) (r : ProvRecordM) : DbRecord :=
  ⟨c, serializeAttrs (extAtsOf tbl r), serializeMeta (extMdOf tbl r)⟩

/-- A raw record every parse skips, leaving the context unchanged. -/
def SkipRaw (raw : RawRecord) : Prop :=
  ∀ (base : NsTable) (ctx : ParseCtx), parseRecord base ctx raw = .ok ctx

theorem elemDb_toRaw (tbl : NsTable) (c : Nat) (r : ProvRecordM) :
    (elemDb tbl c r).toRaw = rawOf tbl r := rfl

/-- Synthesized Unknown nodes are invisible to the reconstructor. -/
theorem skip_unknownDb (c n : Nat) : SkipRaw (unknownDbRecord c n).toRaw :=
  fun base ctx => parseRecord_skip_unknown base ctx _ rfl

theorem qnString_provQn (l : String) : qnString (provQn l) = "prov:" ++ l := by
  apply String.ext
  simp [qnString, provQn]

theorem vqn_typeQn_e (tbl : NsTable) (k : ElemKind) :
    validQualifiedName tbl (qnString k.typeQn) = some k.typeQn := by
  cases k <;>
    (simp only [ElemKind.typeQn]; rw [qnString_provQn, vqn_provPrefixed]; rfl)

theorem vqn_typeQn_r (tbl : NsTable) (k : RelKind) :
    validQualifiedName tbl (qnString k.typeQn) = some k.typeQn := by
  cases k <;>
    (simp only [RelKind.typeQn]; rw [qnString_provQn, vqn_provPrefixed]; rfl)

/-- The rendered type of a well-formed record resolves to itself in any
table. -/
theorem vqn_extType {Tg tbl : NsTable} (tblq : NsTable) {r : ProvRecordM}
    (hwf : wfRecord Tg r = true) :
    validQualifiedName tblq (qnString (extProvTypeT tbl r)) =
      some (extProvTypeT tbl r) := by
  cases r with
  | element k i a =>
    rw [show extProvTypeT tbl (.element k i a) = k.typeQn from by
      rw [extProvTypeT_eq]; rfl]
    exact vqn_typeQn_e tblq k
  | relation k i f t mb a =>
    rw [show extProvTypeT tbl (.relation k i f t mb a) = k.typeQn from by
      rw [extProvTypeT_eq]; rfl]
    exact vqn_typeQn_r tblq k
  | plain i a => simp [wfRecord] at hwf
  | bundleRec i a => simp [wfRecord] at hwf

/-- The type of a well-formed record is never the Unknown placeholder type. -/
theorem extType_ne_unknown {Tg tbl : NsTable} {r : ProvRecordM}
    (hwf : wfRecord Tg r = true) : extProvTypeT tbl r ≠ provUnknownQn := by
  cases r with
  | element k i a =>
    rw [show extProvTypeT tbl (.element k i a) = k.typeQn from by
      rw [extProvTypeT_eq]; rfl]
    cases k <;> decide
  | relation k i f t mb a =>
    rw [show extProvTypeT tbl (.relation k i f t mb a) = k.typeQn from by
      rw [extProvTypeT_eq]; rfl]
    cases k <;> decide
  | plain i a => simp [wfRecord] at hwf
  | bundleRec i a => simp [wfRecord] at hwf

/-- A declared identifier differs from the record's type. -/
theorem wf_ident_ne {Tg tbl : NsTable} {r : ProvRecordM} {q : QualifiedName}
    (hwf : wfRecord Tg r = true) (hi : r.identifier = some (IdentVal.qn q)) :
    q ≠ extProvTypeT tbl r := by
  cases r with
  | element k i a =>
    have h1 := (wfRecord_element hwf).1
    simp only [ProvRecordM.identifier] at hi
    rw [hi] at h1
    simp [wfIdent] at h1
    rw [show extProvTypeT tbl (.element k i a) = k.typeQn from by
      rw [extProvTypeT_eq]; rfl]
    exact h1.2
  | relation k i f t mb a =>
    have h1 := (wfRecord_relation hwf).1
    simp only [ProvRecordM.identifier] at hi
    rw [hi] at h1
    simp [wfIdent] at h1
    rw [show extProvTypeT tbl (.relation k i f t mb a) = k.typeQn from by
      rw [extProvTypeT_eq]; rfl]
    exact h1.2
  | plain i a => simp [wfRecord] at hwf
  | bundleRec i a => simp [wfRecord] at hwf

/-- The stored attributes of a well-formed record never answer the label
lookup. -/
theorem wf_label_none {Tg tbl : NsTable} {r : ProvRecordM}
    (hg : GoodTable Tg (defaultNs ++ tbl)) (hwf : wfRecord Tg r = true) :
    alookup (serializeAttrs (extAtsOf tbl r)) (qnString PROV_LABEL) = none := by
  obtain ⟨-, -, hats, -, -⟩ := wf_md hg hwf
  rw [hats, serializeAttrs_eq_map (wf_keys_nodup hwf)]
  apply alookup_serMap_none
  intro hmem
  obtain ⟨kv, hkv, he⟩ := List.mem_map.mp hmem
  cases r with
  | element k i a =>
    have hw := (wfRecord_element hwf).2.1 kv hkv
    obtain ⟨kk, v⟩ := kv
    cases kk with
    | rawKey s => simp [wfAttr] at hw
    | qnKey kq =>
      simp [wfAttr] at hw
      exact hw.1.2 he
  | relation k i f t mb a =>
    simp only [ProvRecordM.attributes] at hkv
    rcases List.mem_append.mp hkv with h1 | h1
    · have h2 := formalPairs_key_mem k f t mb kv h1
      have h3 := formalKeyStrs_sub_pa k _ h2
      rw [he] at h3
      revert h3
      decide
    · obtain ⟨-, hall, -, -, -, -, -, -⟩ := wfRecord_relation hwf
      have hw := hall kv h1
      obtain ⟨kk, v⟩ := kv
      cases kk with
      | rawKey s => simp [wfAttr] at hw
      | qnKey kq =>
        simp [wfAttr] at hw
        exact hw.1.2 he
  | plain i a => simp [wfRecord] at hwf
  | bundleRec i a => simp [wfRecord] at hwf

theorem goodTable_append {Tg t1 t2 : NsTable} (h1 : GoodTable Tg t1)
    (h2 : GoodTable Tg t2) : GoodTable Tg (t1 ++ t2) := by
  intro e he
  rcases List.mem_append.mp he with h | h
  · exact h1 e h
  · exact h2 e h

theorem goodTable_of_append_left {Tg t1 t2 : NsTable}
    (h : GoodTable Tg (t1 ++ t2)) : GoodTable Tg t1 :=
  fun e he => h e (List.mem_append.mpr (.inl he))

theorem keys_mem_exists {α β : Type} {l : List (α × β)} {p : α}
    (h : p ∈ keys l) : ∃ u, (p, u) ∈ l := by
  obtain ⟨e, he, hep⟩ := List.mem_map.mp h
  exact ⟨e.2, by rw [← hep]; exact he⟩

/-- Re-registering stored namespaces keeps every registered prefix bound. -/
theorem addNs_pfx {reg ns : NsTable} {p u0 : String} (h : (p, u0) ∈ ns) :
    ∃ u, (p, u) ∈ addNamespacesToBundle reg ns := by
  apply keys_mem_exists
  exact keys_foldl_upsert_of_mem ns reg p (List.mem_map.mpr ⟨(p, u0), h, rfl⟩)

/-- Re-registering good namespaces into a good registry stays good. -/
theorem addNs_good {Tg reg ns : NsTable} (hreg : GoodTable Tg reg)
    (hns : GoodTable Tg ns) :
    GoodTable Tg (addNamespacesToBundle reg ns) := by
  intro e he
  rcases List.mem_append.mp (foldl_upsert_subset ns reg e he) with h | h
  · exact hreg e h
  · exact hns e h

/-- Parsing the serialized raw form of a well-formed record appends exactly
that record and registers its stored namespaces. -/
theorem parseRecord_ser {Tg tbl base : NsTable} {ctx : ParseCtx}
    {r : ProvRecordM} (hg : GoodTable Tg (defaultNs ++ tbl))
    (hwf : wfRecord Tg r = true)
    (hgb : GoodTable Tg (defaultNs ++ base)) (hgr : GoodTable Tg ctx.reg) :
    parseRecord base ctx (rawOf tbl r) =
      .ok ⟨addNamespacesToBundle ctx.reg (extMdOf tbl r).namespaces,
           ctx.recs ++ [r]⟩ := by
  obtain ⟨hT, hpid, hats, htm, -⟩ := wf_md hg hwf
  obtain ⟨hgns, -, -⟩ := wf_md_ns hg hwf
  have hgc : GoodTable Tg (defaultNs ++ (base ++ ctx.reg)) := by
    intro e he
    rw [← List.append_assoc] at he
    rcases List.mem_append.mp he with h | h
    · exact hgb e h
    · exact hgr e h
  have hgP : GoodTable Tg (defaultNs ++
      (base ++ addNamespacesToBundle ctx.reg (extMdOf tbl r).namespaces)) := by
    intro e he
    rw [← List.append_assoc] at he
    rcases List.mem_append.mp he with h | h
    · exact hgb e h
    · exact addNs_good hgr hgns e h
  have hmemP : ∀ pr ∈ (extMdOf tbl r).namespaces,
      ∃ u, (pr.1, u) ∈ defaultNs ++
        (base ++ addNamespacesToBundle ctx.reg (extMdOf tbl r).namespaces) := by
    intro pr hpr
    obtain ⟨u, hu⟩ := @addNs_pfx ctx.reg (extMdOf tbl r).namespaces pr.1 pr.2
      (by
        show (pr.1, pr.2) ∈ (extMdOf tbl r).namespaces
        exact hpr)
    exact ⟨u, List.mem_append.mpr (.inr (List.mem_append.mpr (.inr hu)))⟩
  have hty2 : validQualifiedName (base ++ ctx.reg)
      (qnString ((extMdOf tbl r).provType)) = some (extProvTypeT tbl r) := by
    rw [hT]
    exact vqn_extType (base ++ ctx.reg) hwf
  unfold parseRecord
  simp only [rawOf]
  rw [show (serializeMeta (extMdOf tbl r)).provType =
    qnString ((extMdOf tbl r).provType) from rfl]
  rw [hty2]
  simp only []
  rw [vqn_prov_unknown]
  simp only [Option.getD]
  rw [if_neg (extType_ne_unknown hwf)]
  rw [wf_label_none hg hwf]
  rw [if_neg (show ((none : Option String) = some "belongsToBundle") → False
    from fun h => Option.noConfusion h)]
  rw [show (serializeMeta (extMdOf tbl r)).identifier =
    qnString ((extMdOf tbl r).identifier) from rfl]
  rw [hpid]
  rw [show (serializeMeta (extMdOf tbl r)).typeMap =
    (extMdOf tbl r).typeMap from rfl]
  rw [show (serializeMeta (extMdOf tbl r)).namespaces =
    (extMdOf tbl r).namespaces from rfl]
  rcases hi : r.identifier with - | iv
  · have hio : extIdentOf tbl r = extProvTypeT tbl r := by
      unfold extIdentOf
      rw [hi]
    rw [hio, vqn_extType (base ++ ctx.reg) hwf, if_pos rfl]
    have h1 := @createProvRecord_ser Tg tbl
      (base ++ addNamespacesToBundle ctx.reg (extMdOf tbl r).namespaces) r
      hg hwf hgP hmemP
    rw [hi] at h1
    try simp only [] at h1
    rw [h1]
  · cases iv with
    | qn q =>
      have hio : extIdentOf tbl r = q := by
        unfold extIdentOf
        rw [hi]
      have hcoh : CohQN Tg q := by
        have h1 := wf_extIdent_coh hg hwf (.inr trivial)
        rw [hio] at h1
        exact h1
      have h1 := @createProvRecord_ser Tg tbl
        (base ++ addNamespacesToBundle ctx.reg (extMdOf tbl r).namespaces) r
        hg hwf hgP hmemP
      rw [hi] at h1
      rw [hio]
      rcases vqn_resolve (base ++ ctx.reg) hgc hcoh with hv | hv
      · rw [hv, if_neg (show ((none : Option QualifiedName) =
            some (extProvTypeT tbl r)) → False from fun h => Option.noConfusion h)]
        try simp only [] at h1
        rw [h1]
      · rw [hv, if_neg (by
          intro h
          have h2 : q = extProvTypeT tbl r := by injection h
          exact wf_ident_ne hwf hi h2)]
        try simp only [] at h1
        rw [h1]
    | raw s =>
      exfalso
      cases r with
      | element k i a =>
        have h1 := (wfRecord_element hwf).1
        simp only [ProvRecordM.identifier] at hi
        rw [hi] at h1
        simp [wfIdent] at h1
      | relation k i f t mb a =>
        have h1 := (wfRecord_relation hwf).1
        simp only [ProvRecordM.identifier] at hi
        rw [hi] at h1
        simp [wfIdent] at h1
      | plain i a => simp [wfRecord] at hwf
      | bundleRec i a => simp [wfRecord] at hwf

/-! ### Parsing raw record lists chunk by chunk -/

theorem parseRecords_skips (base : NsTable) :
    ∀ {rs : List RawRecord} (ctx : ParseCtx), (∀ raw ∈ rs, SkipRaw raw) →
      parseRecords base ctx rs = .ok ctx
  | [], _, _ => rfl
  | raw :: rest, ctx, h => by
    rw [parseRecords, h raw (List.mem_cons_self _ _) base ctx]
    exact parseRecords_skips base ctx
      (fun x hx => h x (List.mem_cons_of_mem _ hx))

theorem parseRecords_append_ok {base : NsTable} :
    ∀ {l1 : List RawRecord} {ctx c1 : ParseCtx} (l2 : List RawRecord),
      parseRecords base ctx l1 = .ok c1 →
      parseRecords base ctx (l1 ++ l2) = parseRecords base c1 l2
  | [], ctx, c1, l2, h => by
    have h2 : ctx = c1 := by
      rw [parseRecords] at h
      injection h
    rw [List.nil_append, h2]
  | raw :: rest, ctx, c1, l2, h => by
    rw [List.cons_append, parseRecords]
    rw [parseRecords] at h
    rcases hp : parseRecord base ctx raw with e | ctx1
    · rw [hp] at h
      cases h
    · rw [hp] at h
      simp only [] at h ⊢
      exact parseRecords_append_ok l2 h

/-- The registry state after parsing a list of source records in order. -/
def regAfter (tbl : NsTable) (reg : NsTable) (l : List ProvRecordM) : NsTable :=
  l.foldl (fun rg r => addNamespacesToBundle rg (extMdOf tbl r).namespaces) reg

theorem regAfter_append (tbl reg : NsTable) (l1 l2 : List ProvRecordM) :
    regAfter tbl reg (l1 ++ l2) = regAfter tbl (regAfter tbl reg l1) l2 := by
  unfold regAfter
  rw [List.foldl_append]

/-- Parsing the serialized raws of a chunk of well-formed records appends the
chunk and folds its stored namespaces into the registry, which stays good. -/
theorem parseRecords_chunk {Tg tbl base : NsTable}
    (hg : GoodTable Tg (defaultNs ++ tbl))
    (hgb : GoodTable Tg (defaultNs ++ base)) :
    ∀ {l : List ProvRecordM} {reg : NsTable} {recs : List ProvRecordM},
      GoodTable Tg reg → (∀ r ∈ l, wfRecord Tg r = true) →
      parseRecords base ⟨reg, recs⟩ (l.map (rawOf tbl)) =
        .ok ⟨regAfter tbl reg l, recs ++ l⟩ ∧
      GoodTable Tg (regAfter tbl reg l)
  | [], reg, recs, hgr, _ => by
    refine ⟨?_, hgr⟩
    rw [List.map_nil, parseRecords]
    simp [regAfter]
  | r :: rest, reg, recs, hgr, hall => by
    have hwf1 := hall r (List.mem_cons_self _ _)
    have hg1 : GoodTable Tg (addNamespacesToBundle reg
        (extMdOf tbl r).namespaces) :=
      addNs_good hgr (wf_md_ns hg hwf1).1
    have ih := @parseRecords_chunk Tg tbl base hg hgb rest
      (addNamespacesToBundle reg (extMdOf tbl r).namespaces) (recs ++ [r]) hg1
      (fun x hx => hall x (List.mem_cons_of_mem _ hx))
    have hreg1 : regAfter tbl reg (r :: rest) =
        regAfter tbl (addNamespacesToBundle reg (extMdOf tbl r).namespaces)
          rest := rfl
    refine ⟨?_, by rw [hreg1]; exact ih.2⟩
    rw [List.map_cons, parseRecords,
      parseRecord_ser hg hwf1 hgb hgr]
    simp only []
    rw [hreg1, show recs ++ r :: rest = (recs ++ [r]) ++ rest from by simp]
    exact ih.1

/-! ### Effect of the materializer on the adapter state, phase by phase -/

/-- Effect of `_create_relation`: possible Unknown placeholders, then exactly
one stored edge whose raw form is the record's serialization. -/
theorem createRelation_ok {tbl : NsTable} {k : RelKind} {i : Option IdentVal}
    {f t mb : Option QualifiedName} {a : Attrs}
    (hok : extOk tbl (.relation k i f t mb a)) (s : AdapterState)
    (cf ct : Nat) :
    ∃ s' ext e,
      createRelation tbl s cf ct (.relation k i f t mb a) = (s', .ok ()) ∧
      s'.records = s.records ++ ext ∧
      (∀ u ∈ ext, SkipRaw u.toRaw ∧
        (u.containerId = cf ∨ u.containerId = ct)) ∧
      s'.relations = s.relations ++ [e] ∧
      e.toRaw = rawOf tbl (.relation k i f t mb a) ∧
      e.fromContainer = cf ∧
      s'.bundles = s.bundles ∧ s.ctr ≤ s'.ctr := by
  have hok' : getMetadataAndAttributesForRecord tbl
      (.record (.relation k i f t mb a)) =
      .ok (extMdOf tbl (.relation k i f t mb a),
           extAtsOf tbl (.relation k i f t mb a)) := hok
  cases f with
  | some fq =>
    cases t with
    | some tq =>
      have hmain : createRelation tbl s cf ct
          (.relation k i (some fq) (some tq) mb a) =
          (adapterSaveRelation s cf fq ct tq
            (extAtsOf tbl (.relation k i (some fq) (some tq) mb a))
            (extMdOf tbl (.relation k i (some fq) (some tq) mb a)), .ok ()) := by
        unfold createRelation
        try simp only []
        rw [hok']
      exact ⟨_, [],
        ⟨cf, qnString fq, ct, qnString tq,
         serializeAttrs (extAtsOf tbl (.relation k i (some fq) (some tq) mb a)),
         serializeMeta (extMdOf tbl (.relation k i (some fq) (some tq) mb a))⟩,
        hmain, by simp [adapterSaveRelation], by simp, rfl, rfl, rfl, rfl,
        Nat.le_refl s.ctr⟩
    | none =>
      have hmain : createRelation tbl s cf ct
          (.relation k i (some fq) none mb a) =
          (adapterSaveRelation
            { s with
              ctr := s.ctr + 1
              records := s.records ++ [unknownDbRecord ct s.ctr]
              trace := s.trace ++ [Op.saveRecord ct
                (qnString (unknownQnOf s.ctr)) (qnString provUnknownQn)] }
            cf fq ct (unknownQnOf s.ctr)
            (extAtsOf tbl (.relation k i (some fq) none mb a))
            (extMdOf tbl (.relation k i (some fq) none mb a)), .ok ()) := by
        unfold createRelation
        try simp only []
        rw [createUnknownNode_eq]
        try simp only []
        rw [hok']
      refine ⟨_, [unknownDbRecord ct s.ctr],
        ⟨cf, qnString fq, ct, qnString (unknownQnOf s.ctr),
         serializeAttrs (extAtsOf tbl (.relation k i (some fq) none mb a)),
         serializeMeta (extMdOf tbl (.relation k i (some fq) none mb a))⟩,
        hmain, rfl, ?_, rfl, rfl, rfl, rfl, Nat.le_succ s.ctr⟩
      intro u hu
      rcases List.mem_cons.mp hu with h | h
      · rw [h]
        exact ⟨skip_unknownDb ct s.ctr, .inr rfl⟩
      · cases h
  | none =>
    cases t with
    | some tq =>
      have hmain : createRelation tbl s cf ct
          (.relation k i none (some tq) mb a) =
          (adapterSaveRelation
            { s with
              ctr := s.ctr + 1
              records := s.records ++ [unknownDbRecord cf s.ctr]
              trace := s.trace ++ [Op.saveRecord cf
                (qnString (unknownQnOf s.ctr)) (qnString provUnknownQn)] }
            cf (unknownQnOf s.ctr) ct tq
            (extAtsOf tbl (.relation k i none (some tq) mb a))
            (extMdOf tbl (.relation k i none (some tq) mb a)), .ok ()) := by
        unfold createRelation
        try simp only []
        rw [createUnknownNode_eq]
        try simp only []
        rw [hok']
      refine ⟨_, [unknownDbRecord cf s.ctr],
        ⟨cf, qnString (unknownQnOf s.ctr), ct, qnString tq,
         serializeAttrs (extAtsOf tbl (.relation k i none (some tq) mb a)),
         serializeMeta (extMdOf tbl (.relation k i none (some tq) mb a))⟩,
        hmain, rfl, ?_, rfl, rfl, rfl, rfl, Nat.le_succ s.ctr⟩
      intro u hu
      rcases List.mem_cons.mp hu with h | h
      · rw [h]
        exact ⟨skip_unknownDb cf s.ctr, .inl rfl⟩
      · cases h
    | none =>
      have hmain : createRelation tbl s cf ct
          (.relation k i none none mb a) =
          (adapterSaveRelation
            { s with
              ctr := s.ctr + 1 + 1
              records := s.records ++ [unknownDbRecord cf s.ctr] ++
                [unknownDbRecord ct (s.ctr + 1)]
              trace := s.trace ++ [Op.saveRecord cf
                  (qnString (unknownQnOf s.ctr)) (qnString provUnknownQn)] ++
                [Op.saveRecord ct (qnString (unknownQnOf (s.ctr + 1)))
                  (qnString provUnknownQn)] }
            cf (unknownQnOf s.ctr) ct (unknownQnOf (s.ctr + 1))
            (extAtsOf tbl (.relation k i none none mb a))
            (extMdOf tbl (.relation k i none none mb a)), .ok ()) := by
        unfold createRelation
        try simp only []
        rw [createUnknownNode_eq]
        try simp only []
        rw [createUnknownNode_eq]
        try simp only []
        rw [hok']
      refine ⟨_, [unknownDbRecord cf s.ctr, unknownDbRecord ct (s.ctr + 1)],
        ⟨cf, qnString (unknownQnOf s.ctr), ct, qnString (unknownQnOf (s.ctr + 1)),
         serializeAttrs (extAtsOf tbl (.relation k i none none mb a)),
         serializeMeta (extMdOf tbl (.relation k i none none mb a))⟩,
        hmain, by simp [adapterSaveRelation], ?_, rfl, rfl, rfl, rfl,
        Nat.le_add_right s.ctr 2⟩
      intro u hu
      rcases List.mem_cons.mp hu with h | h
      · rw [h]
        exact ⟨skip_unknownDb cf s.ctr, .inl rfl⟩
      · rcases List.mem_cons.mp h with h2 | h2
        · rw [h2]
          exact ⟨skip_unknownDb ct (s.ctr + 1), .inr rfl⟩
        · cases h2

/-- Effect of the node loop of `_create_bundle`: exactly the serialized
element nodes are appended, in order. -/
theorem saveElementList_ok {Tg tbl : NsTable} {c : Nat}
    (hg : GoodTable Tg (defaultNs ++ tbl)) :
    ∀ {l : List ProvRecordM} {s : AdapterState},
      (∀ r ∈ l, wfRecord Tg r = true) →
      ∃ s', saveElementList tbl c s l = (s', .ok ()) ∧
        s'.records = s.records ++ l.map (elemDb tbl c) ∧
        s'.relations = s.relations ∧ s'.bundles = s.bundles ∧ s'.ctr = s.ctr
  | [], s, _ => ⟨s, by rw [saveElementList], by simp, rfl, rfl, rfl⟩
  | r :: rest, s, hall => by
    have hok' : getMetadataAndAttributesForRecord tbl (.record r) =
        .ok (extMdOf tbl r, extAtsOf tbl r) :=
      wf_extOk hg (hall r (List.mem_cons_self _ _))
    obtain ⟨s', h1, h2, h3, h4, h5⟩ := saveElementList_ok (c := c) hg
      (l := rest) (s := adapterSaveRecord s c (extAtsOf tbl r) (extMdOf tbl r))
      (fun x hx => hall x (List.mem_cons_of_mem _ hx))
    refine ⟨s', ?_, ?_, by rw [h3]; rfl, by rw [h4]; rfl, by rw [h5]; rfl⟩
    · rw [saveElementList, hok']
      exact h1
    · rw [h2]
      simp [adapterSaveRecord, elemDb]

/-- Effect of the edge loop of `_create_bundle`: placeholders for absent
endpoints plus one edge per non-mention relation, in order. -/
theorem saveRelationList_ok {Tg tbl : NsTable} {c : Nat}
    (hg : GoodTable Tg (defaultNs ++ tbl)) :
    ∀ {l : List ProvRecordM} {s : AdapterState},
      (∀ r ∈ l, wfRecord Tg r = true ∧ r.isRelation = true) →
      ∃ s' ext rels, saveRelationList tbl c s l = (s', .ok ()) ∧
        s'.records = s.records ++ ext ∧
        (∀ u ∈ ext, SkipRaw u.toRaw ∧ u.containerId = c) ∧
        s'.relations = s.relations ++ rels ∧
        rels.map DbRelation.toRaw =
          (l.filter (fun x => !x.isMention)).map (rawOf tbl) ∧
        (∀ e ∈ rels, e.fromContainer = c) ∧
        s'.bundles = s.bundles ∧ s.ctr ≤ s'.ctr
  | [], s, _ =>
    ⟨s, [], [], by rw [saveRelationList], by simp, by simp, by simp, by simp,
      by simp, rfl, Nat.le_refl _⟩
  | r :: rest, s, hall => by
    have htail := fun x hx => hall x (List.mem_cons_of_mem _ hx)
    by_cases hm : r.isMention = true
    · obtain ⟨s', ext, rels, h1, h2, h3, h4, h5, h6, h7, h8⟩ :=
        saveRelationList_ok hg (l := rest) (s := s) htail
      refine ⟨s', ext, rels, ?_, h2, h3, h4, ?_, h6, h7, h8⟩
      · rw [saveRelationList, if_pos hm]
        exact h1
      · rw [List.filter_cons_of_neg (by simp [hm])]
        exact h5
    · have hr := hall r (List.mem_cons_self _ _)
      cases r with
      | element ek ei ea => exact absurd hr.2 (by simp [ProvRecordM.isRelation])
      | plain pi pa => exact absurd hr.2 (by simp [ProvRecordM.isRelation])
      | bundleRec bi ba => exact absurd hr.2 (by simp [ProvRecordM.isRelation])
      | relation k i f t mb a =>
        obtain ⟨s1, ext1, e, hc1, hc2, hc3, hc4, hc5, hc6, hc7, hc8⟩ :=
          createRelation_ok (wf_extOk hg hr.1) s c c
        obtain ⟨s', ext2, rels2, h1, h2, h3, h4, h5, h6, h7, h8⟩ :=
          saveRelationList_ok hg (l := rest) (s := s1) htail
        refine ⟨s', ext1 ++ ext2, e :: rels2, ?_, ?_, ?_, ?_, ?_, ?_, ?_, ?_⟩
        · rw [saveRelationList, if_neg hm, hc1]
          exact h1
        · rw [h2, hc2]
          simp
        · intro u hu
          rcases List.mem_append.mp hu with h | h
          · obtain ⟨hs, hor⟩ := hc3 u h
            exact ⟨hs, by rcases hor with h2 | h2 <;> exact h2⟩
          · exact h3 u h
        · rw [h4, hc4]
          simp
        · rw [List.filter_cons_of_pos (by simp [hm]), List.map_cons,
            List.map_cons, h5, hc5]
        · intro x hx
          rcases List.mem_cons.mp hx with h | h
          · rw [h]
            exact hc6
          · exact h6 x h
        · rw [h7, hc7]
        · exact Nat.le_trans hc8 h8

/-- Effect of `_create_bundle` on a container: the serialized element nodes,
then skip-parsed placeholders, then the serialized non-mention edges. -/
theorem createBundle_ok {Tg tbl : NsTable} {c : Nat}
    (hg : GoodTable Tg (defaultNs ++ tbl)) {rs : List ProvRecordM}
    {s : AdapterState} (hall : ∀ r ∈ rs, wfRecord Tg r = true) :
    ∃ s' ext rels, createBundle tbl s c rs = (s', .ok ()) ∧
      s'.records = s.records ++
        (rs.filter ProvRecordM.isElement).map (elemDb tbl c) ++ ext ∧
      (∀ u ∈ ext, SkipRaw u.toRaw ∧ u.containerId = c) ∧
      s'.relations = s.relations ++ rels ∧
      rels.map DbRelation.toRaw =
        (((rs.filter ProvRecordM.isRelation).filter
          (fun x => !x.isMention)).map (rawOf tbl)) ∧
      (∀ e ∈ rels, e.fromContainer = c) ∧
      s'.bundles = s.bundles ∧ s.ctr ≤ s'.ctr := by
  obtain ⟨s1, h1, h2, h3, h4, h5⟩ := saveElementList_ok hg
    (l := rs.filter ProvRecordM.isElement) (s := s)
    (fun x hx => hall x (List.mem_of_mem_filter hx))
  obtain ⟨s', ext, rels, g1, g2, g3, g4, g5, g6, g7, g8⟩ :=
    saveRelationList_ok hg (l := rs.filter ProvRecordM.isRelation) (s := s1)
    (fun x hx => ⟨hall x (List.mem_of_mem_filter hx),
      (List.mem_filter.mp hx).2⟩)
  refine ⟨s', ext, rels, ?_, ?_, g3, ?_, g5, g6, ?_, ?_⟩
  · rw [createBundle, h1]
    exact g1
  · rw [g2, h2]
  · rw [g4, h3]
  · rw [g7, h4]
  · rw [h5] at g8
    exact g8

/-- Effect of the membership-edge loop: one association edge per listed
record, leaving nodes, bundles and the counter unchanged. -/
theorem saveAssocList_ok {Tg tbl : NsTable} {docId bundleId : Nat}
    {bq : QualifiedName} {bmd : Metadata} {bats : Attrs}
    (hg : GoodTable Tg (defaultNs ++ tbl)) :
    ∀ {l : List ProvRecordM} {s : AdapterState},
      (∀ r ∈ l, wfRecord Tg r = true) →
      ∃ s' rels,
        saveAssocList tbl docId bundleId bq bmd bats s l = (s', .ok ()) ∧
        s'.records = s.records ∧ s'.relations = s.relations ++ rels ∧
        (∀ e ∈ rels, e.fromContainer = bundleId ∧
          e.toRaw = ⟨serializeMeta bmd, serializeAttrs bats⟩) ∧
        s'.bundles = s.bundles ∧ s'.ctr = s.ctr
  | [], s, _ =>
    ⟨s, [], by rw [saveAssocList], rfl, by simp, by simp, rfl, rfl⟩
  | r :: rest, s, hall => by
    have hok' : getMetadataAndAttributesForRecord tbl (.record r) =
        .ok (extMdOf tbl r, extAtsOf tbl r) :=
      wf_extOk hg (hall r (List.mem_cons_self _ _))
    obtain ⟨s', rels, h1, h2, h3, h4, h5, h6⟩ := @saveAssocList_ok Tg tbl
      docId bundleId bq bmd bats hg rest
      (adapterSaveRelation s bundleId (extMdOf tbl r).identifier docId
        bq bats bmd)
      (fun x hx => hall x (List.mem_cons_of_mem _ hx))
    refine ⟨s', ⟨bundleId, qnString (extMdOf tbl r).identifier, docId,
      qnString bq, serializeAttrs bats, serializeMeta bmd⟩ :: rels,
      ?_, by rw [h2]; rfl, ?_, ?_, by rw [h5]; rfl, by rw [h6]; rfl⟩
    · rw [saveAssocList, hok']
      exact h1
    · rw [h3]
      simp [adapterSaveRelation]
    · intro e he
      rcases List.mem_cons.mp he with h | h
      · rw [h]
        exact ⟨rfl, rfl⟩
      · exact h4 e h

/-- The membership edges' raw form is always skipped by the reconstructor. -/
theorem skip_assocRaw {bmd : Metadata} (hty : bmd.provType = provQn "Association") :
    SkipRaw ⟨serializeMeta bmd, serializeAttrs
      [(AttrKey.qnKey PROV_LABEL, AttrValue.str "belongsToBundle")]⟩ := by
  intro base ctx
  apply parseRecord_skip_belongs
  · show alookup (serializeAttrs [(AttrKey.qnKey PROV_LABEL,
        AttrValue.str "belongsToBundle")]) (qnString PROV_LABEL) =
      some "belongsToBundle"
    decide
  · rw [show (⟨serializeMeta bmd, serializeAttrs
        [(AttrKey.qnKey PROV_LABEL, AttrValue.str "belongsToBundle")]⟩ :
        RawRecord).metadata.provType = qnString bmd.provType from rfl]
    rw [hty, qnString_provQn, vqn_provPrefixed]
    rfl

/-- Effect of `_create_bundle_association`: only skip-parsed membership edges
from the bundle's container are appended. -/
theorem createBundleAssociation_ok {Tg tbl : NsTable} {docId bundleId : Nat}
    {bq : QualifiedName} (hg : GoodTable Tg (defaultNs ++ tbl))
    {rs : List ProvRecordM} {s : AdapterState}
    (hall : ∀ r ∈ rs, wfRecord Tg r = true) :
    ∃ s' rels,
      createBundleAssociation tbl s docId bundleId bq rs = (s', .ok ()) ∧
      s'.records = s.records ∧ s'.relations = s.relations ++ rels ∧
      (∀ e ∈ rels, e.fromContainer = bundleId ∧ SkipRaw e.toRaw) ∧
      s'.bundles = s.bundles ∧ s'.ctr = s.ctr := by
  obtain ⟨bmd, hmd, hty⟩ := belongRel_extraction tbl
  obtain ⟨s', rels, h1, h2, h3, h4, h5, h6⟩ := @saveAssocList_ok Tg tbl
    docId bundleId bq bmd
    [(AttrKey.qnKey PROV_LABEL, AttrValue.str "belongsToBundle")]
    hg (rs.filter ProvRecordM.isElement) s
    (fun x hx => hall x (List.mem_of_mem_filter hx))
  refine ⟨s', rels, ?_, h2, h3, ?_, h5, h6⟩
  · rw [createBundleAssociation, hmd]
    exact h1
  · intro e he
    obtain ⟨hf, hraw⟩ := h4 e he
    refine ⟨hf, ?_⟩
    rw [show e.toRaw = DbRelation.toRaw e from rfl, hraw]
    exact skip_assocRaw hty

/-! ### Pass 1 over the bundle list -/

/-- The synthetic prefixed identifier a bundle is stored under. -/
def bundleCid (b : DocBundleM) : QualifiedName :=
  ⟨"prov", provUri, "bundle:" ++ qnString b.identifier⟩

/-- The synthetic bundle record pass 1 extracts and saves. -/
def bundleRecOf (b : DocBundleM) : ProvRecordM :=
  .bundleRec (some (.qn (bundleCid b)))
    [(AttrKey.qnKey provBundleNameKey, AttrValue.qn b.identifier)]

theorem extOk_of_ok {tbl : NsTable} {r : ProvRecordM}
    {p : Metadata × Attrs}
    (h : getMetadataAndAttributesForRecord tbl (.record r) = .ok p) :
    extOk tbl r := by
  unfold extOk extMdOf extAtsOf
  rw [h]

/-- The nodes pass 1 stores for one bundle: its serialized elements, then
skip-parsed placeholders, all in its own container. -/
def BundleChunkR (tbl : NsTable) (ci : Nat) (b : DocBundleM)
    (recs : List DbRecord) : Prop :=
  ∃ ext, recs = (b.records.filter ProvRecordM.isElement).map (elemDb tbl ci) ++
      ext ∧ (∀ u ∈ ext, SkipRaw u.toRaw ∧ u.containerId = ci)

/-- The edges pass 1 stores for one bundle: its serialized non-mention
relations, then skip-parsed membership edges, all from its own container. -/
def BundleChunkL (tbl : NsTable) (ci : Nat) (b : DocBundleM)
    (rels : List DbRelation) : Prop :=
  (∃ rels1 rels2, rels = rels1 ++ rels2 ∧
    rels1.map DbRelation.toRaw =
      ((b.records.filter ProvRecordM.isRelation).filter
        (fun x => !x.isMention)).map (rawOf tbl) ∧
    (∀ e ∈ rels2, SkipRaw e.toRaw)) ∧
  (∀ e ∈ rels, e.fromContainer = ci)

def Pass1Recs (tbl : NsTable) :
    List DocBundleM → List Nat → List DbRecord → Prop
  | [], [], R => R = []
  | b :: bs, ci :: cis, R =>
    ∃ R1 R2, R = R1 ++ R2 ∧ BundleChunkR tbl ci b R1 ∧ Pass1Recs tbl bs cis R2
  | _, _, _ => False

def Pass1Rels (tbl : NsTable) :
    List DocBundleM → List Nat → List DbRelation → Prop
  | [], [], L => L = []
  | b :: bs, ci :: cis, L =>
    ∃ L1 L2, L = L1 ++ L2 ∧ BundleChunkL tbl ci b L1 ∧ Pass1Rels tbl bs cis L2
  | _, _, _ => False

def Pass1Bnds : List DocBundleM → List Nat → List SavedBundle → Prop
  | [], [], B => B = []
  | b :: bs, ci :: cis, B =>
    ∃ rec B2, B = ⟨ci, rec⟩ :: B2 ∧ rec.containerId = ci ∧
      rec.metadata.identifier =
        PROV_API_BUNDLE_IDENTIFIER_PREFIX ++ qnString b.identifier ∧
      Pass1Bnds bs cis B2
  | _, _, _ => False

/-- Effect of pass 1 (provapi.py lines 146-157): per bundle, one saved bundle
under the prefixed identifier, its node and edge chunks in a fresh container,
and the identifier-to-container map entry. -/
theorem bundlePass1_ok {Tg tbl : NsTable} (hg : GoodTable Tg (defaultNs ++ tbl))
    (docId : Nat) :
    ∀ {bs : List DocBundleM} {s : AdapterState}
      {m0 : List (QualifiedName × Nat)},
      (∀ b ∈ bs, ∀ r ∈ b.records, wfRecord Tg r = true) →
      (∀ b ∈ bs, b.identifier ∉ keys m0) →
      ((bs.map (fun b => b.identifier)).Nodup) →
      ∃ s' cis R L B,
        bundlePass1 tbl docId s bs m0 =
          (s', m0 ++ (bs.map (fun b => b.identifier)).zip cis, .ok ()) ∧
        cis.length = bs.length ∧
        cis.Pairwise (fun x y => x < y) ∧
        (∀ c ∈ cis, s.ctr ≤ c ∧ c < s'.ctr) ∧
        s'.records = s.records ++ R ∧ Pass1Recs tbl bs cis R ∧
        s'.relations = s.relations ++ L ∧ Pass1Rels tbl bs cis L ∧
        s'.bundles = s.bundles ++ B ∧ Pass1Bnds bs cis B ∧
        s.ctr ≤ s'.ctr
  | [], s, m0, _, _, _ => by
    refine ⟨s, [], [], [], [], ?_, rfl, List.Pairwise.nil, by simp, by simp,
      rfl, by simp, rfl, by simp, rfl, Nat.le_refl _⟩
    rw [bundlePass1]
    simp
  | b :: rest, s, m0, hwfb, hkeys, hnod => by
    have hwfhead : ∀ r ∈ b.records, wfRecord Tg r = true :=
      hwfb b (List.mem_cons_self _ _)
    have hpre : PROV_API_BUNDLE_IDENTIFIER_PREFIX ++ qnString b.identifier =
        "prov:" ++ ("bundle:" ++ qnString b.identifier) := by
      apply String.ext
      simp [PROV_API_BUNDLE_IDENTIFIER_PREFIX]
    have hcid : (validQualifiedName tbl
        (PROV_API_BUNDLE_IDENTIFIER_PREFIX ++ qnString b.identifier)).getD
        provUnknownQn = bundleCid b := by
      rw [hpre, vqn_provPrefixed]
      rfl
    have hqcid : qnString (bundleCid b) =
        PROV_API_BUNDLE_IDENTIFIER_PREFIX ++ qnString b.identifier := by
      apply String.ext
      simp [bundleCid, qnString, PROV_API_BUNDLE_IDENTIFIER_PREFIX]
    have hid : extIdentE tbl (bundleRecOf b) = .ok (bundleCid b) := rfl
    have hk0 : pyDict [(AttrKey.qnKey provBundleNameKey,
        AttrValue.qn b.identifier)] =
        [(AttrKey.qnKey provBundleNameKey, AttrValue.qn b.identifier)] := rfl
    have hk : ∀ kv ∈ pyDict ((bundleRecOf b).attributes), kv.1.isRaw = false := by
      intro kv hkv
      rw [show (bundleRecOf b).attributes =
        [(AttrKey.qnKey provBundleNameKey, AttrValue.qn b.identifier)]
        from rfl, hk0] at hkv
      have h1 : kv = (AttrKey.qnKey provBundleNameKey,
          AttrValue.qn b.identifier) := by simpa using hkv
      rw [h1]
      rfl
    have hmetaOk : getMetadataAndAttributesForRecord tbl
        (.record (bundleRecOf b)) =
        .ok (extMdOf tbl (bundleRecOf b), extAtsOf tbl (bundleRecOf b)) :=
      extOk_of_ok (getMeta_ok_eq tbl (bundleRecOf b) hid hk)
    have hidm : (extMdOf tbl (bundleRecOf b)).identifier = bundleCid b := by
      unfold extMdOf
      rw [getMeta_ok_eq tbl (bundleRecOf b) hid hk]
    have hsb2 : (adapterSaveBundle s docId (extAtsOf tbl (bundleRecOf b))
        (extMdOf tbl (bundleRecOf b))).2 = s.ctr := rfl
    obtain ⟨s2, ext, rels, hcb, hcb2, hcb3, hcb4, hcb5, hcb6, hcb7, hcb8⟩ :=
      @createBundle_ok Tg tbl s.ctr hg b.records
        ((adapterSaveBundle s docId (extAtsOf tbl (bundleRecOf b))
          (extMdOf tbl (bundleRecOf b))).1)
        hwfhead
    obtain ⟨s3, arels, hca, hca2, hca3, hca4, hca5, hca6⟩ :=
      @createBundleAssociation_ok Tg tbl docId s.ctr (bundleCid b) hg
        b.records s2 hwfhead
    obtain ⟨s', cis', R2, L2, B2, hrec, hlen, hpw, hbounds, hrecs, hP1R,
        hrels, hP1L, hbnds, hP1B, hctr⟩ :=
      @bundlePass1_ok Tg tbl hg docId rest s3
        (m0 ++ [(b.identifier, s.ctr)])
        (fun b2 h2 => hwfb b2 (List.mem_cons_of_mem _ h2))
        (fun b2 h2 => by
          intro hmem
          rw [show keys (m0 ++ [(b.identifier, s.ctr)]) =
            keys m0 ++ [b.identifier] from by simp [keys]] at hmem
          rcases List.mem_append.mp hmem with h3 | h3
          · exact hkeys b2 (List.mem_cons_of_mem _ h2) h3
          · have h4 : b2.identifier = b.identifier := by simpa using h3
            have h5 := (List.nodup_cons.mp (by
              simpa using hnod : (b.identifier ::
                rest.map (fun x => x.identifier)).Nodup)).1
            exact h5 (h4 ▸ List.mem_map.mpr ⟨b2, h2, rfl⟩))
        (by
          have h5 := (List.nodup_cons.mp (by
            simpa using hnod : (b.identifier ::
              rest.map (fun x => x.identifier)).Nodup)).2
          exact h5)
    have hstep : bundlePass1 tbl docId s (b :: rest) m0 =
        (s', m0 ++ ((b :: rest).map (fun x => x.identifier)).zip
          (s.ctr :: cis'), .ok ()) := by
      rw [bundlePass1]
      try simp only []
      rw [hcid]
      rw [show ProvRecordM.bundleRec (some (IdentVal.qn (bundleCid b)))
        [(AttrKey.qnKey provBundleNameKey, AttrValue.qn b.identifier)] =
        bundleRecOf b from rfl]
      rw [hmetaOk]
      try simp only []
      rw [hsb2]
      rw [upsert_of_not_mem _ (hkeys b (List.mem_cons_self _ _))]
      rw [hcb]
      try simp only []
      rw [hca]
      try simp only []
      rw [hrec]
      simp
    have hs1ctr : (adapterSaveBundle s docId (extAtsOf tbl (bundleRecOf b))
        (extMdOf tbl (bundleRecOf b))).1.ctr = s.ctr + 1 := rfl
    have hs3ctr : s.ctr + 1 ≤ s3.ctr := by
      rw [hca6]
      rw [hs1ctr] at hcb8
      exact hcb8
    refine ⟨s', s.ctr :: cis',
      ((b.records.filter ProvRecordM.isElement).map (elemDb tbl s.ctr) ++ ext)
        ++ R2,
      (rels ++ arels) ++ L2,
      ⟨s.ctr, ⟨s.ctr, serializeAttrs (extAtsOf tbl (bundleRecOf b)),
        serializeMeta (extMdOf tbl (bundleRecOf b))⟩⟩ :: B2,
      hstep, by simp [hlen], ?_, ?_, ?_, ?_, ?_, ?_, ?_, ?_, ?_⟩
    · refine List.Pairwise.cons ?_ hpw
      intro y hy
      have h6 := (hbounds y hy).1
      omega
    · intro c hc
      rcases List.mem_cons.mp hc with h6 | h6
      · subst h6
        refine ⟨Nat.le_refl _, ?_⟩
        have h7 : s3.ctr ≤ s'.ctr := hctr
        omega
      · have h7 := hbounds c h6
        refine ⟨by omega, h7.2⟩
    · rw [hrecs, hca2, hcb2]
      rw [show (adapterSaveBundle s docId (extAtsOf tbl (bundleRecOf b))
        (extMdOf tbl (bundleRecOf b))).1.records = s.records from rfl]
      simp
    · exact ⟨_, R2, rfl, ⟨ext, rfl, hcb3⟩, hP1R⟩
    · rw [hrels, hca3, hcb4]
      rw [show (adapterSaveBundle s docId (extAtsOf tbl (bundleRecOf b))
        (extMdOf tbl (bundleRecOf b))).1.relations = s.relations from rfl]
      simp
    · refine ⟨rels ++ arels, L2, rfl, ⟨⟨rels, arels, rfl, hcb5, ?_⟩, ?_⟩, hP1L⟩
      · intro e he
        exact (hca4 e he).2
      · intro e he
        rcases List.mem_append.mp he with h6 | h6
        · exact hcb6 e h6
        · exact (hca4 e h6).1
    · rw [hbnds, hca5, hcb7]
      rw [show (adapterSaveBundle s docId (extAtsOf tbl (bundleRecOf b))
        (extMdOf tbl (bundleRecOf b))).1.bundles = s.bundles ++
        [⟨s.ctr, ⟨s.ctr, serializeAttrs (extAtsOf tbl (bundleRecOf b)),
          serializeMeta (extMdOf tbl (bundleRecOf b))⟩⟩] from rfl]
      simp
    · refine ⟨_, B2, rfl, rfl, ?_, hP1B⟩
      rw [show (serializeMeta (extMdOf tbl (bundleRecOf b))).identifier =
        qnString ((extMdOf tbl (bundleRecOf b)).identifier) from rfl]
      rw [hidm]
      exact hqcid
    · omega

/-! ### Pass 2 over the bundle list -/

theorem alookup_mem {α β : Type} [DecidableEq α] :
    ∀ {l : List (α × β)} {k : α} {v : β}, alookup l k = some v → (k, v) ∈ l
  | [], _, _, h => by cases h
  | (k0, v0) :: rest, k, v, h => by
    rw [alookup_cons] at h
    by_cases hk : k0 = k
    · rw [if_pos hk] at h
      have hv : v0 = v := by injection h
      rw [← hk, ← hv]
      exact List.mem_cons_self _ _
    · rw [if_neg hk] at h
      exact List.mem_cons_of_mem _ (alookup_mem h)

/-- The mention edges pass 2 stores, bundle by bundle. -/
def Pass2Rels (tbl : NsTable) :
    List DocBundleM → List Nat → List DbRelation → Prop
  | [], [], M => M = []
  | b :: bs, ci :: cis, M =>
    ∃ M1 M2, M = M1 ++ M2 ∧
      M1.map DbRelation.toRaw =
        (b.records.filter ProvRecordM.isMention).map (rawOf tbl) ∧
      (∀ e ∈ M1, e.fromContainer = ci) ∧ Pass2Rels tbl bs cis M2
  | _, _, _ => False

/-- Effect of the mention loop of `_create_bundle_links`: placeholders into
already-issued containers plus exactly the serialized mention edges. -/
theorem saveMentionList_ok {Tg tbl : NsTable} {ci : Nat}
    {m : List (QualifiedName × Nat)} (hg : GoodTable Tg (defaultNs ++ tbl))
    (hci : ci ∈ m.map Prod.snd) :
    ∀ {l : List ProvRecordM} {s : AdapterState},
      (∀ r ∈ l, wfRecord Tg r = true) →
      (∀ r ∈ l, ∀ i f t bq a, r = .relation .mention i f t (some bq) a →
        ∃ cj, alookup m bq = some cj) →
      ∃ s' ext M, saveMentionList tbl ci m s l = (s', .ok ()) ∧
        s'.records = s.records ++ ext ∧
        (∀ u ∈ ext, SkipRaw u.toRaw ∧ u.containerId ∈ m.map Prod.snd) ∧
        s'.relations = s.relations ++ M ∧
        M.map DbRelation.toRaw =
          (l.filter ProvRecordM.isMention).map (rawOf tbl) ∧
        (∀ e ∈ M, e.fromContainer = ci) ∧
        s'.bundles = s.bundles ∧ s.ctr ≤ s'.ctr
  | [], s, _, _ =>
    ⟨s, [], [], by rw [saveMentionList], by simp, by simp, by simp, by simp,
      by simp, rfl, Nat.le_refl _⟩
  | r :: rest, s, hwf, htg => by
    have hwtail := fun x hx => hwf x (List.mem_cons_of_mem _ hx)
    have httail := fun x hx => htg x (List.mem_cons_of_mem _ hx)
    by_cases hm : r.isMention = true
    · cases r with
      | element ek ei ea => simp [ProvRecordM.isMention] at hm
      | plain pi pa => simp [ProvRecordM.isMention] at hm
      | bundleRec bi ba => simp [ProvRecordM.isMention] at hm
      | relation k i f t mb a =>
        cases k with
        | association => simp [ProvRecordM.isMention] at hm
        | usage => simp [ProvRecordM.isMention] at hm
        | generation => simp [ProvRecordM.isMention] at hm
        | communication => simp [ProvRecordM.isMention] at hm
        | mention =>
          have hwr := hwf _ (List.mem_cons_self _ _)
          obtain ⟨-, -, -, -, -, -, -, hmbsome⟩ := wfRecord_relation hwr
          obtain ⟨bq, hbq⟩ := hmbsome rfl
          subst hbq
          obtain ⟨cj, hcj⟩ := htg _ (List.mem_cons_self _ _) i f t bq a rfl
          obtain ⟨s1, ext1, e, hc1, hc2, hc3, hc4, hc5, hc6, hc7, hc8⟩ :=
            createRelation_ok (wf_extOk hg hwr) s ci cj
          obtain ⟨s', ext2, M2, h1, h2, h3, h4, h5, h6, h7, h8⟩ :=
            saveMentionList_ok hg hci (l := rest) (s := s1) hwtail httail
          refine ⟨s', ext1 ++ ext2, e :: M2, ?_, ?_, ?_, ?_, ?_, ?_, ?_, ?_⟩
          · rw [saveMentionList.eq_def]
            try simp only []
            rw [if_pos (show (ProvRecordM.relation RelKind.mention i f t
                (some bq) a).isMention = true from rfl)]
            try simp only []
            rw [hcj]
            try simp only []
            rw [hc1]
            try simp only []
            exact h1
          · rw [h2, hc2]
            simp
          · intro u hu
            rcases List.mem_append.mp hu with h9 | h9
            · obtain ⟨hs, hor⟩ := hc3 u h9
              refine ⟨hs, ?_⟩
              rcases hor with h10 | h10
              · rw [h10]
                exact hci
              · rw [h10]
                exact List.mem_map.mpr ⟨(bq, cj), alookup_mem hcj, rfl⟩
            · exact h3 u h9
          · rw [h4, hc4]
            simp
          · rw [List.filter_cons_of_pos (show ProvRecordM.isMention
              (.relation .mention i f t (some bq) a) = true from rfl),
              List.map_cons, List.map_cons, h5, hc5]
          · intro x hx
            rcases List.mem_cons.mp hx with h9 | h9
            · rw [h9]
              exact hc6
            · exact h6 x h9
          · rw [h7, hc7]
          · exact Nat.le_trans hc8 h8
    · obtain ⟨s', ext, M, h1, h2, h3, h4, h5, h6, h7, h8⟩ :=
        saveMentionList_ok hg hci (l := rest) (s := s) hwtail httail
      refine ⟨s', ext, M, ?_, h2, h3, h4, ?_, h6, h7, h8⟩
      · rw [saveMentionList.eq_def]
        try simp only []
        rw [if_neg hm]
        exact h1
      · rw [List.filter_cons_of_neg (by simp [hm])]
        exact h5

/-- Effect of pass 2: each bundle contributes exactly its serialized mention
edges, from its own pass-1 container, plus skip-parsed placeholders. -/
theorem bundlePass2_ok {Tg tbl : NsTable} (hg : GoodTable Tg (defaultNs ++ tbl))
    (m : List (QualifiedName × Nat)) :
    ∀ {bs : List DocBundleM} {cis : List Nat} {s : AdapterState},
      List.Forall₂ (fun (b : DocBundleM) (ci : Nat) =>
        alookup m b.identifier = some ci) bs cis →
      (∀ b ∈ bs, ∀ r ∈ b.records, wfRecord Tg r = true) →
      (∀ b ∈ bs, ∀ r ∈ b.records, ∀ i f t bq a,
        r = .relation .mention i f t (some bq) a →
        ∃ cj, alookup m bq = some cj) →
      ∃ s' ext M, bundlePass2 tbl s m bs = (s', .ok ()) ∧
        s'.records = s.records ++ ext ∧
        (∀ u ∈ ext, SkipRaw u.toRaw ∧ u.containerId ∈ m.map Prod.snd) ∧
        s'.relations = s.relations ++ M ∧ Pass2Rels tbl bs cis M ∧
        s'.bundles = s.bundles ∧ s.ctr ≤ s'.ctr := by
  intro bs
  induction bs with
  | nil =>
    intro cis s hpair hwf htg
    cases hpair
    exact ⟨s, [], [], by rw [bundlePass2], by simp, by simp, by simp, rfl,
      rfl, Nat.le_refl _⟩
  | cons b rest ih =>
    intro cis s hpair hwf htg
    cases hpair with
    | cons hab hrest =>
      rename_i ci cis'
      have hci : ci ∈ m.map Prod.snd :=
        List.mem_map.mpr ⟨(b.identifier, ci), alookup_mem hab, rfl⟩
      obtain ⟨s1, ext1, M1, h1, h2, h3, h4, h5, h6, h7, h8⟩ :=
        saveMentionList_ok hg hci (l := b.records) (s := s)
          (hwf b (List.mem_cons_self _ _))
          (htg b (List.mem_cons_self _ _))
      obtain ⟨s', ext2, M2, g1, g2, g3, g4, g5, g6, g7⟩ :=
        ih (s := s1) hrest
          (fun b2 hb2 => hwf b2 (List.mem_cons_of_mem _ hb2))
          (fun b2 hb2 => htg b2 (List.mem_cons_of_mem _ hb2))
      refine ⟨s', ext1 ++ ext2, M1 ++ M2, ?_, ?_, ?_, ?_, ?_, ?_, ?_⟩
      · rw [bundlePass2]
        rw [show createBundleLinks tbl s m b =
          saveMentionList tbl ci m s b.records from by
            rw [createBundleLinks, hab]]
        rw [h1]
        try simp only []
        exact g1
      · rw [g2, h2]
        simp
      · intro u hu
        rcases List.mem_append.mp hu with h9 | h9
        · exact h3 u h9
        · exact g3 u h9
      · rw [g4, h4]
        simp
      · exact ⟨M1, M2, rfl, h5, h6, g5⟩
      · rw [g6, h7]
      · exact Nat.le_trans h8 g7

/-! ### The materialized state of a whole well-formed document -/

theorem wfDoc_parts {d : ProvDocumentM} (h : wfDoc d = true) :
    GoodTable (defaultNs ++ d.namespaces) (defaultNs ++ d.namespaces) ∧
    (∀ r ∈ d.records, wfRecord (defaultNs ++ d.namespaces) r = true ∧
      r.isMention = false) ∧
    (∀ b ∈ d.bundles, cohQNb (defaultNs ++ d.namespaces) b.identifier = true ∧
      (∀ r ∈ b.records, wfRecord (defaultNs ++ d.namespaces) r = true) ∧
      (lookupNs (defaultNs ++ docRegOf d) b.identifier.pfx).isSome = true) ∧
    (d.bundles.map (fun b => b.identifier)).Nodup ∧
    (∀ b ∈ d.bundles, ∀ r ∈ b.records, ∀ i f t bq a,
      r = .relation .mention i f t (some bq) a →
      bq ∈ d.bundles.map (fun b2 => b2.identifier)) := by
  unfold wfDoc at h
  simp only [Bool.and_eq_true, List.all_eq_true] at h
  obtain ⟨⟨⟨⟨h1, h2⟩, h3⟩, h4⟩, h5⟩ := h
  refine ⟨goodTableB_good h1, ?_, ?_, by simpa using h4, ?_⟩
  · intro r hr
    have h6 := h2 r hr
    simp only [Bool.and_eq_true] at h6
    exact ⟨h6.1, by simpa using h6.2⟩
  · intro b hb
    have h6 := h3 b hb
    simp only [Bool.and_eq_true, List.all_eq_true] at h6
    exact ⟨h6.1.1, h6.1.2, h6.2⟩
  · intro b hb r hr i f t bq a hre
    have h6 := h5 b hb r hr
    rw [hre] at h6
    simpa using h6

theorem forall2_alookup {α β : Type} [DecidableEq α] {m : List (α × β)} :
    ∀ {l1 : List α} {l2 : List β},
      l1.length = l2.length →
      (∀ p ∈ l1.zip l2, alookup m p.1 = some p.2) →
      List.Forall₂ (fun q c => alookup m q = some c) l1 l2
  | [], [], _, _ => List.Forall₂.nil
  | [], b :: l2, h, _ => by cases h
  | a :: l1, [], h, _ => by cases h
  | a :: l1, b :: l2, h, hp =>
    List.Forall₂.cons (hp (a, b) (List.mem_cons_self _ _))
      (forall2_alookup (by simpa using h)
        (fun p hp2 => hp p (List.mem_cons_of_mem _ hp2)))

/-- In a zip with distinct keys, every pair answers its own lookup. -/
theorem alookup_zip_self {α β : Type} [DecidableEq α] {l1 : List α}
    {l2 : List β} (hnod : l1.Nodup) (hlen : l1.length = l2.length) :
    ∀ p ∈ l1.zip l2, alookup (l1.zip l2) p.1 = some p.2 := by
  intro p hp
  obtain ⟨a, b⟩ := p
  apply alookup_of_mem_nodup hp
  rw [show keys (l1.zip l2) = (l1.zip l2).map Prod.fst from rfl,
    List.map_fst_zip l1 l2 (by omega)]
  exact hnod

/-- Effect of `create_document` on an empty adapter: document container `0`
holds the serialized top-level elements, placeholders and relations; each
bundle holds its pass-1 chunks and pass-2 mention edges in its own fresh
container. -/
theorem createDocument_ok {d : ProvDocumentM} (hwf : wfDoc d = true) :
    ∃ s4 cis ext0 rels0 R L B extM M,
      createDocument d = (s4, .ok 0) ∧
      cis.length = d.bundles.length ∧
      cis.Pairwise (fun x y => x < y) ∧
      (∀ c ∈ cis, 1 ≤ c) ∧
      s4.records = (d.records.filter ProvRecordM.isElement).map
        (elemDb d.namespaces 0) ++ ext0 ++ R ++ extM ∧
      (∀ u ∈ ext0, SkipRaw u.toRaw ∧ u.containerId = 0) ∧
      Pass1Recs d.namespaces d.bundles cis R ∧
      (∀ u ∈ extM, SkipRaw u.toRaw ∧ u.containerId ∈ cis) ∧
      s4.relations = rels0 ++ L ++ M ∧
      rels0.map DbRelation.toRaw =
        ((d.records.filter ProvRecordM.isRelation).filter
          (fun x => !x.isMention)).map (rawOf d.namespaces) ∧
      (∀ e ∈ rels0, e.fromContainer = 0) ∧
      Pass1Rels d.namespaces d.bundles cis L ∧
      Pass2Rels d.namespaces d.bundles cis M ∧
      s4.bundles = B ∧ Pass1Bnds d.bundles cis B := by
  obtain ⟨hg, hrec, hbnd, hnod, hmt⟩ := wfDoc_parts hwf
  obtain ⟨s2, ext0, rels0, hcb, hcb2, hcb3, hcb4, hcb5, hcb6, hcb7, hcb8⟩ :=
    @createBundle_ok (defaultNs ++ d.namespaces) d.namespaces
      (adapterSaveDocument initialState).2 hg d.records
      (adapterSaveDocument initialState).1
      (fun r hr => (hrec r hr).1)
  have h02 : (adapterSaveDocument initialState).2 = 0 := rfl
  rw [h02] at hcb2 hcb3 hcb6
  obtain ⟨s3, cis, R, L, B, hp1, hlen, hpw, hbounds, hrecs, hP1R, hrels,
      hP1L, hbnds, hP1B, hctr⟩ :=
    @bundlePass1_ok (defaultNs ++ d.namespaces) d.namespaces hg
      (adapterSaveDocument initialState).2 d.bundles s2 []
      (fun b hb => (hbnd b hb).2.1)
      (fun b hb => by simp [keys])
      hnod
  have hmap : ([] : List (QualifiedName × Nat)) ++
      (d.bundles.map (fun b => b.identifier)).zip cis =
      (d.bundles.map (fun b => b.identifier)).zip cis := by simp
  have hlen2 : (d.bundles.map (fun b => b.identifier)).length = cis.length := by
    rw [List.length_map, hlen]
  have hzl := alookup_zip_self hnod hlen2
  have hpair : List.Forall₂ (fun (b : DocBundleM) (ci : Nat) =>
      alookup ((d.bundles.map (fun b => b.identifier)).zip cis) b.identifier =
        some ci) d.bundles cis := by
    have h1 := forall2_alookup (m := (d.bundles.map (fun b => b.identifier)).zip
        cis) hlen2 hzl
    -- transport the Forall₂ along the map on the left list
    have h2 : ∀ {xs : List DocBundleM} {ys : List Nat},
        List.Forall₂ (fun q c => alookup
          ((d.bundles.map (fun b => b.identifier)).zip cis) q = some c)
          (xs.map (fun b => b.identifier)) ys →
        List.Forall₂ (fun (b : DocBundleM) (ci : Nat) => alookup
          ((d.bundles.map (fun b => b.identifier)).zip cis) b.identifier =
            some ci) xs ys := by
      intro xs
      induction xs with
      | nil =>
        intro ys h3
        cases h3
        exact List.Forall₂.nil
      | cons x xs ihx =>
        intro ys h3
        rw [List.map_cons] at h3
        cases h3 with
        | cons hhead htail => exact List.Forall₂.cons hhead (ihx htail)
    exact h2 h1
  obtain ⟨s4, extM, M, hp2, hp2r, hp2skip, hp2rel, hP2, hp2b, hp2c⟩ :=
    bundlePass2_ok hg ((d.bundles.map (fun b => b.identifier)).zip cis)
      (s := s3) hpair
      (fun b hb => (hbnd b hb).2.1)
      (fun b hb r hr i f t bq a hre => by
        have h1 := hmt b hb r hr i f t bq a hre
        obtain ⟨u, hu⟩ := keys_mem_exists (l :=
          (d.bundles.map (fun b => b.identifier)).zip cis) (by
            rw [show keys ((d.bundles.map (fun b => b.identifier)).zip cis) =
              ((d.bundles.map (fun b => b.identifier)).zip cis).map Prod.fst
              from rfl, List.map_fst_zip _ _ (by omega)]
            exact h1)
        exact ⟨u, alookup_of_mem_nodup hu (by
          rw [show keys ((d.bundles.map (fun b => b.identifier)).zip cis) =
            ((d.bundles.map (fun b => b.identifier)).zip cis).map Prod.fst
            from rfl, List.map_fst_zip _ _ (by omega)]
          exact hnod)⟩)
  have hsnd : ((d.bundles.map (fun b => b.identifier)).zip cis).map Prod.snd =
      cis := List.map_snd_zip _ _ (by omega)
  refine ⟨s4, cis, ext0, rels0, R, L, B, extM, M, ?_, hlen, hpw, ?_, ?_, hcb3,
    hP1R, ?_, ?_, hcb5, hcb6, hP1L, hP2, ?_, hP1B⟩
  · rw [createDocument, hcb]
    try simp only []
    rw [hp1]
    try simp only []
    rw [List.nil_append]
    rw [hp2]
    rfl
  · intro c hc
    have h1 := (hbounds c hc).1
    have h2 : 1 ≤ s2.ctr := hcb8
    omega
  · rw [hp2r, hrecs, hcb2,
      show (adapterSaveDocument initialState).1.records = [] from rfl]
    simp
  · intro u hu
    obtain ⟨hs, hm2⟩ := hp2skip u hu
    rw [hsnd] at hm2
    exact ⟨hs, hm2⟩
  · rw [hp2rel, hrels, hcb4,
      show (adapterSaveDocument initialState).1.relations = [] from rfl]
    simp
  · rw [hp2b, hbnds, hcb7,
      show (adapterSaveDocument initialState).1.bundles = [] from rfl]
    simp

/-! ### Selecting one container out of the stored lists -/

theorem filter_cid_nil {l : List DbRecord} {cs : List Nat}
    {c : Nat} (hmem : ∀ u ∈ l, u.containerId ∈ cs) (hc : c ∉ cs) :
    l.filter (fun u => u.containerId == c) = [] := by
  rw [List.filter_eq_nil_iff]
  intro u hu
  simp only [beq_iff_eq]
  intro he
  exact hc (he ▸ hmem u hu)

theorem filter_cid_all {l : List DbRecord} {c : Nat}
    (h : ∀ u ∈ l, u.containerId = c) :
    l.filter (fun u => u.containerId == c) = l := by
  rw [List.filter_eq_self]
  intro u hu
  simp [h u hu]

theorem filter_from_nil {l : List DbRelation} {cs : List Nat}
    {c : Nat} (hmem : ∀ e ∈ l, e.fromContainer ∈ cs) (hc : c ∉ cs) :
    l.filter (fun e => e.fromContainer == c) = [] := by
  rw [List.filter_eq_nil_iff]
  intro e he
  simp only [beq_iff_eq]
  intro hee
  exact hc (hee ▸ hmem e he)

theorem filter_from_all {l : List DbRelation} {c : Nat}
    (h : ∀ e ∈ l, e.fromContainer = c) :
    l.filter (fun e => e.fromContainer == c) = l := by
  rw [List.filter_eq_self]
  intro e he
  simp [h e he]

theorem pass1Recs_container {tbl : NsTable} :
    ∀ {bs : List DocBundleM} {cis : List Nat} {R : List DbRecord},
      Pass1Recs tbl bs cis R → ∀ u ∈ R, u.containerId ∈ cis
  | [], [], R, h, u, hu => by
    have h1 : R = [] := h
    rw [h1] at hu
    cases hu
  | [], ci :: cis, R, h, u, hu => absurd h (fun x => x)
  | b :: bs, [], R, h, u, hu => absurd h (fun x => x)
  | b :: bs, ci :: cis, R, h, u, hu => by
    obtain ⟨R1, R2, hR, ⟨ext, hR1, hext⟩, h2⟩ := h
    subst hR
    rcases List.mem_append.mp hu with h3 | h3
    · rw [hR1] at h3
      rcases List.mem_append.mp h3 with h4 | h4
      · obtain ⟨r, -, hr⟩ := List.mem_map.mp h4
        rw [← hr]
        exact List.mem_cons_self _ _
      · rw [(hext u h4).2]
        exact List.mem_cons_self _ _
    · exact List.mem_cons_of_mem _ (pass1Recs_container h2 u h3)

theorem pass1Rels_container {tbl : NsTable} :
    ∀ {bs : List DocBundleM} {cis : List Nat} {L : List DbRelation},
      Pass1Rels tbl bs cis L → ∀ e ∈ L, e.fromContainer ∈ cis
  | [], [], L, h, e, he => by
    have h1 : L = [] := h
    rw [h1] at he
    cases he
  | [], ci :: cis, L, h, e, he => absurd h (fun x => x)
  | b :: bs, [], L, h, e, he => absurd h (fun x => x)
  | b :: bs, ci :: cis, L, h, e, he => by
    obtain ⟨L1, L2, hL, ⟨-, hfrom⟩, h2⟩ := h
    subst hL
    rcases List.mem_append.mp he with h3 | h3
    · rw [hfrom e h3]
      exact List.mem_cons_self _ _
    · exact List.mem_cons_of_mem _ (pass1Rels_container h2 e h3)

theorem pass2Rels_container {tbl : NsTable} :
    ∀ {bs : List DocBundleM} {cis : List Nat} {M : List DbRelation},
      Pass2Rels tbl bs cis M → ∀ e ∈ M, e.fromContainer ∈ cis
  | [], [], M, h, e, he => by
    have h1 : M = [] := h
    rw [h1] at he
    cases he
  | [], ci :: cis, M, h, e, he => absurd h (fun x => x)
  | b :: bs, [], M, h, e, he => absurd h (fun x => x)
  | b :: bs, ci :: cis, M, h, e, he => by
    obtain ⟨M1, M2, hM, -, hfrom, h2⟩ := h
    subst hM
    rcases List.mem_append.mp he with h3 | h3
    · rw [hfrom e h3]
      exact List.mem_cons_self _ _
    · exact List.mem_cons_of_mem _ (pass2Rels_container h2 e h3)

theorem forall2_of_zip {α β : Type} {P : α → β → Prop} :
    ∀ {l1 : List α} {l2 : List β},
      l1.length = l2.length → (∀ p ∈ l1.zip l2, P p.1 p.2) →
      List.Forall₂ P l1 l2
  | [], [], _, _ => List.Forall₂.nil
  | [], b :: l2, h, _ => by cases h
  | a :: l1, [], h, _ => by cases h
  | a :: l1, b :: l2, h, hp =>
    List.Forall₂.cons (hp (a, b) (List.mem_cons_self _ _))
      (forall2_of_zip (by simpa using h)
        (fun p hp2 => hp p (List.mem_cons_of_mem _ hp2)))

/-- The node rows of one bundle's container, out of the pass-1 store. -/
theorem pass1Recs_zip {tbl : NsTable} :
    ∀ {bs : List DocBundleM} {cis : List Nat} {R : List DbRecord},
      Pass1Recs tbl bs cis R → cis.Pairwise (fun x y => x < y) →
      ∀ p ∈ bs.zip cis, ∃ ext1,
        R.filter (fun u => u.containerId == p.2) =
          (p.1.records.filter ProvRecordM.isElement).map (elemDb tbl p.2) ++
            ext1 ∧ (∀ u ∈ ext1, SkipRaw u.toRaw)
  | [], [], R, h, _, p, hp => by cases hp
  | [], ci :: cis, R, h, _, p, hp => absurd h (fun x => x)
  | b :: bs, [], R, h, _, p, hp => by cases hp
  | b :: bs, ci :: cis, R, h, hpw, p, hp => by
    obtain ⟨R1, R2, hR, ⟨ext, hR1, hext⟩, h2⟩ := h
    subst hR
    have hpw2 := List.pairwise_cons.mp hpw
    rcases List.mem_cons.mp hp with h3 | h3
    · subst h3
      refine ⟨ext, ?_, fun u hu => (hext u hu).1⟩
      rw [List.filter_append, hR1, List.filter_append]
      rw [filter_cid_all
        (fun u hu => by
          obtain ⟨r, -, hr⟩ := List.mem_map.mp hu
          rw [← hr]
          rfl)]
      rw [filter_cid_all (fun u hu => (hext u hu).2)]
      rw [filter_cid_nil
        (pass1Recs_container h2) (fun hmem => by
          have h4 := hpw2.1 ci hmem
          omega)]
      simp
    · have hci2 : p.2 ∈ cis := (List.mem_zip h3).2
      have hne : ci < p.2 := hpw2.1 p.2 hci2
      have hR1nil : R1.filter (fun u => u.containerId == p.2) = [] := by
        have hmem1 : ∀ u ∈ R1, u.containerId ∈ [ci] := by
          intro u hu
          rw [hR1] at hu
          rcases List.mem_append.mp hu with h4 | h4
          · obtain ⟨r, -, hr⟩ := List.mem_map.mp h4
            rw [← hr]
            exact List.mem_cons_self _ _
          · rw [(hext u h4).2]
            exact List.mem_cons_self _ _
        refine filter_cid_nil hmem1 (fun hmem => ?_)
        have : p.2 = ci := by simpa using hmem
        omega
      obtain ⟨ext1, hfe, hfs⟩ := pass1Recs_zip h2 hpw2.2 p h3
      refine ⟨ext1, ?_, hfs⟩
      rw [List.filter_append, hR1nil, List.nil_append, hfe]

/-- The pass-1 edge rows of one bundle's container. -/
theorem pass1Rels_zip {tbl : NsTable} :
    ∀ {bs : List DocBundleM} {cis : List Nat} {L : List DbRelation},
      Pass1Rels tbl bs cis L → cis.Pairwise (fun x y => x < y) →
      ∀ p ∈ bs.zip cis, ∃ rels1 rels2,
        L.filter (fun e => e.fromContainer == p.2) = rels1 ++ rels2 ∧
        rels1.map DbRelation.toRaw =
          ((p.1.records.filter ProvRecordM.isRelation).filter
            (fun x => !x.isMention)).map (rawOf tbl) ∧
        (∀ e ∈ rels2, SkipRaw e.toRaw)
  | [], [], L, h, _, p, hp => by cases hp
  | [], ci :: cis, L, h, _, p, hp => absurd h (fun x => x)
  | b :: bs, [], L, h, _, p, hp => by cases hp
  | b :: bs, ci :: cis, L, h, hpw, p, hp => by
    obtain ⟨L1, L2, hL, ⟨⟨rels1, rels2, hL1, hmapr, hskipr⟩, hfrom⟩, h2⟩ := h
    subst hL
    have hpw2 := List.pairwise_cons.mp hpw
    rcases List.mem_cons.mp hp with h3 | h3
    · subst h3
      refine ⟨rels1, rels2, ?_, hmapr, hskipr⟩
      rw [List.filter_append]
      rw [filter_from_all hfrom]
      rw [filter_from_nil
        (pass1Rels_container h2) (fun hmem => by
          have h4 := hpw2.1 ci hmem
          omega)]
      rw [hL1]
      simp
    · have hci2 : p.2 ∈ cis := (List.mem_zip h3).2
      have hne : ci < p.2 := hpw2.1 p.2 hci2
      have hL1nil : L1.filter (fun e => e.fromContainer == p.2) = [] := by
        have hmem1 : ∀ e ∈ L1, e.fromContainer ∈ [ci] := by
          intro e he
          rw [hfrom e he]
          exact List.mem_cons_self _ _
        refine filter_from_nil hmem1 (fun hmem => ?_)
        have : p.2 = ci := by simpa using hmem
        omega
      obtain ⟨r1, r2, hfe, hm2, hs2⟩ := pass1Rels_zip h2 hpw2.2 p h3
      exact ⟨r1, r2, by rw [List.filter_append, hL1nil, List.nil_append, hfe],
        hm2, hs2⟩

/-- The pass-2 mention rows of one bundle's container. -/
theorem pass2Rels_zip {tbl : NsTable} :
    ∀ {bs : List DocBundleM} {cis : List Nat} {M : List DbRelation},
      Pass2Rels tbl bs cis M → cis.Pairwise (fun x y => x < y) →
      ∀ p ∈ bs.zip cis,
        (M.filter (fun e => e.fromContainer == p.2)).map DbRelation.toRaw =
          (p.1.records.filter ProvRecordM.isMention).map (rawOf tbl)
  | [], [], M, h, _, p, hp => by cases hp
  | [], ci :: cis, M, h, _, p, hp => absurd h (fun x => x)
  | b :: bs, [], M, h, _, p, hp => by cases hp
  | b :: bs, ci :: cis, M, h, hpw, p, hp => by
    obtain ⟨M1, M2, hM, hmap1, hfrom, h2⟩ := h
    subst hM
    have hpw2 := List.pairwise_cons.mp hpw
    rcases List.mem_cons.mp hp with h3 | h3
    · subst h3
      rw [List.filter_append]
      rw [filter_from_all hfrom]
      rw [filter_from_nil
        (pass2Rels_container h2) (fun hmem => by
          have h4 := hpw2.1 ci hmem
          omega)]
      rw [List.append_nil]
      exact hmap1
    · have hci2 : p.2 ∈ cis := (List.mem_zip h3).2
      have hne : ci < p.2 := hpw2.1 p.2 hci2
      have hM1nil : M1.filter (fun e => e.fromContainer == p.2) = [] := by
        have hmem1 : ∀ e ∈ M1, e.fromContainer ∈ [ci] := by
          intro e he
          rw [hfrom e he]
          exact List.mem_cons_self _ _
        refine filter_from_nil hmem1 (fun hmem => ?_)
        have : p.2 = ci := by simpa using hmem
        omega
      rw [List.filter_append, hM1nil, List.nil_append]
      exact pass2Rels_zip h2 hpw2.2 p h3

/-! ### Parsing one container back, and the bundle loop -/

/-- The records the reconstructor yields for one bundle: elements, then
non-mention relations, then mentions. -/
def recsOf (b : DocBundleM) : List ProvRecordM :=
  b.records.filter ProvRecordM.isElement ++
  (b.records.filter ProvRecordM.isRelation).filter (fun x => !x.isMention) ++
  b.records.filter ProvRecordM.isMention

theorem strDropN_prefix (t : String) :
    strDropN PROV_API_BUNDLE_IDENTIFIER_PREFIX.data.length
      (PROV_API_BUNDLE_IDENTIFIER_PREFIX ++ t) = t := by
  unfold strDropN
  rw [String.data_append, List.drop_left]

/-- Parsing one bundle container's raw rows: elements parse back, placeholders
and membership edges are skipped, then non-mention relations and mentions
parse back. -/
theorem parseBundle_content {Tg tbl docReg : NsTable}
    (hg : GoodTable Tg (defaultNs ++ tbl))
    (hgreg : GoodTable Tg (defaultNs ++ docReg))
    {b : DocBundleM} (hwfb : ∀ r ∈ b.records, wfRecord Tg r = true)
    {sk1 sk2 : List RawRecord}
    (hsk1 : ∀ raw ∈ sk1, SkipRaw raw) (hsk2 : ∀ raw ∈ sk2, SkipRaw raw) :
    ∃ reg, parseRecords docReg ⟨[], []⟩
      ((b.records.filter ProvRecordM.isElement).map (rawOf tbl) ++ sk1 ++
       (((b.records.filter ProvRecordM.isRelation).filter
          (fun x => !x.isMention)).map (rawOf tbl) ++ sk2 ++
        (b.records.filter ProvRecordM.isMention).map (rawOf tbl))) =
      .ok ⟨reg, recsOf b⟩ := by
  obtain ⟨hA, hg1⟩ := @parseRecords_chunk Tg tbl docReg hg hgreg
    (b.records.filter ProvRecordM.isElement) [] []
    (fun e he => absurd he (List.not_mem_nil e))
    (fun r hr => hwfb r (List.mem_of_mem_filter hr))
  obtain ⟨hC, hg2⟩ := @parseRecords_chunk Tg tbl docReg hg hgreg
    ((b.records.filter ProvRecordM.isRelation).filter
      (fun x => !x.isMention))
    (regAfter tbl [] (b.records.filter ProvRecordM.isElement))
    ([] ++ b.records.filter ProvRecordM.isElement) hg1
    (fun r hr => hwfb r
      (List.mem_of_mem_filter (List.mem_of_mem_filter hr)))
  obtain ⟨hE, hg3⟩ := @parseRecords_chunk Tg tbl docReg hg hgreg
    (b.records.filter ProvRecordM.isMention)
    (regAfter tbl (regAfter tbl []
      (b.records.filter ProvRecordM.isElement))
      ((b.records.filter ProvRecordM.isRelation).filter
        (fun x => !x.isMention)))
    (([] ++ b.records.filter ProvRecordM.isElement) ++
      (b.records.filter ProvRecordM.isRelation).filter
        (fun x => !x.isMention)) hg2
    (fun r hr => hwfb r (List.mem_of_mem_filter hr))
  refine ⟨regAfter tbl (regAfter tbl (regAfter tbl []
    (b.records.filter ProvRecordM.isElement))
    ((b.records.filter ProvRecordM.isRelation).filter
      (fun x => !x.isMention)))
    (b.records.filter ProvRecordM.isMention), ?_⟩
  rw [parseRecords_append_ok _ (by
    rw [parseRecords_append_ok _ hA]
    exact parseRecords_skips docReg _ hsk1)]
  rw [parseRecords_append_ok _ (by
    rw [parseRecords_append_ok _ hC]
    exact parseRecords_skips docReg _ hsk2)]
  rw [hE]
  simp [recsOf]

/-- The bundle loop of the reconstructor, fed the stored bundle rows of
pass 1: each bundle reappears under its unprefixed identifier with its parsed
container contents. -/
theorem parseBundles_assemble {docReg : NsTable} (s4 : AdapterState) :
    ∀ {bs : List DocBundleM} {cis : List Nat} {B : List SavedBundle}
      {acc : List DocBundleM},
      Pass1Bnds bs cis B →
      List.Forall₂ (fun (b : DocBundleM) (ci : Nat) =>
        validQualifiedName docReg (qnString b.identifier) =
          some b.identifier ∧
        (∃ reg, parseRecords docReg ⟨[], []⟩ (containerRaws s4 ci) =
          .ok ⟨reg, recsOf b⟩)) bs cis →
      parseBundles docReg acc
        (B.map (fun bb => ⟨bb.record.toRaw, containerRaws s4 bb.containerId⟩))
        = .ok (acc ++ bs.map (fun b => ⟨b.identifier, recsOf b⟩))
  | [], [], B, acc, hbnds, _ => by
    have hB : B = [] := hbnds
    subst hB
    rw [List.map_nil, parseBundles]
    simp
  | [], ci :: cis, B, acc, hbnds, _ => absurd hbnds (fun x => x)
  | b :: bs, [], B, acc, hbnds, _ => absurd hbnds (fun x => x)
  | b :: bs, ci :: cis, B, acc, hbnds, hpair => by
    obtain ⟨rec, B2, hB, hcidB, hident, h2⟩ := hbnds
    subst hB
    cases hpair with
    | cons hhead htail =>
      rw [List.map_cons, parseBundles]
      try simp only []
      rw [show (DbRecord.toRaw rec).metadata = rec.metadata from rfl]
      rw [hident, strDropN_prefix, hhead.1]
      try simp only []
      obtain ⟨reg, hreg⟩ := hhead.2
      rw [hreg]
      try simp only []
      rw [parseBundles_assemble s4 h2 htail]
      simp

/-! ### Insertion-order permutations -/

theorem wf_rel_not_elem {Tg : NsTable} {r : ProvRecordM}
    (hwf : wfRecord Tg r = true) :
    ProvRecordM.isRelation r = !ProvRecordM.isElement r := by
  cases r with
  | element k i a => rfl
  | relation k i f t mb a => rfl
  | plain i a => simp [wfRecord] at hwf
  | bundleRec i a => simp [wfRecord] at hwf

theorem perm_elem_rel {Tg : NsTable} {l : List ProvRecordM}
    (h : ∀ r ∈ l, wfRecord Tg r = true) :
    (l.filter ProvRecordM.isElement ++
      l.filter ProvRecordM.isRelation).Perm l := by
  rw [show l.filter ProvRecordM.isRelation =
    l.filter (fun r => !ProvRecordM.isElement r) from
    List.filter_congr (fun r hr => wf_rel_not_elem (h r hr))]
  exact List.filter_append_perm _ l

theorem filter_mention_rel : ∀ l : List ProvRecordM,
    (l.filter ProvRecordM.isRelation).filter ProvRecordM.isMention =
      l.filter ProvRecordM.isMention
  | [] => rfl
  | r :: t => by
    cases r with
    | element k i a =>
      simp [List.filter_cons, ProvRecordM.isRelation, ProvRecordM.isMention,
        filter_mention_rel t]
    | relation k i f t2 mb a =>
      have hrel : ProvRecordM.isRelation (.relation k i f t2 mb a) = true := rfl
      by_cases hm : ProvRecordM.isMention (.relation k i f t2 mb a) = true
      · simp [List.filter_cons, hrel, hm, filter_mention_rel t]
      · simp [List.filter_cons, hrel, hm, filter_mention_rel t]
    | plain i a =>
      simp [List.filter_cons, ProvRecordM.isRelation, ProvRecordM.isMention,
        filter_mention_rel t]
    | bundleRec i a =>
      simp [List.filter_cons, ProvRecordM.isRelation, ProvRecordM.isMention,
        filter_mention_rel t]

theorem perm_recsOf {Tg : NsTable} {b : DocBundleM}
    (h : ∀ r ∈ b.records, wfRecord Tg r = true) :
    (recsOf b).Perm b.records := by
  unfold recsOf
  rw [← filter_mention_rel b.records]
  rw [List.append_assoc]
  refine List.Perm.trans (List.Perm.append_left _ ?_) (perm_elem_rel h)
  rw [show (b.records.filter ProvRecordM.isRelation).filter
      ProvRecordM.isMention =
    (b.records.filter ProvRecordM.isRelation).filter
      (fun (x : ProvRecordM) => !(!x.isMention)) from
    List.filter_congr (fun x hx => by simp)]
  exact List.filter_append_perm (fun (x : ProvRecordM) => !x.isMention) _

/-- C1: materializing a well-formed document and reconstructing it returns
the document's records and bundles exactly, up to insertion order: the
reconstructed record list is the elements followed by the relations, each
bundle reappears under its own (unprefixed) identifier with its elements,
non-mention relations and mentions, and both lists are permutations of the
originals. -/
theorem claim1_round_trip {d : ProvDocumentM} (hwf : wfDoc d = true) :
    roundTrip d = .ok
      ⟨docRegOf d,
       d.records.filter ProvRecordM.isElement ++
         d.records.filter ProvRecordM.isRelation,
       d.bundles.map (fun b => ⟨b.identifier, recsOf b⟩)⟩ ∧
    (d.records.filter ProvRecordM.isElement ++
      d.records.filter ProvRecordM.isRelation).Perm d.records ∧
    ∀ b ∈ d.bundles, (recsOf b).Perm b.records := by
  obtain ⟨hg, hrec, hbnd, hnod, hmt⟩ := wfDoc_parts hwf
  obtain ⟨s4, cis, ext0, rels0, R, L, B, extM, M, hcd, hlen, hpw, hge1,
      hrecs4, hext0, hP1R, hextM, hrels4, hrels0map, hrels0from, hP1L, hP2,
      hbnd4, hP1B⟩ := createDocument_ok hwf
  have h0cis : (0 : Nat) ∉ cis := by
    intro h1
    have h2 := hge1 0 h1
    omega
  have hnm : (d.records.filter ProvRecordM.isRelation).filter
      (fun x => !x.isMention) = d.records.filter ProvRecordM.isRelation := by
    apply List.filter_eq_self.mpr
    intro r hr
    rw [(hrec r (List.mem_of_mem_filter hr)).2]
    rfl
  rw [hnm] at hrels0map
  -- the document container's raw rows
  have hdoc0 : containerRaws s4 0 =
      (d.records.filter ProvRecordM.isElement).map (rawOf d.namespaces) ++
      ext0.map DbRecord.toRaw ++
      (d.records.filter ProvRecordM.isRelation).map (rawOf d.namespaces) := by
    unfold containerRaws
    rw [hrecs4, hrels4]
    rw [List.filter_append, List.filter_append, List.filter_append,
      List.filter_append, List.filter_append]
    rw [filter_cid_all (c := 0) (fun u hu => by
      obtain ⟨r, -, hr⟩ := List.mem_map.mp hu
      rw [← hr]
      rfl)]
    rw [filter_cid_all (c := 0) (fun u hu => (hext0 u hu).2)]
    rw [filter_cid_nil (pass1Recs_container hP1R) h0cis]
    rw [filter_cid_nil (fun u hu => (hextM u hu).2) h0cis]
    rw [filter_from_all hrels0from]
    rw [filter_from_nil (pass1Rels_container hP1L) h0cis]
    rw [filter_from_nil (pass2Rels_container hP2) h0cis]
    simp only [List.append_nil, List.map_append]
    rw [show (List.map (elemDb d.namespaces 0)
        (List.filter ProvRecordM.isElement d.records)).map DbRecord.toRaw =
      (d.records.filter ProvRecordM.isElement).map (rawOf d.namespaces) from by
        rw [List.map_map]
        rfl]
    rw [hrels0map]
  have hgb0 : GoodTable (defaultNs ++ d.namespaces) (defaultNs ++ []) := by
    intro e he
    rw [List.append_nil] at he
    exact hg e (List.mem_append.mpr (.inl he))
  obtain ⟨hA, hg1⟩ := @parseRecords_chunk (defaultNs ++ d.namespaces)
    d.namespaces [] hg hgb0
    (d.records.filter ProvRecordM.isElement) [] []
    (fun e he => absurd he (List.not_mem_nil e))
    (fun r hr => (hrec r (List.mem_of_mem_filter hr)).1)
  obtain ⟨hC, hg2⟩ := @parseRecords_chunk (defaultNs ++ d.namespaces)
    d.namespaces [] hg hgb0
    (d.records.filter ProvRecordM.isRelation)
    (regAfter d.namespaces []
      (d.records.filter ProvRecordM.isElement))
    ([] ++ d.records.filter ProvRecordM.isElement) hg1
    (fun r hr => (hrec r (List.mem_of_mem_filter hr)).1)
  have hdr : docRegOf d = regAfter d.namespaces
      (regAfter d.namespaces [] (d.records.filter ProvRecordM.isElement))
      (d.records.filter ProvRecordM.isRelation) := by
    rw [← regAfter_append]
    rfl
  have hparse0 : parseRecords [] ⟨[], []⟩ (containerRaws s4 0) =
      .ok ⟨docRegOf d, d.records.filter ProvRecordM.isElement ++
        d.records.filter ProvRecordM.isRelation⟩ := by
    rw [hdoc0]
    rw [parseRecords_append_ok _ (by
      rw [parseRecords_append_ok _ hA]
      exact parseRecords_skips [] _ (fun raw hraw => by
        obtain ⟨u, hu, hru⟩ := List.mem_map.mp hraw
        rw [← hru]
        exact (hext0 u hu).1))]
    rw [hC]
    rw [hdr]
    simp
  have hgdr : GoodTable (defaultNs ++ d.namespaces)
      (defaultNs ++ docRegOf d) := by
    apply goodTable_append (fun e he => hg e (List.mem_append.mpr (.inl he)))
    rw [hdr]
    exact hg2
  -- the per-bundle parse facts
  have hlen2 : d.bundles.length = cis.length := by omega
  have hpair : List.Forall₂ (fun (b : DocBundleM) (ci : Nat) =>
      validQualifiedName (docRegOf d) (qnString b.identifier) =
        some b.identifier ∧
      (∃ reg, parseRecords (docRegOf d) ⟨[], []⟩ (containerRaws s4 ci) =
        .ok ⟨reg, recsOf b⟩)) d.bundles cis := by
    apply forall2_of_zip hlen2
    intro p hp
    have hbmem : p.1 ∈ d.bundles := (List.mem_zip hp).1
    have hcmem : p.2 ∈ cis := (List.mem_zip hp).2
    obtain ⟨hcoh, hwfbr, hsome⟩ := hbnd p.1 hbmem
    constructor
    · obtain ⟨u, hu⟩ := Option.isSome_iff_exists.mp hsome
      exact vqn_resolve_mem (docRegOf d) hgdr (cohQNb_coh hcoh)
        (lookupNs_mem hu)
    · -- assemble this container's raw rows
      have hcge1 : 1 ≤ p.2 := hge1 p.2 hcmem
      obtain ⟨ext1, hRf, hRfs⟩ := pass1Recs_zip hP1R hpw p hp
      obtain ⟨rels1, rels2, hLf, hLmap, hLsk⟩ := pass1Rels_zip hP1L hpw p hp
      have hMf := pass2Rels_zip hP2 hpw p hp
      have hci : containerRaws s4 p.2 =
          (p.1.records.filter ProvRecordM.isElement).map
            (rawOf d.namespaces) ++
          (ext1.map DbRecord.toRaw ++
            (extM.filter (fun u => u.containerId == p.2)).map
              DbRecord.toRaw) ++
          (((p.1.records.filter ProvRecordM.isRelation).filter
              (fun x => !x.isMention)).map (rawOf d.namespaces) ++
            rels2.map DbRelation.toRaw ++
            (p.1.records.filter ProvRecordM.isMention).map
              (rawOf d.namespaces)) := by
        unfold containerRaws
        rw [hrecs4, hrels4]
        rw [List.filter_append, List.filter_append, List.filter_append,
          List.filter_append, List.filter_append]
        have hnz : (p.2 : Nat) ∉ [(0 : Nat)] := by
          intro h1
          have h2 : p.2 = 0 := by simpa using h1
          omega
        have hm1 : ∀ u ∈ (d.records.filter ProvRecordM.isElement).map
            (elemDb d.namespaces 0), u.containerId ∈ [(0 : Nat)] := by
          intro u hu
          obtain ⟨r, -, hr⟩ := List.mem_map.mp hu
          rw [← hr]
          exact List.mem_cons_self _ _
        have hm2 : ∀ u ∈ ext0, u.containerId ∈ [(0 : Nat)] := by
          intro u hu
          rw [(hext0 u hu).2]
          exact List.mem_cons_self _ _
        have hm3 : ∀ e ∈ rels0, e.fromContainer ∈ [(0 : Nat)] := by
          intro e he
          rw [hrels0from e he]
          exact List.mem_cons_self _ _
        rw [filter_cid_nil hm1 hnz]
        rw [filter_cid_nil hm2 hnz]
        rw [filter_from_nil hm3 hnz]
        rw [hRf, hLf]
        simp only [List.append_nil, List.map_append]
        rw [hMf, hLmap]
        rw [show (List.map (elemDb d.namespaces p.2)
            (List.filter ProvRecordM.isElement p.1.records)).map
            DbRecord.toRaw =
          (p.1.records.filter ProvRecordM.isElement).map
            (rawOf d.namespaces) from by
            rw [List.map_map]
            rfl]
        simp
      obtain ⟨reg, hreg⟩ := @parseBundle_content (defaultNs ++ d.namespaces)
        d.namespaces (docRegOf d) hg hgdr p.1 hwfbr
        (ext1.map DbRecord.toRaw ++
          (extM.filter (fun u => u.containerId == p.2)).map DbRecord.toRaw)
        (rels2.map DbRelation.toRaw)
        (by
          intro raw hraw
          rcases List.mem_append.mp hraw with h1 | h1
          · obtain ⟨u, hu, hru⟩ := List.mem_map.mp h1
            rw [← hru]
            exact hRfs u hu
          · obtain ⟨u, hu, hru⟩ := List.mem_map.mp h1
            rw [← hru]
            exact (hextM u (List.mem_of_mem_filter hu)).1)
        (by
          intro raw hraw
          obtain ⟨e, he, hre⟩ := List.mem_map.mp hraw
          rw [← hre]
          exact hLsk e he)
      refine ⟨reg, ?_⟩
      rw [hci]
      rw [show (p.1.records.filter ProvRecordM.isElement).map
          (rawOf d.namespaces) ++
        (ext1.map DbRecord.toRaw ++
          (extM.filter (fun u => u.containerId == p.2)).map DbRecord.toRaw) ++
        (((p.1.records.filter ProvRecordM.isRelation).filter
            (fun x => !x.isMention)).map (rawOf d.namespaces) ++
          rels2.map DbRelation.toRaw ++
          (p.1.records.filter ProvRecordM.isMention).map
            (rawOf d.namespaces)) =
        (p.1.records.filter ProvRecordM.isElement).map (rawOf d.namespaces) ++
        (ext1.map DbRecord.toRaw ++
          (extM.filter (fun u => u.containerId == p.2)).map DbRecord.toRaw) ++
        (((p.1.records.filter ProvRecordM.isRelation).filter
            (fun x => !x.isMention)).map (rawOf d.namespaces) ++
          rels2.map DbRelation.toRaw ++
          (p.1.records.filter ProvRecordM.isMention).map
            (rawOf d.namespaces)) from rfl]
      exact hreg
  have hbundles := @parseBundles_assemble (docRegOf d) s4
    d.bundles cis B [] hP1B hpair
  refine ⟨?_, perm_elem_rel (fun r hr => (hrec r hr).1), ?_⟩
  · rw [roundTrip, hcd]
    try simp only []
    rw [getDocumentAsProv]
    rw [show (adapterGetDocument s4 0).documentRecords =
      containerRaws s4 0 from rfl]
    rw [hparse0]
    try simp only []
    rw [show (adapterGetDocument s4 0).bundles =
      s4.bundles.map (fun bb =>
        ⟨bb.record.toRaw, containerRaws s4 bb.containerId⟩) from rfl]
    rw [hbnd4, hbundles]
    simp
  · intro b hb
    exact perm_recsOf ((hbnd b hb).2.1)

/-- A concrete two-bundle document with typed attributes, an anonymous
relation, a dangling endpoint and a cross-bundle mention. -/
def exE0 : ProvRecordM := .element .entity (some (.qn (exQn "e0"))) []

def exE1 : ProvRecordM := .element .entity (some (.qn (exQn "e1")))
  [(.qnKey (exQn "note"), .str "hello"),
   (.qnKey (exQn "when"), .dateTime "2020-01-01T00:00:00"),
   (.qnKey (exQn "ref"), .qn (exQn "e0")),
   (.qnKey (exQn "lit"), .literal "42" "xsd:int")]

def exE2 : ProvRecordM := .element .entity (some (.qn (exQn "e2"))) []

def exA1 : ProvRecordM := .element .activity (some (.qn (exQn "a1"))) []

def exRUse : ProvRecordM := .relation .usage (some (.qn (exQn "u1")))
  (some (exQn "a1")) (some (exQn "e0")) none
  [(.qnKey (exQn "role"), .str "input")]

def exRAnon : ProvRecordM :=
  .relation .generation none (some (exQn "e0")) none none []

def exRMention : ProvRecordM := .relation .mention none
  (some (exQn "e1")) (some (exQn "e2")) (some (exQn "b2")) []

def exTestDoc : ProvDocumentM :=
  { namespaces := [("ex", exUri)],
    records := [exE0, exA1, exRUse, exRAnon],
    bundles := [⟨exQn "b1", [exE1, exRMention]⟩, ⟨exQn "b2", [exE2]⟩] }

theorem claim1_witness :
    wfDoc exTestDoc = true ∧
    (roundTrip exTestDoc = .ok
      ⟨docRegOf exTestDoc,
       exTestDoc.records.filter ProvRecordM.isElement ++
         exTestDoc.records.filter ProvRecordM.isRelation,
       exTestDoc.bundles.map (fun b => ⟨b.identifier, recsOf b⟩)⟩ ∧
     (exTestDoc.records.filter ProvRecordM.isElement ++
       exTestDoc.records.filter ProvRecordM.isRelation).Perm
       exTestDoc.records ∧
     ∀ b ∈ exTestDoc.bundles, (recsOf b).Perm b.records) :=
  ⟨by decide, claim1_round_trip (by decide)⟩

end ProvDb
